import Mathlib

/-!
# Simit middle-end: storage inference and the lowering pipeline

A shallow embedding of `src/storage.cpp`, `src/lower/lower.cpp`,
`src/lower_index_expressions.cpp`, the diagnostics and the exception of
`src/error.h`, `GPUBackend::emitFirstAssign` of
`src/gpu_backend/gpu_backend.cpp` and `IRPrinter::visit(const Literal*)` of
`src/ir_printer.cpp`, followed by theorems about them.

Conventions of the embedding.

* C++ exceptions (`ErrorReport::explode`) become `Except ErrorReport`.
* The macros `iassert` / `ierror` / `not_supported_yet` have two expansions
  (`error.h`, lines 253 to 274). The definitions outside the namespace
  `NoAsserts` embed the expansion with `SIMIT_ASSERTS` defined, in which the
  macros build an `ErrorReport` of kind `Internal`; the namespace `NoAsserts`
  embeds storage inference and `GPUBackend::emitFirstAssign` in the expansion
  without `SIMIT_ASSERTS`, in which the macros are statements without effect.
* `std::map<Var,TensorStorage>` is an association list with insert-if-absent.
* The other `std::map`s are lists of entries in the order of their keys
  (`StdMap`); `at` on an absent key and reads outside a container are values of
  `Failure`.
* The recursion of `createLoopNest` is bounded by a fuel that the size of the
  graph fixes; the bound is never reached (`createLoopNest_fuel`).
* A path of a function that returns a value and ends without `return` is the
  value `Failure.undefinedBehaviour`.
* The IR declarations (`ir.h`, `types.h`, `ir_visitor.h`, `storage.h`) are not
  among the sources; the node types below are modelled from section 3 of the
  specification and from the fields the sources read.
-/

namespace Simit

/-! ## Diagnostics (`src/error.h`) -/

/-- The three kinds of `ErrorReport` (`enum Kind` of `error.h`). -/
inductive ErrorKind where
  | User
  | Internal
  | Temporary
  deriving DecidableEq

/-- A failed `ErrorReport`: the fields of the C++ struct that do not name a
source position, and the text streamed into it with `<<`. -/
structure ErrorReport where
  condition : Bool
  conditionString : Option String
  kind : ErrorKind
  warning : Bool
  msg : String
  deriving DecidableEq

/-- Macro `iassert(c) << msg` in its expansion with `SIMIT_ASSERTS` defined
(`error.h`, lines 254 to 256): an `Internal` report that explodes when the
condition is false and is inert when it is true. The expansion without
`SIMIT_ASSERTS` is `NoAsserts.iassert`. -/
def iassert (c : Bool) (conditionString : String) (msg : String) : Except ErrorReport Unit :=
  if c then .ok ()
  else .error ⟨false, some conditionString, ErrorKind.Internal, false, msg⟩

/-- Macro `ierror << msg` in its expansion with `SIMIT_ASSERTS` defined
(`error.h`, lines 257 to 259): an `Internal` report with condition `false`. The
expansion without `SIMIT_ASSERTS` is `NoAsserts.ierror`. -/
def ierror (msg : String) : ErrorReport :=
  ⟨false, none, ErrorKind.Internal, false, msg⟩

/-- Macro `terror << msg`: a `Temporary` report with condition `false`. -/
def terror (msg : String) : ErrorReport :=
  ⟨false, none, ErrorKind.Temporary, false, msg⟩

/-- Macro `uerror << msg`: a `User` report with condition `false`. -/
def uerror (msg : String) : ErrorReport :=
  ⟨false, none, ErrorKind.User, false, msg⟩

/-- Macro `not_supported_yet`, defined in `error.h` as
`ierror << "Not supported yet, but planned for the future\n "`, with `ierror` in
its expansion with `SIMIT_ASSERTS` defined. The expansion without
`SIMIT_ASSERTS` is `NoAsserts.not_supported_yet`. -/
def not_supported_yet : ErrorReport :=
  ierror "Not supported yet, but planned for the future\n "

/-! ## Types and variables -/

/-- Modelled from the spec: `types.h` is missing. Component types of tensors
(section 3.1, scalar types). -/
inductive ScalarKind where
  | Int
  | Float
  | Bool
  deriving DecidableEq

/-- Modelled from the spec: `types.h` is missing. An index set is a range
`[0,n)` or a user-declared set, named (section 3.1). -/
inductive IndexSet where
  | range (n : Nat)
  | set (name : String)
  deriving DecidableEq

/-- Modelled from the spec: `types.h` is missing. An index domain is one or more
concatenated index sets (section 3.3); `getIndexSets()` in the sources. -/
structure IndexDomain where
  indexSets : List IndexSet
  deriving DecidableEq

/-- Modelled from the spec: `types.h` is missing. A tensor type is a component
type and an ordered list of dimensions (section 3.1). -/
structure TensorType where
  componentType : ScalarKind
  dimensions : List IndexDomain
  deriving DecidableEq

/-- The order of a tensor type is the number of its dimensions. -/
def TensorType.order (t : TensorType) : Nat := t.dimensions.length

/-- Modelled from the spec: `types.h` is missing. The types of section 3.1:
tensor, element, set and tuple types. -/
inductive Ty where
  | tensor (t : TensorType)
  | element (name : String)
  | set (elementName : String) (endpointSets : List String)
  | tuple (elementName : String) (size : Nat)
  deriving DecidableEq

/-- Method `Type::isTensor()`. -/
def Ty.isTensor : Ty → Bool
  | .tensor _ => true
  | _ => false

/-- Method `Type::toTensor()`, defined on tensor types only. -/
def Ty.toTensor : Ty → Option TensorType
  | .tensor t => some t
  | _ => none

/-- Modelled from the spec: `types.h` is missing. A tensor of order 0 is a
scalar (section 3.1). -/
def isScalar : Ty → Bool
  | .tensor t => t.order == 0
  | _ => false

/-- Modelled from the spec: `types.h` is missing. A tensor is an element tensor
iff every domain is a range, none a set (section 3.1). -/
def isElementTensorType (t : TensorType) : Bool :=
  t.dimensions.all (fun d => d.indexSets.all (fun s =>
    match s with
    | .range _ => true
    | .set _ => false))

/-- Modelled from the spec: `ir.h` is missing. A variable is a name with a type
(`getName()`, `getType()`). -/
structure Var where
  name : String
  type : Ty
  deriving DecidableEq

/-- Modelled from the spec: `indexvar.h` is missing. Reduction operators of
index variables (section 3.3). -/
inductive ReductionOperator where
  | Free
  | Sum
  deriving DecidableEq

/-- Modelled from the spec: `indexvar.h` is missing. An index variable binds a
name to a domain and a reduction operator (section 3.3). -/
structure IndexVar where
  name : String
  domain : IndexDomain
  rop : ReductionOperator
  deriving DecidableEq

/-- Modelled from the spec: `ir.h` is missing. Function kinds (section 3.4). -/
inductive FuncKind where
  | Internal
  | External
  | Intrinsic
  deriving DecidableEq

/-- The kinds of tensor storage (`TensorStorage::Kind`, listed by the printer of
`storage.cpp`). -/
inductive StorageKind where
  | Undefined
  | DenseRowMajor
  | SystemNone
  | SystemReduced
  | SystemDiagonal
  deriving DecidableEq

/-- Unary operators of the IR that the sources construct or visit. -/
inductive UnaryOp where
  | Neg
  | Not
  deriving DecidableEq

/-- Binary operators of the IR that the sources construct or visit. -/
inductive BinaryOp where
  | Add
  | Sub
  | Mul
  | Div
  | Lt
  | Le
  | And
  deriving DecidableEq

/-! ## IR nodes -/

mutual
/-- Modelled from the spec: `ir.h` is missing. Expressions of section 3.2, with
the fields the sources read (`op->tensor`, `op->indexVars`, `op->actuals`, ...).
`undefined` is the node whose defined bit is off. -/
inductive Expr where
  | undefined
  | literal (type : Ty) (data : List Int)
  | varExpr (var : Var)
  | fieldRead (elementOrSet : Expr) (fieldName : String)
  | tensorRead (tensor : Expr) (indices : List Expr)
  | tupleRead (tuple : Expr) (index : Expr)
  | indexRead (edgeSet : Expr) (indexName : String)
  | length (indexSet : IndexSet)
  | load (buffer : Expr) (index : Expr)
  | indexedTensor (tensor : Expr) (indexVars : List IndexVar)
  | indexExpr (resultVars : List IndexVar) (rhs : Expr)
  | call (func : Func) (actuals : List Expr)
  | unary (op : UnaryOp) (a : Expr)
  | binary (op : BinaryOp) (a : Expr) (b : Expr)
/-- Modelled from the spec: `ir.h` is missing. Statements of section 3.2. `map`
carries the result variables `vars` that `GetStorageVisitor::visit(const Map*)`
reads, the mapped function, the target set and the neighbour set. -/
inductive Stmt where
  | undefined
  | assignStmt (var : Var) (value : Expr)
  | map (vars : List Var) (function : Func) (target : Expr) (neighbors : Expr)
      (reduction : ReductionOperator)
  | fieldWrite (elementOrSet : Expr) (fieldName : String) (value : Expr)
  | tensorWrite (tensor : Expr) (indices : List Expr) (value : Expr)
  | store (buffer : Expr) (index : Expr) (value : Expr)
  | varDecl (var : Var)
  | block (first : Stmt) (rest : Stmt)
  | forRange (var : Var) (start : Expr) (stop : Expr) (body : Stmt)
  | forDomain (var : Var) (domain : IndexSet) (body : Stmt)
  | whileLoop (condition : Expr) (body : Stmt)
  | ifThenElse (condition : Expr) (thenBody : Stmt) (elseBody : Stmt)
  | comment (text : String) (commentedStmt : Stmt)
  | pass
/-- Record `TensorStorage::Content` of `storage.cpp`. -/
inductive TensorStorage where
  | mk (kind : StorageKind) (systemTargetSet : Expr) (systemStorageSet : Expr)
      (needsInitialization : Bool)
/-- Modelled from the spec: `ir.h` is missing. A function (section 3.4): name,
arguments, results, body, globals of its environment, kind and storage map. -/
inductive Func where
  | mk (name : String) (arguments : List Var) (results : List Var) (body : Stmt)
      (globals : List (Var × Expr)) (kind : FuncKind)
      (storage : List (Var × TensorStorage))
end

/-- Map `std::map<Var,TensorStorage>` of `Storage::Content`. -/
abbrev Storage := List (Var × TensorStorage)

/-- Method `Expr::defined()`. -/
def Expr.defined : Expr → Bool
  | .undefined => false
  | _ => true

/-- Test `isa<Literal>(e)`. -/
def Expr.isLiteral : Expr → Bool
  | .literal _ _ => true
  | _ => false

/-- Test `isa<VarExpr>(e)` together with `to<VarExpr>(e)->var`. -/
def Expr.toVarExpr : Expr → Option Var
  | .varExpr v => some v
  | _ => none

namespace Func

/-- Accessor `getName()`. -/
def getName : Func → String
  | .mk n _ _ _ _ _ _ => n

/-- Accessor `getArguments()`. -/
def getArguments : Func → List Var
  | .mk _ a _ _ _ _ _ => a

/-- Accessor `getResults()`. -/
def getResults : Func → List Var
  | .mk _ _ r _ _ _ _ => r

/-- Accessor `getBody()`. -/
def getBody : Func → Stmt
  | .mk _ _ _ b _ _ _ => b

/-- Accessor `getEnvironment().globals`. -/
def getGlobals : Func → List (Var × Expr)
  | .mk _ _ _ _ g _ _ => g

/-- Accessor `getKind()`. -/
def getKind : Func → FuncKind
  | .mk _ _ _ _ _ k _ => k

/-- Accessor `getStorage()`. -/
def getStorage : Func → Storage
  | .mk _ _ _ _ _ _ s => s

/-- Method `setStorage(storage)`. -/
def setStorage : Func → Storage → Func
  | .mk n a r b g k _, s => .mk n a r b g k s

/-- Constructor `Func(const Func&, Stmt body)`: the same function with a new
body. -/
def withBody : Func → Stmt → Func
  | .mk n a r _ g k s, b => .mk n a r b g k s

end Func

/-! ## `TensorStorage` and `Storage` (`src/storage.cpp`) -/

namespace TensorStorage

/-- Accessor `getKind()`. -/
def getKind : TensorStorage → StorageKind
  | .mk k _ _ _ => k

/-- Field `content->systemTargetSet`. -/
def systemTargetSet : TensorStorage → Expr
  | .mk _ t _ _ => t

/-- Field `content->systemStorageSet`. -/
def systemStorageSet : TensorStorage → Expr
  | .mk _ _ s _ => s

/-- Accessor `needsInitialization()`. -/
def needsInitialization : TensorStorage → Bool
  | .mk _ _ _ n => n

/-- Modelled from the spec: `storage.h` is missing. The default value of the
parameter `needsInitialization` of `TensorStorage(Kind, bool)`, which the one
argument calls of `storage.cpp` rely on; section 4.4 has the flag true unless
stated otherwise. -/
def defaultNeedsInitialization : Bool := true

/-- Constructor `TensorStorage(Kind kind, bool needsInitialization)`. -/
def ofKind (kind : StorageKind) (needsInitialization : Bool) : TensorStorage :=
  .mk kind .undefined .undefined needsInitialization

/-- Constructor `TensorStorage()`, which delegates to `TensorStorage(Undefined)`. -/
def undefinedStorage : TensorStorage :=
  ofKind StorageKind.Undefined defaultNeedsInitialization

/-- Constructor `TensorStorage(const Expr &targetSet)`: `SystemDiagonal`. -/
def systemDiagonal (targetSet : Expr) : TensorStorage :=
  .mk StorageKind.SystemDiagonal targetSet .undefined defaultNeedsInitialization

/-- Constructor `TensorStorage(const Expr &targetSet, const Expr &storageSet)`:
`SystemReduced`. -/
def systemReduced (targetSet storageSet : Expr) : TensorStorage :=
  .mk StorageKind.SystemReduced targetSet storageSet defaultNeedsInitialization

/-- Method `isSystem()`; the `Undefined` case is an `ierror`. -/
def isSystem (ts : TensorStorage) : Except ErrorReport Bool :=
  match ts.getKind with
  | .DenseRowMajor => .ok false
  | .SystemNone => .ok true
  | .SystemReduced => .ok true
  | .SystemDiagonal => .ok true
  | .Undefined => .error (ierror "")

/-- Method `getSystemTargetSet()`. -/
def getSystemTargetSet (ts : TensorStorage) : Except ErrorReport Expr := do
  let sys ← ts.isSystem
  iassert sys "isSystem()" "System storages require the target set be provided"
  return ts.systemTargetSet

/-- Method `getSystemStorageSet()`. -/
def getSystemStorageSet (ts : TensorStorage) : Except ErrorReport Expr := do
  let sys ← ts.isSystem
  iassert sys "isSystem()" "System storages require the storage set be provided"
  return ts.systemStorageSet

end TensorStorage

/-- Lookup `content->storage.find(tensor)`. -/
def Storage.find : Storage → Var → Option TensorStorage
  | [], _ => none
  | (k, s) :: rest, tensor => if k = tensor then some s else Storage.find rest tensor

/-- Method `Storage::add`: `std::map::insert`, which keeps an existing entry. -/
def Storage.add : Storage → Var → TensorStorage → Storage
  | [], tensor, tstorage => [(tensor, tstorage)]
  | (k, s) :: rest, tensor, tstorage =>
    if k = tensor then (k, s) :: rest else (k, s) :: Storage.add rest tensor tstorage

/-- Method `Storage::hasStorage`. -/
def Storage.hasStorage (st : Storage) (tensor : Var) : Bool :=
  (Storage.find st tensor).isSome

/-- Method `Storage::get`. -/
def Storage.get (st : Storage) (tensor : Var) : Except ErrorReport TensorStorage :=
  match Storage.find st tensor with
  | some s => .ok s
  | none =>
    .error ⟨false, some "hasStorage(tensor)", ErrorKind.Internal, false,
      "no storage specified for tensor" ++ tensor.name⟩

/-! ## Storage inference (`GetStorageVisitor` of `src/storage.cpp`) -/

/-- Method `std::set<Var>::insert`. Modelled from the spec: the order of
`std::set<Var>` is `operator<` of `Var`, declared in the missing `ir.h`; the set
is kept in order of first insertion. -/
def varSetInsert (v : Var) : List Var → List Var
  | [] => [v]
  | w :: ws => if w = v then w :: ws else w :: varSetInsert v ws

mutual
/-- Visitor `LeafVarsVisitor` of `determineStorage(Var,bool,Expr)`: the default
traversal descends into the children of a node in declared order, and
`visit(const VarExpr*)` inserts the variable into `vars`. -/
def leafVars : Expr → List Var → List Var
  | .undefined, vars => vars
  | .literal _ _, vars => vars
  | .varExpr var, vars => varSetInsert var vars
  | .fieldRead elementOrSet _, vars => leafVars elementOrSet vars
  | .tensorRead tensor indices, vars => leafVarsList indices (leafVars tensor vars)
  | .tupleRead tuple index, vars => leafVars index (leafVars tuple vars)
  | .indexRead edgeSet _, vars => leafVars edgeSet vars
  | .length _, vars => vars
  | .load buffer index, vars => leafVars index (leafVars buffer vars)
  | .indexedTensor tensor _, vars => leafVars tensor vars
  | .indexExpr _ rhs, vars => leafVars rhs vars
  | .call _ actuals, vars => leafVarsList actuals vars
  | .unary _ a, vars => leafVars a vars
  | .binary _ a b, vars => leafVars b (leafVars a vars)
/-- The traversal of `leafVars` over a list of children. -/
def leafVarsList : List Expr → List Var → List Var
  | [], vars => vars
  | e :: es, vars => leafVarsList es (leafVars e vars)
end

/-- Method `GetStorageVisitor::determineStorage(Var var, bool initialize)`; the
parameter `initialize` is `needsInit` here. -/
def determineStorage (storage : Storage) (var : Var) (needsInit : Bool) :
    Except ErrorReport Storage :=
  -- Scalars don't need storage
  if isScalar var.type then .ok storage
  else
    match var.type.toTensor with
    | none => .error ⟨false, some "type.isTensor()", ErrorKind.Internal, false, ""⟩
    | some ttype =>
      -- Element tensors are dense. In addition vectors are always dense.
      if isElementTensorType ttype || ttype.order == 1 then do
        let tensorStorage := TensorStorage.ofKind StorageKind.DenseRowMajor needsInit
        iassert (tensorStorage.getKind != StorageKind.Undefined)
          "tensorStorage.getKind() != TensorStorage::Undefined" ""
        return storage.add var tensorStorage
      else
        .error not_supported_yet

/-- The loop `for (auto v : leafVars.vars)` of
`GetStorageVisitor::determineStorage(Var var, bool initialize, Expr rhs)`. -/
def determineStorageLeaves (var : Var) : List Var → Storage → Except ErrorReport Storage
  | [], storage => .ok storage
  | v :: vs, storage =>
    if storage.hasStorage v then do
      let varStorage ← storage.get v
      if varStorage.getKind = StorageKind.SystemReduced then do
        let targetSet ← varStorage.getSystemTargetSet
        let storageSet ← varStorage.getSystemStorageSet
        let tensorStorage := TensorStorage.systemReduced targetSet storageSet
        determineStorageLeaves var vs (storage.add var tensorStorage)
      else determineStorageLeaves var vs storage
    else determineStorageLeaves var vs storage

/-- Method `GetStorageVisitor::determineStorage(Var var, bool initialize, Expr rhs)`;
the parameter `initialize` is not read by the body. -/
def determineStorageRhs (storage : Storage) (var : Var) (_needsInit : Bool) (rhs : Expr) :
    Except ErrorReport Storage :=
  determineStorageLeaves var (leafVars rhs []) storage

/-- Method `GetStorageVisitor::visit(const VarDecl *op)`. -/
def visitVarDecl (storage : Storage) (var : Var) : Except ErrorReport Storage := do
  iassert (!storage.hasStorage var) "!storage->hasStorage(var)" "Redeclaration of variable"
  if var.type.isTensor && !isScalar var.type then
    determineStorage storage var true
  else
    return storage

/-- Method `GetStorageVisitor::visit(const AssignStmt *op)`. -/
def visitAssignStmt (storage : Storage) (var : Var) (value : Expr) :
    Except ErrorReport Storage :=
  if var.type.isTensor && !isScalar var.type && !storage.hasStorage var then
    match var.type.toTensor with
    | none => .error ⟨false, some "type.isTensor()", ErrorKind.Internal, false, ""⟩
    | some ttype =>
      if !isElementTensorType ttype && ttype.order > 1 then
        -- assume system reduced storage
        determineStorageRhs storage var (!value.isLiteral) value
      else
        let needsInitialization := !value.isLiteral
        determineStorage storage var needsInitialization
  else
    .ok storage

/-- Method `GetStorageVisitor::visit(const TensorWrite *op)`; the call
`determineStorage(var)` takes the default `initialize=true`. -/
def visitTensorWrite (storage : Storage) (tensor : Expr) : Except ErrorReport Storage :=
  match tensor.toVarExpr with
  | some var =>
    if var.type.isTensor && !isScalar var.type && !storage.hasStorage var then
      determineStorage storage var true
    else
      .ok storage
  | none => .ok storage

/-- The storage that `GetStorageVisitor::visit(const Map *op)` chooses for a
result variable of tensor type `tensorType`. -/
def mapResultStorage (tensorType : TensorType) (target neighbors : Expr) : TensorStorage :=
  if tensorType.order == 1 then
    TensorStorage.ofKind StorageKind.DenseRowMajor TensorStorage.defaultNeedsInitialization
  else if neighbors.defined then
    TensorStorage.systemReduced target neighbors
  else
    TensorStorage.systemDiagonal target

/-- Method `GetStorageVisitor::visit(const Map *op)`: the loop over `op->vars`. -/
def visitMap (target neighbors : Expr) : List Var → Storage → Except ErrorReport Storage
  | [], storage => .ok storage
  | var :: vars, storage =>
    if var.type.isTensor && !isScalar var.type && !storage.hasStorage var then
      match var.type.toTensor with
      | none => .error ⟨false, some "isTensor()", ErrorKind.Internal, false, ""⟩
      | some tensorType => do
        let tensorStorage := mapResultStorage tensorType target neighbors
        iassert (tensorStorage.getKind != StorageKind.Undefined)
          "tensorStorage.getKind() != TensorStorage::Undefined" ""
        visitMap target neighbors vars (storage.add var tensorStorage)
    else
      visitMap target neighbors vars storage

/-- The traversal `stmt.accept(this)` of `GetStorageVisitor`. Modelled from the
spec: `ir_visitor.h` is missing; the default hook of a node descends into its
children in declared order (section 4.1), and the four hooks that
`GetStorageVisitor` overrides do not descend. Expressions hold no statement, so
the default hooks of expression children change nothing. -/
def visitStmt : Stmt → Storage → Except ErrorReport Storage
  | .undefined, storage => .ok storage
  | .assignStmt var value, storage => visitAssignStmt storage var value
  | .map vars _ target neighbors _, storage => visitMap target neighbors vars storage
  | .fieldWrite _ _ _, storage => .ok storage
  | .tensorWrite tensor _ _, storage => visitTensorWrite storage tensor
  | .store _ _ _, storage => .ok storage
  | .varDecl var, storage => visitVarDecl storage var
  | .block first rest, storage => do
    let storage ← visitStmt first storage
    visitStmt rest storage
  | .forRange _ _ _ body, storage => visitStmt body storage
  | .forDomain _ _ body, storage => visitStmt body storage
  | .whileLoop _ body, storage => visitStmt body storage
  | .ifThenElse _ thenBody elseBody, storage => do
    let storage ← visitStmt thenBody storage
    visitStmt elseBody storage
  | .comment _ commentedStmt, storage => visitStmt commentedStmt storage
  | .pass, storage => .ok storage

/-- The three loops of `GetStorageVisitor::get(Func)`: a tensor variable gets
`determineStorage(var, false)`. -/
def determineStorageVars : List Var → Storage → Except ErrorReport Storage
  | [], storage => .ok storage
  | var :: vars, storage =>
    if var.type.isTensor then do
      let storage ← determineStorage storage var false
      determineStorageVars vars storage
    else
      determineStorageVars vars storage

/-- Function `updateStorage(const Func &func, Storage *storage)`, that is
`GetStorageVisitor(storage).get(func)`: globals, arguments, results, body. -/
def updateStorage (func : Func) (storage : Storage) : Except ErrorReport Storage := do
  let storage ← determineStorageVars (func.getGlobals.map Prod.fst) storage
  let storage ← determineStorageVars func.getArguments storage
  let storage ← determineStorageVars func.getResults storage
  visitStmt func.getBody storage

/-- Function `updateStorage(const Stmt &stmt, Storage *storage)`. -/
def updateStorageStmt (stmt : Stmt) (storage : Storage) : Except ErrorReport Storage :=
  visitStmt stmt storage

/-- Function `getStorage(const Func &func)`. -/
def getStorage (func : Func) : Except ErrorReport Storage :=
  updateStorage func []

/-- Function `getStorage(const Stmt &stmt)`. -/
def getStorageStmt (stmt : Stmt) : Except ErrorReport Storage :=
  updateStorageStmt stmt []

/-! ## The call-graph rewriter and the pipeline (`src/lower/lower.cpp`) -/

mutual
/-- Modelled from the spec: `ir_rewriter.h` is missing. The traversal of
`IRRewriterCallGraph` over an expression: a node is rebuilt from its rewritten
children, and the function of a call is rewritten through `visit(const Func*)`
(section 4.1). -/
def rewriteExpr (rewriter : Func → Except ErrorReport Func) : Expr → Except ErrorReport Expr
  | .undefined => pure .undefined
  | .literal type data => pure (.literal type data)
  | .varExpr var => pure (.varExpr var)
  | .fieldRead elementOrSet fieldName => do
    let elementOrSet ← rewriteExpr rewriter elementOrSet
    pure (.fieldRead elementOrSet fieldName)
  | .tensorRead tensor indices => do
    let tensor ← rewriteExpr rewriter tensor
    let indices ← rewriteExprs rewriter indices
    pure (.tensorRead tensor indices)
  | .tupleRead tuple index => do
    let tuple ← rewriteExpr rewriter tuple
    let index ← rewriteExpr rewriter index
    pure (.tupleRead tuple index)
  | .indexRead edgeSet indexName => do
    let edgeSet ← rewriteExpr rewriter edgeSet
    pure (.indexRead edgeSet indexName)
  | .length indexSet => pure (.length indexSet)
  | .load buffer index => do
    let buffer ← rewriteExpr rewriter buffer
    let index ← rewriteExpr rewriter index
    pure (.load buffer index)
  | .indexedTensor tensor indexVars => do
    let tensor ← rewriteExpr rewriter tensor
    pure (.indexedTensor tensor indexVars)
  | .indexExpr resultVars rhs => do
    let rhs ← rewriteExpr rewriter rhs
    pure (.indexExpr resultVars rhs)
  | .call func actuals => do
    let func ← rewriteFunc rewriter func
    let actuals ← rewriteExprs rewriter actuals
    pure (.call func actuals)
  | .unary op a => do
    let a ← rewriteExpr rewriter a
    pure (.unary op a)
  | .binary op a b => do
    let a ← rewriteExpr rewriter a
    let b ← rewriteExpr rewriter b
    pure (.binary op a b)
/-- The traversal of `rewriteExpr` over a list of children. -/
def rewriteExprs (rewriter : Func → Except ErrorReport Func) :
    List Expr → Except ErrorReport (List Expr)
  | [] => pure []
  | e :: es => do
    let e ← rewriteExpr rewriter e
    let es ← rewriteExprs rewriter es
    pure (e :: es)
/-- Modelled from the spec: `ir_rewriter.h` is missing. The traversal of
`IRRewriterCallGraph` over a statement; the function of a map is rewritten
through `visit(const Func*)`. -/
def rewriteStmt (rewriter : Func → Except ErrorReport Func) : Stmt → Except ErrorReport Stmt
  | .undefined => pure .undefined
  | .assignStmt var value => do
    let value ← rewriteExpr rewriter value
    pure (.assignStmt var value)
  | .map vars function target neighbors reduction => do
    let function ← rewriteFunc rewriter function
    let target ← rewriteExpr rewriter target
    let neighbors ← rewriteExpr rewriter neighbors
    pure (.map vars function target neighbors reduction)
  | .fieldWrite elementOrSet fieldName value => do
    let elementOrSet ← rewriteExpr rewriter elementOrSet
    let value ← rewriteExpr rewriter value
    pure (.fieldWrite elementOrSet fieldName value)
  | .tensorWrite tensor indices value => do
    let tensor ← rewriteExpr rewriter tensor
    let indices ← rewriteExprs rewriter indices
    let value ← rewriteExpr rewriter value
    pure (.tensorWrite tensor indices value)
  | .store buffer index value => do
    let buffer ← rewriteExpr rewriter buffer
    let index ← rewriteExpr rewriter index
    let value ← rewriteExpr rewriter value
    pure (.store buffer index value)
  | .varDecl var => pure (.varDecl var)
  | .block first rest => do
    let first ← rewriteStmt rewriter first
    let rest ← rewriteStmt rewriter rest
    pure (.block first rest)
  | .forRange var start stop body => do
    let start ← rewriteExpr rewriter start
    let stop ← rewriteExpr rewriter stop
    let body ← rewriteStmt rewriter body
    pure (.forRange var start stop body)
  | .forDomain var domain body => do
    let body ← rewriteStmt rewriter body
    pure (.forDomain var domain body)
  | .whileLoop condition body => do
    let condition ← rewriteExpr rewriter condition
    let body ← rewriteStmt rewriter body
    pure (.whileLoop condition body)
  | .ifThenElse condition thenBody elseBody => do
    let condition ← rewriteExpr rewriter condition
    let thenBody ← rewriteStmt rewriter thenBody
    let elseBody ← rewriteStmt rewriter elseBody
    pure (.ifThenElse condition thenBody elseBody)
  | .comment text commentedStmt => do
    let commentedStmt ← rewriteStmt rewriter commentedStmt
    pure (.comment text commentedStmt)
  | .pass => pure .pass
/-- Method `Rewriter::visit(const simit::ir::Func *op)` of `rewriteCallGraph`: a
function that is not `Internal` is returned as it is; otherwise its body is
rewritten and the rule is applied to the function with the new body. -/
def rewriteFunc (rewriter : Func → Except ErrorReport Func) : Func → Except ErrorReport Func
  | .mk name arguments results body globals kind storage =>
    if kind ≠ FuncKind.Internal then
      pure (.mk name arguments results body globals kind storage)
    else do
      let body ← rewriteStmt rewriter body
      rewriter (.mk name arguments results body globals kind storage)
end

/-- Function `rewriteCallGraph(const Func& func, const function<Func(Func)>& rewriter)`. -/
def rewriteCallGraph (func : Func) (rewriter : Func → Except ErrorReport Func) :
    Except ErrorReport Func :=
  rewriteFunc rewriter func

/-- Passes that `lower` composes and whose definitions are in files missing
from the sources (`flatten.h`, `temps.h`, `lower_maps.h`, `lower_accesses.h`,
...): they are parameters of the pipeline. A pass may fail with a report. -/
structure Passes where
  rewriteSystemAssigns : Func → Except ErrorReport Func
  flattenIndexExpressions : Func → Except ErrorReport Func
  insertTemporaries : Func → Except ErrorReport Func
  lowerMaps : Func → Except ErrorReport Func
  lowerIndexExpressions : Func → Except ErrorReport Func
  lowerIndexExprs : Func → Except ErrorReport Func
  lowerTensorAccesses : Func → Except ErrorReport Func
  shardLoops : Func → Except ErrorReport Func
  rewriteVarDecls : Func → Except ErrorReport Func
  kernelRWAnalysis : Func → Except ErrorReport Func
  fuseKernels : Func → Except ErrorReport Func

/-- The rule of the storage pass of `lower`:
`func.setStorage(getStorage(func)); return func;`. -/
def determineStoragePass (func : Func) : Except ErrorReport Func := do
  let storage ← getStorage func
  pure (func.setStorage storage)

/-- Function `lower(Func func, bool print)`. The flag `gpu` stands for a build
with `GPU` defined and `kBackend == "gpu"`; the CPU configuration is
`gpu = false`. What `print` writes to `cout` is not part of the result. -/
def lower (p : Passes) (gpu : Bool) (func : Func) (_print : Bool) : Except ErrorReport Func := do
  -- Rewrite system assignments
  let func ← if gpu then rewriteCallGraph func p.rewriteSystemAssigns else pure func
  -- Flatten index expressions and insert temporaries
  let func ← rewriteCallGraph func p.flattenIndexExpressions
  let func ← rewriteCallGraph func p.insertTemporaries
  -- Determine Storage
  let func ← rewriteCallGraph func determineStoragePass
  -- Lower maps
  let func ← rewriteCallGraph func p.lowerMaps
  -- Lower Index Expressions
  let func ← rewriteCallGraph func p.lowerIndexExpressions
  -- Deprecated index expression lower pass
  let func ← rewriteCallGraph func p.lowerIndexExprs
  -- Lower Tensor Reads and Writes
  let func ← rewriteCallGraph func p.lowerTensorAccesses
  -- Lower to GPU Kernels
  if gpu then do
    let func ← rewriteCallGraph func p.shardLoops
    let func ← rewriteCallGraph func p.rewriteVarDecls
    let func ← rewriteCallGraph func p.kernelRWAnalysis
    rewriteCallGraph func p.fuseKernels
  else
    pure func

/-- The composition over the call graph of a list of passes, first to last. -/
def composePasses (passes : List (Func → Except ErrorReport Func)) (func : Func) :
    Except ErrorReport Func :=
  passes.foldlM (fun f pass => rewriteCallGraph f pass) func

/-- The pipeline in the words of the specification (section 1, item 3): six
passes. -/
def lowerSpec (p : Passes) (func : Func) : Except ErrorReport Func :=
  composePasses [p.flattenIndexExpressions, p.insertTemporaries, determineStoragePass,
    p.lowerMaps, p.lowerIndexExpressions, p.lowerTensorAccesses] func

/-- The pipeline of `lower` in the CPU configuration as a list of passes: the
six passes of the specification and the deprecated `lowerIndexExprs`. -/
def lowerPasses (p : Passes) : List (Func → Except ErrorReport Func) :=
  [p.flattenIndexExpressions, p.insertTemporaries, determineStoragePass,
    p.lowerMaps, p.lowerIndexExpressions, p.lowerIndexExprs, p.lowerTensorAccesses]

/-- A pass that marks the function it is applied to by appending `tag` to its
name. -/
def tagPass (tag : String) (func : Func) : Except ErrorReport Func :=
  match func with
  | .mk name arguments results body globals kind storage =>
    .ok (.mk (name ++ tag) arguments results body globals kind storage)

/-- Passes that record in the name of a function the order in which they were
applied to it. -/
def tagPasses : Passes :=
  Passes.mk (tagPass ".assigns") (tagPass ".flatten") (tagPass ".temps") (tagPass ".maps")
    (tagPass ".index") (tagPass ".indexOld") (tagPass ".accesses") (tagPass ".shard")
    (tagPass ".decls") (tagPass ".rw") (tagPass ".fuse")

/-- A function with no argument, no result and an empty body. -/
def emptyFunc : Func := .mk "f" [] [] .pass [] FuncKind.Internal []

/-! ## Vocabulary of the statements -/

/-- The result variables of the `Map` statements of a statement. -/
def mapVars : Stmt → List Var
  | .map vars _ _ _ _ => vars
  | .block first rest => mapVars first ++ mapVars rest
  | .forRange _ _ _ body => mapVars body
  | .forDomain _ _ body => mapVars body
  | .whileLoop _ body => mapVars body
  | .ifThenElse _ thenBody elseBody => mapVars thenBody ++ mapVars elseBody
  | .comment _ commentedStmt => mapVars commentedStmt
  | _ => []

/-- The variables that a statement declares: the variables of its `VarDecl`
statements. -/
def declaredVars : Stmt → List Var
  | .varDecl var => [var]
  | .block first rest => declaredVars first ++ declaredVars rest
  | .forRange _ _ _ body => declaredVars body
  | .forDomain _ _ body => declaredVars body
  | .whileLoop _ body => declaredVars body
  | .ifThenElse _ thenBody elseBody => declaredVars thenBody ++ declaredVars elseBody
  | .comment _ commentedStmt => declaredVars commentedStmt
  | _ => []

/-- The variables that a statement assigns: the targets of its `AssignStmt`
statements. -/
def assignedVars : Stmt → List Var
  | .assignStmt var _ => [var]
  | .block first rest => assignedVars first ++ assignedVars rest
  | .forRange _ _ _ body => assignedVars body
  | .forDomain _ _ body => assignedVars body
  | .whileLoop _ body => assignedVars body
  | .ifThenElse _ thenBody elseBody => assignedVars thenBody ++ assignedVars elseBody
  | .comment _ commentedStmt => assignedVars commentedStmt
  | _ => []

/-- The variables that a statement writes: the tensors of its `TensorWrite`
statements that are variable references. -/
def writtenVars : Stmt → List Var
  | .tensorWrite (.varExpr var) _ _ => [var]
  | .block first rest => writtenVars first ++ writtenVars rest
  | .forRange _ _ _ body => writtenVars body
  | .forDomain _ _ body => writtenVars body
  | .whileLoop _ body => writtenVars body
  | .ifThenElse _ thenBody elseBody => writtenVars thenBody ++ writtenVars elseBody
  | .comment _ commentedStmt => writtenVars commentedStmt
  | _ => []

/-- Every entry of the map satisfies `P`. -/
def Storage.All (P : Var → TensorStorage → Prop) (st : Storage) : Prop :=
  ∀ e ∈ st, P e.1 e.2

/-- The map `st'` is reached from `st` by calls of `Storage::add` whose entries
satisfy `A`. -/
inductive Reach (A : Var → TensorStorage → Prop) : Storage → Storage → Prop where
  | refl (st : Storage) : Reach A st st
  | step (st st' : Storage) (v : Var) (s : TensorStorage) :
      Reach A st st' → A v s → Reach A st (Storage.add st' v s)

/-- The entries that storage inference adds satisfy `A`: dense entries of
element tensors and vectors, reduced entries of assembled tensors of order at
least 2, and the entries of the map results in `M`. -/
structure AddsOnly (A : Var → TensorStorage → Prop) (M : List Var) : Prop where
  dense : ∀ v b t, v.type = .tensor t → t.order ≠ 0 →
    (isElementTensorType t = true ∨ t.order = 1) →
    A v (TensorStorage.ofKind StorageKind.DenseRowMajor b)
  reduced : ∀ v t a b, v.type = .tensor t → isElementTensorType t = false → 1 < t.order →
    A v (TensorStorage.systemReduced a b)
  mapped : ∀ v t target neighbors, v ∈ M → v.type = .tensor t → t.order ≠ 0 →
    A v (mapResultStorage t target neighbors)

/-! ## Concrete programs -/

/-- The scalar type `float`. -/
def scalarType : Ty := .tensor ⟨ScalarKind.Float, []⟩

/-- A vector over the set `V`: order 1. -/
def vectorType : Ty := .tensor ⟨ScalarKind.Float, [⟨[.set "V"]⟩]⟩

/-- A 3 by 3 element tensor: order 2, every dimension a range. -/
def elementMatrixType : Ty := .tensor ⟨ScalarKind.Float, [⟨[.range 3]⟩, ⟨[.range 3]⟩]⟩

/-- A matrix over the set `V`: an assembled tensor of order 2. -/
def systemMatrixType : Ty := .tensor ⟨ScalarKind.Float, [⟨[.set "V"]⟩, ⟨[.set "V"]⟩]⟩

/-- An assembled tensor of order 3 over the set `V`. -/
def systemOrder3Type : Ty :=
  .tensor ⟨ScalarKind.Float, [⟨[.set "V"]⟩, ⟨[.set "V"]⟩, ⟨[.set "V"]⟩]⟩

/-- The set `V` as an expression. -/
def setV : Expr := .varExpr ⟨"V", .set "Point" []⟩

/-- The edge set `E` as an expression. -/
def setE : Expr := .varExpr ⟨"E", .set "Spring" ["V", "V"]⟩

/-- An internal function with the given arguments, results and body, no global
and an empty storage map. -/
def mkFunc (arguments results : List Var) (body : Stmt) : Func :=
  .mk "f" arguments results body [] FuncKind.Internal []

/-- A function whose body maps `emptyFunc` over `V`, without neighbours, into
the 3 by 3 element tensor `K`. -/
def mapIntoElementTensor : Func :=
  mkFunc [] [] (.map [⟨"K", elementMatrixType⟩] emptyFunc setV .undefined ReductionOperator.Sum)

/-- A function whose body maps `emptyFunc` over `E` with neighbours `V` into the
vector `b` and the assembled matrix `A`. -/
def mapIntoSystem : Stmt :=
  .map [⟨"b", vectorType⟩, ⟨"A", systemMatrixType⟩] emptyFunc setE setV ReductionOperator.Sum

/-- The statement `B = A`, with `A` and `B` assembled matrices. -/
def assignSystemMatrix : Stmt :=
  .assignStmt ⟨"B", systemMatrixType⟩ (.varExpr ⟨"A", systemMatrixType⟩)

/-- A function whose body assigns a literal to the assembled matrix `A`. -/
def assignLiteralToSystemMatrix : Func :=
  mkFunc [] [] (.assignStmt ⟨"A", systemMatrixType⟩ (.literal systemMatrixType []))

/-- A function with the vector argument `x`, the vector result `y` and the body
`y = x`. -/
def copyVector : Func :=
  mkFunc [⟨"x", vectorType⟩] [⟨"y", vectorType⟩]
    (.assignStmt ⟨"y", vectorType⟩ (.varExpr ⟨"x", vectorType⟩))

/-- A body that declares the scalar `s` twice. -/
def declareScalarTwice : Stmt :=
  .block (.varDecl ⟨"s", scalarType⟩) (.varDecl ⟨"s", scalarType⟩)

/-- A body that declares the vector `t` twice. -/
def declareVectorTwice : Stmt :=
  .block (.varDecl ⟨"t", vectorType⟩) (.varDecl ⟨"t", vectorType⟩)

/-- A function that declares the assembled tensor `T` of order 3. -/
def declareOrder3 : Func :=
  mkFunc [] [] (.varDecl ⟨"T", systemOrder3Type⟩)

/-- The report of the assertion of `GetStorageVisitor::visit(const VarDecl *op)`,
`iassert(!storage->hasStorage(var)) << "Redeclaration of variable"`. -/
def redeclaration : ErrorReport :=
  ⟨false, some "!storage->hasStorage(var)", ErrorKind.Internal, false,
    "Redeclaration of variable"⟩

/-! ## Index-expression lowering (`src/lower_index_expressions.cpp`) -/

/-- What can end a call of the index-expression lowering other than a return:
an exploding `ErrorReport`, the `std::out_of_range` that `std::map::at` throws,
a read outside a container (undefined behaviour in C++), and the bound of the
recursion of the embedding. -/
inductive Failure where
  | report (r : ErrorReport)
  | outOfRange
  | undefinedBehaviour
  | outOfFuel
  deriving DecidableEq

/-- An `iassert` in a function that can also fail otherwise. -/
def iassertF (c : Bool) (conditionString : String) (msg : String) : Except Failure Unit :=
  match iassert c conditionString msg with
  | .ok u => .ok u
  | .error r => .error (Failure.report r)

/-- The order `operator<` of `std::string`: lexicographic on the characters. -/
def stringLt : List Char → List Char → Bool
  | [], [] => false
  | [], _ :: _ => true
  | _ :: _, [] => false
  | a :: as, b :: bs =>
    if a.toNat < b.toNat then true
    else if b.toNat < a.toNat then false
    else stringLt as bs

/-- Modelled from the spec: `indexvar.h` is missing. The order `operator<` of
index variables that `std::map` and `std::set` use: the order of their names. -/
def IndexVar.lt (a b : IndexVar) : Bool := stringLt a.name.data b.name.data

/-- Type `IndexTuple`, a `vector<IndexVar>`. -/
abbrev IndexTuple := List IndexVar

/-- The order `operator<` of `vector<IndexVar>`: lexicographic. -/
def IndexTuple.lt : IndexTuple → IndexTuple → Bool
  | [], [] => false
  | [], _ :: _ => true
  | _ :: _, [] => false
  | a :: as, b :: bs =>
    if IndexVar.lt a b then true
    else if IndexVar.lt b a then false
    else IndexTuple.lt as bs

/-- A `std::map<K,V>` with order `lt`: the entries in the order of their keys. -/
abbrev StdMap (K V : Type) := List (K × V)

/-- Two keys are equivalent when neither is below the other. -/
def stdEquiv {K : Type} (lt : K → K → Bool) (a b : K) : Bool := !lt a b && !lt b a

/-- The access `m[k]` followed by a change `f` of the value: an absent key is
inserted with the default value `dflt` first. -/
def StdMap.modify {K V : Type} (lt : K → K → Bool) (k : K) (dflt : V) (f : V → V) :
    StdMap K V → StdMap K V
  | [] => [(k, f dflt)]
  | (k', v) :: rest =>
    if lt k k' then (k, f dflt) :: (k', v) :: rest
    else if lt k' k then (k', v) :: StdMap.modify lt k dflt f rest
    else (k', f v) :: rest

/-- The lookup `m.find(k)`. -/
def StdMap.find {K V : Type} (lt : K → K → Bool) (k : K) : StdMap K V → Option V
  | [] => none
  | (k', v) :: rest => if stdEquiv lt k k' then some v else StdMap.find lt k rest

/-- The access `m.at(k)`, which throws `std::out_of_range` on an absent key. -/
def StdMap.at {K V : Type} (lt : K → K → Bool) (k : K) (m : StdMap K V) : Except Failure V :=
  match StdMap.find lt k m with
  | some v => .ok v
  | none => .error Failure.outOfRange

/-- The change `f` of the value that `m.at(k)` refers to; `at` throws
`std::out_of_range` on an absent key. -/
def StdMap.modifyAt {K V : Type} (lt : K → K → Bool) (k : K) (f : V → V) :
    StdMap K V → Except Failure (StdMap K V)
  | [] => .error Failure.outOfRange
  | (k', v) :: rest =>
    if stdEquiv lt k k' then .ok ((k', f v) :: rest)
    else
      match StdMap.modifyAt lt k f rest with
      | .ok rest' => .ok ((k', v) :: rest')
      | .error e => .error e

/-- The test `util::contains(set, k)` on a `std::set` with order `lt`. -/
def stdSetContains {K : Type} (lt : K → K → Bool) (s : List K) (k : K) : Bool :=
  s.any (fun x => stdEquiv lt k x)

/-- The node `IndexedTensor`: a tensor expression and its index variables. -/
structure IndexedTensor where
  tensor : Expr
  indexVars : List IndexVar

/-- The node `IndexExpr`: the result variables and the right-hand side. -/
structure IndexExpr where
  resultVars : List IndexVar
  rhs : Expr

/-- The kinds of loop, `Loop::Type`. -/
inductive LoopType where
  | Dense
  | Sparse
  deriving DecidableEq

/-- Record `Loop`; the parent of a dense loop is the default `IndexVar`, here
`none`. -/
structure Loop where
  type : LoopType
  indexVar : IndexVar
  parent : Option IndexVar
  deriving DecidableEq

/-- Constructor `Loop(const IndexVar &indexVar)`. -/
def Loop.dense (indexVar : IndexVar) : Loop := ⟨LoopType.Dense, indexVar, none⟩

/-- Constructor `Loop(const IndexVar &indexVar, IndexVar parent)`. -/
def Loop.sparse (indexVar parent : IndexVar) : Loop := ⟨LoopType.Sparse, indexVar, some parent⟩

/-- Map `IndexTupleUses`. -/
abbrev IndexTupleUses := StdMap IndexTuple (List IndexedTensor)

/-- Map `IndexUses`. -/
abbrev IndexUses := StdMap IndexVar (List IndexedTensor)

/-- Map `IndexVarGraph`. -/
abbrev IndexVarGraph := StdMap IndexVar (List IndexVar)

/-- Map `InductionVars`: the induction variable of a loop and its coordinate
variables. -/
abbrev InductionVars := StdMap IndexVar (Option Var × List Var)

namespace LowerIndexExpressions

mutual
/-- The traversal of `GetIndexTupleUsesVisitor`: the default hooks descend into
the children of a node in declared order, and `visit(const IndexedTensor*)`
records the node and does not descend. -/
def indexedTensors : Expr → List IndexedTensor
  | .undefined => []
  | .literal _ _ => []
  | .varExpr _ => []
  | .fieldRead elementOrSet _ => indexedTensors elementOrSet
  | .tensorRead tensor indices => indexedTensors tensor ++ indexedTensorsList indices
  | .tupleRead tuple index => indexedTensors tuple ++ indexedTensors index
  | .indexRead edgeSet _ => indexedTensors edgeSet
  | .length _ => []
  | .load buffer index => indexedTensors buffer ++ indexedTensors index
  | .indexedTensor tensor indexVars => [⟨tensor, indexVars⟩]
  | .indexExpr _ rhs => indexedTensors rhs
  | .call _ actuals => indexedTensorsList actuals
  | .unary _ a => indexedTensors a
  | .binary _ a b => indexedTensors a ++ indexedTensors b
/-- The traversal of `indexedTensors` over a list of children. -/
def indexedTensorsList : List Expr → List IndexedTensor
  | [] => []
  | e :: es => indexedTensors e ++ indexedTensorsList es
end

/-- Function `getIndexTupleUses`: `indexTupleUses[indexVars].push_back(node)` for
each indexed tensor of the expression, in visit order. -/
def getIndexTupleUses (indexExpr : IndexExpr) : IndexTupleUses :=
  (indexedTensors indexExpr.rhs).foldl
    (fun uses t => StdMap.modify IndexTuple.lt t.indexVars [] (fun l => l ++ [t]) uses) []

/-- Function `getIndexUses`: every index variable of a tuple gets the uses of
the tuple. -/
def getIndexUses (indexTupleUses : IndexTupleUses) : IndexUses :=
  indexTupleUses.foldl (fun indexUses itu =>
    itu.1.foldl (fun indexUses indexVar =>
      itu.2.foldl (fun indexUses indexedTensor =>
        StdMap.modify IndexVar.lt indexVar [] (fun l => l ++ [indexedTensor]) indexUses)
        indexUses) indexUses) []

/-- The value of `it.size() - 1` in the arithmetic of `size_t`, taken as 64 bits
wide. -/
def sizeMinusOne (size : Nat) : Nat := (size + 2 ^ 64 - 1) % 2 ^ 64

/-- The read `it[i]`: outside the tuple it is undefined behaviour. -/
def tupleGet (it : IndexTuple) (i : Nat) : Except Failure IndexVar :=
  match it.get? i with
  | some v => .ok v
  | none => .error Failure.undefinedBehaviour

/-- The body of the loops of `createIndexVarGraph` for one pair `(i, j)`. -/
def addEdge (it : IndexTuple) (i j : Nat) (graph : IndexVarGraph) :
    Except Failure IndexVarGraph := do
  let a ← tupleGet it i
  let b ← tupleGet it j
  let graph := StdMap.modify IndexVar.lt a [] (fun l => l ++ [b]) graph
  let b ← tupleGet it j
  let a ← tupleGet it i
  pure (StdMap.modify IndexVar.lt b [] (fun l => l ++ [a]) graph)

/-- The two loops of `createIndexVarGraph` over one tuple: `i` from 0 below
`it.size() - 1`, `j` from `i+1` below `it.size()`. -/
def addTupleEdges (it : IndexTuple) (graph : IndexVarGraph) : Except Failure IndexVarGraph :=
  (List.range (sizeMinusOne it.length)).foldlM (fun graph i =>
    (List.range' (i + 1) (it.length - (i + 1))).foldlM (fun graph j => addEdge it i j graph)
      graph) graph

/-- Function `createIndexVarGraph`. -/
def createIndexVarGraph (indexTupleUses : IndexTupleUses) : Except Failure IndexVarGraph :=
  indexTupleUses.foldlM (fun graph itu => addTupleEdges itu.1 graph) []

/-- The recursive `createLoopNest(ivGraph, source, visited, loops)`; the state is
the pair of `visited` and `loops`. The recursion of the embedding is bounded by
`fuel`. -/
def createLoopNestFrom (ivGraph : IndexVarGraph) :
    Nat → IndexVar → List IndexVar × List Loop → Except Failure (List IndexVar × List Loop)
  | 0, _, _ => .error Failure.outOfFuel
  | fuel + 1, source, state => do
    let sinks ← StdMap.at IndexVar.lt source ivGraph
    sinks.foldlM (fun state sink =>
      if !stdSetContains IndexVar.lt state.1 sink then
        createLoopNestFrom ivGraph fuel sink
          (sink :: state.1, state.2 ++ [Loop.sparse sink source])
      else pure state) state

/-- The number of vertices and edge ends of the graph, which bounds the depth
of the recursion of `createLoopNest`. -/
def graphSize (ivGraph : IndexVarGraph) : Nat :=
  (ivGraph.map (fun e => e.2.length + 1)).sum

/-- Function `createLoopNest(ivGraph, sources)`. -/
def createLoopNest (ivGraph : IndexVarGraph) (sources : List IndexVar) :
    Except Failure (List Loop) := do
  let state ← sources.foldlM (fun (state : List IndexVar × List Loop) source =>
    if !stdSetContains IndexVar.lt state.1 source then
      createLoopNestFrom ivGraph (graphSize ivGraph + 1) source
        (source :: state.1, state.2 ++ [Loop.dense source])
    else pure state) ([], [])
  pure state.2

/-- The scalar type `Int` of induction variables. -/
def intType : Ty := .tensor ⟨ScalarKind.Int, []⟩

/-- Modelled from the spec: `util.h` is missing. Function `util::join`: the
elements printed one after the other with the separator between them. -/
def join (names : List String) (sep : String) : String := sep.intercalate names

/-- Function `createCoordinateVar`. -/
def createCoordinateVar (indexedTensor : IndexedTensor) : Except Failure Var := do
  iassertF indexedTensor.tensor.toVarExpr.isSome "isa<VarExpr>(indexedTensor->tensor)"
    "at this point the index expressions should have been flattened"
  match indexedTensor.tensor.toVarExpr with
  | some tensor =>
    let name := join (indexedTensor.indexVars.map (fun v => v.name)) "" ++ tensor.name
    pure ⟨name, intType⟩
  | none => .error Failure.undefinedBehaviour

/-- Function `createInductionVariables`. -/
def createInductionVariables (loops : List Loop) (indexUses : IndexUses) :
    Except Failure InductionVars :=
  loops.foldlM (fun (inductionVars : InductionVars) loop => do
    let inductionVar : Var := ⟨loop.indexVar.name, intType⟩
    let inductionVars := StdMap.modify IndexVar.lt loop.indexVar (none, [])
      (fun p => (some inductionVar, p.2)) inductionVars
    if loop.type = LoopType.Sparse then do
      let uses ← StdMap.at IndexVar.lt loop.indexVar indexUses
      uses.foldlM (fun (inductionVars : InductionVars) use => do
        let coordVar ← createCoordinateVar use
        StdMap.modifyAt IndexVar.lt loop.indexVar (fun p => (p.1, p.2 ++ [coordVar]))
          inductionVars) inductionVars
    else pure inductionVars) []

/-- Function `compareToIndex`: `Lt::make(coordVar, Literal::make(1))`. -/
def compareToIndex (coordVar : Var) : Expr :=
  .binary BinaryOp.Lt (.varExpr coordVar) (.literal intType [1])

/-- The loop of the general case of `computeMin` over `vars[1..]`. -/
def computeMinChain (var : Var) (minStmt : Stmt) : List Var → Stmt
  | [] => minStmt
  | v :: vs =>
    computeMinChain var
      (.block minStmt
        (.ifThenElse (.binary BinaryOp.Lt (.varExpr v) (.varExpr var))
          (.assignStmt var (.varExpr v)) .undefined)) vs

/-- Function `computeMin`. -/
def computeMin (var : Var) (vars : List Var) : Except Failure Stmt := do
  let minStmt := Stmt.varDecl var
  iassertF (decide (vars.length > 0)) "vars.size() > 0" ""
  let minStmt ←
    match vars with
    | [v0, v1] =>
      pure (Stmt.block minStmt
        (.ifThenElse (.binary BinaryOp.Le (.varExpr v0) (.varExpr v1))
          (.assignStmt var (.varExpr v0)) (.assignStmt var (.varExpr v1))))
    | v0 :: vs => pure (computeMinChain var (.block minStmt (.assignStmt var (.varExpr v0))) vs)
    | [] => Except.error Failure.undefinedBehaviour
  let commentString := var.name ++ " = min(" ++ join (vars.map (fun v => v.name)) ", " ++ ")"
  pure (Stmt.comment commentString minStmt)

/-- The read `*it` of an `Option` that stands for a default-constructed `Var`
or an iterator that may be at the end. -/
def deref {α : Type} : Option α → Except Failure α
  | some a => .ok a
  | none => .error Failure.undefinedBehaviour

/-- One round of the emission loop of `lower`: the loop `loop` around
`loopNest`. -/
def emitLoop (inductionVars : InductionVars) (loop : Loop) (loopNest : Stmt) :
    Except Failure Stmt :=
  match loop.type with
  | .Dense => do
    let entry ← StdMap.at IndexVar.lt loop.indexVar inductionVars
    let loopInductionVar ← deref entry.1
    let domain ← deref loop.indexVar.domain.indexSets.head?
    pure (.forDomain loopInductionVar domain loopNest)
  | .Sparse => do
    let loopInductionVars ← StdMap.at IndexVar.lt loop.indexVar inductionVars
    let inductionVar ← deref loopInductionVars.1
    let coordVars := loopInductionVars.2
    let first ← deref coordVars.head?
    let condition := coordVars.tail.foldl
      (fun condition c => Expr.binary BinaryOp.And condition (compareToIndex c))
      (compareToIndex first)
    let initInductionVar ← computeMin inductionVar coordVars
    let body := Stmt.block initInductionVar loopNest
    pure (.whileLoop condition body)

/-- The emission loop of `lower` over `util::reverse(loops)`: the last loop is
emitted first, around the undefined statement. -/
def emitLoops (inductionVars : InductionVars) : List Loop → Except Failure Stmt
  | [] => .ok .undefined
  | loop :: loops => do
    let loopNest ← emitLoops inductionVars loops
    emitLoop inductionVars loop loopNest

/-- Function `lower(Expr target, const IndexExpr *indexExpression)`; what it
writes to `cout` is not part of the result. -/
def lower (_target : Expr) (indexExpression : IndexExpr) : Except Failure Stmt := do
  let indexTupleUses := getIndexTupleUses indexExpression
  let indexVariableGraph ← createIndexVarGraph indexTupleUses
  let loops ← createLoopNest indexVariableGraph indexExpression.resultVars
  let indexUses := getIndexUses indexTupleUses
  let inductionVars ← createInductionVariables loops indexUses
  emitLoops inductionVars loops

end LowerIndexExpressions

/-! ## Diagnostics records (`src/error.h`) -/

/-- Class `Diagnostic`: a message. -/
structure Diagnostic where
  msg : String
  deriving DecidableEq

/-- Constructor `Diagnostic()`. -/
def Diagnostic.empty : Diagnostic := ⟨""⟩

/-- Operator `Diagnostic::operator<<(const std::string &str)`: `msg += str`. -/
def Diagnostic.stream (d : Diagnostic) (str : String) : Diagnostic := ⟨d.msg ++ str⟩

/-- Method `Diagnostic::getMessage()`. -/
def Diagnostic.getMessage (d : Diagnostic) : String := d.msg

/-- Class `Diagnostics`: the vector `diags`, which `begin()` and `end()`
iterate. -/
structure Diagnostics where
  diags : List Diagnostic
  deriving DecidableEq

/-- Constructor `Diagnostics()`. -/
def Diagnostics.empty : Diagnostics := ⟨[]⟩

/-- A change of the last element of a vector, `v[v.size()-1]`. -/
def modifyLast {α : Type} (f : α → α) : List α → List α
  | [] => []
  | [a] => [f a]
  | a :: b :: rest => a :: modifyLast f (b :: rest)

/-- Method `Diagnostics::report()`: `diags.push_back(Diagnostic())`; the record
returned is the last of `diags`. -/
def Diagnostics.report (ds : Diagnostics) : Diagnostics := ⟨ds.diags ++ [Diagnostic.empty]⟩

/-- A string streamed into the record that `report()` returned. -/
def Diagnostics.streamLast (ds : Diagnostics) (str : String) : Diagnostics :=
  ⟨modifyLast (fun d => d.stream str) ds.diags⟩

/-- One use `report() << s1 << s2 << ...` of a `Diagnostics`. -/
def Diagnostics.reportStreamed (ds : Diagnostics) (strs : List String) : Diagnostics :=
  strs.foldl Diagnostics.streamLast ds.report

/-- A sequence of uses of `report()`, each with the strings streamed into the
record it returned. -/
def Diagnostics.reportAll (ds : Diagnostics) (calls : List (List String)) : Diagnostics :=
  calls.foldl Diagnostics.reportStreamed ds

/-- Method `Diagnostics::hasErrors()`. -/
def Diagnostics.hasErrors (ds : Diagnostics) : Bool := decide (ds.diags.length > 0)

/-- Method `Diagnostics::getMessage()`: the messages joined by a newline. -/
def Diagnostics.getMessage (ds : Diagnostics) : String :=
  match ds.diags with
  | [] => ""
  | d :: rest => rest.foldl (fun result it => result ++ ("\n" ++ it.getMessage)) d.getMessage

/-- The text that a sequence of strings streamed into an empty record leaves in
it. -/
def streamedText (strs : List String) : String := strs.foldl (fun m s => m ++ s) ""

/-! ## Error reports (`src/error.h`) -/

/-- Constructor `ErrorReport::ErrorReport(file, func, line, condition,
conditionString, kind, warning)`; the header it writes names the source
position and is left out of `msg`. -/
def ErrorReport.create (condition : Bool) (conditionString : Option String) (kind : ErrorKind)
    (warning : Bool) : ErrorReport :=
  ⟨condition, conditionString, kind, warning, ""⟩

/-- Operator `ErrorReport::operator<<`: nothing is written when the condition
holds. -/
def ErrorReport.stream (r : ErrorReport) (x : String) : ErrorReport :=
  if r.condition then r else ⟨r.condition, r.conditionString, r.kind, r.warning, r.msg ++ x⟩

/-- Destructor `~ErrorReport()`: `if (condition) return; explode();`. The value
tells whether `explode()` is invoked. -/
def ErrorReport.invokesExplode (r : ErrorReport) : Bool :=
  if r.condition then false else true

/-- Macro `uassert(c)`. -/
def uassert (c : Bool) (conditionString : String) : ErrorReport :=
  ErrorReport.create c (some conditionString) ErrorKind.User false

/-- Macro `uwarning`: kind `User`, condition `false`, warning bit set. -/
def uwarning : ErrorReport :=
  ErrorReport.create false none ErrorKind.User true

/-! ## First assignments of the GPU backend (`src/gpu_backend/gpu_backend.cpp`) -/

/-- Modelled from the spec: `gpu_backend.h` is missing. What
`GPUBackend::emitFirstAssign` reads of the member `sharding`: the values of
`isSharded()` and `inShard()`. -/
structure GPUSharding where
  isSharded : Bool
  inShard : Bool
  deriving DecidableEq

/-- Method `GPUBackend::emitFirstAssign`. The base method
`LLVMBackend::emitFirstAssign`, whose file is missing, is the parameter `base`,
a change of the state `σ` of the backend that may fail. -/
def GPUBackend.emitFirstAssign {σ : Type} (base : Var → Expr → σ → Except ErrorReport σ)
    (sharding : GPUSharding) (var : Var) (value : Expr) (state : σ) : Except ErrorReport σ :=
  if sharding.isSharded && !sharding.inShard then
    .error not_supported_yet
  else
    base var value state

/-! ## Vocabulary of the lowered statements -/

mutual
/-- An expression with no `IndexExpr`, `IndexedTensor` or `TensorRead` node
anywhere in its tree. -/
def Expr.isLowered : Expr → Bool
  | .undefined => true
  | .literal _ _ => true
  | .varExpr _ => true
  | .fieldRead elementOrSet _ => elementOrSet.isLowered
  | .tensorRead _ _ => false
  | .tupleRead tuple index => tuple.isLowered && index.isLowered
  | .indexRead edgeSet _ => edgeSet.isLowered
  | .length _ => true
  | .load buffer index => buffer.isLowered && index.isLowered
  | .indexedTensor _ _ => false
  | .indexExpr _ _ => false
  | .call _ actuals => Expr.isLoweredList actuals
  | .unary _ a => a.isLowered
  | .binary _ a b => a.isLowered && b.isLowered
/-- The test `Expr.isLowered` on every expression of a list. -/
def Expr.isLoweredList : List Expr → Bool
  | [] => true
  | e :: es => e.isLowered && Expr.isLoweredList es
end

/-- A statement with no `IndexExpr`, `IndexedTensor`, `Map`, `TensorRead` or
`TensorWrite` node anywhere in its tree. -/
def Stmt.isLowered : Stmt → Bool
  | .undefined => true
  | .assignStmt _ value => value.isLowered
  | .map _ _ _ _ _ => false
  | .fieldWrite elementOrSet _ value => elementOrSet.isLowered && value.isLowered
  | .tensorWrite _ _ _ => false
  | .store buffer index value => buffer.isLowered && index.isLowered && value.isLowered
  | .varDecl _ => true
  | .block first rest => first.isLowered && rest.isLowered
  | .forRange _ start stop body => start.isLowered && stop.isLowered && body.isLowered
  | .forDomain _ _ body => body.isLowered
  | .whileLoop condition body => condition.isLowered && body.isLowered
  | .ifThenElse condition thenBody elseBody =>
    condition.isLowered && thenBody.isLowered && elseBody.isLowered
  | .comment _ commentedStmt => commentedStmt.isLowered
  | .pass => true

/-- A test on variables and literals: a variable, a literal, or a binary
operation of two such tests. -/
def isCoordinateTest : Expr → Bool
  | .varExpr _ => true
  | .literal _ _ => true
  | .binary _ a b => isCoordinateTest a && isCoordinateTest b
  | _ => false

/-- A statement that is a loop nest and nothing else: `For` and `While` loops,
blocks, comments, conditionals on coordinate tests, declarations, assignments
of one variable to another, and the undefined statement. It holds no
assignment of a literal or of an arithmetic expression, no write and no
store. -/
def isLoopNestOnly : Stmt → Bool
  | .undefined => true
  | .assignStmt _ (.varExpr _) => true
  | .varDecl _ => true
  | .block first rest => isLoopNestOnly first && isLoopNestOnly rest
  | .forDomain _ _ body => isLoopNestOnly body
  | .whileLoop condition body => isCoordinateTest condition && isLoopNestOnly body
  | .ifThenElse condition thenBody elseBody =>
    isCoordinateTest condition && isLoopNestOnly thenBody && isLoopNestOnly elseBody
  | .comment _ commentedStmt => isLoopNestOnly commentedStmt
  | _ => false

/-- The statement `s` is the nest of the loops of the variables `vars`, the
first outermost: a `For` over the variable, or a `While` whose body begins with
a commented statement that declares the variable and goes on with the rest of
the nest; the innermost body is the undefined statement. -/
inductive LoopNest : List Var → Stmt → Prop where
  | innermost : LoopNest [] .undefined
  | dense (var : Var) (vars : List Var) (domain : IndexSet) (body : Stmt) :
      LoopNest vars body → LoopNest (var :: vars) (.forDomain var domain body)
  | sparse (var : Var) (vars : List Var) (condition : Expr) (text : String)
      (minStmt body : Stmt) :
      declaredVars minStmt = [var] → LoopNest vars body →
      LoopNest (var :: vars) (.whileLoop condition (.block (.comment text minStmt) body))

/-- The statement `s` is the nest of the loops of `vars`, it is lowered, and it
is a loop nest only. -/
def Emitted (vars : List Var) (s : Stmt) : Prop :=
  LoopNest vars s ∧ s.isLowered = true ∧ isLoopNestOnly s = true

/-- The induction variable of the loop of an index variable: `Var(name, Int)`. -/
def inductionVarOf (indexVar : IndexVar) : Var := ⟨indexVar.name, LowerIndexExpressions.intType⟩

/-- The induction variable of every entry is the `Int` variable named after the
key. -/
def InductionVarsOk (inductionVars : InductionVars) : Prop :=
  ∀ e ∈ inductionVars, e.2.1 = some (inductionVarOf e.1)

/-- Every loop of the list is a dense loop of a source, or a sparse loop whose
parent has the variable of the loop among its sinks in the graph and is the
variable of an earlier loop of the list. -/
def LoopsOk (ivGraph : IndexVarGraph) (sources : List IndexVar) (loops : List Loop) : Prop :=
  ∀ pre l post, loops = pre ++ l :: post →
    (l = Loop.dense l.indexVar ∧ l.indexVar ∈ sources) ∨
    (∃ p sinks, l = Loop.sparse l.indexVar p ∧
      StdMap.find IndexVar.lt p ivGraph = some sinks ∧ l.indexVar ∈ sinks ∧
      ∃ l' ∈ pre, l'.indexVar = p)

/-- The loop lists that `createLoopNest` builds: the empty list, a list with a
dense loop of a source added at its end, and a list with a sparse loop added at
its end whose parent has the variable of the loop among its sinks in the graph
and is the variable of a loop of the list. -/
inductive LoopsBuilt (ivGraph : IndexVarGraph) (sources : List IndexVar) : List Loop → Prop where
  | nil : LoopsBuilt ivGraph sources []
  | dense (loops : List Loop) (indexVar : IndexVar) :
      LoopsBuilt ivGraph sources loops → indexVar ∈ sources →
      LoopsBuilt ivGraph sources (loops ++ [Loop.dense indexVar])
  | sparse (loops : List Loop) (indexVar parent : IndexVar) (sinks : List IndexVar) :
      LoopsBuilt ivGraph sources loops →
      StdMap.find IndexVar.lt parent ivGraph = some sinks → indexVar ∈ sinks →
      (∃ l ∈ loops, l.indexVar = parent) →
      LoopsBuilt ivGraph sources (loops ++ [Loop.sparse indexVar parent])

/-- What a call of the recursive `createLoopNest` keeps and adds: the loop list
stays one that `createLoopNest` builds, and the loops it had come first. -/
def Extends (ivGraph : IndexVarGraph) (sources : List IndexVar)
    (state state' : List IndexVar × List Loop) : Prop :=
  LoopsBuilt ivGraph sources state'.2 ∧ ∃ ext, state'.2 = state.2 ++ ext

/-! ## Concrete index expressions -/

/-- The index variable `i` over the range `[0,4)`. -/
def ivI : IndexVar := ⟨"i", ⟨[.range 4]⟩, ReductionOperator.Free⟩

/-- The index variable `j` over the range `[0,5)`. -/
def ivJ : IndexVar := ⟨"j", ⟨[.range 5]⟩, ReductionOperator.Free⟩

/-- The index variable `j` over the range `[0,5)`, summed. -/
def ivJSum : IndexVar := ⟨"j", ⟨[.range 5]⟩, ReductionOperator.Sum⟩

/-- The index variable `k` over the range `[0,6)`, summed. -/
def ivKSum : IndexVar := ⟨"k", ⟨[.range 6]⟩, ReductionOperator.Sum⟩

/-- A 4 by 5 element tensor type. -/
def matrix45 : Ty := .tensor ⟨ScalarKind.Float, [⟨[.range 4]⟩, ⟨[.range 5]⟩]⟩

/-- A 4 by 6 element tensor type. -/
def matrix46 : Ty := .tensor ⟨ScalarKind.Float, [⟨[.range 4]⟩, ⟨[.range 6]⟩]⟩

/-- A vector type of 4 components. -/
def vector4 : Ty := .tensor ⟨ScalarKind.Float, [⟨[.range 4]⟩]⟩

/-- The index expression of `C(i,j) = B(i,j) + A(i,j)`, with `A`, `B` dense
element tensors of shape 4 by 5. -/
def elementwiseAdd : IndexExpr :=
  ⟨[ivI, ivJ], .binary BinaryOp.Add (.indexedTensor (.varExpr ⟨"B", matrix45⟩) [ivI, ivJ])
    (.indexedTensor (.varExpr ⟨"A", matrix45⟩) [ivI, ivJ])⟩

/-- The statement that `lower` returns for `elementwiseAdd`: a `For` over `i`
around a `While` for `j`. -/
def elementwiseAddLowered : Stmt :=
  .forDomain ⟨"i", LowerIndexExpressions.intType⟩ (.range 4)
    (.whileLoop
      (.binary BinaryOp.And
        (LowerIndexExpressions.compareToIndex ⟨"ijB", LowerIndexExpressions.intType⟩)
        (LowerIndexExpressions.compareToIndex ⟨"ijA", LowerIndexExpressions.intType⟩))
      (.block
        (.comment "j = min(ijB, ijA)"
          (.block (.varDecl ⟨"j", LowerIndexExpressions.intType⟩)
            (.ifThenElse
              (.binary BinaryOp.Le (.varExpr ⟨"ijB", LowerIndexExpressions.intType⟩)
                (.varExpr ⟨"ijA", LowerIndexExpressions.intType⟩))
              (.assignStmt ⟨"j", LowerIndexExpressions.intType⟩
                (.varExpr ⟨"ijB", LowerIndexExpressions.intType⟩))
              (.assignStmt ⟨"j", LowerIndexExpressions.intType⟩
                (.varExpr ⟨"ijA", LowerIndexExpressions.intType⟩)))))
        .undefined))

/-- The index expression of `z(i) = A(i,j) * B(i,k)`, with `j` and `k`
summed: `i` has the two neighbours `j` and `k` in the index-variable graph. -/
def twoReductions : IndexExpr :=
  ⟨[ivI], .binary BinaryOp.Mul (.indexedTensor (.varExpr ⟨"A", matrix45⟩) [ivI, ivJSum])
    (.indexedTensor (.varExpr ⟨"B", matrix46⟩) [ivI, ivKSum])⟩

/-- The index-variable graph of `twoReductions`. -/
def twoReductionsGraph : IndexVarGraph :=
  [(ivI, [ivJSum, ivKSum]), (ivJSum, [ivI]), (ivKSum, [ivI])]

/-- The statement that `lower` returns for `twoReductions`: the `For` over `i`
holds the `While` for `j`, which holds the `While` for `k`. -/
def twoReductionsLowered : Stmt :=
  .forDomain ⟨"i", LowerIndexExpressions.intType⟩ (.range 4)
    (.whileLoop (LowerIndexExpressions.compareToIndex ⟨"ijA", LowerIndexExpressions.intType⟩)
      (.block
        (.comment "j = min(ijA)"
          (.block (.varDecl ⟨"j", LowerIndexExpressions.intType⟩)
            (.assignStmt ⟨"j", LowerIndexExpressions.intType⟩
              (.varExpr ⟨"ijA", LowerIndexExpressions.intType⟩))))
        (.whileLoop
          (LowerIndexExpressions.compareToIndex ⟨"ikB", LowerIndexExpressions.intType⟩)
          (.block
            (.comment "k = min(ikB)"
              (.block (.varDecl ⟨"k", LowerIndexExpressions.intType⟩)
                (.assignStmt ⟨"k", LowerIndexExpressions.intType⟩
                  (.varExpr ⟨"ikB", LowerIndexExpressions.intType⟩))))
            .undefined))))


/-! ## Vocabulary of the ordered maps -/

/-- The properties of `operator<` that `std::map` and `std::set` rely on: a
strict order that respects the equivalence of keys. -/
structure StdOrder {K : Type} (lt : K → K → Bool) : Prop where
  irrefl : ∀ a, lt a a = false
  trans : ∀ a b c, lt a b = true → lt b c = true → lt a c = true
  congr_left : ∀ a b c, stdEquiv lt a b = true → lt a c = lt b c
  congr_right : ∀ a b c, stdEquiv lt b c = true → lt a b = lt a c

/-- The keys of the entries of a map ascend. -/
def StdMap.Sorted {K V : Type} (lt : K → K → Bool) (m : StdMap K V) : Prop :=
  m.Pairwise (fun e1 e2 => lt e1.1 e2.1 = true)

/-- The adjacency list of a variable in the graph, `ivGraph.at(a)`, empty when
the variable is no vertex. -/
def adjacency (ivGraph : IndexVarGraph) (a : IndexVar) : List IndexVar :=
  (StdMap.find IndexVar.lt a ivGraph).getD []

/-- The pairs of positions `(i, j)` that the two loops of `createIndexVarGraph`
visit over a tuple of `size` variables, in the order of the visit. -/
def loopPairs (size : Nat) : List (Nat × Nat) :=
  (List.range (LowerIndexExpressions.sizeMinusOne size)).flatMap (fun i =>
    (List.range' (i + 1) (size - (i + 1))).map (fun j => (i, j)))

/-- The pairs of positions `(i, j)` with `i < j < size`, ascending in `i` and
then in `j`. -/
def positionPairs (size : Nat) : List (Nat × Nat) :=
  (List.range size).flatMap (fun i => (List.range' (i + 1) (size - (i + 1))).map (fun j => (i, j)))

/-- What the pair of positions `p` of the tuple `it` adds to the adjacency list
of the variable `a`: the variable at the other position, when `a` stands at one
of the two. -/
def contributions (it : IndexTuple) (a : IndexVar) (p : Nat × Nat) : List IndexVar :=
  match it.get? p.1, it.get? p.2 with
  | some x, some y =>
    (if x.name = a.name then [y] else []) ++ (if y.name = a.name then [x] else [])
  | _, _ => []

/-- The neighbours of `a` listed tuple by tuple in the order of the entries of
the map, and within a tuple in the order of the pairs of positions. -/
def neighbours (indexTupleUses : IndexTupleUses) (a : IndexVar) : List IndexVar :=
  indexTupleUses.flatMap (fun itu => (positionPairs itu.1.length).flatMap (contributions itu.1 a))

/-- The variable `b` is adjacent to `a` in the graph: the adjacency list of `a`
holds it. -/
def Adjacent (ivGraph : IndexVarGraph) (a b : IndexVar) : Prop :=
  ∃ b', b'.name = b.name ∧ b' ∈ adjacency ivGraph a

/-- The index expression of `z(i) = B(i,k) * A(i,j)`: the tuple `(i,k)` appears
before the tuple `(i,j)`. -/
def reversedReductions : IndexExpr :=
  ⟨[ivI], .binary BinaryOp.Mul (.indexedTensor (.varExpr ⟨"B", matrix46⟩) [ivI, ivKSum])
    (.indexedTensor (.varExpr ⟨"A", matrix45⟩) [ivI, ivJSum])⟩

/-- Depth-first preorder of the graph: `DepthFirst ivGraph todo visited order`
says that visiting the variables of `todo` from the left, with `visited`
already seen, lists `order`. A variable already seen is skipped; another one is
listed, and its neighbours are visited in the order of its adjacency list
before the rest of `todo`. -/
inductive DepthFirst (ivGraph : IndexVarGraph) :
    List IndexVar → List IndexVar → List IndexVar → Prop
  | done (visited : List IndexVar) : DepthFirst ivGraph [] visited []
  | skip (v : IndexVar) (todo visited order : List IndexVar) :
      stdSetContains IndexVar.lt visited v = true →
      DepthFirst ivGraph todo visited order →
      DepthFirst ivGraph (v :: todo) visited order
  | visit (v : IndexVar) (todo visited order : List IndexVar) :
      stdSetContains IndexVar.lt visited v = false →
      DepthFirst ivGraph (adjacency ivGraph v ++ todo) (v :: visited) order →
      DepthFirst ivGraph (v :: todo) visited (v :: order)

/-- A run of the traversal from one variable lists the depth-first preorder of
its neighbours. -/
def ListsPreorder (ivGraph : IndexVarGraph)
    (run : IndexVar → List IndexVar × List Loop → Except Failure (List IndexVar × List Loop)) :
    Prop :=
  ∀ v state state', run v state = .ok state' →
    ∃ new, state'.2 = state.2 ++ new ∧
      ∀ todo order, DepthFirst ivGraph todo state'.1 order →
        DepthFirst ivGraph (adjacency ivGraph v ++ todo) state.1
          (new.map (fun l => l.indexVar) ++ order)

/-- The statement is the nest of the loops of the list, the first outermost. A
`Dense` loop is a `For` over the induction variable of the loop and the first
index set of the domain of its index variable, around the nest of the rest; a
`Sparse` loop is a `While` whose body holds the nest of the rest after one
statement; the innermost body is the undefined statement. -/
inductive NestOfLoops : List Loop → Stmt → Prop where
  | innermost : NestOfLoops [] .undefined
  | dense (loop : Loop) (loops : List Loop) (domain : IndexSet) (body : Stmt) :
      loop.type = LoopType.Dense →
      loop.indexVar.domain.indexSets.head? = some domain →
      NestOfLoops loops body →
      NestOfLoops (loop :: loops) (.forDomain (inductionVarOf loop.indexVar) domain body)
  | sparse (loop : Loop) (loops : List Loop) (condition : Expr) (minStmt body : Stmt) :
      loop.type = LoopType.Sparse →
      NestOfLoops loops body →
      NestOfLoops (loop :: loops) (.whileLoop condition (.block minStmt body))

/-- The operands of a conjunction, from the left. -/
def conjuncts : Expr → List Expr
  | .binary BinaryOp.And a b => conjuncts a ++ conjuncts b
  | e => [e]

/-- The induction variables that `createInductionVariables` builds for the
loops of `C(i,j) = B(i,j) + A(i,j)`. -/
def elementwiseAddInductionVars : InductionVars :=
  [(ivI, (some ⟨"i", LowerIndexExpressions.intType⟩, [])),
   (ivJ, (some ⟨"j", LowerIndexExpressions.intType⟩,
     [⟨"ijB", LowerIndexExpressions.intType⟩, ⟨"ijA", LowerIndexExpressions.intType⟩]))]

/-! ## The meaning of the statements of `computeMin` -/

/-- A valuation of the `Int` variables. -/
abbrev Valuation := Var → Int

/-- The valuation after the assignment of `value` to `var`. -/
def Valuation.set (env : Valuation) (var : Var) (value : Int) : Valuation :=
  fun v => if v = var then value else env v

/-- Modelled from the spec: the source holds no interpreter of the IR. The
value of an operand of the statements that `computeMin` builds, a reference to
a variable. -/
def evalOperand (env : Valuation) : Expr → Option Int
  | .varExpr v => some (env v)
  | _ => none

/-- Modelled from the spec: the source holds no interpreter of the IR. The
value of a test of the statements that `computeMin` builds: `a < b` or
`a <= b`. -/
def evalTest (env : Valuation) : Expr → Option Bool
  | .binary BinaryOp.Lt a b =>
    match evalOperand env a, evalOperand env b with
    | some x, some y => some (decide (x < y))
    | _, _ => none
  | .binary BinaryOp.Le a b =>
    match evalOperand env a, evalOperand env b with
    | some x, some y => some (decide (x ≤ y))
    | _, _ => none
  | _ => none

/-- Modelled from the spec: the source holds no interpreter of the IR. The
execution of the statements that `computeMin` builds: a declaration leaves the
valuation as it is, an assignment sets the variable, a block runs its
statements in order, a conditional runs the branch that its test selects, a
comment runs the statement that it holds, and the undefined statement, which
stands for an absent `else` branch, does nothing. Another statement has no
meaning here. -/
def execute : Stmt → Valuation → Option Valuation
  | .undefined, env => some env
  | .varDecl _, env => some env
  | .assignStmt var value, env =>
    match evalOperand env value with
    | some x => some (env.set var x)
    | none => none
  | .block first rest, env =>
    match execute first env with
    | some env1 => execute rest env1
    | none => none
  | .ifThenElse condition thenBody elseBody, env =>
    match evalTest env condition with
    | some true => execute thenBody env
    | some false => execute elseBody env
    | none => none
  | .comment _ commentedStmt, env => execute commentedStmt env
  | _, _ => none

/-- The value `x` is the value of the left-most variable of `vars` that attains
the minimum: the variables before it have a greater value, the variables after
it a value that is not smaller. -/
def LeftmostMin (env : Valuation) (vars : List Var) (x : Int) : Prop :=
  ∃ pre c post, vars = pre ++ c :: post ∧ x = env c ∧
    (∀ y ∈ pre, env c < env y) ∧ (∀ y ∈ post, env c ≤ env y)

/-- One round of the chain of `computeMin`: `if (v < var) var = v`. -/
def minStep (var : Var) (env : Valuation) (v : Var) : Valuation :=
  if env v < env var then env.set var (env v) else env

/-- The variable `c` is the coordinate variable of the use `use` of a tensor:
an `Int` variable named by the names of the index variables of the use, one
after the other, followed by the name of the tensor. -/
def CoordinateVarOf (use : IndexedTensor) (c : Var) : Prop :=
  ∃ tensor, use.tensor = .varExpr tensor ∧
    c = ⟨LowerIndexExpressions.join (use.indexVars.map (fun v => v.name)) "" ++ tensor.name,
      LowerIndexExpressions.intType⟩

/-- The entry of a loop in the induction variables: the induction variable is
the `Int` variable named after the index variable of the loop; a `Dense` loop
has no coordinate variable; a `Sparse` loop has one coordinate variable for
every use of its index variable in `indexUses`, in the order of the uses. -/
def LoopVarsOk (indexUses : IndexUses) (loop : Loop) (entry : Option Var × List Var) : Prop :=
  entry.1 = some ⟨loop.indexVar.name, LowerIndexExpressions.intType⟩ ∧
  (loop.type = LoopType.Dense → entry.2 = []) ∧
  (loop.type = LoopType.Sparse → ∃ uses,
    StdMap.at IndexVar.lt loop.indexVar indexUses = .ok uses ∧
    List.Forall₂ CoordinateVarOf uses entry.2)

/-- The loops of the state have index variables of different names, all of
them visited. -/
def LoopsDistinct (state : List IndexVar × List Loop) : Prop :=
  (∀ l ∈ state.2, stdSetContains IndexVar.lt state.1 l.indexVar = true) ∧
  state.2.Pairwise (fun a b => a.indexVar.name ≠ b.indexVar.name)

/-- The state of `createInductionVariables` after the loops `done`: the keys of
the map are the variables of these loops, and every one of them has its
entry. -/
def InductionVarsBuilt (indexUses : IndexUses) (done : List Loop)
    (inductionVars : InductionVars) : Prop :=
  StdMap.Sorted IndexVar.lt inductionVars ∧
  (∀ a entry, StdMap.find IndexVar.lt a inductionVars = some entry →
    ∃ l ∈ done, l.indexVar.name = a.name) ∧
  ∀ l ∈ done, ∃ entry, StdMap.find IndexVar.lt l.indexVar inductionVars = some entry ∧
    LoopVarsOk indexUses l entry

/-- The index variable `i` over the range `[0,4)`, summed. -/
def ivISum : IndexVar := ⟨"i", ⟨[.range 4]⟩, ReductionOperator.Sum⟩

/-- The index expression of `y(i) = x(i)`, a copy of a vector: every subscript
has one index variable. -/
def vectorCopy : IndexExpr :=
  ⟨[ivI], .indexedTensor (.varExpr ⟨"x", vector4⟩) [ivI]⟩

/-- The index expression of `alpha = A(i,j) * B(i,j)` with `i` and `j` summed:
a reduction to a scalar, without result variable. -/
def fullReduction : IndexExpr :=
  ⟨[], .binary BinaryOp.Mul (.indexedTensor (.varExpr ⟨"A", matrix45⟩) [ivISum, ivJSum])
    (.indexedTensor (.varExpr ⟨"B", matrix45⟩) [ivISum, ivJSum])⟩

/-- A valuation of three coordinate variables: `ijA` is 7, `ijB` and `ijC` are
3, every other variable is 0. -/
def coordinateValues : Valuation := fun v =>
  if v.name = "ijA" then 7 else if v.name = "ijB" then 3 else if v.name = "ijC" then 3 else 0

/-- The names of the variables in the adjacency lists of the graph, one for
every edge end. -/
def sinkNames (ivGraph : IndexVarGraph) : List String :=
  ivGraph.flatMap (fun e => e.2.map (fun v => v.name))

/-- The number of edge ends of the graph whose variable is not visited: every
recursive call of `createLoopNest` lowers it. -/
def unvisited (ivGraph : IndexVarGraph) (visited : List IndexVar) : Nat :=
  ((sinkNames ivGraph).filter
    (fun n => decide (n ∉ visited.map (fun v => v.name)))).length


/-- The `else` branch of `computeMin`, built for any list of variables: the
general chain `var = vars[0]` followed by one conditional per later variable.
The read `vars[0]` of an empty list is undefined behaviour. -/
def computeMinGeneral (var : Var) : List Var → Except Failure Stmt
  | v0 :: vs =>
    pure (LowerIndexExpressions.computeMinChain var
      (.block (.varDecl var) (.assignStmt var (.varExpr v0))) vs)
  | [] => .error Failure.undefinedBehaviour

/-- A valuation of two coordinate variables: `ijA` is 7, `ijB` is 3, every
other variable is 0. -/
def twoCoordinateValues : Valuation := fun v =>
  if v.name = "ijA" then 7 else if v.name = "ijB" then 3 else 0

/-- The variable is a vertex of the graph: `ivGraph.at(v)` finds it. -/
def isVertex (ivGraph : IndexVarGraph) (v : IndexVar) : Bool :=
  (StdMap.find IndexVar.lt v ivGraph).isSome

/-- Every variable of an adjacency list of the graph is a vertex. -/
def GraphClosed (ivGraph : IndexVarGraph) : Prop :=
  ∀ e ∈ ivGraph, ∀ b ∈ e.2, isVertex ivGraph b = true

/-- The names of the vertices of the graph, each once. -/
def vertexNames (ivGraph : IndexVarGraph) : List String :=
  (ivGraph.map (fun e => e.1.name)).dedup

/-- The number of vertices of the graph. -/
def vertexCount (ivGraph : IndexVarGraph) : Nat := (vertexNames ivGraph).length

/-- The number of vertices that are not visited. -/
def unvisitedVertices (ivGraph : IndexVarGraph) (visited : List IndexVar) : Nat :=
  ((vertexNames ivGraph).filter
    (fun n => decide (n ∉ visited.map (fun v => v.name)))).length

/-- The index expression of `d(i) = A(i,i)`: the diagonal of a matrix. -/
def diagonalUse : IndexExpr :=
  ⟨[ivI], .indexedTensor (.varExpr ⟨"A", matrix45⟩) [ivI, ivI]⟩

/-- The graph of `d(i) = A(i,i)`: the vertex `i` with two edges to itself. -/
def selfLoopGraph : IndexVarGraph := [(ivI, [ivI, ivI])]

/-! ## Printing of literals (`src/ir_printer.cpp`) -/

/-- Modelled from the spec: the `ir.h` that the printer was written against is
missing. The kinds of types that `IRPrinter::visit(const Literal*)` switches
over. -/
inductive PrintedTypeKind where
  | Scalar
  | Tensor
  | Element
  | Set
  | Tuple
  deriving DecidableEq

/-- Modelled from the spec: the `ir.h` that the printer was written against is
missing. What `IRPrinter::visit(const Literal*)` reads of a literal: the kind of
its type, the number of components `type->size()` of a tensor type, the kind of
its components, and its data, read as `int` or as `double` values; `D` stands
for `double`. -/
structure PrintedLiteral (D : Type) where
  kind : PrintedTypeKind
  size : Nat
  componentType : ScalarKind
  idata : List Int
  fdata : List D

/-- The two library functions that print a `double`: `operator<<` of the
stream and `std::to_string`. -/
structure DoubleFormat (D : Type) where
  stream : D → String
  to_string : D → String

/-- The read `data[i]` of the data of a literal: outside the data it is
undefined behaviour. -/
def dataGet {α : Type} (data : List α) (i : Nat) : Except Failure α :=
  match data.get? i with
  | some c => .ok c
  | none => .error Failure.undefinedBehaviour

/-- Method `IRPrinter::visit(const Literal *op)`: the text of the stream `os`
after the call. The macro `NOT_SUPPORTED_YET` is taken as `not_supported_yet`
of `error.h`, which raises. -/
def printLiteral {D : Type} (fmt : DoubleFormat D) (os : String) (op : PrintedLiteral D) :
    Except Failure String := do
  let os ←
    match op.kind with
    | .Scalar | .Tensor => do
      let size := if op.kind = PrintedTypeKind.Scalar then 1 else op.size
      match op.componentType with
      | .Int =>
        if size = 1 then do
          let c0 ← dataGet op.idata 0
          pure (os ++ toString c0)
        else do
          let c0 ← dataGet op.idata 0
          let os := os ++ "[" ++ toString c0
          let os ← (List.range size).foldlM (fun os i => do
            let ci ← dataGet op.idata i
            pure (os ++ ", " ++ toString ci)) os
          pure (os ++ "]")
      | .Float =>
        if size = 1 then do
          let f0 ← dataGet op.fdata 0
          pure (os ++ fmt.stream f0)
        else do
          let f0 ← dataGet op.fdata 0
          let os := os ++ "[" ++ fmt.to_string f0
          let os ← (List.range' 1 (size - 1)).foldlM (fun os i => do
            let fi ← dataGet op.fdata i
            pure (os ++ (", " ++ fmt.to_string fi))) os
          pure (os ++ "]")
      | _ => pure os
    | .Element => Except.error (Failure.report not_supported_yet)
    | .Set => Except.error (Failure.report not_supported_yet)
    | .Tuple => Except.error (Failure.report not_supported_yet)
  pure (os ++ "\n")

/-- A format of `double` values that are given by their text. -/
def textFormat : DoubleFormat String := ⟨fun s => s, fun s => s⟩

/-- The `int` tensor literal with the two components 1 and 2. -/
def intPair : PrintedLiteral String := ⟨.Tensor, 2, .Int, [1, 2], []⟩

/-- The `double` tensor literal with the two components 1.5 and 2.5. -/
def floatPair : PrintedLiteral String := ⟨.Tensor, 2, .Float, [], ["1.500000", "2.500000"]⟩

/-! ## The exception with context (`src/error.h`) -/

/-- Class `CutOffStreambuf`: the text of the destination buffer `dest` and the
two flags. -/
structure CutOffStreambuf where
  dest : String
  cutoff : Bool
  cutoffEnabled : Bool
  deriving DecidableEq

/-- Method `CutOffStreambuf::overflow(int c)`, with `none` for `EOF`: the
buffer after the call and the value returned. With `cutoff` set, control
reaches the end of the function, which returns `int`, without a `return`:
undefined behaviour. -/
def CutOffStreambuf.overflow (b : CutOffStreambuf) (c : Option Char) :
    Except Failure (CutOffStreambuf × Option Char) :=
  match c with
  | none => .ok (b, none)
  | some ch =>
    if !b.cutoff then
      if b.cutoffEnabled && ch = '\n' then
        .ok (⟨b.dest ++ " [...]", true, b.cutoffEnabled⟩, some ch)
      else
        .ok (⟨b.dest.push ch, b.cutoff, b.cutoffEnabled⟩, some ch)
    else .error Failure.undefinedBehaviour

/-- Method `CutOffStreambuf::setCutoff(bool enabled)`. -/
def CutOffStreambuf.setCutoff (b : CutOffStreambuf) (enabled : Bool) : CutOffStreambuf :=
  ⟨b.dest, false, if enabled then true else false⟩

/-- The insertion `errStream << str` of a string into the stream over the
buffer: the buffer has no put area, so every character goes through
`overflow`. In a run without undefined behaviour `overflow` never returns `EOF`
for a character, so the stream stays good. -/
def CutOffStreambuf.write (b : CutOffStreambuf) (str : String) : Except Failure CutOffStreambuf :=
  str.data.foldlM (fun b ch => do
    let r ← b.overflow (some ch)
    pure r.1) b

/-- Class `SimitException`: `errString` is the destination of `errStreambuf`,
which `errStream` writes to. -/
structure SimitException where
  errStreambuf : CutOffStreambuf
  deriving DecidableEq

/-- Constructor `SimitException()`. -/
def SimitException.new : SimitException := ⟨⟨"", false, false⟩⟩

/-- Method `SimitException::what()`: the text of `errString`. -/
def SimitException.what (e : SimitException) : String := e.errStreambuf.dest

/-- The insertion `e.errStream << str`. -/
def SimitException.stream (e : SimitException) (str : String) : Except Failure SimitException := do
  let b ← e.errStreambuf.write str
  pure ⟨b⟩

/-- Method `SimitException::addContext(std::string contextDesc)`; `std::endl`
writes a newline and flushes, and the flush of this buffer does nothing. -/
def SimitException.addContext (e : SimitException) (contextDesc : String) :
    Except Failure SimitException := do
  let b := e.errStreambuf.setCutoff false
  let b ← b.write "\n"
  let b := b.setCutoff true
  let b ← b.write contextDesc
  pure ⟨b⟩

/-- The texts of the list, one after the other. -/
def concatTexts : List String → String
  | [] => ""
  | s :: ss => s ++ concatTexts ss


/-! ## The traversal of `createLoopNest`, with the loops it records -/

/-- The loop that `createLoopNest` records for a variable: `Loop(source)`, a
`Dense` loop, for a variable taken from the sources (no parent), and
`Loop(sink, source)`, a `Sparse` loop, for a variable reached as a sink of
`parent`. -/
def loopOf (indexVar : IndexVar) : Option IndexVar → Loop
  | none => Loop.dense indexVar
  | some parent => Loop.sparse indexVar parent

/-- Depth-first traversal of the graph with the loops it records:
`DepthFirstLoops ivGraph todo visited loops` says that visiting the entries of
`todo` from the left, with `visited` already seen, records `loops`. An entry is
a variable with the variable it is reached from: none for a source, the
variable whose sinks are being visited for a sink. A variable already seen is
skipped; another one gets its loop, `Dense` without parent for a source and
`Sparse` with the variable it is reached from as parent for a sink, and its own
sinks are visited, in the order of its adjacency list, before the rest of
`todo`. -/
inductive DepthFirstLoops (ivGraph : IndexVarGraph) :
    List (IndexVar × Option IndexVar) → List IndexVar → List Loop → Prop
  | done (visited : List IndexVar) : DepthFirstLoops ivGraph [] visited []
  | skip (v : IndexVar) (parent : Option IndexVar) (todo : List (IndexVar × Option IndexVar))
      (visited : List IndexVar) (loops : List Loop) :
      stdSetContains IndexVar.lt visited v = true →
      DepthFirstLoops ivGraph todo visited loops →
      DepthFirstLoops ivGraph ((v, parent) :: todo) visited loops
  | visit (v : IndexVar) (parent : Option IndexVar) (todo : List (IndexVar × Option IndexVar))
      (visited : List IndexVar) (loops : List Loop) :
      stdSetContains IndexVar.lt visited v = false →
      DepthFirstLoops ivGraph ((adjacency ivGraph v).map (fun s => (s, some v)) ++ todo)
        (v :: visited) loops →
      DepthFirstLoops ivGraph ((v, parent) :: todo) visited (loopOf v parent :: loops)

/-- A run of the traversal from one variable records the loops of the
depth-first traversal of its sinks. -/
def ListsLoops (ivGraph : IndexVarGraph)
    (run : IndexVar → List IndexVar × List Loop → Except Failure (List IndexVar × List Loop)) :
    Prop :=
  ∀ v state state', run v state = .ok state' →
    ∃ new, state'.2 = state.2 ++ new ∧
      ∀ todo loops, DepthFirstLoops ivGraph todo state'.1 loops →
        DepthFirstLoops ivGraph ((adjacency ivGraph v).map (fun s => (s, some v)) ++ todo)
          state.1 (new ++ loops)

/-- The index variable `k`, free, over the range `[0,6)`. -/
def ivK : IndexVar := ⟨"k", ⟨[.range 6]⟩, ReductionOperator.Free⟩

/-- A triangle: `i`, `j` and `k`, each a neighbour of the two others. -/
def triangleGraph : IndexVarGraph :=
  [(ivI, [ivJ, ivK]), (ivJ, [ivI, ivK]), (ivK, [ivI, ivJ])]

/-! ## The build without `SIMIT_ASSERTS` (`src/error.h`, `src/storage.cpp`,
`src/gpu_backend/gpu_backend.cpp`)

The same functions as above in the `#else` expansion of `iassert` and `ierror`
(`error.h`, lines 260 to 273). In this build no `iassert`, `ierror` or
`not_supported_yet` raises anything, so what can end a call is a value of
`Failure`. -/

namespace NoAsserts

/-- Macro `iassert(c) << msg` when `SIMIT_ASSERTS` is not defined: it expands to
`simit::internal::Dummy()`, which does not evaluate `c`, drops what is streamed
into it and raises nothing. -/
def iassert (_c : Bool) (_conditionString : String) (_msg : String) : Except Failure Unit :=
  .ok ()

/-- Macro `ierror << msg` when `SIMIT_ASSERTS` is not defined: it expands to
`simit::internal::Dummy()`, which drops what is streamed into it and raises
nothing. -/
def ierror (_msg : String) : Except Failure Unit :=
  .ok ()

/-- Macro `not_supported_yet`, that is
`ierror << "Not supported yet, but planned for the future\n "`, when
`SIMIT_ASSERTS` is not defined: a statement without effect. -/
def not_supported_yet : Except Failure Unit :=
  ierror "Not supported yet, but planned for the future\n "

/-- Method `TensorStorage::isSystem()`: in the `Undefined` case the `ierror` is
without effect and control leaves the `switch` to `return false`. -/
def TensorStorage.isSystem (ts : TensorStorage) : Bool :=
  match ts.getKind with
  | .DenseRowMajor => false
  | .SystemNone => true
  | .SystemReduced => true
  | .SystemDiagonal => true
  | .Undefined => false

/-- Method `TensorStorage::getSystemTargetSet()`: the field, whatever the kind. -/
def TensorStorage.getSystemTargetSet (ts : TensorStorage) : Except Failure Expr := do
  iassert (TensorStorage.isSystem ts) "isSystem()"
    "System storages require the target set be provided"
  return ts.systemTargetSet

/-- Method `TensorStorage::getSystemStorageSet()`: the field, whatever the kind. -/
def TensorStorage.getSystemStorageSet (ts : TensorStorage) : Except Failure Expr := do
  iassert (TensorStorage.isSystem ts) "isSystem()"
    "System storages require the storage set be provided"
  return ts.systemStorageSet

/-- Method `Storage::get`: after the `iassert` without effect,
`content->storage.at(tensor)`, which throws `std::out_of_range` for a variable
without entry. -/
def Storage.get (st : Storage) (tensor : Var) : Except Failure TensorStorage := do
  iassert (st.hasStorage tensor) "hasStorage(tensor)"
    ("no storage specified for tensor" ++ tensor.name)
  match Storage.find st tensor with
  | some s => .ok s
  | none => .error Failure.outOfRange

/-- Method `GetStorageVisitor::determineStorage(Var var, bool initialize)`; the
parameter `initialize` is `needsInit` here. The local `tensorStorage` starts as
`TensorStorage()`, of kind `Undefined`, and stays so in the branch of
`not_supported_yet`. `Type::toTensor()` is defined on tensor types only: its use
on another type is the value `Failure.undefinedBehaviour`. -/
def determineStorage (storage : Storage) (var : Var) (needsInit : Bool) :
    Except Failure Storage :=
  -- Scalars don't need storage
  if isScalar var.type then .ok storage
  else do
    iassert var.type.isTensor "type.isTensor()" ""
    match var.type.toTensor with
    | none => .error Failure.undefinedBehaviour
    | some ttype =>
      let tensorStorage ←
        -- Element tensors are dense. In addition vectors are always dense.
        if isElementTensorType ttype || ttype.order == 1 then
          pure (TensorStorage.ofKind StorageKind.DenseRowMajor needsInit)
        else do
          not_supported_yet
          pure TensorStorage.undefinedStorage
      iassert (tensorStorage.getKind != StorageKind.Undefined)
        "tensorStorage.getKind() != TensorStorage::Undefined" ""
      return storage.add var tensorStorage

/-- The loop `for (auto v : leafVars.vars)` of
`GetStorageVisitor::determineStorage(Var var, bool initialize, Expr rhs)`. -/
def determineStorageLeaves (var : Var) : List Var → Storage → Except Failure Storage
  | [], storage => .ok storage
  | v :: vs, storage =>
    if storage.hasStorage v then do
      let varStorage ← Storage.get storage v
      if varStorage.getKind = StorageKind.SystemReduced then do
        let targetSet ← TensorStorage.getSystemTargetSet varStorage
        let storageSet ← TensorStorage.getSystemStorageSet varStorage
        let tensorStorage := TensorStorage.systemReduced targetSet storageSet
        determineStorageLeaves var vs (storage.add var tensorStorage)
      else determineStorageLeaves var vs storage
    else determineStorageLeaves var vs storage

/-- Method `GetStorageVisitor::determineStorage(Var var, bool initialize, Expr rhs)`;
the parameter `initialize` is not read by the body. -/
def determineStorageRhs (storage : Storage) (var : Var) (_needsInit : Bool) (rhs : Expr) :
    Except Failure Storage :=
  determineStorageLeaves var (leafVars rhs []) storage

/-- Method `GetStorageVisitor::visit(const VarDecl *op)`: the `iassert` on a
redeclaration is without effect. -/
def visitVarDecl (storage : Storage) (var : Var) : Except Failure Storage := do
  iassert (!storage.hasStorage var) "!storage->hasStorage(var)" "Redeclaration of variable"
  if var.type.isTensor && !isScalar var.type then
    determineStorage storage var true
  else
    return storage

/-- Method `GetStorageVisitor::visit(const AssignStmt *op)`. -/
def visitAssignStmt (storage : Storage) (var : Var) (value : Expr) :
    Except Failure Storage :=
  if var.type.isTensor && !isScalar var.type && !storage.hasStorage var then do
    iassert var.type.isTensor "type.isTensor()" ""
    match var.type.toTensor with
    | none => .error Failure.undefinedBehaviour
    | some ttype =>
      if !isElementTensorType ttype && ttype.order > 1 then
        -- assume system reduced storage
        determineStorageRhs storage var (!value.isLiteral) value
      else
        let needsInitialization := !value.isLiteral
        determineStorage storage var needsInitialization
  else
    .ok storage

/-- Method `GetStorageVisitor::visit(const TensorWrite *op)`; the call
`determineStorage(var)` takes the default `initialize=true`. -/
def visitTensorWrite (storage : Storage) (tensor : Expr) : Except Failure Storage :=
  match tensor.toVarExpr with
  | some var =>
    if var.type.isTensor && !isScalar var.type && !storage.hasStorage var then
      determineStorage storage var true
    else
      .ok storage
  | none => .ok storage

/-- Method `GetStorageVisitor::visit(const Map *op)`: the loop over `op->vars`. -/
def visitMap (target neighbors : Expr) : List Var → Storage → Except Failure Storage
  | [], storage => .ok storage
  | var :: vars, storage =>
    if var.type.isTensor && !isScalar var.type && !storage.hasStorage var then
      match var.type.toTensor with
      | none => .error Failure.undefinedBehaviour
      | some tensorType => do
        let tensorStorage := mapResultStorage tensorType target neighbors
        iassert (tensorStorage.getKind != StorageKind.Undefined)
          "tensorStorage.getKind() != TensorStorage::Undefined" ""
        visitMap target neighbors vars (storage.add var tensorStorage)
    else
      visitMap target neighbors vars storage

/-- The traversal `stmt.accept(this)` of `GetStorageVisitor`, as `Simit.visitStmt`
with the four hooks of this build. -/
def visitStmt : Stmt → Storage → Except Failure Storage
  | .undefined, storage => .ok storage
  | .assignStmt var value, storage => visitAssignStmt storage var value
  | .map vars _ target neighbors _, storage => visitMap target neighbors vars storage
  | .fieldWrite _ _ _, storage => .ok storage
  | .tensorWrite tensor _ _, storage => visitTensorWrite storage tensor
  | .store _ _ _, storage => .ok storage
  | .varDecl var, storage => visitVarDecl storage var
  | .block first rest, storage => do
    let storage ← visitStmt first storage
    visitStmt rest storage
  | .forRange _ _ _ body, storage => visitStmt body storage
  | .forDomain _ _ body, storage => visitStmt body storage
  | .whileLoop _ body, storage => visitStmt body storage
  | .ifThenElse _ thenBody elseBody, storage => do
    let storage ← visitStmt thenBody storage
    visitStmt elseBody storage
  | .comment _ commentedStmt, storage => visitStmt commentedStmt storage
  | .pass, storage => .ok storage

/-- The three loops of `GetStorageVisitor::get(Func)`: a tensor variable gets
`determineStorage(var, false)`. -/
def determineStorageVars : List Var → Storage → Except Failure Storage
  | [], storage => .ok storage
  | var :: vars, storage =>
    if var.type.isTensor then do
      let storage ← determineStorage storage var false
      determineStorageVars vars storage
    else
      determineStorageVars vars storage

/-- Function `updateStorage(const Func &func, Storage *storage)`, that is
`GetStorageVisitor(storage).get(func)`: globals, arguments, results, body. -/
def updateStorage (func : Func) (storage : Storage) : Except Failure Storage := do
  let storage ← determineStorageVars (func.getGlobals.map Prod.fst) storage
  let storage ← determineStorageVars func.getArguments storage
  let storage ← determineStorageVars func.getResults storage
  visitStmt func.getBody storage

/-- Function `getStorage(const Func &func)`. -/
def getStorage (func : Func) : Except Failure Storage :=
  updateStorage func []

/-- Method `GPUBackend::emitFirstAssign(var, value)`: with sharding active and
outside a shard the body is `not_supported_yet;`, a statement without effect, so
the method returns with the state of the backend as it was. The method
`LLVMBackend::emitFirstAssign` of the base class, whose file is not among the
sources, is the parameter `base`. -/
def GPUBackend.emitFirstAssign {σ : Type} (base : Var → Expr → σ → Except Failure σ)
    (sharding : GPUSharding) (var : Var) (value : Expr) (state : σ) : Except Failure σ :=
  if sharding.isSharded && !sharding.inShard then do
    not_supported_yet
    return state
  else base var value state

end NoAsserts

/-- An assembled matrix as the only argument of a function with an empty body. -/
def systemMatrixArgument : Func :=
  mkFunc [⟨"A", systemMatrixType⟩] [] .pass

/-- An entry of kind `Undefined` belongs to a non-element tensor variable of
order at least 2. -/
def UndefinedOnlyUnsupported (v : Var) (s : TensorStorage) : Prop :=
  s.getKind = StorageKind.Undefined →
    ∃ t, v.type = .tensor t ∧ isElementTensorType t = false ∧ 2 ≤ t.order

/-! ## The meaning of the statements of `computeMin`, with the origin of a value -/

/-- A valuation of the `Int` variables in which a value carries the variable it
was first read from: an assignment `var = v` copies the value of `v` together
with this mark, so the mark of `var` after `computeMin` names the coordinate that
was chosen. -/
abbrev SourcedValuation := Var → Int × Var

/-- The valuation after the assignment of `value` to `var`. -/
def SourcedValuation.set (env : SourcedValuation) (var : Var) (value : Int × Var) :
    SourcedValuation :=
  fun v => if v = var then value else env v

/-- The values of a valuation, without the marks. -/
def SourcedValuation.values (env : SourcedValuation) : Valuation :=
  fun v => (env v).1

/-- The valuation `env` with the value of every variable marked by the variable
itself. -/
def Valuation.sourced (env : Valuation) : SourcedValuation :=
  fun v => (env v, v)

/-- Modelled from the spec: the source holds no interpreter of the IR. The
function `evalOperand` on marked values: a reference to a variable yields its
value and the mark of the value. -/
def evalOperandSourced (env : SourcedValuation) : Expr → Option (Int × Var)
  | .varExpr v => some (env v)
  | _ => none

/-- Modelled from the spec: the source holds no interpreter of the IR. The
function `evalTest` on marked values: `a < b` and `a <= b` compare the values
and do not read the marks. -/
def evalTestSourced (env : SourcedValuation) : Expr → Option Bool
  | .binary BinaryOp.Lt a b =>
    match evalOperandSourced env a, evalOperandSourced env b with
    | some x, some y => some (decide (x.1 < y.1))
    | _, _ => none
  | .binary BinaryOp.Le a b =>
    match evalOperandSourced env a, evalOperandSourced env b with
    | some x, some y => some (decide (x.1 ≤ y.1))
    | _, _ => none
  | _ => none

/-- Modelled from the spec: the source holds no interpreter of the IR. The
function `execute` on marked values, clause by clause the same. -/
def executeSourced : Stmt → SourcedValuation → Option SourcedValuation
  | .undefined, env => some env
  | .varDecl _, env => some env
  | .assignStmt var value, env =>
    match evalOperandSourced env value with
    | some x => some (env.set var x)
    | none => none
  | .block first rest, env =>
    match executeSourced first env with
    | some env1 => executeSourced rest env1
    | none => none
  | .ifThenElse condition thenBody elseBody, env =>
    match evalTestSourced env condition with
    | some true => executeSourced thenBody env
    | some false => executeSourced elseBody env
    | none => none
  | .comment _ commentedStmt, env => executeSourced commentedStmt env
  | _, _ => none

/-- The variable `c` is the left-most variable of `vars` that attains the
minimum: it stands at a position before which every variable has a greater
value and after which no variable has a smaller one. -/
def LeftmostMinAt (env : Valuation) (vars : List Var) (c : Var) : Prop :=
  ∃ pre post, vars = pre ++ c :: post ∧
    (∀ y ∈ pre, env c < env y) ∧ (∀ y ∈ post, env c ≤ env y)

/-- One round of the chain of `computeMin` on marked values:
`if (v < var) var = v`. -/
def minStepSourced (var : Var) (env : SourcedValuation) (v : Var) : SourcedValuation :=
  if (env v).1 < (env var).1 then env.set var (env v) else env

/-! # Theorems -/

/-! ## Lemmas on the storage map -/

theorem Storage.find_add (st : Storage) (v w : Var) (s : TensorStorage) :
    Storage.find (Storage.add st v s) w =
      match Storage.find st w with
      | some t => some t
      | none => if v = w then some s else none := by
  induction st with
  | nil => simp [Storage.add, Storage.find]
  | cons e rest ih =>
    obtain ⟨k, t⟩ := e
    by_cases hkv : k = v
    · subst hkv
      by_cases hkw : k = w
      · subst hkw
        simp [Storage.add, Storage.find]
      · simp only [Storage.add, Storage.find, hkw, if_true, if_false]
        cases h : Storage.find rest w <;> simp
    · by_cases hkw : k = w
      · subst hkw
        simp [Storage.add, Storage.find, hkv]
      · simp [Storage.add, Storage.find, hkv, hkw, ih]

theorem Storage.mem_add (st : Storage) (v : Var) (s : TensorStorage)
    (e : Var × TensorStorage) (h : e ∈ Storage.add st v s) : e ∈ st ∨ e = (v, s) := by
  induction st with
  | nil => simpa [Storage.add] using h
  | cons x rest ih =>
    obtain ⟨k, t⟩ := x
    by_cases hkv : k = v
    · simp [Storage.add, hkv] at h
      left
      simpa [hkv] using h
    · simp [Storage.add, hkv] at h
      rcases h with h | h
      · left; simp [h]
      · rcases ih h with h1 | h1
        · left; simp [h1]
        · right; exact h1

theorem Storage.find_mem (st : Storage) (v : Var) (s : TensorStorage)
    (h : Storage.find st v = some s) : (v, s) ∈ st := by
  induction st with
  | nil => simp [Storage.find] at h
  | cons x rest ih =>
    obtain ⟨k, t⟩ := x
    by_cases hkv : k = v
    · simp [Storage.find, hkv] at h
      simp [hkv, h]
    · simp [Storage.find, hkv] at h
      simp [ih h]

theorem Storage.mem_find (st : Storage) (e : Var × TensorStorage) (h : e ∈ st) :
    ∃ s, Storage.find st e.1 = some s := by
  induction st with
  | nil => simp at h
  | cons x rest ih =>
    obtain ⟨k, t⟩ := x
    by_cases hkv : k = e.1
    · exact ⟨t, by simp [Storage.find, hkv]⟩
    · simp only [List.mem_cons] at h
      rcases h with h | h
      · exact absurd (by simp [h]) hkv
      · obtain ⟨s, hs⟩ := ih h
        exact ⟨s, by simp [Storage.find, hkv, hs]⟩

theorem Storage.all_add {P : Var → TensorStorage → Prop} {st : Storage} {v : Var}
    {s : TensorStorage} (h : Storage.All P st) (hv : P v s) :
    Storage.All P (Storage.add st v s) := by
  intro e he
  rcases Storage.mem_add st v s e he with h1 | h1
  · exact h e h1
  · subst h1; exact hv

theorem Storage.add_of_find {st : Storage} {v : Var} {x : TensorStorage}
    (h : Storage.find st v = some x) (s : TensorStorage) : Storage.add st v s = st := by
  induction st with
  | nil => simp [Storage.find] at h
  | cons e rest ih =>
    obtain ⟨k, t⟩ := e
    by_cases hkv : k = v
    · simp [Storage.add, hkv]
    · simp only [Storage.find, hkv, if_false] at h
      simp [Storage.add, hkv, ih h]

theorem Storage.find_add_self {st : Storage} {v : Var} (h : Storage.find st v = none)
    (s : TensorStorage) : Storage.find (Storage.add st v s) v = some s := by
  rw [Storage.find_add, h]; simp

theorem Storage.find_add_mono {st : Storage} {w : Var} {x : TensorStorage}
    (h : Storage.find st w = some x) (v : Var) (s : TensorStorage) :
    Storage.find (Storage.add st v s) w = some x := by
  rw [Storage.find_add, h]

theorem Storage.hasStorage_eq_false {st : Storage} {v : Var} :
    Storage.hasStorage st v = false ↔ Storage.find st v = none := by
  simp [Storage.hasStorage]

theorem Storage.hasStorage_eq_true {st : Storage} {v : Var} :
    Storage.hasStorage st v = true ↔ ∃ s, Storage.find st v = some s := by
  simp [Storage.hasStorage, Option.isSome_iff_exists]

theorem Reach.trans {A : Var → TensorStorage → Prop} {a b c : Storage}
    (h1 : Reach A a b) (h2 : Reach A b c) : Reach A a c := by
  induction h2 with
  | refl => exact h1
  | step st' v s _ hA ih => exact Reach.step _ _ v s ih hA

theorem Reach.single {A : Var → TensorStorage → Prop} (st : Storage) {v : Var}
    {s : TensorStorage} (h : A v s) : Reach A st (Storage.add st v s) :=
  Reach.step _ _ v s (Reach.refl st) h

theorem Reach.all {A : Var → TensorStorage → Prop} {st st' : Storage}
    (h : Reach A st st') (hst : Storage.All A st) : Storage.All A st' := by
  induction h with
  | refl => exact hst
  | step st' v s _ hA ih => exact Storage.all_add ih hA

theorem Reach.mono {A : Var → TensorStorage → Prop} {st st' : Storage}
    (h : Reach A st st') {w : Var} {x : TensorStorage} (hw : Storage.find st w = some x) :
    Storage.find st' w = some x := by
  induction h with
  | refl => exact hw
  | step st' v s _ _ ih => exact Storage.find_add_mono ih v s

theorem Reach.added {A : Var → TensorStorage → Prop} {st st' : Storage}
    (h : Reach A st st') {w : Var} {x : TensorStorage} (hn : Storage.find st w = none)
    (hw : Storage.find st' w = some x) : A w x := by
  induction h with
  | refl => rw [hn] at hw; cases hw
  | step st' v s _ hA ih =>
    rw [Storage.find_add] at hw
    cases hf : Storage.find st' w with
    | some y =>
      rw [hf] at hw
      cases hw
      exact ih hf
    | none =>
      rw [hf] at hw
      by_cases hvw : v = w
      · simp [hvw] at hw
        subst hvw; subst hw
        exact hA
      · simp [hvw] at hw

theorem Reach.weaken {A B : Var → TensorStorage → Prop} {st st' : Storage}
    (h : Reach A st st') (hAB : ∀ v s, A v s → B v s) : Reach B st st' := by
  induction h with
  | refl => exact Reach.refl _
  | step st' v s _ hA ih => exact Reach.step _ _ v s ih (hAB v s hA)

/-! ## Storage inference only adds entries -/

theorem determineStorage_ok {st st' : Storage} {v : Var} {b : Bool}
    (h : determineStorage st v b = .ok st') :
    (isScalar v.type = true ∧ st' = st) ∨
    (∃ t, v.type = .tensor t ∧ t.order ≠ 0 ∧
      (isElementTensorType t = true ∨ t.order = 1) ∧
      st' = Storage.add st v (TensorStorage.ofKind StorageKind.DenseRowMajor b)) := by
  unfold determineStorage at h
  by_cases hs : isScalar v.type = true
  · left
    simp [hs] at h
    exact ⟨hs, h.symm⟩
  · right
    simp only [hs, if_false] at h
    cases hty : v.type with
    | tensor t =>
      refine ⟨t, rfl, by simpa [hty, isScalar] using hs, ?_⟩
      simp only [hty, Ty.toTensor] at h
      by_cases hc : (isElementTensorType t || t.order == 1) = true
      · simp only [hc, if_true] at h
        simp [iassert, TensorStorage.ofKind, TensorStorage.getKind, bind, Except.bind, pure,
          Except.pure] at h
        refine ⟨?_, h.symm⟩
        simpa using hc
      · simp [hc] at h
    | element n => simp [hty, Ty.toTensor] at h
    | set n e => simp [hty, Ty.toTensor] at h
    | tuple n e => simp [hty, Ty.toTensor] at h

theorem determineStorage_reach {A : Var → TensorStorage → Prop} {M : List Var}
    (hA : AddsOnly A M) {st st' : Storage} {v : Var} {b : Bool}
    (h : determineStorage st v b = .ok st') : Reach A st st' := by
  rcases determineStorage_ok h with ⟨_, rfl⟩ | ⟨t, hty, hs, hc, rfl⟩
  · exact Reach.refl _
  · exact Reach.single _ (hA.dense v b t hty hs hc)

theorem getSystemTargetSet_reduced {s : TensorStorage}
    (h : s.getKind = StorageKind.SystemReduced) :
    s.getSystemTargetSet = .ok s.systemTargetSet := by
  simp [TensorStorage.getSystemTargetSet, TensorStorage.isSystem, h, iassert, bind,
    Except.bind, pure, Except.pure]

theorem getSystemStorageSet_reduced {s : TensorStorage}
    (h : s.getKind = StorageKind.SystemReduced) :
    s.getSystemStorageSet = .ok s.systemStorageSet := by
  simp [TensorStorage.getSystemStorageSet, TensorStorage.isSystem, h, iassert, bind,
    Except.bind, pure, Except.pure]

theorem Storage.get_of_find {st : Storage} {v : Var} {s : TensorStorage}
    (h : Storage.find st v = some s) : Storage.get st v = .ok s := by
  simp [Storage.get, h]

/-- One round of the loop of `determineStorageLeaves`, in closed form. -/
theorem determineStorageLeaves_cons (v l : Var) (ls : List Var) (st : Storage) :
    determineStorageLeaves v (l :: ls) st =
      match Storage.find st l with
      | some s =>
        if s.getKind = StorageKind.SystemReduced then
          determineStorageLeaves v ls
            (Storage.add st v (TensorStorage.systemReduced s.systemTargetSet s.systemStorageSet))
        else determineStorageLeaves v ls st
      | none => determineStorageLeaves v ls st := by
  rw [determineStorageLeaves]
  cases hf : Storage.find st l with
  | none => simp [Storage.hasStorage, hf]
  | some s =>
    by_cases hk : s.getKind = StorageKind.SystemReduced
    · simp [Storage.hasStorage, hf, Storage.get, hk, getSystemTargetSet_reduced hk,
        getSystemStorageSet_reduced hk, bind, Except.bind]
    · simp [Storage.hasStorage, hf, Storage.get, hk, bind, Except.bind]

theorem determineStorageLeaves_reach {A : Var → TensorStorage → Prop} {v : Var}
    (hR : ∀ a b, A v (TensorStorage.systemReduced a b)) :
    ∀ (ls : List Var) (st st' : Storage),
      determineStorageLeaves v ls st = .ok st' → Reach A st st'
  | [], st, st', h => by
    simp [determineStorageLeaves] at h
    subst h
    exact Reach.refl _
  | l :: ls, st, st', h => by
    rw [determineStorageLeaves_cons] at h
    cases hf : Storage.find st l with
    | none =>
      simp only [hf] at h
      exact determineStorageLeaves_reach hR ls st st' h
    | some s =>
      simp only [hf] at h
      by_cases hk : s.getKind = StorageKind.SystemReduced
      · simp only [hk, if_true] at h
        exact Reach.trans (Reach.single _ (hR _ _)) (determineStorageLeaves_reach hR ls _ st' h)
      · simp only [hk, if_false] at h
        exact determineStorageLeaves_reach hR ls st st' h

theorem mapResultStorage_ne_undefined (t : TensorType) (target neighbors : Expr) :
    ((mapResultStorage t target neighbors).getKind != StorageKind.Undefined) = true := by
  unfold mapResultStorage
  split
  · rfl
  · split <;> rfl

/-- One round of the loop of `visitMap`, in closed form. -/
theorem visitMap_cons (target neighbors : Expr) (v : Var) (vars : List Var) (st : Storage) :
    visitMap target neighbors (v :: vars) st =
      match v.type with
      | .tensor t =>
        if t.order ≠ 0 ∧ Storage.hasStorage st v = false then
          visitMap target neighbors vars
            (Storage.add st v (mapResultStorage t target neighbors))
        else visitMap target neighbors vars st
      | _ => visitMap target neighbors vars st := by
  rw [visitMap]
  cases hty : v.type with
  | tensor t =>
    by_cases h0 : t.order = 0
    · simp [Ty.isTensor, isScalar, h0]
    · cases hf : Storage.hasStorage st v with
      | false =>
        simp [Ty.isTensor, isScalar, h0, Ty.toTensor, iassert,
          mapResultStorage_ne_undefined, bind, Except.bind]
      | true => simp [Ty.isTensor, isScalar, h0]
  | element n => simp [Ty.isTensor]
  | set n e => simp [Ty.isTensor]
  | tuple n e => simp [Ty.isTensor]

theorem visitMap_reach {A : Var → TensorStorage → Prop} {target neighbors : Expr}
    (M : List Var)
    (hM : ∀ v t, v ∈ M → v.type = .tensor t → t.order ≠ 0 →
      A v (mapResultStorage t target neighbors)) :
    ∀ (vars : List Var) (st st' : Storage), (∀ v ∈ vars, v ∈ M) →
      visitMap target neighbors vars st = .ok st' → Reach A st st'
  | [], st, st', _, h => by
    simp [visitMap] at h
    subst h
    exact Reach.refl _
  | v :: vars, st, st', hsub, h => by
    have hsub' : ∀ w ∈ vars, w ∈ M := fun w hw => hsub w (List.mem_cons_of_mem _ hw)
    rw [visitMap_cons] at h
    cases hty : v.type with
    | tensor t =>
      simp only [hty] at h
      by_cases hc : t.order ≠ 0 ∧ Storage.hasStorage st v = false
      · simp only [hc, and_self, if_true, ne_eq, not_false_eq_true] at h
        exact Reach.trans (Reach.single _ (hM v t (hsub v (List.mem_cons_self _ _)) hty hc.1))
          (visitMap_reach M hM vars _ st' hsub' h)
      · simp only [hc, if_false] at h
        exact visitMap_reach M hM vars st st' hsub' h
    | element n => simp only [hty] at h; exact visitMap_reach M hM vars st st' hsub' h
    | set n e => simp only [hty] at h; exact visitMap_reach M hM vars st st' hsub' h
    | tuple n e => simp only [hty] at h; exact visitMap_reach M hM vars st st' hsub' h

theorem visitVarDecl_ok {st st' : Storage} {v : Var} (h : visitVarDecl st v = .ok st') :
    Storage.find st v = none ∧
      ((v.type.isTensor && !isScalar v.type) = true → determineStorage st v true = .ok st') ∧
      ((v.type.isTensor && !isScalar v.type) = false → st' = st) := by
  unfold visitVarDecl at h
  cases hf : Storage.find st v with
  | some s => simp [Storage.hasStorage, hf, iassert, bind, Except.bind] at h
  | none =>
    simp only [Storage.hasStorage, hf, iassert, Option.isSome_none, Bool.not_false, if_true,
      bind, Except.bind] at h
    refine ⟨rfl, ?_, ?_⟩
    · intro hc
      simpa [hc] using h
    · intro hc
      simp [hc, pure, Except.pure] at h
      exact h.symm

theorem visitVarDecl_reach {A : Var → TensorStorage → Prop} {M : List Var}
    (hA : AddsOnly A M) {st st' : Storage} {v : Var}
    (h : visitVarDecl st v = .ok st') : Reach A st st' := by
  obtain ⟨_, h1, h2⟩ := visitVarDecl_ok h
  cases hc : (v.type.isTensor && !isScalar v.type) with
  | true => exact determineStorage_reach hA (h1 hc)
  | false => rw [h2 hc]; exact Reach.refl _

/-- The three cases of `visitAssignStmt`, in closed form. -/
theorem visitAssignStmt_eq (st : Storage) (v : Var) (value : Expr) :
    visitAssignStmt st v value =
      match v.type with
      | .tensor t =>
        if t.order ≠ 0 ∧ Storage.hasStorage st v = false then
          if isElementTensorType t = false ∧ 1 < t.order then
            determineStorageLeaves v (leafVars value []) st
          else determineStorage st v (!value.isLiteral)
        else .ok st
      | _ => .ok st := by
  unfold visitAssignStmt
  cases hty : v.type with
  | tensor t =>
    by_cases h0 : t.order = 0
    · simp [Ty.isTensor, isScalar, h0]
    · cases hf : Storage.hasStorage st v with
      | false =>
        by_cases hr : isElementTensorType t = false ∧ 1 < t.order
        · simp [Ty.isTensor, isScalar, h0, Ty.toTensor, hr, determineStorageRhs]
        · have hr' : ¬ ((!isElementTensorType t && decide (t.order > 1)) = true) := by
            simpa using hr
          simp only [Ty.isTensor, isScalar, h0, Ty.toTensor, hr, hr']
          simp
      | true => simp [Ty.isTensor, isScalar, h0]
  | element n => simp [Ty.isTensor]
  | set n e => simp [Ty.isTensor]
  | tuple n e => simp [Ty.isTensor]

theorem visitAssignStmt_reach {A : Var → TensorStorage → Prop} {M : List Var}
    (hA : AddsOnly A M) {st st' : Storage} {v : Var} {value : Expr}
    (h : visitAssignStmt st v value = .ok st') : Reach A st st' := by
  rw [visitAssignStmt_eq] at h
  cases hty : v.type with
  | tensor t =>
    simp only [hty] at h
    by_cases hc : t.order ≠ 0 ∧ Storage.hasStorage st v = false
    · simp only [hc, and_self, if_true, ne_eq, not_false_eq_true] at h
      by_cases hr : isElementTensorType t = false ∧ 1 < t.order
      · simp only [hr, and_self, if_true] at h
        exact determineStorageLeaves_reach (fun a b => hA.reduced v t a b hty hr.1 hr.2) _ _ _ h
      · simp only [hr, if_false] at h
        exact determineStorage_reach hA h
    · simp only [hc, if_false] at h
      cases h; exact Reach.refl _
  | element n => simp only [hty] at h; cases h; exact Reach.refl _
  | set n e => simp only [hty] at h; cases h; exact Reach.refl _
  | tuple n e => simp only [hty] at h; cases h; exact Reach.refl _

/-- The cases of `visitTensorWrite`, in closed form. -/
theorem visitTensorWrite_eq (st : Storage) (tensor : Expr) :
    visitTensorWrite st tensor =
      match tensor.toVarExpr with
      | some v =>
        if (v.type.isTensor && !isScalar v.type) = true ∧ Storage.hasStorage st v = false then
          determineStorage st v true
        else .ok st
      | none => .ok st := by
  unfold visitTensorWrite
  cases tensor.toVarExpr with
  | none => rfl
  | some v =>
    cases hf : Storage.hasStorage st v with
    | false => simp
    | true => simp

theorem visitTensorWrite_reach {A : Var → TensorStorage → Prop} {M : List Var}
    (hA : AddsOnly A M) {st st' : Storage} {tensor : Expr}
    (h : visitTensorWrite st tensor = .ok st') : Reach A st st' := by
  rw [visitTensorWrite_eq] at h
  cases hv : tensor.toVarExpr with
  | none => simp only [hv] at h; cases h; exact Reach.refl _
  | some v =>
    simp only [hv] at h
    by_cases hc : (v.type.isTensor && !isScalar v.type) = true ∧ Storage.hasStorage st v = false
    · simp only [hc, and_self, if_true] at h
      exact determineStorage_reach hA h
    · simp only [hc, if_false] at h
      cases h; exact Reach.refl _

theorem visitStmt_block_ok {first rest : Stmt} {st st' : Storage}
    (h : visitStmt (.block first rest) st = .ok st') :
    ∃ st1, visitStmt first st = .ok st1 ∧ visitStmt rest st1 = .ok st' := by
  simp only [visitStmt, bind, Except.bind] at h
  cases h1 : visitStmt first st with
  | error e => simp [h1] at h
  | ok st1 => exact ⟨st1, rfl, by simpa [h1] using h⟩

theorem visitStmt_ifThenElse_ok {c : Expr} {thenBody elseBody : Stmt} {st st' : Storage}
    (h : visitStmt (.ifThenElse c thenBody elseBody) st = .ok st') :
    ∃ st1, visitStmt thenBody st = .ok st1 ∧ visitStmt elseBody st1 = .ok st' := by
  simp only [visitStmt, bind, Except.bind] at h
  cases h1 : visitStmt thenBody st with
  | error e => simp [h1] at h
  | ok st1 => exact ⟨st1, rfl, by simpa [h1] using h⟩

theorem visitStmt_reach {A : Var → TensorStorage → Prop} {M : List Var} (hA : AddsOnly A M) :
    ∀ (s : Stmt) (st st' : Storage), (∀ v ∈ mapVars s, v ∈ M) →
      visitStmt s st = .ok st' → Reach A st st'
  | .undefined, st, st', _, h => by
    simp [visitStmt] at h; subst h; exact Reach.refl _
  | .assignStmt var value, st, st', _, h => by
    simp only [visitStmt] at h
    exact visitAssignStmt_reach hA h
  | .map vars _ target neighbors _, st, st', hsub, h => by
    simp only [visitStmt] at h
    exact visitMap_reach M (fun v t => hA.mapped v t target neighbors) vars st st'
      (fun v hv => hsub v (by simpa [mapVars] using hv)) h
  | .fieldWrite _ _ _, st, st', _, h => by
    simp [visitStmt] at h; subst h; exact Reach.refl _
  | .tensorWrite tensor _ _, st, st', _, h => by
    simp only [visitStmt] at h
    exact visitTensorWrite_reach hA h
  | .store _ _ _, st, st', _, h => by
    simp [visitStmt] at h; subst h; exact Reach.refl _
  | .varDecl var, st, st', _, h => by
    simp only [visitStmt] at h
    exact visitVarDecl_reach hA h
  | .block first rest, st, st', hsub, h => by
    obtain ⟨st1, h1, h2⟩ := visitStmt_block_ok h
    exact Reach.trans
      (visitStmt_reach hA first st st1 (fun v hv => hsub v (by simp [mapVars, hv])) h1)
      (visitStmt_reach hA rest st1 st' (fun v hv => hsub v (by simp [mapVars, hv])) h2)
  | .forRange _ _ _ body, st, st', hsub, h => by
    simp only [visitStmt] at h
    exact visitStmt_reach hA body st st' (fun v hv => hsub v (by simpa [mapVars] using hv)) h
  | .forDomain _ _ body, st, st', hsub, h => by
    simp only [visitStmt] at h
    exact visitStmt_reach hA body st st' (fun v hv => hsub v (by simpa [mapVars] using hv)) h
  | .whileLoop _ body, st, st', hsub, h => by
    simp only [visitStmt] at h
    exact visitStmt_reach hA body st st' (fun v hv => hsub v (by simpa [mapVars] using hv)) h
  | .ifThenElse _ thenBody elseBody, st, st', hsub, h => by
    obtain ⟨st1, h1, h2⟩ := visitStmt_ifThenElse_ok h
    exact Reach.trans
      (visitStmt_reach hA thenBody st st1 (fun v hv => hsub v (by simp [mapVars, hv])) h1)
      (visitStmt_reach hA elseBody st1 st' (fun v hv => hsub v (by simp [mapVars, hv])) h2)
  | .comment _ commentedStmt, st, st', hsub, h => by
    simp only [visitStmt] at h
    exact visitStmt_reach hA commentedStmt st st'
      (fun v hv => hsub v (by simpa [mapVars] using hv)) h
  | .pass, st, st', _, h => by
    simp [visitStmt] at h; subst h; exact Reach.refl _

theorem determineStorageVars_cons_ok {v : Var} {vars : List Var} {st st' : Storage}
    (h : determineStorageVars (v :: vars) st = .ok st') :
    ∃ st1, determineStorageVars vars st1 = .ok st' ∧
      ((v.type.isTensor = true ∧ determineStorage st v false = .ok st1) ∨
       (v.type.isTensor = false ∧ st1 = st)) := by
  unfold determineStorageVars at h
  by_cases hc : v.type.isTensor = true
  · simp only [hc, if_true, bind, Except.bind] at h
    cases h1 : determineStorage st v false with
    | error e => simp [h1] at h
    | ok st1 => exact ⟨st1, by simpa [h1] using h, Or.inl ⟨hc, rfl⟩⟩
  · simp only [hc] at h
    exact ⟨st, h, Or.inr ⟨by simpa using hc, rfl⟩⟩

theorem determineStorageVars_reach {A : Var → TensorStorage → Prop} {M : List Var}
    (hA : AddsOnly A M) :
    ∀ (vars : List Var) (st st' : Storage),
      determineStorageVars vars st = .ok st' → Reach A st st'
  | [], st, st', h => by
    simp [determineStorageVars] at h; subst h; exact Reach.refl _
  | v :: vars, st, st', h => by
    obtain ⟨st1, h2, h1 | h1⟩ := determineStorageVars_cons_ok h
    · exact Reach.trans (determineStorage_reach hA h1.2)
        (determineStorageVars_reach hA vars st1 st' h2)
    · rw [h1.2] at h2
      exact determineStorageVars_reach hA vars st st' h2

theorem updateStorage_ok {f : Func} {st st' : Storage} (h : updateStorage f st = .ok st') :
    ∃ st1 st2 st3, determineStorageVars (f.getGlobals.map Prod.fst) st = .ok st1 ∧
      determineStorageVars f.getArguments st1 = .ok st2 ∧
      determineStorageVars f.getResults st2 = .ok st3 ∧
      visitStmt f.getBody st3 = .ok st' := by
  unfold updateStorage at h
  simp only [bind, Except.bind] at h
  cases h1 : determineStorageVars (List.map Prod.fst f.getGlobals) st with
  | error e => simp [h1] at h
  | ok st1 =>
    simp only [h1] at h
    cases h2 : determineStorageVars f.getArguments st1 with
    | error e => simp [h2] at h
    | ok st2 =>
      simp only [h2] at h
      cases h3 : determineStorageVars f.getResults st2 with
      | error e => simp [h3] at h
      | ok st3 =>
        simp only [h3] at h
        exact ⟨st1, st2, st3, rfl, h2, h3, h⟩

theorem updateStorage_reach {A : Var → TensorStorage → Prop} {f : Func}
    (hA : AddsOnly A (mapVars f.getBody)) {st st' : Storage}
    (h : updateStorage f st = .ok st') : Reach A st st' := by
  obtain ⟨st1, st2, st3, h1, h2, h3, h4⟩ := updateStorage_ok h
  exact Reach.trans (determineStorageVars_reach hA _ _ _ h1)
    (Reach.trans (determineStorageVars_reach hA _ _ _ h2)
      (Reach.trans (determineStorageVars_reach hA _ _ _ h3)
        (visitStmt_reach hA _ _ _ (fun _ hv => hv) h4)))

theorem addsOnly_true (M : List Var) : AddsOnly (fun _ _ => True) M :=
  ⟨fun _ _ _ _ _ _ => trivial, fun _ _ _ _ _ _ _ => trivial, fun _ _ _ _ _ _ _ => trivial⟩

/-! ## Storage inference in the build without `SIMIT_ASSERTS` -/

/-- The map `determineStorage(var, initialize)` leaves for a variable of tensor
type, in closed form. -/
theorem noAsserts_determineStorage (st : Storage) (v : Var) (b : Bool) (t : TensorType)
    (hty : v.type = .tensor t) :
    NoAsserts.determineStorage st v b = .ok
      (if t.order = 0 then st
       else Storage.add st v
        (if isElementTensorType t = true ∨ t.order = 1 then
          TensorStorage.ofKind StorageKind.DenseRowMajor b
         else TensorStorage.undefinedStorage)) := by
  unfold NoAsserts.determineStorage
  by_cases h0 : t.order = 0
  · simp [hty, isScalar, h0]
  · by_cases hc : isElementTensorType t = true ∨ t.order = 1
    · have hc' : (isElementTensorType t || t.order == 1) = true := by simpa using hc
      simp [hty, isScalar, h0, Ty.toTensor, hc, hc', NoAsserts.iassert, bind, Except.bind, pure,
        Except.pure]
    · have hc' : (isElementTensorType t || t.order == 1) = false := by
        simpa using hc
      simp [hty, isScalar, h0, Ty.toTensor, hc, hc', NoAsserts.iassert,
        NoAsserts.not_supported_yet, NoAsserts.ierror, bind, Except.bind, pure, Except.pure]

theorem noAsserts_determineStorage_unsupported {v : Var} {t : TensorType}
    (hty : v.type = .tensor t) (hne : isElementTensorType t = false) (hord : 2 ≤ t.order)
    (st : Storage) (b : Bool) :
    NoAsserts.determineStorage st v b =
      .ok (Storage.add st v TensorStorage.undefinedStorage) := by
  have h0 : ¬ t.order = 0 := by omega
  have h1 : ¬ t.order = 1 := by omega
  rw [noAsserts_determineStorage st v b t hty]
  simp [h0, h1, hne]

theorem noAsserts_determineStorage_reach (st : Storage) (v : Var) (b : Bool)
    (hv : v.type.isTensor = true) :
    ∃ st', NoAsserts.determineStorage st v b = .ok st' ∧
      Reach UndefinedOnlyUnsupported st st' := by
  cases hty : v.type with
  | tensor t =>
    refine ⟨_, noAsserts_determineStorage st v b t hty, ?_⟩
    by_cases h0 : t.order = 0
    · simp only [h0, if_true]
      exact Reach.refl _
    · simp only [h0, if_false]
      apply Reach.single
      by_cases hc : isElementTensorType t = true ∨ t.order = 1
      · simp only [hc, if_true]
        intro hk
        simp [TensorStorage.ofKind, TensorStorage.getKind] at hk
      · simp only [hc, if_false]
        intro _
        refine ⟨t, hty, ?_, ?_⟩
        · cases he : isElementTensorType t with
          | true => exact absurd (Or.inl he) hc
          | false => rfl
        · have h1 : ¬ t.order = 1 := fun h => hc (Or.inr h)
          omega
  | element n => simp [hty, Ty.isTensor] at hv
  | set n e => simp [hty, Ty.isTensor] at hv
  | tuple n e => simp [hty, Ty.isTensor] at hv

theorem undefinedOnlyUnsupported_of_kind {v : Var} {s : TensorStorage}
    (h : s.getKind ≠ StorageKind.Undefined) : UndefinedOnlyUnsupported v s :=
  fun hk => absurd hk h

/-- One round of the loop of `NoAsserts.determineStorageLeaves`, in closed form. -/
theorem noAsserts_determineStorageLeaves_cons (v l : Var) (ls : List Var) (st : Storage) :
    NoAsserts.determineStorageLeaves v (l :: ls) st =
      match Storage.find st l with
      | some s =>
        if s.getKind = StorageKind.SystemReduced then
          NoAsserts.determineStorageLeaves v ls
            (Storage.add st v (TensorStorage.systemReduced s.systemTargetSet s.systemStorageSet))
        else NoAsserts.determineStorageLeaves v ls st
      | none => NoAsserts.determineStorageLeaves v ls st := by
  rw [NoAsserts.determineStorageLeaves]
  cases hf : Storage.find st l with
  | none => simp [Storage.hasStorage, hf]
  | some s =>
    by_cases hk : s.getKind = StorageKind.SystemReduced
    · simp [Storage.hasStorage, hf, NoAsserts.Storage.get, hk,
        NoAsserts.TensorStorage.getSystemTargetSet, NoAsserts.TensorStorage.getSystemStorageSet,
        NoAsserts.iassert, bind, Except.bind, pure, Except.pure]
    · simp [Storage.hasStorage, hf, NoAsserts.Storage.get, hk, NoAsserts.iassert, bind,
        Except.bind]

theorem noAsserts_determineStorageLeaves_reach (v : Var) :
    ∀ (ls : List Var) (st : Storage), ∃ st',
      NoAsserts.determineStorageLeaves v ls st = .ok st' ∧
        Reach UndefinedOnlyUnsupported st st'
  | [], st => ⟨st, by simp [NoAsserts.determineStorageLeaves], Reach.refl _⟩
  | l :: ls, st => by
    rw [noAsserts_determineStorageLeaves_cons]
    cases hf : Storage.find st l with
    | none => exact noAsserts_determineStorageLeaves_reach v ls st
    | some s =>
      by_cases hk : s.getKind = StorageKind.SystemReduced
      · simp only [hk, if_true]
        obtain ⟨st', h1, h2⟩ := noAsserts_determineStorageLeaves_reach v ls
          (Storage.add st v (TensorStorage.systemReduced s.systemTargetSet s.systemStorageSet))
        exact ⟨st', h1, Reach.trans (Reach.single _ (undefinedOnlyUnsupported_of_kind
          (by simp [TensorStorage.systemReduced, TensorStorage.getKind]))) h2⟩
      · simp only [hk, if_false]
        exact noAsserts_determineStorageLeaves_reach v ls st

/-- One round of the loop of `NoAsserts.visitMap`, in closed form. -/
theorem noAsserts_visitMap_cons (target neighbors : Expr) (v : Var) (vars : List Var)
    (st : Storage) :
    NoAsserts.visitMap target neighbors (v :: vars) st =
      match v.type with
      | .tensor t =>
        if t.order ≠ 0 ∧ Storage.hasStorage st v = false then
          NoAsserts.visitMap target neighbors vars
            (Storage.add st v (mapResultStorage t target neighbors))
        else NoAsserts.visitMap target neighbors vars st
      | _ => NoAsserts.visitMap target neighbors vars st := by
  rw [NoAsserts.visitMap]
  cases hty : v.type with
  | tensor t =>
    by_cases h0 : t.order = 0
    · simp [Ty.isTensor, isScalar, h0]
    · cases hf : Storage.hasStorage st v with
      | false =>
        simp [Ty.isTensor, isScalar, h0, Ty.toTensor, NoAsserts.iassert, bind, Except.bind]
      | true => simp [Ty.isTensor, isScalar, h0]
  | element n => simp [Ty.isTensor]
  | set n e => simp [Ty.isTensor]
  | tuple n e => simp [Ty.isTensor]

theorem noAsserts_visitMap_reach (target neighbors : Expr) :
    ∀ (vars : List Var) (st : Storage), ∃ st',
      NoAsserts.visitMap target neighbors vars st = .ok st' ∧
        Reach UndefinedOnlyUnsupported st st'
  | [], st => ⟨st, by simp [NoAsserts.visitMap], Reach.refl _⟩
  | v :: vars, st => by
    rw [noAsserts_visitMap_cons]
    cases hty : v.type with
    | tensor t =>
      by_cases hc : t.order ≠ 0 ∧ Storage.hasStorage st v = false
      · simp only [hc, and_self, if_true, ne_eq, not_false_eq_true]
        obtain ⟨st', h1, h2⟩ := noAsserts_visitMap_reach target neighbors vars
          (Storage.add st v (mapResultStorage t target neighbors))
        exact ⟨st', h1, Reach.trans (Reach.single _ (undefinedOnlyUnsupported_of_kind
          (by simpa using mapResultStorage_ne_undefined t target neighbors))) h2⟩
      · simp only [hc, if_false]
        exact noAsserts_visitMap_reach target neighbors vars st
    | element n => exact noAsserts_visitMap_reach target neighbors vars st
    | set n e => exact noAsserts_visitMap_reach target neighbors vars st
    | tuple n e => exact noAsserts_visitMap_reach target neighbors vars st

/-- A `VarDecl` in closed form: the check of a redeclaration has no effect. -/
theorem noAsserts_visitVarDecl (st : Storage) (v : Var) :
    NoAsserts.visitVarDecl st v =
      if (v.type.isTensor && !isScalar v.type) = true then NoAsserts.determineStorage st v true
      else .ok st := by
  unfold NoAsserts.visitVarDecl
  by_cases hc : (v.type.isTensor && !isScalar v.type) = true
  · simp only [NoAsserts.iassert, bind, Except.bind, hc, if_true]
  · simp only [NoAsserts.iassert, bind, Except.bind, hc, if_false, pure, Except.pure]

theorem noAsserts_visitVarDecl_reach (st : Storage) (v : Var) :
    ∃ st', NoAsserts.visitVarDecl st v = .ok st' ∧ Reach UndefinedOnlyUnsupported st st' := by
  rw [noAsserts_visitVarDecl]
  by_cases hc : (v.type.isTensor && !isScalar v.type) = true
  · simp only [hc, if_true]
    exact noAsserts_determineStorage_reach st v true (by
      simp only [Bool.and_eq_true] at hc
      exact hc.1)
  · simp only [hc, if_false]
    exact ⟨st, rfl, Reach.refl _⟩

/-- The cases of `NoAsserts.visitAssignStmt`, in closed form. -/
theorem noAsserts_visitAssignStmt (st : Storage) (v : Var) (value : Expr) :
    NoAsserts.visitAssignStmt st v value =
      match v.type with
      | .tensor t =>
        if t.order ≠ 0 ∧ Storage.hasStorage st v = false then
          if isElementTensorType t = false ∧ 1 < t.order then
            NoAsserts.determineStorageLeaves v (leafVars value []) st
          else NoAsserts.determineStorage st v (!value.isLiteral)
        else .ok st
      | _ => .ok st := by
  unfold NoAsserts.visitAssignStmt
  cases hty : v.type with
  | tensor t =>
    by_cases h0 : t.order = 0
    · simp [Ty.isTensor, isScalar, h0]
    · cases hf : Storage.hasStorage st v with
      | false =>
        by_cases hr : isElementTensorType t = false ∧ 1 < t.order
        · simp [Ty.isTensor, isScalar, h0, Ty.toTensor, hr, NoAsserts.determineStorageRhs,
            NoAsserts.iassert, bind, Except.bind]
        · have hr' : ¬ ((!isElementTensorType t && decide (t.order > 1)) = true) := by
            simpa using hr
          simp only [Ty.isTensor, isScalar, h0, Ty.toTensor, hr, hr', NoAsserts.iassert, bind,
            Except.bind]
          simp
      | true => simp [Ty.isTensor, isScalar, h0]
  | element n => simp [Ty.isTensor]
  | set n e => simp [Ty.isTensor]
  | tuple n e => simp [Ty.isTensor]

theorem noAsserts_visitAssignStmt_reach (st : Storage) (v : Var) (value : Expr) :
    ∃ st', NoAsserts.visitAssignStmt st v value = .ok st' ∧
      Reach UndefinedOnlyUnsupported st st' := by
  rw [noAsserts_visitAssignStmt]
  cases hty : v.type with
  | tensor t =>
    by_cases hc : t.order ≠ 0 ∧ Storage.hasStorage st v = false
    · simp only [hc, and_self, if_true, ne_eq, not_false_eq_true]
      by_cases hr : isElementTensorType t = false ∧ 1 < t.order
      · simp only [hr, and_self, if_true]
        exact noAsserts_determineStorageLeaves_reach v _ st
      · simp only [hr, if_false]
        exact noAsserts_determineStorage_reach st v _ (by simp [hty, Ty.isTensor])
    · simp only [hc, if_false]
      exact ⟨st, rfl, Reach.refl _⟩
  | element n => exact ⟨st, rfl, Reach.refl _⟩
  | set n e => exact ⟨st, rfl, Reach.refl _⟩
  | tuple n e => exact ⟨st, rfl, Reach.refl _⟩

/-- The cases of `NoAsserts.visitTensorWrite`, in closed form. -/
theorem noAsserts_visitTensorWrite (st : Storage) (tensor : Expr) :
    NoAsserts.visitTensorWrite st tensor =
      match tensor.toVarExpr with
      | some v =>
        if (v.type.isTensor && !isScalar v.type) = true ∧ Storage.hasStorage st v = false then
          NoAsserts.determineStorage st v true
        else .ok st
      | none => .ok st := by
  unfold NoAsserts.visitTensorWrite
  cases tensor.toVarExpr with
  | none => rfl
  | some v =>
    cases hf : Storage.hasStorage st v with
    | false => simp
    | true => simp

theorem noAsserts_visitTensorWrite_reach (st : Storage) (tensor : Expr) :
    ∃ st', NoAsserts.visitTensorWrite st tensor = .ok st' ∧
      Reach UndefinedOnlyUnsupported st st' := by
  rw [noAsserts_visitTensorWrite]
  cases hv : tensor.toVarExpr with
  | none => exact ⟨st, rfl, Reach.refl _⟩
  | some v =>
    by_cases hc : (v.type.isTensor && !isScalar v.type) = true ∧ Storage.hasStorage st v = false
    · simp only [hc, and_self, if_true]
      exact noAsserts_determineStorage_reach st v true (by
        have := hc.1
        simp only [Bool.and_eq_true] at this
        exact this.1)
    · simp only [hc, if_false]
      exact ⟨st, rfl, Reach.refl _⟩

theorem noAsserts_seq {x : Except Failure Storage} {g : Storage → Except Failure Storage}
    {st : Storage} (hx : ∃ st1, x = .ok st1 ∧ Reach UndefinedOnlyUnsupported st st1)
    (hg : ∀ st1, ∃ st2, g st1 = .ok st2 ∧ Reach UndefinedOnlyUnsupported st1 st2) :
    ∃ st2, (x >>= g) = .ok st2 ∧ Reach UndefinedOnlyUnsupported st st2 := by
  obtain ⟨st1, h1, r1⟩ := hx
  obtain ⟨st2, h2, r2⟩ := hg st1
  exact ⟨st2, by simp [h1, h2, bind, Except.bind], Reach.trans r1 r2⟩

/-- Without `SIMIT_ASSERTS` the traversal of a statement raises nothing and only
adds entries; an entry of kind `Undefined` that it adds belongs to a non-element
tensor of order at least 2. -/
theorem noAsserts_visitStmt_reach :
    ∀ (s : Stmt) (st : Storage), ∃ st',
      NoAsserts.visitStmt s st = .ok st' ∧ Reach UndefinedOnlyUnsupported st st'
  | .undefined, st => ⟨st, rfl, Reach.refl _⟩
  | .assignStmt var value, st => by
    simp only [NoAsserts.visitStmt]
    exact noAsserts_visitAssignStmt_reach st var value
  | .map vars _ target neighbors _, st => by
    simp only [NoAsserts.visitStmt]
    exact noAsserts_visitMap_reach target neighbors vars st
  | .fieldWrite _ _ _, st => ⟨st, rfl, Reach.refl _⟩
  | .tensorWrite tensor _ _, st => by
    simp only [NoAsserts.visitStmt]
    exact noAsserts_visitTensorWrite_reach st tensor
  | .store _ _ _, st => ⟨st, rfl, Reach.refl _⟩
  | .varDecl var, st => by
    simp only [NoAsserts.visitStmt]
    exact noAsserts_visitVarDecl_reach st var
  | .block first rest, st => by
    simp only [NoAsserts.visitStmt]
    exact noAsserts_seq (noAsserts_visitStmt_reach first st) (noAsserts_visitStmt_reach rest)
  | .forRange _ _ _ body, st => by
    simp only [NoAsserts.visitStmt]
    exact noAsserts_visitStmt_reach body st
  | .forDomain _ _ body, st => by
    simp only [NoAsserts.visitStmt]
    exact noAsserts_visitStmt_reach body st
  | .whileLoop _ body, st => by
    simp only [NoAsserts.visitStmt]
    exact noAsserts_visitStmt_reach body st
  | .ifThenElse _ thenBody elseBody, st => by
    simp only [NoAsserts.visitStmt]
    exact noAsserts_seq (noAsserts_visitStmt_reach thenBody st)
      (noAsserts_visitStmt_reach elseBody)
  | .comment _ commentedStmt, st => by
    simp only [NoAsserts.visitStmt]
    exact noAsserts_visitStmt_reach commentedStmt st
  | .pass, st => ⟨st, rfl, Reach.refl _⟩

/-- The loop over the globals, arguments or results without `SIMIT_ASSERTS`: it
raises nothing, only adds entries, and a non-element tensor `v` of order at
least 2 in the list that had no entry, or an `Undefined` one, ends with an
`Undefined` entry. -/
theorem noAsserts_determineStorageVars_spec {v : Var} {t : TensorType}
    (hty : v.type = .tensor t) (hne : isElementTensorType t = false) (hord : 2 ≤ t.order) :
    ∀ (vars : List Var) (st : Storage), ∃ st',
      NoAsserts.determineStorageVars vars st = .ok st' ∧
        Reach UndefinedOnlyUnsupported st st' ∧
        ((Storage.find st v = none ∨ Storage.find st v = some TensorStorage.undefinedStorage) →
          (Storage.find st' v = none ∨
            Storage.find st' v = some TensorStorage.undefinedStorage) ∧
          (v ∈ vars → Storage.find st' v = some TensorStorage.undefinedStorage))
  | [], st => ⟨st, rfl, Reach.refl _, fun h => ⟨h, fun hv => by simp at hv⟩⟩
  | u :: vars, st => by
    unfold NoAsserts.determineStorageVars
    by_cases hc : u.type.isTensor = true
    · simp only [hc, if_true]
      obtain ⟨st1, h1, r1⟩ := noAsserts_determineStorage_reach st u false hc
      obtain ⟨st2, h2, r2, hI⟩ := noAsserts_determineStorageVars_spec hty hne hord vars st1
      refine ⟨st2, by simp [h1, h2, bind, Except.bind], Reach.trans r1 r2, ?_⟩
      intro hst
      by_cases huv : u = v
      · subst huv
        have hst1 : Storage.find st1 u = some TensorStorage.undefinedStorage := by
          rw [noAsserts_determineStorage_unsupported hty hne hord] at h1
          cases h1
          rcases hst with hn | hs
          · exact Storage.find_add_self hn _
          · exact Storage.find_add_mono hs _ _
        have hst2 := r2.mono hst1
        exact ⟨Or.inr hst2, fun _ => hst2⟩
      · have hst1 : Storage.find st1 v = none ∨
            Storage.find st1 v = some TensorStorage.undefinedStorage := by
          cases hu : u.type with
          | tensor tu =>
            rw [noAsserts_determineStorage st u false tu hu] at h1
            cases h1
            by_cases h0 : tu.order = 0
            · simpa [h0] using hst
            · simp only [h0, if_false]
              rw [Storage.find_add]
              rcases hst with hn | hs
              · left; simp [hn, huv]
              · right; simp [hs]
          | element n => simp [hu, Ty.isTensor] at hc
          | set n e => simp [hu, Ty.isTensor] at hc
          | tuple n e => simp [hu, Ty.isTensor] at hc
        obtain ⟨ha, hb⟩ := hI hst1
        refine ⟨ha, fun hv => hb ?_⟩
        rcases List.mem_cons.mp hv with heq | hmem
        · exact absurd heq.symm huv
        · exact hmem
    · simp only [hc]
      obtain ⟨st2, h2, r2, hI⟩ := noAsserts_determineStorageVars_spec hty hne hord vars st
      refine ⟨st2, h2, r2, fun hst => ?_⟩
      obtain ⟨ha, hb⟩ := hI hst
      refine ⟨ha, fun hv => hb ?_⟩
      rcases List.mem_cons.mp hv with heq | hmem
      · subst heq
        simp [hty, Ty.isTensor] at hc
      · exact hmem

theorem noAsserts_determineStorageVars_reach (vars : List Var) (st : Storage) :
    ∃ st', NoAsserts.determineStorageVars vars st = .ok st' ∧
      Reach UndefinedOnlyUnsupported st st' := by
  induction vars generalizing st with
  | nil => exact ⟨st, rfl, Reach.refl _⟩
  | cons u vars ih =>
    unfold NoAsserts.determineStorageVars
    by_cases hc : u.type.isTensor = true
    · simp only [hc, if_true]
      exact noAsserts_seq (noAsserts_determineStorage_reach st u false hc) ih
    · simp only [hc]
      exact ih st

/-- Without `SIMIT_ASSERTS`, `updateStorage` raises nothing and only adds
entries. -/
theorem noAsserts_updateStorage_reach (f : Func) (st : Storage) :
    ∃ st', NoAsserts.updateStorage f st = .ok st' ∧ Reach UndefinedOnlyUnsupported st st' := by
  unfold NoAsserts.updateStorage
  exact noAsserts_seq (noAsserts_determineStorageVars_reach _ st) (fun st1 =>
    noAsserts_seq (noAsserts_determineStorageVars_reach _ st1) (fun st2 =>
      noAsserts_seq (noAsserts_determineStorageVars_reach _ st2) (fun st3 =>
        noAsserts_visitStmt_reach _ st3)))

/-- Without `SIMIT_ASSERTS`, a non-element tensor of order at least 2 among the
globals, arguments or results of `f` has an `Undefined` entry in the map that
`getStorage f` returns. -/
theorem noAsserts_getStorage_undefined {v : Var} {t : TensorType}
    (hty : v.type = .tensor t) (hne : isElementTensorType t = false) (hord : 2 ≤ t.order)
    (f : Func)
    (hv : v ∈ f.getGlobals.map Prod.fst ∨ v ∈ f.getArguments ∨ v ∈ f.getResults) :
    ∃ st, NoAsserts.getStorage f = .ok st ∧
      Storage.find st v = some TensorStorage.undefinedStorage := by
  obtain ⟨st1, h1, _, i1⟩ :=
    noAsserts_determineStorageVars_spec hty hne hord (f.getGlobals.map Prod.fst) []
  obtain ⟨st2, h2, r2, i2⟩ :=
    noAsserts_determineStorageVars_spec hty hne hord f.getArguments st1
  obtain ⟨st3, h3, r3, i3⟩ :=
    noAsserts_determineStorageVars_spec hty hne hord f.getResults st2
  obtain ⟨st4, h4, r4⟩ := noAsserts_visitStmt_reach f.getBody st3
  have j1 := i1 (Or.inl rfl)
  have j2 := i2 j1.1
  have j3 := i3 j2.1
  refine ⟨st4, by simp [NoAsserts.getStorage, NoAsserts.updateStorage, h1, h2, h3, h4, bind,
    Except.bind], ?_⟩
  rcases hv with hv | hv | hv
  · exact r4.mono (r3.mono (r2.mono (j1.2 hv)))
  · exact r4.mono (r3.mono (j2.2 hv))
  · exact r4.mono (j3.2 hv)

/-! ## Map results -/


theorem visitMap_spec (target neighbors : Expr) :
    ∀ (vars : List Var) (st : Storage), ∃ st', visitMap target neighbors vars st = .ok st' ∧
      (∀ w x, Storage.find st w = some x → Storage.find st' w = some x) ∧
      (∀ v t, v ∈ vars → v.type = .tensor t → t.order ≠ 0 → Storage.hasStorage st v = false →
        Storage.find st' v = some (mapResultStorage t target neighbors))
  | [], st => ⟨st, by simp [visitMap], fun _ _ h => h, fun _ _ hv => by simp at hv⟩
  | u :: vars, st => by
    rw [visitMap_cons]
    cases hty : u.type with
    | tensor tu =>
      by_cases hc : tu.order ≠ 0 ∧ Storage.hasStorage st u = false
      · simp only [hc, and_self, if_true, ne_eq, not_false_eq_true]
        obtain ⟨st', h1, hmono, hnew⟩ := visitMap_spec target neighbors vars
          (Storage.add st u (mapResultStorage tu target neighbors))
        have hfu : Storage.find st u = none := Storage.hasStorage_eq_false.mp hc.2
        refine ⟨st', h1, fun w x hw => hmono w x (Storage.find_add_mono hw _ _), ?_⟩
        intro v t hv htv h0 hno
        by_cases huv : u = v
        · subst huv
          rw [hty] at htv
          cases htv
          exact hmono _ _ (Storage.find_add_self hfu _)
        · have hv' : v ∈ vars := by
            rcases List.mem_cons.mp hv with h | h
            · exact absurd h.symm huv
            · exact h
          refine hnew v t hv' htv h0 ?_
          rw [Storage.hasStorage_eq_false, Storage.find_add,
            Storage.hasStorage_eq_false.mp hno]
          simp [huv]
      · simp only [hc, if_false]
        obtain ⟨st', h1, hmono, hnew⟩ := visitMap_spec target neighbors vars st
        refine ⟨st', h1, hmono, ?_⟩
        intro v t hv htv h0 hno
        rcases List.mem_cons.mp hv with h | h
        · subst h
          rw [hty] at htv
          cases htv
          exact absurd ⟨h0, hno⟩ hc
        · exact hnew v t h htv h0 hno
    | element n =>
      obtain ⟨st', h1, hmono, hnew⟩ := visitMap_spec target neighbors vars st
      refine ⟨st', h1, hmono, ?_⟩
      intro v t hv htv h0 hno
      rcases List.mem_cons.mp hv with h | h
      · subst h; rw [hty] at htv; cases htv
      · exact hnew v t h htv h0 hno
    | set n e =>
      obtain ⟨st', h1, hmono, hnew⟩ := visitMap_spec target neighbors vars st
      refine ⟨st', h1, hmono, ?_⟩
      intro v t hv htv h0 hno
      rcases List.mem_cons.mp hv with h | h
      · subst h; rw [hty] at htv; cases htv
      · exact hnew v t h htv h0 hno
    | tuple n e =>
      obtain ⟨st', h1, hmono, hnew⟩ := visitMap_spec target neighbors vars st
      refine ⟨st', h1, hmono, ?_⟩
      intro v t hv htv h0 hno
      rcases List.mem_cons.mp hv with h | h
      · subst h; rw [hty] at htv; cases htv
      · exact hnew v t h htv h0 hno

/-- C2. When storage inference visits a `Map`, it returns, and every result
variable `v` of the map that is a non-scalar tensor without storage gets an
entry: `DenseRowMajor` if `v` has order 1; otherwise `SystemReduced` with the
map's target as target set and the map's neighbours as storage set if the map
has a neighbour set, and `SystemDiagonal` with the map's target as target set if
it has none. -/
theorem C2_map_result_storage (vars : List Var) (function : Func) (target neighbors : Expr)
    (reduction : ReductionOperator) (st : Storage) (v : Var) (t : TensorType)
    (hv : v ∈ vars) (hty : v.type = .tensor t) (hns : t.order ≠ 0)
    (hno : Storage.hasStorage st v = false) :
    ∃ st' s, visitStmt (.map vars function target neighbors reduction) st = .ok st' ∧
      Storage.find st' v = some s ∧
      (t.order = 1 → s.getKind = StorageKind.DenseRowMajor) ∧
      (t.order ≠ 1 → neighbors.defined = true →
        s.getKind = StorageKind.SystemReduced ∧ s.systemTargetSet = target ∧
        s.systemStorageSet = neighbors) ∧
      (t.order ≠ 1 → neighbors.defined = false →
        s.getKind = StorageKind.SystemDiagonal ∧ s.systemTargetSet = target) := by
  obtain ⟨st', h1, _, hnew⟩ := visitMap_spec target neighbors vars st
  refine ⟨st', mapResultStorage t target neighbors, by simpa [visitStmt] using h1,
    hnew v t hv hty hns hno, ?_, ?_, ?_⟩
  · intro h
    simp [mapResultStorage, h, TensorStorage.ofKind, TensorStorage.getKind]
  · intro h hd
    simp [mapResultStorage, h, hd, TensorStorage.systemReduced, TensorStorage.getKind,
      TensorStorage.systemTargetSet, TensorStorage.systemStorageSet]
  · intro h hd
    simp [mapResultStorage, h, hd, TensorStorage.systemDiagonal, TensorStorage.getKind,
      TensorStorage.systemTargetSet]

/-- Witness of C2: the assembled matrix `A` of a map over `E` with neighbours
`V`. -/
theorem C2_map_result_storage_witness :
    ∃ st' s, visitStmt mapIntoSystem [] = .ok st' ∧
      Storage.find st' ⟨"A", systemMatrixType⟩ = some s ∧
      ((2 : Nat) = 1 → s.getKind = StorageKind.DenseRowMajor) ∧
      ((2 : Nat) ≠ 1 → setV.defined = true →
        s.getKind = StorageKind.SystemReduced ∧ s.systemTargetSet = setE ∧
        s.systemStorageSet = setV) ∧
      ((2 : Nat) ≠ 1 → setV.defined = false →
        s.getKind = StorageKind.SystemDiagonal ∧ s.systemTargetSet = setE) :=
  C2_map_result_storage [⟨"b", vectorType⟩, ⟨"A", systemMatrixType⟩] emptyFunc setE setV
    ReductionOperator.Sum [] ⟨"A", systemMatrixType⟩
    ⟨ScalarKind.Float, [⟨[.set "V"]⟩, ⟨[.set "V"]⟩]⟩ (by decide) rfl (by decide) rfl

/-! ## Assignments of assembled tensors -/

theorem determineStorageLeaves_of_find {v : Var} {x : TensorStorage} :
    ∀ (ls : List Var) (st : Storage), Storage.find st v = some x →
      determineStorageLeaves v ls st = .ok st
  | [], st, _ => by simp [determineStorageLeaves]
  | l :: ls, st, h => by
    rw [determineStorageLeaves_cons]
    cases hf : Storage.find st l with
    | none => exact determineStorageLeaves_of_find ls st h
    | some s =>
      by_cases hk : s.getKind = StorageKind.SystemReduced
      · simp only [hk, if_true, Storage.add_of_find h]
        exact determineStorageLeaves_of_find ls st h
      · simp only [hk, if_false]
        exact determineStorageLeaves_of_find ls st h

theorem determineStorageLeaves_pending {v : Var} :
    ∀ (ls : List Var) (st : Storage),
      (∀ l s, l ∈ ls → Storage.find st l = some s → s.getKind ≠ StorageKind.SystemReduced) →
      determineStorageLeaves v ls st = .ok st
  | [], st, _ => by simp [determineStorageLeaves]
  | l :: ls, st, h => by
    rw [determineStorageLeaves_cons]
    have ih := determineStorageLeaves_pending (v := v) ls st
      (fun l' s hl hs => h l' s (List.mem_cons_of_mem _ hl) hs)
    cases hf : Storage.find st l with
    | none => exact ih
    | some s =>
      have hk := h l s (List.mem_cons_self _ _) hf
      simp only [hk, if_false]
      exact ih

theorem determineStorageLeaves_reduced {v : Var} :
    ∀ (ls : List Var) (st : Storage), Storage.find st v = none →
      (∃ l s, l ∈ ls ∧ Storage.find st l = some s ∧ s.getKind = StorageKind.SystemReduced) →
      ∃ l s, l ∈ ls ∧ Storage.find st l = some s ∧ s.getKind = StorageKind.SystemReduced ∧
        determineStorageLeaves v ls st = .ok (Storage.add st v
          (TensorStorage.systemReduced s.systemTargetSet s.systemStorageSet))
  | [], _, _, h => by
    obtain ⟨l, s, hl, _⟩ := h
    simp at hl
  | l :: ls, st, hv, h => by
    rw [determineStorageLeaves_cons]
    have tail : (∃ l' s, l' ∈ ls ∧ Storage.find st l' = some s ∧
        s.getKind = StorageKind.SystemReduced) →
        ∃ l' s, l' ∈ l :: ls ∧ Storage.find st l' = some s ∧
          s.getKind = StorageKind.SystemReduced ∧
          determineStorageLeaves v ls st = .ok (Storage.add st v
            (TensorStorage.systemReduced s.systemTargetSet s.systemStorageSet)) := by
      intro h'
      obtain ⟨l', s, hl', hs, hk, hrun⟩ := determineStorageLeaves_reduced ls st hv h'
      exact ⟨l', s, List.mem_cons_of_mem _ hl', hs, hk, hrun⟩
    cases hf : Storage.find st l with
    | none =>
      simp only []
      apply tail
      obtain ⟨l', s, hl', hs, hk⟩ := h
      rcases List.mem_cons.mp hl' with heq | hmem
      · subst heq; rw [hf] at hs; cases hs
      · exact ⟨l', s, hmem, hs, hk⟩
    | some s0 =>
      by_cases hk0 : s0.getKind = StorageKind.SystemReduced
      · simp only [hk0, if_true]
        refine ⟨l, s0, List.mem_cons_self _ _, hf, hk0, ?_⟩
        exact determineStorageLeaves_of_find ls _ (Storage.find_add_self hv _)
      · simp only [hk0, if_false]
        apply tail
        obtain ⟨l', s, hl', hs, hk⟩ := h
        rcases List.mem_cons.mp hl' with heq | hmem
        · subst heq; rw [hf] at hs; cases hs; exact absurd hk hk0
        · exact ⟨l', s, hmem, hs, hk⟩

/-- C3. For an `AssignStmt` whose target `v` is a non-element tensor of order at
least 2 without storage: if some leaf variable of the right-hand side has
`SystemReduced` storage, the statement returns and gives `v` the `SystemReduced`
storage with the target set and the storage set of such a leaf; if no leaf
variable has `SystemReduced` storage, the statement returns the storage map
unchanged, so `v` is left without entry and no error is raised. -/
theorem C3_assign_propagates_system_reduced (st : Storage) (v : Var) (value : Expr)
    (t : TensorType) (hty : v.type = .tensor t) (hne : isElementTensorType t = false)
    (hord : 2 ≤ t.order) (hno : Storage.hasStorage st v = false) :
    ((∃ l s, l ∈ leafVars value [] ∧ Storage.find st l = some s ∧
        s.getKind = StorageKind.SystemReduced) →
      ∃ l s st' s', l ∈ leafVars value [] ∧ Storage.find st l = some s ∧
        s.getKind = StorageKind.SystemReduced ∧
        visitStmt (.assignStmt v value) st = .ok st' ∧
        Storage.find st' v = some s' ∧ s'.getKind = StorageKind.SystemReduced ∧
        s'.systemTargetSet = s.systemTargetSet ∧
        s'.systemStorageSet = s.systemStorageSet) ∧
    ((∀ l s, l ∈ leafVars value [] → Storage.find st l = some s →
        s.getKind ≠ StorageKind.SystemReduced) →
      visitStmt (.assignStmt v value) st = .ok st ∧ Storage.hasStorage st v = false) := by
  have h0 : t.order ≠ 0 := by omega
  have h1 : 1 < t.order := by omega
  have hrun : visitStmt (.assignStmt v value) st =
      determineStorageLeaves v (leafVars value []) st := by
    simp only [visitStmt]
    rw [visitAssignStmt_eq]
    simp [hty, h0, hno, hne, h1]
  have hfv : Storage.find st v = none := Storage.hasStorage_eq_false.mp hno
  constructor
  · intro h
    obtain ⟨l, s, hl, hs, hk, hres⟩ := determineStorageLeaves_reduced _ st hfv h
    refine ⟨l, s, _, _, hl, hs, hk, hrun.trans hres, Storage.find_add_self hfv _, rfl, rfl, rfl⟩
  · intro h
    exact ⟨hrun.trans (determineStorageLeaves_pending _ st h), hno⟩

/-- Witness of C3: `B = A` in a state where `A` has `SystemReduced(E, V)`
storage. -/
theorem C3_assign_propagates_system_reduced_witness :
    ∃ l s st' s', l ∈ leafVars (.varExpr ⟨"A", systemMatrixType⟩) [] ∧
      Storage.find [(⟨"A", systemMatrixType⟩, TensorStorage.systemReduced setE setV)] l
        = some s ∧
      s.getKind = StorageKind.SystemReduced ∧
      visitStmt assignSystemMatrix
        [(⟨"A", systemMatrixType⟩, TensorStorage.systemReduced setE setV)] = .ok st' ∧
      Storage.find st' ⟨"B", systemMatrixType⟩ = some s' ∧
      s'.getKind = StorageKind.SystemReduced ∧
      s'.systemTargetSet = s.systemTargetSet ∧
      s'.systemStorageSet = s.systemStorageSet :=
  (C3_assign_propagates_system_reduced
    [(⟨"A", systemMatrixType⟩, TensorStorage.systemReduced setE setV)]
    ⟨"B", systemMatrixType⟩ (.varExpr ⟨"A", systemMatrixType⟩)
    ⟨ScalarKind.Float, [⟨[.set "V"]⟩, ⟨[.set "V"]⟩]⟩ rfl (by decide) (by decide)
    (by decide)).1
    ⟨⟨"A", systemMatrixType⟩, TensorStorage.systemReduced setE setV,
      by simp [leafVars, varSetInsert], by simp [Storage.find], rfl⟩

/-! ## Kinds of the inferred storage -/

/-- Counterexample to C1: a map without neighbours into the 3 by 3 element
tensor `K` records `SystemDiagonal` storage for `K`, not `DenseRowMajor`. -/
theorem C1_counterexample :
    getStorage mapIntoElementTensor
        = .ok [(⟨"K", elementMatrixType⟩, TensorStorage.systemDiagonal setV)] ∧
      isScalar elementMatrixType = false ∧
      elementMatrixType.toTensor.map isElementTensorType = some true ∧
      (TensorStorage.systemDiagonal setV).getKind = StorageKind.SystemDiagonal ∧
      (TensorStorage.systemDiagonal setV).getKind ≠ StorageKind.DenseRowMajor :=
  ⟨rfl, rfl, rfl, rfl, by decide⟩

/-- C1, amended. If `getStorage f` succeeds and `v` is a tensor variable that
has order 1, or that is an element tensor and not a result variable of a `Map`
of the body, then the storage recorded for `v` has kind `DenseRowMajor`,
whichever way `v` received it. -/
theorem C1_dense_storage (f : Func) (st : Storage) (v : Var) (t : TensorType)
    (s : TensorStorage) (hget : getStorage f = .ok st) (hty : v.type = .tensor t)
    (hcase : t.order = 1 ∨ (isElementTensorType t = true ∧ v ∉ mapVars f.getBody))
    (hfind : Storage.find st v = some s) : s.getKind = StorageKind.DenseRowMajor := by
  let P : Var → TensorStorage → Prop := fun w x =>
    ∀ u, w.type = .tensor u →
      (u.order = 1 ∨ (isElementTensorType u = true ∧ w ∉ mapVars f.getBody)) →
      x.getKind = StorageKind.DenseRowMajor
  have hA : AddsOnly P (mapVars f.getBody) := by
    refine ⟨?_, ?_, ?_⟩
    · intro w b u _ _ _ u' _ _
      rfl
    · intro w u a b hw hne hord u' hw' hc
      rw [hw] at hw'
      cases hw'
      rcases hc with hc | hc
      · omega
      · rw [hne] at hc
        exact absurd hc.1 (by decide)
    · intro w u target neighbors hM hw _ u' hw' hc
      rw [hw] at hw'
      cases hw'
      rcases hc with hc | hc
      · simp [mapResultStorage, hc, TensorStorage.ofKind, TensorStorage.getKind]
      · exact absurd hM hc.2
  have hall : Storage.All P st :=
    (updateStorage_reach hA hget).all (fun e he => by simp at he)
  exact hall (v, s) (Storage.find_mem st v s hfind) t hty hcase

/-- Witness of C1: the vector argument `x` of `copyVector`. -/
theorem C1_dense_storage_witness :
    (TensorStorage.ofKind StorageKind.DenseRowMajor false).getKind
      = StorageKind.DenseRowMajor :=
  C1_dense_storage copyVector
    [(⟨"x", vectorType⟩, TensorStorage.ofKind StorageKind.DenseRowMajor false),
     (⟨"y", vectorType⟩, TensorStorage.ofKind StorageKind.DenseRowMajor false)]
    ⟨"x", vectorType⟩ ⟨ScalarKind.Float, [⟨[.set "V"]⟩]⟩
    (TensorStorage.ofKind StorageKind.DenseRowMajor false) rfl rfl
    (Or.inl rfl) (by simp [Storage.find])

/-- Counterexample to C4: in the build without `SIMIT_ASSERTS`, `getStorage` of a
function whose only argument is the assembled matrix `A` raises nothing and
returns a map whose entry for `A` has kind `Undefined`. -/
theorem C4_counterexample :
    NoAsserts.getStorage systemMatrixArgument =
        .ok [(⟨"A", systemMatrixType⟩, TensorStorage.undefinedStorage)] ∧
      TensorStorage.undefinedStorage.getKind = StorageKind.Undefined :=
  ⟨rfl, rfl⟩

/-- C4, amended. In the build with `SIMIT_ASSERTS`, no entry of the storage map
that `getStorage f` returns has kind `Undefined`; more generally `updateStorage`
keeps a storage map free of `Undefined` entries, and every entry it adds to any
map has a kind other than `Undefined`. In the build without `SIMIT_ASSERTS`,
`getStorage f` raises nothing for any `f`; an entry of kind `Undefined` of the
map it returns belongs to a non-element tensor of order at least 2, and every
non-element tensor of order at least 2 among the globals, arguments and results
of `f` has such an entry. -/
theorem C4_undefined_storage_follows_build :
    ((∀ (f : Func) (st : Storage), getStorage f = .ok st →
        ∀ e ∈ st, e.2.getKind ≠ StorageKind.Undefined) ∧
      (∀ (f : Func) (st0 st : Storage), (∀ e ∈ st0, e.2.getKind ≠ StorageKind.Undefined) →
        updateStorage f st0 = .ok st → ∀ e ∈ st, e.2.getKind ≠ StorageKind.Undefined) ∧
      (∀ (f : Func) (st0 st : Storage) (v : Var) (s : TensorStorage),
        updateStorage f st0 = .ok st → Storage.find st0 v = none →
        Storage.find st v = some s → s.getKind ≠ StorageKind.Undefined)) ∧
    ((∀ (f : Func), ∃ st, NoAsserts.getStorage f = .ok st ∧
        ∀ e ∈ st, e.2.getKind = StorageKind.Undefined →
          ∃ t, e.1.type = .tensor t ∧ isElementTensorType t = false ∧ 2 ≤ t.order) ∧
      (∀ (f : Func) (v : Var) (t : TensorType),
        (v ∈ f.getGlobals.map Prod.fst ∨ v ∈ f.getArguments ∨ v ∈ f.getResults) →
        v.type = .tensor t → isElementTensorType t = false → 2 ≤ t.order →
        ∃ st s, NoAsserts.getStorage f = .ok st ∧ Storage.find st v = some s ∧
          s.getKind = StorageKind.Undefined)) := by
  have hA : ∀ M, AddsOnly (fun _ x => x.getKind ≠ StorageKind.Undefined) M := by
    intro M
    refine ⟨?_, ?_, ?_⟩
    · intro _ _ _ _ _ _
      simp [TensorStorage.ofKind, TensorStorage.getKind]
    · intro _ _ _ _ _ _ _
      simp [TensorStorage.systemReduced, TensorStorage.getKind]
    · intro _ t target neighbors _ _ _
      simpa using mapResultStorage_ne_undefined t target neighbors
  refine ⟨⟨?_, ?_, ?_⟩, ?_, ?_⟩
  · intro f st h
    exact (updateStorage_reach (hA _) h).all (fun e he => by simp at he)
  · intro f st0 st h0 h
    exact (updateStorage_reach (hA _) h).all h0
  · intro f st0 st v s h hn hs
    exact (updateStorage_reach (hA _) h).added hn hs
  · intro f
    obtain ⟨st, h, r⟩ := noAsserts_updateStorage_reach f []
    exact ⟨st, h, r.all (fun e he => by simp at he)⟩
  · intro f v t hv hty hne hord
    obtain ⟨st, h, hf⟩ := noAsserts_getStorage_undefined hty hne hord f hv
    exact ⟨st, _, h, hf, rfl⟩

/-- Witness of C4: the two entries of the storage of `copyVector` with
`SIMIT_ASSERTS`, and the assembled matrix `A` as an argument without it. -/
theorem C4_undefined_storage_follows_build_witness :
    (∀ e ∈ [((⟨"x", vectorType⟩ : Var), TensorStorage.ofKind StorageKind.DenseRowMajor false),
        (⟨"y", vectorType⟩, TensorStorage.ofKind StorageKind.DenseRowMajor false)],
      e.2.getKind ≠ StorageKind.Undefined) ∧
    (∃ st s, NoAsserts.getStorage systemMatrixArgument = .ok st ∧
      Storage.find st ⟨"A", systemMatrixType⟩ = some s ∧
      s.getKind = StorageKind.Undefined) :=
  ⟨C4_undefined_storage_follows_build.1.1 copyVector _ rfl,
    C4_undefined_storage_follows_build.2.2 systemMatrixArgument ⟨"A", systemMatrixType⟩
      ⟨ScalarKind.Float, [⟨[.set "V"]⟩, ⟨[.set "V"]⟩]⟩
      (Or.inr (Or.inl (by simp [systemMatrixArgument, mkFunc, Func.getArguments])))
      rfl (by decide) (by decide)⟩

/-- C6. The storage map that `getStorage f` returns has no entry for a variable
of scalar type. -/
theorem C6_scalars_have_no_storage (f : Func) (st : Storage) (v : Var)
    (hget : getStorage f = .ok st) (hs : isScalar v.type = true) :
    Storage.hasStorage st v = false := by
  have hA : AddsOnly (fun w _ => isScalar w.type = false) (mapVars f.getBody) := by
    refine ⟨?_, ?_, ?_⟩
    · intro w _ t hw h0 _
      simpa [hw, isScalar] using h0
    · intro w t _ _ hw _ hord
      simp [hw, isScalar]
      omega
    · intro w t _ _ _ hw h0
      simpa [hw, isScalar] using h0
  have hall : Storage.All (fun w _ => isScalar w.type = false) st :=
    (updateStorage_reach hA hget).all (fun e he => by simp at he)
  rw [Storage.hasStorage_eq_false]
  cases hf : Storage.find st v with
  | none => rfl
  | some x =>
    have := hall (v, x) (Storage.find_mem st v x hf)
    simp [hs] at this

/-- Witness of C6: a function with the scalar argument `a`. -/
theorem C6_scalars_have_no_storage_witness :
    Storage.hasStorage [] ⟨"a", scalarType⟩ = false :=
  C6_scalars_have_no_storage (mkFunc [⟨"a", scalarType⟩] [] .pass) [] ⟨"a", scalarType⟩
    rfl rfl

/-! ## Which variables end with an entry -/

theorem determineStorage_has {st st' : Storage} {v : Var} {b : Bool} {t : TensorType}
    (h : determineStorage st v b = .ok st') (hty : v.type = .tensor t) (h0 : t.order ≠ 0) :
    Storage.hasStorage st' v = true := by
  rcases determineStorage_ok h with ⟨hs, _⟩ | ⟨_, _, _, _, rfl⟩
  · simp [hty, isScalar, h0] at hs
  · rw [Storage.hasStorage_eq_true]
    cases hf : Storage.find st v with
    | none => exact ⟨_, Storage.find_add_self hf _⟩
    | some x => exact ⟨x, Storage.find_add_mono hf _ _⟩

theorem Reach.hasStorage {A : Var → TensorStorage → Prop} {st st' : Storage}
    (h : Reach A st st') {v : Var} (hv : Storage.hasStorage st v = true) :
    Storage.hasStorage st' v = true := by
  rw [Storage.hasStorage_eq_true] at hv ⊢
  obtain ⟨x, hx⟩ := hv
  exact ⟨x, h.mono hx⟩

theorem determineStorageVars_has :
    ∀ (vars : List Var) (st st' : Storage), determineStorageVars vars st = .ok st' →
      ∀ v t, v ∈ vars → v.type = .tensor t → t.order ≠ 0 → Storage.hasStorage st' v = true
  | [], _, _, _, _, _, hv, _, _ => by simp at hv
  | u :: vars, st, st', h, v, t, hv, hty, h0 => by
    obtain ⟨st1, h2, h1 | h1⟩ := determineStorageVars_cons_ok h
    · rcases List.mem_cons.mp hv with heq | hmem
      · subst heq
        exact (determineStorageVars_reach (addsOnly_true []) vars st1 st' h2).hasStorage
          (determineStorage_has h1.2 hty h0)
      · exact determineStorageVars_has vars st1 st' h2 v t hmem hty h0
    · rcases List.mem_cons.mp hv with heq | hmem
      · subst heq
        simp [hty, Ty.isTensor] at h1
      · exact determineStorageVars_has vars st1 st' h2 v t hmem hty h0

theorem visitStmt_mono {s : Stmt} {st st' : Storage} (h : visitStmt s st = .ok st') {v : Var}
    (hv : Storage.hasStorage st v = true) : Storage.hasStorage st' v = true :=
  (visitStmt_reach (addsOnly_true (mapVars s)) s st st' (fun _ hm => hm) h).hasStorage hv

theorem visitStmt_has :
    ∀ (s : Stmt) (st st' : Storage), visitStmt s st = .ok st' →
      ∀ v t, v.type = .tensor t → t.order ≠ 0 →
        (v ∈ declaredVars s ∨ v ∈ writtenVars s ∨
          (v ∈ assignedVars s ∧ (isElementTensorType t = true ∨ t.order = 1))) →
        Storage.hasStorage st' v = true
  | .undefined, _, _, _, _, _, _, _, hv => by
    simp [declaredVars, writtenVars, assignedVars] at hv
  | .assignStmt var value, st, st', h, v, t, hty, h0, hv => by
    simp only [declaredVars, writtenVars, assignedVars, List.mem_singleton,
      List.not_mem_nil, false_or] at hv
    obtain ⟨rfl, hc⟩ := hv
    simp only [visitStmt] at h
    rw [visitAssignStmt_eq] at h
    simp only [hty] at h
    cases hh : Storage.hasStorage st v with
    | true =>
      simp [hh] at h
      subst h
      exact hh
    | false =>
      have hr : ¬ (isElementTensorType t = false ∧ 1 < t.order) := by
        rintro ⟨h1, h2⟩
        rcases hc with hc | hc
        · rw [h1] at hc; cases hc
        · omega
      simp only [hh, h0, ne_eq, not_false_eq_true, and_self, if_true, hr, if_false] at h
      exact determineStorage_has h hty h0
  | .map _ _ _ _ _, _, _, _, _, _, _, _, hv => by
    simp [declaredVars, writtenVars, assignedVars] at hv
  | .fieldWrite _ _ _, _, _, _, _, _, _, _, hv => by
    simp [declaredVars, writtenVars, assignedVars] at hv
  | .tensorWrite tensor _ _, st, st', h, v, t, hty, h0, hv => by
    simp only [visitStmt] at h
    rw [visitTensorWrite_eq] at h
    cases tensor with
    | varExpr var =>
      simp only [declaredVars, writtenVars, assignedVars, List.mem_singleton,
        List.not_mem_nil, false_or, false_and, or_false] at hv
      subst hv
      simp only [Expr.toVarExpr] at h
      cases hh : Storage.hasStorage st v with
      | true =>
        simp [hh] at h
        subst h
        exact hh
      | false =>
        have hg : (v.type.isTensor && !isScalar v.type) = true := by
          simp [hty, Ty.isTensor, isScalar, h0]
        simp only [hh, hg, and_self, if_true] at h
        exact determineStorage_has h hty h0
    | _ => simp [declaredVars, writtenVars, assignedVars] at hv
  | .store _ _ _, _, _, _, _, _, _, _, hv => by
    simp [declaredVars, writtenVars, assignedVars] at hv
  | .varDecl var, st, st', h, v, t, hty, h0, hv => by
    simp only [declaredVars, writtenVars, assignedVars, List.mem_singleton,
      List.not_mem_nil, false_and, or_false] at hv
    subst hv
    simp only [visitStmt] at h
    obtain ⟨_, h1, _⟩ := visitVarDecl_ok h
    exact determineStorage_has (h1 (by simp [hty, Ty.isTensor, isScalar, h0])) hty h0
  | .block first rest, st, st', h, v, t, hty, h0, hv => by
    obtain ⟨st1, h1, h2⟩ := visitStmt_block_ok h
    simp only [declaredVars, writtenVars, assignedVars, List.mem_append] at hv
    have hcase : (v ∈ declaredVars first ∨ v ∈ writtenVars first ∨
        (v ∈ assignedVars first ∧ (isElementTensorType t = true ∨ t.order = 1))) ∨
        (v ∈ declaredVars rest ∨ v ∈ writtenVars rest ∨
        (v ∈ assignedVars rest ∧ (isElementTensorType t = true ∨ t.order = 1))) := by
      tauto
    rcases hcase with hc | hc
    · exact visitStmt_mono h2 (visitStmt_has first st st1 h1 v t hty h0 hc)
    · exact visitStmt_has rest st1 st' h2 v t hty h0 hc
  | .forRange _ _ _ body, st, st', h, v, t, hty, h0, hv => by
    simp only [visitStmt] at h
    exact visitStmt_has body st st' h v t hty h0
      (by simpa [declaredVars, writtenVars, assignedVars] using hv)
  | .forDomain _ _ body, st, st', h, v, t, hty, h0, hv => by
    simp only [visitStmt] at h
    exact visitStmt_has body st st' h v t hty h0
      (by simpa [declaredVars, writtenVars, assignedVars] using hv)
  | .whileLoop _ body, st, st', h, v, t, hty, h0, hv => by
    simp only [visitStmt] at h
    exact visitStmt_has body st st' h v t hty h0
      (by simpa [declaredVars, writtenVars, assignedVars] using hv)
  | .ifThenElse _ thenBody elseBody, st, st', h, v, t, hty, h0, hv => by
    obtain ⟨st1, h1, h2⟩ := visitStmt_ifThenElse_ok h
    simp only [declaredVars, writtenVars, assignedVars, List.mem_append] at hv
    have hcase : (v ∈ declaredVars thenBody ∨ v ∈ writtenVars thenBody ∨
        (v ∈ assignedVars thenBody ∧ (isElementTensorType t = true ∨ t.order = 1))) ∨
        (v ∈ declaredVars elseBody ∨ v ∈ writtenVars elseBody ∨
        (v ∈ assignedVars elseBody ∧ (isElementTensorType t = true ∨ t.order = 1))) := by
      tauto
    rcases hcase with hc | hc
    · exact visitStmt_mono h2 (visitStmt_has thenBody st st1 h1 v t hty h0 hc)
    · exact visitStmt_has elseBody st1 st' h2 v t hty h0 hc
  | .comment _ commentedStmt, st, st', h, v, t, hty, h0, hv => by
    simp only [visitStmt] at h
    exact visitStmt_has commentedStmt st st' h v t hty h0
      (by simpa [declaredVars, writtenVars, assignedVars] using hv)
  | .pass, _, _, _, _, _, _, _, hv => by
    simp [declaredVars, writtenVars, assignedVars] at hv

/-- Counterexample to C5: `getStorage` returns normally on a function whose
body assigns a literal to the assembled matrix `A`, and the returned map has no
entry for `A`. -/
theorem C5_counterexample :
    getStorage assignLiteralToSystemMatrix = .ok [] ∧
      (⟨"A", systemMatrixType⟩ : Var) ∈ assignedVars assignLiteralToSystemMatrix.getBody ∧
      systemMatrixType.isTensor = true ∧ isScalar systemMatrixType = false ∧
      Storage.hasStorage [] ⟨"A", systemMatrixType⟩ = false :=
  ⟨rfl, by simp [assignLiteralToSystemMatrix, mkFunc, Func.getBody, assignedVars], rfl, rfl,
    rfl⟩

/-- C5, amended. If `getStorage f` returns normally, then every non-scalar
tensor variable that is a global, argument or result of `f`, or is declared or
written in the body of `f`, or is assigned in the body and is an element tensor
or has order 1, has a storage entry. -/
theorem C5_determined_variables_have_storage (f : Func) (st : Storage) (v : Var)
    (t : TensorType) (hget : getStorage f = .ok st) (hty : v.type = .tensor t)
    (hns : t.order ≠ 0)
    (hv : v ∈ f.getGlobals.map Prod.fst ∨ v ∈ f.getArguments ∨ v ∈ f.getResults ∨
      v ∈ declaredVars f.getBody ∨ v ∈ writtenVars f.getBody ∨
      (v ∈ assignedVars f.getBody ∧ (isElementTensorType t = true ∨ t.order = 1))) :
    Storage.hasStorage st v = true := by
  obtain ⟨st1, st2, st3, h1, h2, h3, h4⟩ := updateStorage_ok hget
  have r2 := determineStorageVars_reach (addsOnly_true []) _ _ _ h2
  have r3 := determineStorageVars_reach (addsOnly_true []) _ _ _ h3
  rcases hv with hv | hv | hv | hv
  · exact visitStmt_mono h4 (r3.hasStorage (r2.hasStorage
      (determineStorageVars_has _ _ _ h1 v t hv hty hns)))
  · exact visitStmt_mono h4 (r3.hasStorage (determineStorageVars_has _ _ _ h2 v t hv hty hns))
  · exact visitStmt_mono h4 (determineStorageVars_has _ _ _ h3 v t hv hty hns)
  · exact visitStmt_has _ _ _ h4 v t hty hns hv

/-- Witness of C5: the vector result `y` of `copyVector`. -/
theorem C5_determined_variables_have_storage_witness :
    Storage.hasStorage
      [(⟨"x", vectorType⟩, TensorStorage.ofKind StorageKind.DenseRowMajor false),
       (⟨"y", vectorType⟩, TensorStorage.ofKind StorageKind.DenseRowMajor false)]
      ⟨"y", vectorType⟩ = true :=
  C5_determined_variables_have_storage copyVector _ ⟨"y", vectorType⟩
    ⟨ScalarKind.Float, [⟨[.set "V"]⟩]⟩ rfl rfl (by decide)
    (Or.inr (Or.inr (Or.inl (by simp [copyVector, mkFunc, Func.getResults]))))

/-! ## The needs-initialisation flag -/

theorem determineStorage_reach_flag {st st' : Storage} {v : Var} {b : Bool}
    (h : determineStorage st v b = .ok st') :
    Reach (fun _ s => s = TensorStorage.ofKind StorageKind.DenseRowMajor b) st st' := by
  rcases determineStorage_ok h with ⟨_, rfl⟩ | ⟨_, _, _, _, rfl⟩
  · exact Reach.refl _
  · exact Reach.single _ rfl

theorem determineStorageVars_reach_flag :
    ∀ (vars : List Var) (st st' : Storage), determineStorageVars vars st = .ok st' →
      Reach (fun _ s => s = TensorStorage.ofKind StorageKind.DenseRowMajor false) st st'
  | [], st, st', h => by
    simp [determineStorageVars] at h; subst h; exact Reach.refl _
  | v :: vars, st, st', h => by
    obtain ⟨st1, h2, h1 | h1⟩ := determineStorageVars_cons_ok h
    · exact Reach.trans (determineStorage_reach_flag h1.2)
        (determineStorageVars_reach_flag vars st1 st' h2)
    · rw [h1.2] at h2
      exact determineStorageVars_reach_flag vars st st' h2

/-- Counterexample to C7: the vector argument `x` of `copyVector` is stored as
`DenseRowMajor` with the flag false, and no assignment of the body has `x` as
its target. -/
theorem C7_counterexample :
    getStorage copyVector
        = .ok [(⟨"x", vectorType⟩, TensorStorage.ofKind StorageKind.DenseRowMajor false),
               (⟨"y", vectorType⟩, TensorStorage.ofKind StorageKind.DenseRowMajor false)] ∧
      (TensorStorage.ofKind StorageKind.DenseRowMajor false).getKind
        = StorageKind.DenseRowMajor ∧
      (TensorStorage.ofKind StorageKind.DenseRowMajor false).needsInitialization = false ∧
      (⟨"x", vectorType⟩ : Var) ∉ assignedVars copyVector.getBody :=
  ⟨rfl, rfl, rfl, by simp [copyVector, mkFunc, Func.getBody, assignedVars]⟩

/-- C7, amended. The needs-initialisation flag of a `DenseRowMajor` entry is
fixed by the step that adds the entry: it is false when the variable is stored
as a global, argument or result of the function; it is true when the entry is
added by a `VarDecl` or a `TensorWrite`; when it is added by an `AssignStmt` it
is false exactly when the value is a `Literal`; and it is true for an entry
added by a `Map`. -/
theorem C7_needs_initialization :
    (∀ (vars : List Var) (st st' : Storage) (v : Var) (s : TensorStorage),
      determineStorageVars vars st = .ok st' → Storage.find st v = none →
      Storage.find st' v = some s →
      s.getKind = StorageKind.DenseRowMajor ∧ s.needsInitialization = false) ∧
    (∀ (st st' : Storage) (v : Var) (s : TensorStorage),
      visitStmt (.varDecl v) st = .ok st' → Storage.find st' v = some s →
      s.getKind = StorageKind.DenseRowMajor ∧ s.needsInitialization = true) ∧
    (∀ (st st' : Storage) (v : Var) (value : Expr) (s : TensorStorage),
      visitStmt (.assignStmt v value) st = .ok st' → Storage.find st v = none →
      Storage.find st' v = some s → s.getKind = StorageKind.DenseRowMajor →
      s.needsInitialization = !value.isLiteral) ∧
    (∀ (st st' : Storage) (v : Var) (indices : List Expr) (value : Expr) (s : TensorStorage),
      visitStmt (.tensorWrite (.varExpr v) indices value) st = .ok st' →
      Storage.find st v = none → Storage.find st' v = some s →
      s.getKind = StorageKind.DenseRowMajor ∧ s.needsInitialization = true) ∧
    (∀ (st st' : Storage) (vars : List Var) (function : Func) (target neighbors : Expr)
      (reduction : ReductionOperator) (v : Var) (s : TensorStorage),
      visitStmt (.map vars function target neighbors reduction) st = .ok st' →
      Storage.find st v = none → Storage.find st' v = some s →
      s.getKind = StorageKind.DenseRowMajor → s.needsInitialization = true) := by
  refine ⟨?_, ?_, ?_, ?_, ?_⟩
  · intro vars st st' v s h hn hs
    have := (determineStorageVars_reach_flag vars st st' h).added hn hs
    subst this
    exact ⟨rfl, rfl⟩
  · intro st st' v s h hs
    simp only [visitStmt] at h
    obtain ⟨hn, h1, h2⟩ := visitVarDecl_ok h
    cases hc : (v.type.isTensor && !isScalar v.type) with
    | true =>
      have := (determineStorage_reach_flag (h1 hc)).added hn hs
      subst this
      exact ⟨rfl, rfl⟩
    | false =>
      rw [h2 hc, hn] at hs
      cases hs
  · intro st st' v value s h hn hs hk
    simp only [visitStmt] at h
    rw [visitAssignStmt_eq] at h
    cases hty : v.type with
    | tensor t =>
      simp only [hty] at h
      by_cases hc : t.order ≠ 0 ∧ Storage.hasStorage st v = false
      · simp only [hc, and_self, if_true, ne_eq, not_false_eq_true] at h
        by_cases hr : isElementTensorType t = false ∧ 1 < t.order
        · simp only [hr, and_self, if_true] at h
          have hred : s.getKind = StorageKind.SystemReduced :=
            (determineStorageLeaves_reach
              (A := fun _ x => x.getKind = StorageKind.SystemReduced)
              (fun _ _ => rfl) _ _ _ h).added hn hs
          rw [hk] at hred
          cases hred
        · simp only [hr, if_false] at h
          have := (determineStorage_reach_flag h).added hn hs
          subst this
          rfl
      · simp only [hc, if_false] at h
        cases h
        rw [hn] at hs
        cases hs
    | element n => simp only [hty] at h; cases h; rw [hn] at hs; cases hs
    | set n e => simp only [hty] at h; cases h; rw [hn] at hs; cases hs
    | tuple n e => simp only [hty] at h; cases h; rw [hn] at hs; cases hs
  · intro st st' v indices value s h hn hs
    simp only [visitStmt] at h
    rw [visitTensorWrite_eq] at h
    simp only [Expr.toVarExpr] at h
    by_cases hc : (v.type.isTensor && !isScalar v.type) = true ∧ Storage.hasStorage st v = false
    · simp only [hc, and_self, if_true] at h
      have := (determineStorage_reach_flag h).added hn hs
      subst this
      exact ⟨rfl, rfl⟩
    · simp only [hc, if_false] at h
      cases h
      rw [hn] at hs
      cases hs
  · intro st st' vars function target neighbors reduction v s h hn hs _
    simp only [visitStmt] at h
    have hr := visitMap_reach (A := fun _ x => x.needsInitialization = true) vars
      (fun w t _ _ _ => by
        unfold mapResultStorage
        split
        · rfl
        · split <;> rfl) vars st st' (fun _ hw => hw) h
    exact hr.added hn hs

/-- Witness of C7: `y = x` in the empty storage map gives the vector `y` a
`DenseRowMajor` entry whose flag is true, the value being no literal. -/
theorem C7_needs_initialization_witness :
    (TensorStorage.ofKind StorageKind.DenseRowMajor true).needsInitialization
      = !(Expr.varExpr ⟨"x", vectorType⟩).isLiteral :=
  C7_needs_initialization.2.2.1 []
    [(⟨"y", vectorType⟩, TensorStorage.ofKind StorageKind.DenseRowMajor true)]
    ⟨"y", vectorType⟩ (.varExpr ⟨"x", vectorType⟩)
    (TensorStorage.ofKind StorageKind.DenseRowMajor true) rfl rfl (by simp [Storage.find]) rfl

/-! ## Errors of storage inference -/

theorem visitVarDecl_of_hasStorage {st : Storage} {v : Var}
    (h : Storage.hasStorage st v = true) : visitVarDecl st v = .error redeclaration := by
  simp [visitVarDecl, h, iassert, redeclaration, bind, Except.bind]

/-- Counterexample to C8: a body that declares the scalar `s` twice passes
storage inference without error, and a body that declares the vector `t` twice
fails with a report of kind `Internal`, not `User`. -/
theorem C8_counterexample :
    getStorage (mkFunc [] [] declareScalarTwice) = .ok [] ∧
      getStorage (mkFunc [] [] declareVectorTwice) = .error redeclaration ∧
      redeclaration.kind = ErrorKind.Internal ∧ redeclaration.kind ≠ ErrorKind.User :=
  ⟨rfl, rfl, rfl, by decide⟩

/-- C8, amended. In the build with `SIMIT_ASSERTS`, once a `VarDecl` of a
non-scalar tensor variable `v` has passed storage inference, every later
`VarDecl` of `v` that the inference reaches fails with a report of kind
`Internal` whose message is "Redeclaration of variable". In the build without
`SIMIT_ASSERTS` no `VarDecl` raises anything, and a `VarDecl` of a variable
declared before returns the storage map as it was. -/
theorem C8_redeclaration_follows_build :
    (∀ (st st1 st2 : Storage) (v : Var) (t : TensorType) (mid : Stmt),
      v.type = .tensor t → t.order ≠ 0 →
      visitStmt (.varDecl v) st = .ok st1 → visitStmt mid st1 = .ok st2 →
      visitStmt (.varDecl v) st2 = .error redeclaration) ∧
    redeclaration.kind = ErrorKind.Internal ∧
    redeclaration.msg = "Redeclaration of variable" ∧
    (∀ (st : Storage) (v : Var), ∃ st', NoAsserts.visitStmt (.varDecl v) st = .ok st') ∧
    (∀ (st st1 st2 : Storage) (v : Var) (mid : Stmt),
      NoAsserts.visitStmt (.varDecl v) st = .ok st1 → NoAsserts.visitStmt mid st1 = .ok st2 →
      NoAsserts.visitStmt (.varDecl v) st2 = .ok st2) := by
  refine ⟨?_, rfl, rfl, ?_, ?_⟩
  · intro st st1 st2 v t mid hty hns h1 h2
    have hhas : Storage.hasStorage st1 v = true :=
      visitStmt_has (.varDecl v) st st1 h1 v t hty hns (Or.inl (by simp [declaredVars]))
    simp only [visitStmt]
    exact visitVarDecl_of_hasStorage (visitStmt_mono h2 hhas)
  · intro st v
    obtain ⟨st', h, _⟩ := noAsserts_visitStmt_reach (.varDecl v) st
    exact ⟨st', h⟩
  · intro st st1 st2 v mid h1 h2
    simp only [NoAsserts.visitStmt] at h1 ⊢
    rw [noAsserts_visitVarDecl] at h1 ⊢
    by_cases hc : (v.type.isTensor && !isScalar v.type) = true
    · simp only [hc, if_true] at h1 ⊢
      cases hty : v.type with
      | tensor t =>
        have h0 : ¬ t.order = 0 := by
          intro h0
          simp [hty, isScalar, h0] at hc
        rw [noAsserts_determineStorage st v true t hty] at h1
        simp only [h0, if_false] at h1
        cases h1
        obtain ⟨x, hx⟩ : ∃ x, Storage.find
            (Storage.add st v (if isElementTensorType t = true ∨ t.order = 1 then
              TensorStorage.ofKind StorageKind.DenseRowMajor true
              else TensorStorage.undefinedStorage)) v = some x := by
          cases hf : Storage.find st v with
          | none => exact ⟨_, Storage.find_add_self hf _⟩
          | some y => exact ⟨y, Storage.find_add_mono hf _ _⟩
        obtain ⟨st2', h2', r2⟩ := noAsserts_visitStmt_reach mid
          (Storage.add st v (if isElementTensorType t = true ∨ t.order = 1 then
            TensorStorage.ofKind StorageKind.DenseRowMajor true
            else TensorStorage.undefinedStorage))
        rw [h2] at h2'
        cases h2'
        rw [noAsserts_determineStorage st2 v true t hty]
        simp only [h0, if_false]
        rw [Storage.add_of_find (r2.mono hx)]
      | element n => simp [hty, Ty.isTensor] at hc
      | set n e => simp [hty, Ty.isTensor] at hc
      | tuple n e => simp [hty, Ty.isTensor] at hc
    · simp [hc]

/-- Witness of C8: the vector `t` declared, a `pass`, and `t` declared again,
in either build. -/
theorem C8_redeclaration_follows_build_witness :
    visitStmt (.varDecl ⟨"t", vectorType⟩)
        [(⟨"t", vectorType⟩, TensorStorage.ofKind StorageKind.DenseRowMajor true)]
        = .error redeclaration ∧
      NoAsserts.visitStmt (.varDecl ⟨"t", vectorType⟩)
        [(⟨"t", vectorType⟩, TensorStorage.ofKind StorageKind.DenseRowMajor true)]
        = .ok [(⟨"t", vectorType⟩, TensorStorage.ofKind StorageKind.DenseRowMajor true)] :=
  ⟨C8_redeclaration_follows_build.1 [] _ _ ⟨"t", vectorType⟩
      ⟨ScalarKind.Float, [⟨[.set "V"]⟩]⟩ .pass rfl (by decide) rfl rfl,
    C8_redeclaration_follows_build.2.2.2.2 [] _ _ ⟨"t", vectorType⟩ .pass rfl rfl⟩

theorem determineStorage_not_supported {v : Var} {t : TensorType} (hty : v.type = .tensor t)
    (hne : isElementTensorType t = false) (hord : 2 ≤ t.order) (st : Storage) (b : Bool) :
    determineStorage st v b = .error not_supported_yet := by
  have h0 : ¬ t.order = 0 := by omega
  have h1 : ¬ t.order = 1 := by omega
  simp [determineStorage, hty, isScalar, h0, Ty.toTensor, hne, h1]

theorem determineStorage_error {st : Storage} {v : Var} {b : Bool} {e : ErrorReport}
    (h : determineStorage st v b = .error e) (hv : v.type.isTensor = true) :
    e = not_supported_yet := by
  unfold determineStorage at h
  by_cases hs : isScalar v.type = true
  · simp [hs] at h
  · simp only [hs, if_false] at h
    cases hty : v.type with
    | tensor t =>
      simp only [hty, Ty.toTensor] at h
      by_cases hc : (isElementTensorType t || t.order == 1) = true
      · simp [hc, iassert, TensorStorage.ofKind, TensorStorage.getKind, bind, Except.bind,
          pure, Except.pure] at h
      · simp only [hc] at h
        simp at h
        exact h.symm
    | element n => simp [hty, Ty.isTensor] at hv
    | set n e => simp [hty, Ty.isTensor] at hv
    | tuple n e => simp [hty, Ty.isTensor] at hv

theorem determineStorageVars_error :
    ∀ (vars : List Var) (st : Storage) (e : ErrorReport),
      determineStorageVars vars st = .error e → e = not_supported_yet
  | [], st, e, h => by simp [determineStorageVars] at h
  | v :: vars, st, e, h => by
    unfold determineStorageVars at h
    by_cases hc : v.type.isTensor = true
    · simp only [hc, if_true, bind, Except.bind] at h
      cases h1 : determineStorage st v false with
      | error e1 =>
        simp only [h1] at h
        cases h
        exact determineStorage_error h1 hc
      | ok st1 =>
        simp only [h1] at h
        exact determineStorageVars_error vars st1 e h
    · simp only [hc] at h
      exact determineStorageVars_error vars st e h

theorem determineStorageVars_not_supported {v : Var} {t : TensorType}
    (hty : v.type = .tensor t) (hne : isElementTensorType t = false) (hord : 2 ≤ t.order) :
    ∀ (vars : List Var) (st : Storage), v ∈ vars →
      determineStorageVars vars st = .error not_supported_yet
  | [], _, hv => by simp at hv
  | u :: vars, st, hv => by
    cases hr : determineStorageVars (u :: vars) st with
    | error e => rw [determineStorageVars_error _ _ _ hr]
    | ok st' =>
      exfalso
      obtain ⟨st1, h2, h1 | h1⟩ := determineStorageVars_cons_ok hr
      · rcases List.mem_cons.mp hv with heq | hmem
        · subst heq
          rw [determineStorage_not_supported hty hne hord] at h1
          cases h1.2
        · rw [determineStorageVars_not_supported hty hne hord vars st1 hmem] at h2
          cases h2
      · rcases List.mem_cons.mp hv with heq | hmem
        · subst heq
          simp [hty, Ty.isTensor] at h1
        · rw [determineStorageVars_not_supported hty hne hord vars st1 hmem] at h2
          cases h2

/-- Counterexample to C9: storage inference of a function that declares an
assembled tensor of order 3 fails with the report of `not_supported_yet`, whose
kind is `Internal`, not `Temporary`. -/
theorem C9_counterexample :
    getStorage declareOrder3 = .error not_supported_yet ∧
      not_supported_yet.kind = ErrorKind.Internal ∧
      not_supported_yet.kind ≠ ErrorKind.Temporary :=
  ⟨rfl, rfl, by decide⟩

/-- C9, amended. For a non-element tensor variable `v` of order at least 2: in
the build with `SIMIT_ASSERTS`, `determineStorage(v, _)` fails with the report
of `not_supported_yet`, of kind `Internal`; so does a `VarDecl` of `v` or a
`TensorWrite` into `v` reached when `v` has no storage, and so does
`getStorage f` when `v` is a global, an argument or a result of `f`. In the
build without `SIMIT_ASSERTS` none of them raises anything: each adds for `v`
an entry of kind `Undefined` unless `v` has an entry, and `getStorage f`
returns a map with an `Undefined` entry for `v`. -/
theorem C9_unsupported_follows_build (v : Var) (t : TensorType)
    (hty : v.type = .tensor t) (hne : isElementTensorType t = false) (hord : 2 ≤ t.order) :
    ((∀ (st : Storage) (b : Bool), determineStorage st v b = .error not_supported_yet) ∧
      (∀ (st : Storage), Storage.hasStorage st v = false →
        visitStmt (.varDecl v) st = .error not_supported_yet) ∧
      (∀ (st : Storage) (indices : List Expr) (value : Expr),
        Storage.hasStorage st v = false →
        visitStmt (.tensorWrite (.varExpr v) indices value) st = .error not_supported_yet) ∧
      (∀ (f : Func), (v ∈ f.getGlobals.map Prod.fst ∨ v ∈ f.getArguments ∨ v ∈ f.getResults) →
        getStorage f = .error not_supported_yet) ∧
      not_supported_yet.kind = ErrorKind.Internal) ∧
    ((∀ (st : Storage) (b : Bool), NoAsserts.determineStorage st v b =
        .ok (Storage.add st v TensorStorage.undefinedStorage)) ∧
      (∀ (st : Storage), NoAsserts.visitStmt (.varDecl v) st =
        .ok (Storage.add st v TensorStorage.undefinedStorage)) ∧
      (∀ (st : Storage) (indices : List Expr) (value : Expr),
        Storage.hasStorage st v = false →
        NoAsserts.visitStmt (.tensorWrite (.varExpr v) indices value) st =
          .ok (Storage.add st v TensorStorage.undefinedStorage)) ∧
      (∀ (f : Func), (v ∈ f.getGlobals.map Prod.fst ∨ v ∈ f.getArguments ∨ v ∈ f.getResults) →
        ∃ st, NoAsserts.getStorage f = .ok st ∧
          Storage.find st v = some TensorStorage.undefinedStorage) ∧
      TensorStorage.undefinedStorage.getKind = StorageKind.Undefined) := by
  have h0 : ¬ t.order = 0 := by omega
  have hg : (v.type.isTensor && !isScalar v.type) = true := by
    simp [hty, Ty.isTensor, isScalar, h0]
  refine ⟨⟨determineStorage_not_supported hty hne hord, ?_, ?_, ?_, rfl⟩,
    noAsserts_determineStorage_unsupported hty hne hord, ?_, ?_, ?_, rfl⟩
  · intro st hno
    simp only [visitStmt, visitVarDecl, hno, iassert, Bool.not_false, if_true, bind,
      Except.bind, hg]
    exact determineStorage_not_supported hty hne hord st true
  · intro st indices value hno
    simp only [visitStmt]
    rw [visitTensorWrite_eq]
    simp only [Expr.toVarExpr, hg, hno, and_self, if_true]
    exact determineStorage_not_supported hty hne hord st true
  · intro f hv
    have hbad := determineStorageVars_not_supported hty hne hord
    unfold getStorage updateStorage
    simp only [bind, Except.bind]
    cases h1 : determineStorageVars (List.map Prod.fst f.getGlobals) [] with
    | error e => rw [determineStorageVars_error _ _ _ h1]
    | ok st1 =>
      simp only []
      cases h2 : determineStorageVars f.getArguments st1 with
      | error e => rw [determineStorageVars_error _ _ _ h2]
      | ok st2 =>
        simp only []
        cases h3 : determineStorageVars f.getResults st2 with
        | error e => rw [determineStorageVars_error _ _ _ h3]
        | ok st3 =>
          exfalso
          rcases hv with hv | hv | hv
          · rw [hbad _ _ hv] at h1; cases h1
          · rw [hbad _ _ hv] at h2; cases h2
          · rw [hbad _ _ hv] at h3; cases h3
  · intro st
    simp only [NoAsserts.visitStmt]
    rw [noAsserts_visitVarDecl]
    simp only [hg, if_true]
    exact noAsserts_determineStorage_unsupported hty hne hord st true
  · intro st indices value hno
    simp only [NoAsserts.visitStmt]
    rw [noAsserts_visitTensorWrite]
    simp only [Expr.toVarExpr, hg, hno, and_self, if_true]
    exact noAsserts_determineStorage_unsupported hty hne hord st true
  · intro f hv
    exact noAsserts_getStorage_undefined hty hne hord f hv

/-- Witness of C9: the assembled tensor `T` of order 3 as an argument, in either
build. -/
theorem C9_unsupported_follows_build_witness :
    getStorage (mkFunc [⟨"T", systemOrder3Type⟩] [] .pass) = .error not_supported_yet ∧
      NoAsserts.determineStorage [] ⟨"T", systemOrder3Type⟩ false =
        .ok (Storage.add [] ⟨"T", systemOrder3Type⟩ TensorStorage.undefinedStorage) :=
  ⟨(C9_unsupported_follows_build ⟨"T", systemOrder3Type⟩
      ⟨ScalarKind.Float, [⟨[.set "V"]⟩, ⟨[.set "V"]⟩, ⟨[.set "V"]⟩]⟩ rfl (by decide)
      (by decide)).1.2.2.2.1 (mkFunc [⟨"T", systemOrder3Type⟩] [] .pass)
      (Or.inr (Or.inl (by simp [mkFunc, Func.getArguments]))),
    (C9_unsupported_follows_build ⟨"T", systemOrder3Type⟩
      ⟨ScalarKind.Float, [⟨[.set "V"]⟩, ⟨[.set "V"]⟩, ⟨[.set "V"]⟩]⟩ rfl (by decide)
      (by decide)).2.1 [] false⟩

/-! ## The pipeline -/

/-- Counterexample to C10: with passes that record their application in the
name of the function, `lower` in the CPU configuration applies `lowerIndexExprs`
between `lowerIndexExpressions` and `lowerTensorAccesses`, which the composition
of the six passes of the specification does not. -/
theorem C10_counterexample :
    (lower tagPasses false emptyFunc false).map Func.getName
        = .ok "f.flatten.temps.maps.index.indexOld.accesses" ∧
      (lowerSpec tagPasses emptyFunc).map Func.getName
        = .ok "f.flatten.temps.maps.index.accesses" ∧
      lower tagPasses false emptyFunc false ≠ lowerSpec tagPasses emptyFunc := by
  refine ⟨rfl, rfl, ?_⟩
  intro h
  have h' := congrArg (fun r => Except.map Func.getName r) h
  have hl : Except.map Func.getName (lower tagPasses false emptyFunc false)
      = .ok "f.flatten.temps.maps.index.indexOld.accesses" := rfl
  have hr : Except.map Func.getName (lowerSpec tagPasses emptyFunc)
      = .ok "f.flatten.temps.maps.index.accesses" := rfl
  simp only [hl, hr] at h'
  exact absurd (Except.ok.inj h') (by decide)

/-- C10, amended. In the CPU configuration `lower(f, print)` is the composition
over the call graph of these seven passes in this order and of no other:
`flattenIndexExpressions`, `insertTemporaries`, storage inference, `lowerMaps`,
`lowerIndexExpressions`, the deprecated `lowerIndexExprs`, `lowerTensorAccesses`;
the result does not depend on `print`. -/
theorem C10_lower_is_seven_passes (p : Passes) (f : Func) (print : Bool) :
    lower p false f print =
      composePasses [p.flattenIndexExpressions, p.insertTemporaries, determineStoragePass,
        p.lowerMaps, p.lowerIndexExpressions, p.lowerIndexExprs, p.lowerTensorAccesses] f := by
  simp [lower, composePasses, List.foldlM]


/-! ## Functions that are not internal -/

theorem rewriteFunc_of_not_internal (f : Func) (hk : f.getKind ≠ FuncKind.Internal)
    (r : Func → Except ErrorReport Func) : rewriteFunc r f = .ok f := by
  cases f with
  | mk name arguments results body globals kind storage =>
    have hk' : kind ≠ FuncKind.Internal := by simpa [Func.getKind] using hk
    simp [rewriteFunc, hk', pure, Except.pure]

/-- C11. For a function `f` whose kind is not `Internal`, `rewriteCallGraph(f, r)`
returns `f` for every rule `r`, also for one that fails wherever it is applied,
and `lower(f, print)` returns `f` in either configuration. -/
theorem C11_non_internal_functions_unchanged (f : Func)
    (hk : f.getKind ≠ FuncKind.Internal) :
    (∀ r : Func → Except ErrorReport Func, rewriteCallGraph f r = .ok f) ∧
    (∀ (p : Passes) (gpu print : Bool), lower p gpu f print = .ok f) := by
  have h : ∀ r : Func → Except ErrorReport Func, rewriteCallGraph f r = .ok f :=
    fun r => rewriteFunc_of_not_internal f hk r
  refine ⟨h, ?_⟩
  intro p gpu print
  cases gpu <;> simp [lower, h, bind, Except.bind, pure, Except.pure]

/-- Witness of C11: an external function and a rule that always fails. -/
theorem C11_non_internal_functions_unchanged_witness :
    rewriteCallGraph (Func.mk "sin" [] [] .undefined [] FuncKind.External [])
        (fun _ => .error not_supported_yet)
      = .ok (Func.mk "sin" [] [] .undefined [] FuncKind.External []) :=
  (C11_non_internal_functions_unchanged
    (Func.mk "sin" [] [] .undefined [] FuncKind.External []) (by decide)).1
    (fun _ => .error not_supported_yet)

/-! ## Diagnostics -/

theorem modifyLast_append_singleton {α : Type} (f : α → α) (l : List α) (a : α) :
    modifyLast f (l ++ [a]) = l ++ [f a] := by
  induction l with
  | nil => rfl
  | cons b rest ih =>
    cases rest with
    | nil => rfl
    | cons c rest' =>
      simp only [List.cons_append] at ih ⊢
      rw [modifyLast, ih]

theorem Diagnostics.streamLast_foldl (l : List Diagnostic) (d : Diagnostic)
    (strs : List String) :
    strs.foldl Diagnostics.streamLast ⟨l ++ [d]⟩
      = ⟨l ++ [⟨strs.foldl (fun m s => m ++ s) d.msg⟩]⟩ := by
  induction strs generalizing d with
  | nil => rfl
  | cons s rest ih =>
    simp only [List.foldl_cons, Diagnostics.streamLast, modifyLast_append_singleton]
    exact ih (d.stream s)

theorem Diagnostics.reportStreamed_diags (ds : Diagnostics) (strs : List String) :
    (ds.reportStreamed strs).diags = ds.diags ++ [⟨streamedText strs⟩] := by
  simp [Diagnostics.reportStreamed, Diagnostics.report, Diagnostics.streamLast_foldl,
    streamedText, Diagnostic.empty]

theorem Diagnostics.reportAll_diags (ds : Diagnostics) (calls : List (List String)) :
    (ds.reportAll calls).diags
      = ds.diags ++ calls.map (fun strs => ⟨streamedText strs⟩) := by
  induction calls generalizing ds with
  | nil => simp [Diagnostics.reportAll]
  | cons c rest ih =>
    have h := ih (ds.reportStreamed c)
    simp only [Diagnostics.reportAll, List.foldl_cons] at h ⊢
    rw [h, Diagnostics.reportStreamed_diags]
    simp

/-- Counterexample to C16: after two reports with the same message the sequence
holds two records with that message. -/
theorem C16_counterexample :
    (Diagnostics.empty.reportAll [["unknown variable"], ["unknown variable"]]).diags
        = [⟨"unknown variable"⟩, ⟨"unknown variable"⟩] ∧
      (Diagnostics.empty.reportAll [["unknown variable"], ["unknown variable"]]).getMessage
        = "unknown variable\nunknown variable" ∧
      ¬ ((Diagnostics.empty.reportAll
        [["unknown variable"], ["unknown variable"]]).diags.map Diagnostic.getMessage).Nodup := by
  refine ⟨by decide, by decide, by decide⟩

/-- C16, amended. The sequence that `Diagnostics` holds is ordered and keeps
every record: after any sequence of `report()` calls it holds one record per
call, in call order, each with the text streamed into it, whether or not two
messages are equal. -/
theorem C16_diagnostics_keep_every_record (calls : List (List String)) :
    ((Diagnostics.empty.reportAll calls).diags.map Diagnostic.getMessage
        = calls.map streamedText) ∧
      (Diagnostics.empty.reportAll calls).diags.length = calls.length := by
  rw [Diagnostics.reportAll_diags]
  simp [Diagnostics.empty, Diagnostic.getMessage, Function.comp_def]

/-! ## Destruction of an error report -/

/-- Counterexample to C17: the destructor of the report that `uwarning` creates,
of kind `User` with the warning bit set, invokes `explode()`. -/
theorem C17_counterexample :
    uwarning.kind = ErrorKind.User ∧ uwarning.warning = true ∧
      (uwarning.stream "unused variable").invokesExplode = true := by
  decide

/-- C17, amended. The destructor of an `ErrorReport` invokes `explode()` exactly
when the condition of the report is false, whatever its warning bit: for the
report of `uwarning` and for a failed `uassert` alike, and not for a `uassert`
whose condition holds; text streamed into the report changes nothing. -/
theorem C17_explode_follows_condition :
    (∀ r : ErrorReport, r.invokesExplode = !r.condition) ∧
    (∀ (c : Bool) (cs : Option String) (k : ErrorKind) (w : Bool),
      (ErrorReport.create c cs k w).invokesExplode
        = (ErrorReport.create c cs k (!w)).invokesExplode) ∧
    (∀ (r : ErrorReport) (x : String), (r.stream x).invokesExplode = r.invokesExplode) ∧
    uwarning.invokesExplode = true ∧
    (∀ (c : Bool) (cs : String), (uassert c cs).invokesExplode = !c) := by
  refine ⟨?_, ?_, ?_, rfl, ?_⟩
  · intro r
    cases h : r.condition <;> simp [ErrorReport.invokesExplode, h]
  · intro c cs k w
    rfl
  · intro r x
    cases h : r.condition <;> simp [ErrorReport.invokesExplode, ErrorReport.stream, h]
  · intro c cs
    cases c <;> rfl

/-! ## First assignments of the GPU backend -/

/-- Counterexample to C20: in the build without `SIMIT_ASSERTS`, with sharding
active and outside a shard, `GPUBackend::emitFirstAssign` raises nothing: it
returns with the state of the backend as it was, though the base method would
have recorded the variable. -/
theorem C20_counterexample :
    NoAsserts.GPUBackend.emitFirstAssign (fun v _ (s : List Var) => .ok (v :: s)) ⟨true, false⟩
        ⟨"t", vectorType⟩ (.varExpr ⟨"x", vectorType⟩) []
      = .ok [] :=
  rfl

/-- C20, amended. In the build with `SIMIT_ASSERTS`,
`GPUBackend::emitFirstAssign` fails with the report of `not_supported_yet` when
sharding is active and the assignment is not inside a shard, and in every other
case it does what the base `emitFirstAssign` does, result and failure alike. In
the build without `SIMIT_ASSERTS` it raises nothing of its own: when sharding is
active and the assignment is not inside a shard it returns with the state as it
was, emitting nothing, and in every other case it does what the base
`emitFirstAssign` does. -/
theorem C20_emitFirstAssign_follows_build (σ : Type) (sharding : GPUSharding) (var : Var)
    (value : Expr) (state : σ) :
    (∀ (base : Var → Expr → σ → Except ErrorReport σ),
      (sharding.isSharded = true ∧ sharding.inShard = false →
        GPUBackend.emitFirstAssign base sharding var value state = .error not_supported_yet) ∧
      (¬ (sharding.isSharded = true ∧ sharding.inShard = false) →
        GPUBackend.emitFirstAssign base sharding var value state = base var value state)) ∧
    (∀ (base : Var → Expr → σ → Except Failure σ),
      (sharding.isSharded = true ∧ sharding.inShard = false →
        NoAsserts.GPUBackend.emitFirstAssign base sharding var value state = .ok state) ∧
      (¬ (sharding.isSharded = true ∧ sharding.inShard = false) →
        NoAsserts.GPUBackend.emitFirstAssign base sharding var value state =
          base var value state)) := by
  refine ⟨fun base => ⟨?_, ?_⟩, fun base => ⟨?_, ?_⟩⟩
  · rintro ⟨h1, h2⟩
    simp [GPUBackend.emitFirstAssign, h1, h2]
  · intro h
    have : (sharding.isSharded && !sharding.inShard) = false := by
      cases h1 : sharding.isSharded <;> cases h2 : sharding.inShard <;> simp_all
    simp [GPUBackend.emitFirstAssign, this]
  · rintro ⟨h1, h2⟩
    simp [NoAsserts.GPUBackend.emitFirstAssign, h1, h2, NoAsserts.not_supported_yet,
      NoAsserts.ierror, bind, Except.bind, pure, Except.pure]
  · intro h
    have : (sharding.isSharded && !sharding.inShard) = false := by
      cases h1 : sharding.isSharded <;> cases h2 : sharding.inShard <;> simp_all
    simp [NoAsserts.GPUBackend.emitFirstAssign, this]

/-- Witness of C20: outside a shard while sharding is active, with a base
method that records the assigned variable, in either build. -/
theorem C20_emitFirstAssign_follows_build_witness :
    GPUBackend.emitFirstAssign (fun v _ (s : List Var) => .ok (v :: s)) ⟨true, false⟩
        ⟨"t", vectorType⟩ (.varExpr ⟨"x", vectorType⟩) []
      = .error not_supported_yet ∧
    NoAsserts.GPUBackend.emitFirstAssign (fun v _ (s : List Var) => .ok (v :: s)) ⟨true, false⟩
        ⟨"t", vectorType⟩ (.varExpr ⟨"x", vectorType⟩) []
      = .ok [] :=
  ⟨((C20_emitFirstAssign_follows_build (List Var) ⟨true, false⟩
      ⟨"t", vectorType⟩ (.varExpr ⟨"x", vectorType⟩) []).1 (fun v _ s => .ok (v :: s))).1
      ⟨rfl, rfl⟩,
    ((C20_emitFirstAssign_follows_build (List Var) ⟨true, false⟩
      ⟨"t", vectorType⟩ (.varExpr ⟨"x", vectorType⟩) []).2 (fun v _ s => .ok (v :: s))).1
      ⟨rfl, rfl⟩⟩

/-! ## Ordered maps -/

theorem stringLt_eq_of_not_lt : ∀ (a b : List Char), stringLt a b = false →
    stringLt b a = false → a = b
  | [], [], _, _ => rfl
  | [], _ :: _, h, _ => by simp [stringLt] at h
  | _ :: _, [], _, h => by simp [stringLt] at h
  | a :: as, b :: bs, h1, h2 => by
    unfold stringLt at h1 h2
    by_cases hab : a.toNat < b.toNat
    · simp [hab] at h1
    · by_cases hba : b.toNat < a.toNat
      · simp [hba] at h2
      · simp only [hab, hba, if_false] at h1 h2
        have hn : a.toNat = b.toNat := by omega
        have hc : a = b := by
          rw [← Char.ofNat_toNat a, ← Char.ofNat_toNat b, hn]
        rw [hc, stringLt_eq_of_not_lt as bs h1 h2]

theorem IndexVar.name_eq_of_equiv {a b : IndexVar}
    (h : stdEquiv IndexVar.lt a b = true) : a.name = b.name := by
  simp only [stdEquiv, IndexVar.lt, Bool.and_eq_true, Bool.not_eq_true'] at h
  exact String.ext (stringLt_eq_of_not_lt _ _ h.1 h.2)

theorem StdMap.mem_of_find {K V : Type} (lt : K → K → Bool) (k : K) :
    ∀ (m : StdMap K V) (v : V), StdMap.find lt k m = some v →
      ∃ k', (k', v) ∈ m ∧ stdEquiv lt k k' = true
  | [], _, h => by simp [StdMap.find] at h
  | (k', v') :: rest, v, h => by
    unfold StdMap.find at h
    by_cases he : stdEquiv lt k k' = true
    · simp only [he, if_true, Option.some.injEq] at h
      subst h
      exact ⟨k', List.mem_cons_self _ _, he⟩
    · simp only [he] at h
      obtain ⟨k'', hm, hq⟩ := StdMap.mem_of_find lt k rest v h
      exact ⟨k'', List.mem_cons_of_mem _ hm, hq⟩

theorem StdMap.at_mem {K V : Type} (lt : K → K → Bool) (k : K) (m : StdMap K V) (v : V)
    (h : StdMap.at lt k m = .ok v) : ∃ k', (k', v) ∈ m ∧ stdEquiv lt k k' = true := by
  unfold StdMap.at at h
  cases hf : StdMap.find lt k m with
  | none => simp [hf] at h
  | some w =>
    simp only [hf, Except.ok.injEq] at h
    subst h
    exact StdMap.mem_of_find lt k m w hf

theorem StdMap.at_eq_ok {K V : Type} (lt : K → K → Bool) (k : K) (m : StdMap K V) (v : V)
    (h : StdMap.at lt k m = .ok v) : StdMap.find lt k m = some v := by
  unfold StdMap.at at h
  cases hf : StdMap.find lt k m with
  | none => simp [hf] at h
  | some w =>
    simp only [hf, Except.ok.injEq] at h
    rw [h]

/-- Every entry of an ordered map satisfies `P` after `m[k]` is changed by `f`,
when the entries did before, the changed value of an equivalent key does, and
so does the changed default value. -/
theorem StdMap.modify_all {K V : Type} (lt : K → K → Bool) (k : K) (dflt : V) (f : V → V)
    (P : K → V → Prop) (hnew : P k (f dflt))
    (hold : ∀ k' v, stdEquiv lt k k' = true → P k' v → P k' (f v)) :
    ∀ (m : StdMap K V), (∀ e ∈ m, P e.1 e.2) →
      ∀ e ∈ StdMap.modify lt k dflt f m, P e.1 e.2
  | [], _, e, he => by
    simp only [StdMap.modify, List.mem_singleton] at he
    subst he
    exact hnew
  | (k', v) :: rest, hm, e, he => by
    unfold StdMap.modify at he
    by_cases h1 : lt k k' = true
    · rw [if_pos h1] at he
      rcases List.mem_cons.mp he with h | he
      · rw [h]; exact hnew
      · exact hm e he
    · rw [if_neg h1] at he
      by_cases h2 : lt k' k = true
      · rw [if_pos h2] at he
        rcases List.mem_cons.mp he with h | he
        · rw [h]; exact hm _ (List.mem_cons_self _ _)
        · exact StdMap.modify_all lt k dflt f P hnew hold rest
            (fun e' he' => hm e' (List.mem_cons_of_mem _ he')) e he
      · rw [if_neg h2] at he
        rcases List.mem_cons.mp he with h | he
        · rw [h]
          refine hold k' v ?_ (hm (k', v) (List.mem_cons_self _ _))
          simp [stdEquiv, h1, h2]
        · exact hm _ (List.mem_cons_of_mem _ he)

theorem StdMap.modifyAt_all {K V : Type} (lt : K → K → Bool) (k : K) (f : V → V)
    (P : K → V → Prop) (hold : ∀ k' v, stdEquiv lt k k' = true → P k' v → P k' (f v)) :
    ∀ (m m' : StdMap K V), StdMap.modifyAt lt k f m = .ok m' → (∀ e ∈ m, P e.1 e.2) →
      ∀ e ∈ m', P e.1 e.2
  | [], _, h, _, _, _ => by simp [StdMap.modifyAt] at h
  | (k', v) :: rest, m', h, hm, e, he => by
    unfold StdMap.modifyAt at h
    by_cases hq : stdEquiv lt k k' = true
    · rw [if_pos hq] at h
      cases h
      rcases List.mem_cons.mp he with h | he
      · rw [h]; exact hold k' v hq (hm (k', v) (List.mem_cons_self _ _))
      · exact hm _ (List.mem_cons_of_mem _ he)
    · rw [if_neg hq] at h
      cases hr : StdMap.modifyAt lt k f rest with
      | error err => simp [hr] at h
      | ok rest' =>
        simp only [hr, Except.ok.injEq] at h
        subst h
        rcases List.mem_cons.mp he with h | he
        · rw [h]; exact hm _ (List.mem_cons_self _ _)
        · exact StdMap.modifyAt_all lt k f P hold rest rest' hr
            (fun e' he' => hm e' (List.mem_cons_of_mem _ he')) e he

/-! ## Induction variables -/

theorem foldlM_invariant {α β ε : Type} (P : β → Prop) (f : β → α → Except ε β)
    (hf : ∀ b a b', P b → f b a = .ok b' → P b') :
    ∀ (l : List α) (b b' : β), P b → l.foldlM f b = .ok b' → P b'
  | [], b, b', hb, h => by
    simp only [List.foldlM, pure, Except.pure, Except.ok.injEq] at h
    subst h
    exact hb
  | a :: l, b, b', hb, h => by
    simp only [List.foldlM, bind, Except.bind] at h
    cases h1 : f b a with
    | error e => simp [h1] at h
    | ok b1 =>
      simp only [h1] at h
      exact foldlM_invariant P f hf l b1 b' (hf b a b1 hb h1) h

theorem createInductionVariables_ok (loops : List Loop) (indexUses : IndexUses)
    (inductionVars : InductionVars)
    (h : LowerIndexExpressions.createInductionVariables loops indexUses = .ok inductionVars) :
    InductionVarsOk inductionVars := by
  unfold LowerIndexExpressions.createInductionVariables at h
  refine foldlM_invariant InductionVarsOk _ ?_ loops [] inductionVars
    (fun e he => by simp at he) h
  intro ivs loop ivs' hivs hstep
  have h1 : InductionVarsOk (StdMap.modify IndexVar.lt loop.indexVar (none, [])
      (fun p => (some (⟨loop.indexVar.name, LowerIndexExpressions.intType⟩ : Var), p.2))
      ivs) := by
    refine StdMap.modify_all IndexVar.lt loop.indexVar (none, []) _
      (fun k v => v.1 = some (inductionVarOf k)) rfl ?_ ivs hivs
    intro k' v hq _
    simp only [inductionVarOf]
    rw [IndexVar.name_eq_of_equiv hq]
  by_cases hs : loop.type = LoopType.Sparse
  · simp only [hs, if_true, bind, Except.bind] at hstep
    cases hu : StdMap.at IndexVar.lt loop.indexVar indexUses with
    | error e => simp [hu] at hstep
    | ok uses =>
      simp only [hu] at hstep
      refine foldlM_invariant InductionVarsOk _ ?_ uses _ ivs' h1 hstep
      intro m use m' hm hstep2
      cases hc : LowerIndexExpressions.createCoordinateVar use with
      | error e => simp [hc] at hstep2
      | ok coordVar =>
        simp only [hc] at hstep2
        exact StdMap.modifyAt_all IndexVar.lt loop.indexVar
          (fun p => (p.1, p.2 ++ [coordVar]))
          (fun k v => v.1 = some (inductionVarOf k)) (fun _ _ _ hv => hv) m m' hstep2 hm
  · simp only [hs, if_false, pure, Except.pure, Except.ok.injEq] at hstep
    subst hstep
    exact h1

theorem InductionVarsOk.at {inductionVars : InductionVars} (hok : InductionVarsOk inductionVars)
    {indexVar : IndexVar} {entry : Option Var × List Var}
    (h : StdMap.at IndexVar.lt indexVar inductionVars = .ok entry) :
    entry.1 = some (inductionVarOf indexVar) := by
  obtain ⟨k', hm, hq⟩ := StdMap.at_mem IndexVar.lt indexVar inductionVars entry h
  have := hok (k', entry) hm
  simp only [inductionVarOf] at this ⊢
  rw [this, IndexVar.name_eq_of_equiv hq]


/-! ## The emitted loop nest -/

theorem computeMinChain_props (var : Var) :
    ∀ (vs : List Var) (minStmt : Stmt),
      declaredVars (LowerIndexExpressions.computeMinChain var minStmt vs)
          = declaredVars minStmt ∧
        (LowerIndexExpressions.computeMinChain var minStmt vs).isLowered = minStmt.isLowered ∧
        isLoopNestOnly (LowerIndexExpressions.computeMinChain var minStmt vs)
          = isLoopNestOnly minStmt
  | [], _ => ⟨rfl, rfl, rfl⟩
  | v :: vs, minStmt => by
    obtain ⟨h1, h2, h3⟩ := computeMinChain_props var vs
      (.block minStmt (.ifThenElse (.binary BinaryOp.Lt (.varExpr v) (.varExpr var))
        (.assignStmt var (.varExpr v)) .undefined))
    refine ⟨?_, ?_, ?_⟩
    · rw [LowerIndexExpressions.computeMinChain, h1]
      simp [declaredVars]
    · rw [LowerIndexExpressions.computeMinChain, h2]
      simp [Stmt.isLowered, Expr.isLowered]
    · rw [LowerIndexExpressions.computeMinChain, h3]
      simp [isLoopNestOnly, isCoordinateTest]

theorem computeMin_ok (var : Var) (vars : List Var) (m : Stmt)
    (h : LowerIndexExpressions.computeMin var vars = .ok m) :
    ∃ text body, m = .comment text body ∧ declaredVars body = [var] ∧
      body.isLowered = true ∧ isLoopNestOnly body = true := by
  unfold LowerIndexExpressions.computeMin at h
  cases vars with
  | nil => simp [iassertF, iassert, bind, Except.bind] at h
  | cons v0 vs =>
    cases vs with
    | nil =>
      simp only [iassertF, iassert, List.length_cons, List.length_nil, bind, Except.bind,
        pure, Except.pure] at h
      simp only [gt_iff_lt, Nat.lt_add_one, decide_True, if_true, Except.ok.injEq] at h
      subst h
      refine ⟨_, _, rfl, ?_, ?_, ?_⟩
      · simp [LowerIndexExpressions.computeMinChain, declaredVars]
      · simp [LowerIndexExpressions.computeMinChain, Stmt.isLowered, Expr.isLowered]
      · simp [LowerIndexExpressions.computeMinChain, isLoopNestOnly]
    | cons v1 vs' =>
      cases vs' with
      | nil =>
        simp only [iassertF, iassert, List.length_cons, List.length_nil, bind, Except.bind,
          pure, Except.pure] at h
        simp only [gt_iff_lt, Nat.zero_lt_succ, decide_True, if_true, Except.ok.injEq] at h
        subst h
        refine ⟨_, _, rfl, ?_, ?_, ?_⟩
        · simp [declaredVars]
        · simp [Stmt.isLowered, Expr.isLowered]
        · simp [isLoopNestOnly, isCoordinateTest]
      | cons v2 vs'' =>
        simp only [iassertF, iassert, List.length_cons, bind, Except.bind,
          pure, Except.pure] at h
        simp only [gt_iff_lt, Nat.zero_lt_succ, decide_True, if_true, Except.ok.injEq] at h
        subst h
        obtain ⟨h1, h2, h3⟩ := computeMinChain_props var (v1 :: v2 :: vs'')
          (.block (.varDecl var) (.assignStmt var (.varExpr v0)))
        refine ⟨_, _, rfl, ?_, ?_, ?_⟩
        · rw [h1]; simp [declaredVars]
        · rw [h2]; simp [Stmt.isLowered, Expr.isLowered]
        · rw [h3]; simp [isLoopNestOnly]

theorem loopCondition_props :
    ∀ (cs : List Var) (condition : Expr), condition.isLowered = true →
      isCoordinateTest condition = true →
      (cs.foldl (fun condition c =>
          Expr.binary BinaryOp.And condition (LowerIndexExpressions.compareToIndex c))
        condition).isLowered = true ∧
      isCoordinateTest (cs.foldl (fun condition c =>
          Expr.binary BinaryOp.And condition (LowerIndexExpressions.compareToIndex c))
        condition) = true
  | [], _, h1, h2 => ⟨h1, h2⟩
  | c :: cs, condition, h1, h2 => by
    simp only [List.foldl_cons]
    apply loopCondition_props cs
    · simp [Expr.isLowered, h1, LowerIndexExpressions.compareToIndex]
    · simp [isCoordinateTest, h2, LowerIndexExpressions.compareToIndex]

theorem emitLoop_emitted {inductionVars : InductionVars} (hok : InductionVarsOk inductionVars)
    (loop : Loop) (loopNest s : Stmt) (vars : List Var) (hin : Emitted vars loopNest)
    (h : LowerIndexExpressions.emitLoop inductionVars loop loopNest = .ok s) :
    Emitted (inductionVarOf loop.indexVar :: vars) s := by
  obtain ⟨hn, hl, hs⟩ := hin
  unfold LowerIndexExpressions.emitLoop at h
  cases hat : StdMap.at IndexVar.lt loop.indexVar inductionVars with
  | error e => cases ht : loop.type <;> simp [ht, hat, bind, Except.bind] at h
  | ok entry =>
    have hfst := hok.at hat
    cases ht : loop.type with
    | Dense =>
      simp only [ht, hat, hfst, LowerIndexExpressions.deref, bind, Except.bind] at h
      cases hd : loop.indexVar.domain.indexSets.head? with
      | none => simp [hd] at h
      | some domain =>
        simp only [hd, pure, Except.pure, Except.ok.injEq] at h
        subst h
        exact ⟨LoopNest.dense _ _ _ _ hn, by simpa [Stmt.isLowered] using hl,
          by simpa [isLoopNestOnly] using hs⟩
    | Sparse =>
      simp only [ht, hat, hfst, LowerIndexExpressions.deref, bind, Except.bind] at h
      cases hc : entry.2.head? with
      | none => simp [hc] at h
      | some first =>
        simp only [hc] at h
        cases hmin : LowerIndexExpressions.computeMin (inductionVarOf loop.indexVar) entry.2 with
        | error e => simp [hmin] at h
        | ok m =>
          simp only [hmin, pure, Except.pure, Except.ok.injEq] at h
          subst h
          obtain ⟨text, body, rfl, hdecl, hbl, hbs⟩ := computeMin_ok _ _ _ hmin
          obtain ⟨hc1, hc2⟩ := loopCondition_props entry.2.tail
            (LowerIndexExpressions.compareToIndex first)
            (by simp [LowerIndexExpressions.compareToIndex, Expr.isLowered])
            (by simp [LowerIndexExpressions.compareToIndex, isCoordinateTest])
          refine ⟨LoopNest.sparse _ _ _ _ _ _ hdecl hn, ?_, ?_⟩
          · simp [Stmt.isLowered, hc1, hbl, hl]
          · simp [isLoopNestOnly, hc2, hbs, hs]

theorem emitLoops_emitted {inductionVars : InductionVars}
    (hok : InductionVarsOk inductionVars) :
    ∀ (loops : List Loop) (s : Stmt),
      LowerIndexExpressions.emitLoops inductionVars loops = .ok s →
      Emitted (loops.map (fun l => inductionVarOf l.indexVar)) s
  | [], s, h => by
    simp only [LowerIndexExpressions.emitLoops, Except.ok.injEq] at h
    subst h
    exact ⟨LoopNest.innermost, rfl, rfl⟩
  | loop :: loops, s, h => by
    simp only [LowerIndexExpressions.emitLoops, bind, Except.bind] at h
    cases hin : LowerIndexExpressions.emitLoops inductionVars loops with
    | error e => simp [hin] at h
    | ok inner =>
      simp only [hin] at h
      exact emitLoop_emitted hok loop inner s _ (emitLoops_emitted hok loops inner hin) h

/-- The steps of `lower`, when it returns. -/
theorem lower_ok {target : Expr} {e : IndexExpr} {s : Stmt}
    (h : LowerIndexExpressions.lower target e = .ok s) :
    ∃ graph loops inductionVars,
      LowerIndexExpressions.createIndexVarGraph (LowerIndexExpressions.getIndexTupleUses e)
        = .ok graph ∧
      LowerIndexExpressions.createLoopNest graph e.resultVars = .ok loops ∧
      LowerIndexExpressions.createInductionVariables loops
        (LowerIndexExpressions.getIndexUses (LowerIndexExpressions.getIndexTupleUses e))
        = .ok inductionVars ∧
      LowerIndexExpressions.emitLoops inductionVars loops = .ok s := by
  unfold LowerIndexExpressions.lower at h
  simp only [bind, Except.bind] at h
  cases h1 : LowerIndexExpressions.createIndexVarGraph
      (LowerIndexExpressions.getIndexTupleUses e) with
  | error err => simp [h1] at h
  | ok graph =>
    simp only [h1] at h
    cases h2 : LowerIndexExpressions.createLoopNest graph e.resultVars with
    | error err => simp [h2] at h
    | ok loops =>
      simp only [h2] at h
      cases h3 : LowerIndexExpressions.createInductionVariables loops
          (LowerIndexExpressions.getIndexUses (LowerIndexExpressions.getIndexTupleUses e)) with
      | error err => simp [h3] at h
      | ok inductionVars =>
        simp only [h3] at h
        exact ⟨graph, loops, inductionVars, rfl, h2, h3, h⟩

theorem lower_emitted {target : Expr} {e : IndexExpr} {s : Stmt}
    (h : LowerIndexExpressions.lower target e = .ok s) :
    ∃ graph loops,
      LowerIndexExpressions.createIndexVarGraph (LowerIndexExpressions.getIndexTupleUses e)
        = .ok graph ∧
      LowerIndexExpressions.createLoopNest graph e.resultVars = .ok loops ∧
      Emitted (loops.map (fun l => inductionVarOf l.indexVar)) s := by
  obtain ⟨graph, loops, inductionVars, h1, h2, h3, h4⟩ := lower_ok h
  exact ⟨graph, loops, h1, h2,
    emitLoops_emitted (createInductionVariables_ok _ _ _ h3) loops s h4⟩


/-! ## The loop list -/

theorem snoc_eq_append_cons {α : Type} {loops pre post : List α} {x l : α}
    (h : loops ++ [x] = pre ++ l :: post) :
    (post = [] ∧ loops = pre ∧ x = l) ∨
      (∃ post', post = post' ++ [x] ∧ loops = pre ++ l :: post') := by
  rcases List.eq_nil_or_concat post with rfl | ⟨post', y, rfl⟩
  · left
    have := List.append_inj' h rfl
    exact ⟨rfl, this.1, by simpa using this.2⟩
  · right
    have h' : loops ++ [x] = (pre ++ l :: post') ++ [y] := by simpa using h
    have := List.append_inj' h' rfl
    have hxy : x = y := by simpa using this.2
    exact ⟨post', by rw [hxy, List.concat_eq_append], this.1⟩

theorem LoopsBuilt.loopsOk {ivGraph : IndexVarGraph} {sources : List IndexVar}
    {loops : List Loop} (h : LoopsBuilt ivGraph sources loops) :
    LoopsOk ivGraph sources loops := by
  induction h with
  | nil =>
    intro pre l post heq
    simp at heq
  | dense loops indexVar _ hsrc ih =>
    intro pre l post heq
    rcases snoc_eq_append_cons heq with ⟨_, _, hl⟩ | ⟨post', _, hloops⟩
    · left
      subst hl
      exact ⟨rfl, hsrc⟩
    · exact ih pre l post' hloops
  | sparse loops indexVar parent sinks _ hfind hmem hpar ih =>
    intro pre l post heq
    rcases snoc_eq_append_cons heq with ⟨_, hpre, hl⟩ | ⟨post', _, hloops⟩
    · right
      subst hl
      subst hpre
      exact ⟨parent, sinks, rfl, hfind, hmem, hpar⟩
    · exact ih pre l post' hloops

theorem createLoopNestFrom_extends (ivGraph : IndexVarGraph) (sources : List IndexVar) :
    ∀ (fuel : Nat) (source : IndexVar) (state state' : List IndexVar × List Loop),
      LowerIndexExpressions.createLoopNestFrom ivGraph fuel source state = .ok state' →
      LoopsBuilt ivGraph sources state.2 → (∃ l ∈ state.2, l.indexVar = source) →
      Extends ivGraph sources state state'
  | 0, _, _, _, h, _, _ => by simp [LowerIndexExpressions.createLoopNestFrom] at h
  | fuel + 1, source, state, state', h, hb, hsrc => by
    simp only [LowerIndexExpressions.createLoopNestFrom, bind, Except.bind] at h
    cases hat : StdMap.at IndexVar.lt source ivGraph with
    | error e => simp [hat] at h
    | ok allSinks =>
      simp only [hat] at h
      have hfind := StdMap.at_eq_ok _ _ _ _ hat
      -- the loop over the sinks
      have inner : ∀ (sinks : List IndexVar) (st st' : List IndexVar × List Loop),
          (∀ s ∈ sinks, s ∈ allSinks) →
          sinks.foldlM (fun state sink =>
            if (!stdSetContains IndexVar.lt state.1 sink) = true then
              LowerIndexExpressions.createLoopNestFrom ivGraph fuel sink
                (sink :: state.1, state.2 ++ [Loop.sparse sink source])
            else pure state) st = .ok st' →
          LoopsBuilt ivGraph sources st.2 → (∃ l ∈ st.2, l.indexVar = source) →
          Extends ivGraph sources st st' := by
        intro sinks
        induction sinks with
        | nil =>
          intro st st' _ hrun hb' _
          simp only [List.foldlM, pure, Except.pure, Except.ok.injEq] at hrun
          subst hrun
          exact ⟨hb', [], by simp⟩
        | cons sink sinks ih =>
          intro st st' hsub hrun hb' hsrc'
          simp only [List.foldlM, bind, Except.bind] at hrun
          have hsub' : ∀ s ∈ sinks, s ∈ allSinks :=
            fun s hs => hsub s (List.mem_cons_of_mem _ hs)
          by_cases hc : (!stdSetContains IndexVar.lt st.1 sink) = true
          · simp only [hc, if_true] at hrun
            cases hrec : LowerIndexExpressions.createLoopNestFrom ivGraph fuel sink
                (sink :: st.1, st.2 ++ [Loop.sparse sink source]) with
            | error e => simp [hrec] at hrun
            | ok st1 =>
              simp only [hrec] at hrun
              have hb1 : LoopsBuilt ivGraph sources (st.2 ++ [Loop.sparse sink source]) :=
                LoopsBuilt.sparse _ _ _ allSinks hb' hfind
                  (hsub sink (List.mem_cons_self _ _)) hsrc'
              obtain ⟨hb2, ext1, he1⟩ := createLoopNestFrom_extends ivGraph sources fuel sink
                _ st1 hrec hb1 ⟨Loop.sparse sink source, by simp, rfl⟩
              have hsrc1 : ∃ l ∈ st1.2, l.indexVar = source := by
                obtain ⟨l, hl, hls⟩ := hsrc'
                refine ⟨l, ?_, hls⟩
                rw [he1]
                simp [hl]
              obtain ⟨hb3, ext2, he2⟩ := ih st1 st' hsub' hrun hb2 hsrc1
              refine ⟨hb3, [Loop.sparse sink source] ++ ext1 ++ ext2, ?_⟩
              rw [he2, he1]
              simp
          · simp only [hc, pure, Except.pure] at hrun
            exact ih st st' hsub' hrun hb' hsrc'
      exact inner allSinks state state' (fun _ hs => hs) h hb hsrc

theorem except_bind_eq_ok {ε α β : Type} {x : Except ε α} {f : α → Except ε β} {b : β}
    (h : (x >>= f) = .ok b) : ∃ a, x = .ok a ∧ f a = .ok b := by
  cases x with
  | error e => simp [bind, Except.bind] at h
  | ok a => exact ⟨a, rfl, h⟩

theorem createLoopNest_built (ivGraph : IndexVarGraph) (sources : List IndexVar)
    (loops : List Loop)
    (h : LowerIndexExpressions.createLoopNest ivGraph sources = .ok loops) :
    LoopsBuilt ivGraph sources loops := by
  have outer : ∀ (ss : List IndexVar) (st st' : List IndexVar × List Loop),
      (∀ s ∈ ss, s ∈ sources) →
      ss.foldlM (fun (state : List IndexVar × List Loop) source =>
        if (!stdSetContains IndexVar.lt state.1 source) = true then
          LowerIndexExpressions.createLoopNestFrom ivGraph
            (LowerIndexExpressions.graphSize ivGraph + 1) source
            (source :: state.1, state.2 ++ [Loop.dense source])
        else pure state) st = .ok st' →
      LoopsBuilt ivGraph sources st.2 → LoopsBuilt ivGraph sources st'.2 := by
    intro ss
    induction ss with
    | nil =>
      intro st st' _ hrun hb
      simp only [List.foldlM, pure, Except.pure, Except.ok.injEq] at hrun
      subst hrun
      exact hb
    | cons source ss ih =>
      intro st st' hsub hrun hb
      simp only [List.foldlM, bind, Except.bind] at hrun
      have hsub' : ∀ s ∈ ss, s ∈ sources := fun s hs => hsub s (List.mem_cons_of_mem _ hs)
      by_cases hc : (!stdSetContains IndexVar.lt st.1 source) = true
      · simp only [hc, if_true] at hrun
        cases hrec : LowerIndexExpressions.createLoopNestFrom ivGraph
            (LowerIndexExpressions.graphSize ivGraph + 1) source
            (source :: st.1, st.2 ++ [Loop.dense source]) with
        | error e => simp [hrec] at hrun
        | ok st1 =>
          simp only [hrec] at hrun
          have hb1 : LoopsBuilt ivGraph sources (st.2 ++ [Loop.dense source]) :=
            LoopsBuilt.dense _ _ hb (hsub source (List.mem_cons_self _ _))
          obtain ⟨hb2, _⟩ := createLoopNestFrom_extends ivGraph sources _ source _ st1 hrec
            hb1 ⟨Loop.dense source, by simp, rfl⟩
          exact ih st1 st' hsub' hrun hb2
      · simp only [hc, pure, Except.pure] at hrun
        exact ih st st' hsub' hrun hb
  unfold LowerIndexExpressions.createLoopNest at h
  obtain ⟨st, hrun, hst⟩ := except_bind_eq_ok h
  simp only [pure, Except.pure, Except.ok.injEq] at hst
  subst hst
  exact outer sources ([], []) st (fun _ hs => hs) hrun LoopsBuilt.nil


/-! ## Kinds of the loops -/

theorem foldlM_listsLoops (ivGraph : IndexVarGraph)
    (run : IndexVar → List IndexVar × List Loop → Except Failure (List IndexVar × List Loop))
    (hrun : ListsLoops ivGraph run) (parent : Option IndexVar) (mk : IndexVar → Loop)
    (hmk : ∀ v, mk v = loopOf v parent) :
    ∀ (nodes : List IndexVar) (st st' : List IndexVar × List Loop),
      nodes.foldlM (fun (state : List IndexVar × List Loop) v =>
        if (!stdSetContains IndexVar.lt state.1 v) = true then
          run v (v :: state.1, state.2 ++ [mk v])
        else pure state) st = .ok st' →
      ∃ new, st'.2 = st.2 ++ new ∧
        ∀ todo loops, DepthFirstLoops ivGraph todo st'.1 loops →
          DepthFirstLoops ivGraph (nodes.map (fun s => (s, parent)) ++ todo) st.1 (new ++ loops)
  | [], st, st', h => by
    simp only [List.foldlM, pure, Except.pure, Except.ok.injEq] at h
    subst h
    exact ⟨[], by simp, fun todo loops hd => by simpa using hd⟩
  | v :: nodes, st, st', h => by
    simp only [List.foldlM, bind, Except.bind] at h
    by_cases hc : (!stdSetContains IndexVar.lt st.1 v) = true
    · simp only [hc, if_true] at h
      cases hrec : run v (v :: st.1, st.2 ++ [mk v]) with
      | error e => simp [hrec] at h
      | ok st1 =>
        simp only [hrec] at h
        obtain ⟨new1, he1, hd1⟩ := hrun v _ st1 hrec
        obtain ⟨new2, he2, hd2⟩ :=
          foldlM_listsLoops ivGraph run hrun parent mk hmk nodes st1 st' h
        refine ⟨[mk v] ++ new1 ++ new2, ?_, ?_⟩
        · rw [he2, he1]
          simp
        · intro todo loops hd
          have h2 := hd1 (nodes.map (fun s => (s, parent)) ++ todo) _ (hd2 todo loops hd)
          have hv : stdSetContains IndexVar.lt st.1 v = false := by simpa using hc
          have h3 := DepthFirstLoops.visit v parent (nodes.map (fun s => (s, parent)) ++ todo)
            st.1 _ hv h2
          simpa [hmk v] using h3
    · simp only [hc, pure, Except.pure] at h
      obtain ⟨new, he, hd⟩ := foldlM_listsLoops ivGraph run hrun parent mk hmk nodes st st' h
      refine ⟨new, he, ?_⟩
      intro todo loops hdf
      have hv : stdSetContains IndexVar.lt st.1 v = true := by simpa using hc
      exact DepthFirstLoops.skip v parent (nodes.map (fun s => (s, parent)) ++ todo) st.1 _ hv
        (hd todo loops hdf)

theorem createLoopNestFrom_listsLoops (ivGraph : IndexVarGraph) :
    ∀ fuel : Nat, ListsLoops ivGraph (LowerIndexExpressions.createLoopNestFrom ivGraph fuel)
  | 0 => by
    intro v state state' h
    simp [LowerIndexExpressions.createLoopNestFrom] at h
  | fuel + 1 => by
    intro source state state' h
    simp only [LowerIndexExpressions.createLoopNestFrom, bind, Except.bind] at h
    cases hat : StdMap.at IndexVar.lt source ivGraph with
    | error e => simp [hat] at h
    | ok sinks =>
      simp only [hat] at h
      have hadj : adjacency ivGraph source = sinks := by
        unfold adjacency
        rw [StdMap.at_eq_ok _ _ _ _ hat]
        rfl
      rw [hadj]
      exact foldlM_listsLoops ivGraph _ (createLoopNestFrom_listsLoops ivGraph fuel)
        (some source) (fun sink => Loop.sparse sink source) (fun _ => rfl) sinks state state' h

/-- The loop list of `createLoopNest` is the one that the depth-first traversal
from the sources records. -/
theorem createLoopNest_depthFirstLoops (ivGraph : IndexVarGraph) (sources : List IndexVar)
    (loops : List Loop)
    (h : LowerIndexExpressions.createLoopNest ivGraph sources = .ok loops) :
    DepthFirstLoops ivGraph (sources.map (fun s => (s, none))) [] loops := by
  unfold LowerIndexExpressions.createLoopNest at h
  obtain ⟨st, hrun, hst⟩ := except_bind_eq_ok h
  simp only [pure, Except.pure, Except.ok.injEq] at hst
  subst hst
  obtain ⟨new, he, hd⟩ := foldlM_listsLoops ivGraph _
    (createLoopNestFrom_listsLoops ivGraph (LowerIndexExpressions.graphSize ivGraph + 1))
    none Loop.dense (fun _ => rfl) sources ([], []) st hrun
  have := hd [] [] (DepthFirstLoops.done _)
  simp only [List.nil_append] at he
  rw [he]
  simpa using this

/-- The traversal records one loop list only. -/
theorem depthFirstLoops_unique {ivGraph : IndexVarGraph}
    {todo : List (IndexVar × Option IndexVar)} {visited : List IndexVar} {loops1 : List Loop}
    (h1 : DepthFirstLoops ivGraph todo visited loops1) :
    ∀ {loops2 : List Loop}, DepthFirstLoops ivGraph todo visited loops2 → loops1 = loops2 := by
  induction h1 with
  | done visited =>
    intro loops2 h2
    cases h2
    rfl
  | skip v parent todo visited loops hv _ ih =>
    intro loops2 h2
    cases h2 with
    | skip _ _ _ _ _ _ h2' => exact ih h2'
    | visit _ _ _ _ _ hv' _ => rw [hv] at hv'; cases hv'
  | visit v parent todo visited loops hv _ ih =>
    intro loops2 h2
    cases h2 with
    | skip _ _ _ _ _ hv' _ => rw [hv] at hv'; cases hv'
    | visit _ _ _ _ _ _ h2' => rw [ih h2']

/-- Counterexample to C12: for `C(i,j) = B(i,j) + A(i,j)` over dense element
tensors `createLoopNest` records a dense loop for `i` and a sparse loop for `j`,
and `lower` returns a `For` over `i` that holds a `While` for `j`. -/
theorem C12_counterexample :
    LowerIndexExpressions.createIndexVarGraph
        (LowerIndexExpressions.getIndexTupleUses elementwiseAdd)
        = .ok [(ivI, [ivJ]), (ivJ, [ivI])] ∧
      LowerIndexExpressions.createLoopNest [(ivI, [ivJ]), (ivJ, [ivI])]
        elementwiseAdd.resultVars = .ok [Loop.dense ivI, Loop.sparse ivJ ivI] ∧
      LowerIndexExpressions.lower (.varExpr ⟨"C", matrix45⟩) elementwiseAdd
        = .ok elementwiseAddLowered :=
  ⟨rfl, rfl, rfl⟩

/-- C12, amended. The kind of a loop follows the way `createLoopNest` reaches
its index variable, not tensor storage. The loop list it returns is the one
list that the depth-first traversal from the sources records: a source that is
not visited yet gets a `Dense` loop without parent, and a sink that is not
visited yet when the sinks of a variable are traversed gets a `Sparse` loop
whose parent is that variable, its predecessor in the traversal. So every loop
is `Dense` with a source as its variable, or `Sparse` with a parent that has the
variable among its sinks; and `C(i,j) = B(i,j) + A(i,j)` lowers to a `For` over
`i` that holds a `While` for `j`. -/
theorem C12_loop_kind_follows_traversal (ivGraph : IndexVarGraph) (sources : List IndexVar)
    (loops : List Loop)
    (h : LowerIndexExpressions.createLoopNest ivGraph sources = .ok loops) :
    DepthFirstLoops ivGraph (sources.map (fun s => (s, none))) [] loops ∧
    (∀ loops', DepthFirstLoops ivGraph (sources.map (fun s => (s, none))) [] loops' →
      loops' = loops) ∧
    (∀ l ∈ loops,
      (l.type = LoopType.Dense ∧ l.parent = none ∧ l.indexVar ∈ sources) ∨
      (l.type = LoopType.Sparse ∧ ∃ p sinks, l.parent = some p ∧
        StdMap.find IndexVar.lt p ivGraph = some sinks ∧ l.indexVar ∈ sinks)) ∧
    LowerIndexExpressions.lower (.varExpr ⟨"C", matrix45⟩) elementwiseAdd
      = .ok elementwiseAddLowered := by
  have hd := createLoopNest_depthFirstLoops ivGraph sources loops h
  refine ⟨hd, fun loops' h' => depthFirstLoops_unique h' hd, ?_, rfl⟩
  intro l hl
  obtain ⟨pre, post, hsplit⟩ := List.append_of_mem hl
  rcases (createLoopNest_built ivGraph sources loops h).loopsOk pre l post hsplit with
    ⟨hd, hs⟩ | ⟨p, sinks, hsp, hfind, hmem, _⟩
  · left
    rw [hd]
    exact ⟨rfl, rfl, hs⟩
  · right
    rw [hsp]
    exact ⟨rfl, p, sinks, rfl, hfind, hmem⟩

/-- Witness of C12: in the triangle of `i`, `j` and `k` traversed from `i`, the
loop of `k` is sparse with parent `j`, the variable from which the traversal
reaches it first, though `k` is a sink of `i` as well. -/
theorem C12_loop_kind_follows_traversal_witness :
    DepthFirstLoops triangleGraph ([ivI].map (fun s => (s, none))) []
      [Loop.dense ivI, Loop.sparse ivJ ivI, Loop.sparse ivK ivJ] ∧
    (∀ loops', DepthFirstLoops triangleGraph ([ivI].map (fun s => (s, none))) [] loops' →
      loops' = [Loop.dense ivI, Loop.sparse ivJ ivI, Loop.sparse ivK ivJ]) ∧
    (∀ l ∈ [Loop.dense ivI, Loop.sparse ivJ ivI, Loop.sparse ivK ivJ],
      (l.type = LoopType.Dense ∧ l.parent = none ∧ l.indexVar ∈ [ivI]) ∨
      (l.type = LoopType.Sparse ∧ ∃ p sinks, l.parent = some p ∧
        StdMap.find IndexVar.lt p triangleGraph = some sinks ∧ l.indexVar ∈ sinks)) ∧
    LowerIndexExpressions.lower (.varExpr ⟨"C", matrix45⟩) elementwiseAdd
      = .ok elementwiseAddLowered :=
  C12_loop_kind_follows_traversal triangleGraph [ivI]
    [Loop.dense ivI, Loop.sparse ivJ ivI, Loop.sparse ivK ivJ] rfl

/-! ## What the lowered statement holds -/

/-- C14. The statement that `lower(target, e)` returns holds no `IndexExpr`,
`IndexedTensor`, `Map`, `TensorRead` or `TensorWrite` node anywhere in its
tree. -/
theorem C14_lowered_statement_has_no_index_node (target : Expr) (e : IndexExpr) (s : Stmt)
    (h : LowerIndexExpressions.lower target e = .ok s) : s.isLowered = true := by
  obtain ⟨_, _, _, _, _, hl, _⟩ := lower_emitted h
  exact hl

/-- Witness of C14: the lowering of `C(i,j) = B(i,j) + A(i,j)`. -/
theorem C14_lowered_statement_has_no_index_node_witness :
    elementwiseAddLowered.isLowered = true :=
  C14_lowered_statement_has_no_index_node (.varExpr ⟨"C", matrix45⟩) elementwiseAdd
    elementwiseAddLowered rfl

/-! ## Parents and enclosing loops -/

/-- Counterexample to C15: for `z(i) = A(i,j) * B(i,k)` the loop list is `i`,
`j`, `k`, and `lower` returns a `For` over `i` that holds the `While` for `j`,
which holds the `While` for `k`: the loop of `j` directly encloses the loop of
`k`, whose recorded parent is `i`, not `j`. -/
theorem C15_counterexample :
    LowerIndexExpressions.createIndexVarGraph
        (LowerIndexExpressions.getIndexTupleUses twoReductions) = .ok twoReductionsGraph ∧
      LowerIndexExpressions.createLoopNest twoReductionsGraph twoReductions.resultVars
        = .ok [Loop.dense ivI, Loop.sparse ivJSum ivI, Loop.sparse ivKSum ivI] ∧
      LowerIndexExpressions.lower (.varExpr ⟨"z", vector4⟩) twoReductions
        = .ok twoReductionsLowered ∧
      (Loop.sparse ivKSum ivI).parent = some ivI ∧ ivI ≠ ivJSum :=
  ⟨rfl, rfl, rfl, rfl, by decide⟩

/-- C15, amended. The statement that `lower` returns is the nest of the loops
of the loop list of `createLoopNest`, the first outermost, and the parent that
`createLoopNest` records for a loop is the variable of an earlier loop of the
list: the loop of the DFS predecessor of `b` encloses the loop of `b`, directly
or not. -/
theorem C15_parent_loop_encloses (target : Expr) (e : IndexExpr) (s : Stmt)
    (h : LowerIndexExpressions.lower target e = .ok s) :
    ∃ graph loops,
      LowerIndexExpressions.createIndexVarGraph (LowerIndexExpressions.getIndexTupleUses e)
        = .ok graph ∧
      LowerIndexExpressions.createLoopNest graph e.resultVars = .ok loops ∧
      LoopNest (loops.map (fun l => inductionVarOf l.indexVar)) s ∧
      ∀ pre l post p, loops = pre ++ l :: post → l.parent = some p →
        ∃ l' ∈ pre, l'.indexVar = p := by
  obtain ⟨graph, loops, h1, h2, hn, _, _⟩ := lower_emitted h
  refine ⟨graph, loops, h1, h2, hn, ?_⟩
  intro pre l post p hsplit hp
  rcases (createLoopNest_built graph e.resultVars loops h2).loopsOk pre l post hsplit with
    ⟨hd, _⟩ | ⟨p', _, hsp, _, _, hpar⟩
  · rw [hd] at hp
    cases hp
  · rw [hsp] at hp
    simp only [Loop.sparse, Option.some.injEq] at hp
    subst hp
    exact hpar

/-- Witness of C15: the lowering of `z(i) = A(i,j) * B(i,k)`. -/
theorem C15_parent_loop_encloses_witness :
    ∃ graph loops,
      LowerIndexExpressions.createIndexVarGraph
        (LowerIndexExpressions.getIndexTupleUses twoReductions) = .ok graph ∧
      LowerIndexExpressions.createLoopNest graph twoReductions.resultVars = .ok loops ∧
      LoopNest (loops.map (fun l => inductionVarOf l.indexVar)) twoReductionsLowered ∧
      ∀ pre l post p, loops = pre ++ l :: post → l.parent = some p →
        ∃ l' ∈ pre, l'.indexVar = p :=
  C15_parent_loop_encloses (.varExpr ⟨"z", vector4⟩) twoReductions twoReductionsLowered rfl



/-! ## The order of names -/

theorem stringLt_irrefl : ∀ a : List Char, stringLt a a = false
  | [] => rfl
  | a :: as => by
    unfold stringLt
    simp [stringLt_irrefl as]

theorem stringLt_trans : ∀ a b c : List Char, stringLt a b = true → stringLt b c = true →
    stringLt a c = true
  | [], [], _, h, _ => by simp [stringLt] at h
  | [], _ :: _, [], _, h => by simp [stringLt] at h
  | [], _ :: _, _ :: _, _, _ => by simp [stringLt]
  | _ :: _, [], _, h, _ => by simp [stringLt] at h
  | _ :: _, _ :: _, [], _, h => by simp [stringLt] at h
  | a :: as, b :: bs, c :: cs, h1, h2 => by
    unfold stringLt at h1 h2 ⊢
    by_cases hab : a.toNat < b.toNat
    · by_cases hbc : b.toNat < c.toNat
      · have : a.toNat < c.toNat := by omega
        simp [this]
      · simp only [hbc, if_false] at h2
        by_cases hcb : c.toNat < b.toNat
        · simp [hcb] at h2
        · have : a.toNat < c.toNat := by omega
          simp [this]
    · simp only [hab, if_false] at h1
      by_cases hba : b.toNat < a.toNat
      · simp [hba] at h1
      · simp only [hba, if_false] at h1
        by_cases hbc : b.toNat < c.toNat
        · have : a.toNat < c.toNat := by omega
          simp [this]
        · simp only [hbc, if_false] at h2
          by_cases hcb : c.toNat < b.toNat
          · simp [hcb] at h2
          · simp only [hcb, if_false] at h2
            have h3 : ¬ a.toNat < c.toNat := by omega
            have h4 : ¬ c.toNat < a.toNat := by omega
            simp only [h3, h4, if_false]
            exact stringLt_trans as bs cs h1 h2

theorem IndexVar.equiv_iff_name {a b : IndexVar} :
    stdEquiv IndexVar.lt a b = true ↔ a.name = b.name := by
  constructor
  · exact IndexVar.name_eq_of_equiv
  · intro h
    simp [stdEquiv, IndexVar.lt, h, stringLt_irrefl]

theorem indexVar_stdOrder : StdOrder IndexVar.lt :=
  ⟨fun _ => stringLt_irrefl _,
    fun _ _ _ => stringLt_trans _ _ _,
    fun a b c h => (by simp only [IndexVar.lt, IndexVar.name_eq_of_equiv h]),
    fun a b c h => (by simp only [IndexVar.lt, IndexVar.name_eq_of_equiv h])⟩

theorem StdOrder.equiv_refl {K : Type} {lt : K → K → Bool} (ho : StdOrder lt) (a : K) :
    stdEquiv lt a a = true := by
  simp [stdEquiv, ho.irrefl]

theorem StdOrder.equiv_symm {K : Type} {lt : K → K → Bool} {a b : K}
    (h : stdEquiv lt a b = true) : stdEquiv lt b a = true := by
  simp only [stdEquiv, Bool.and_eq_true] at h ⊢
  exact ⟨h.2, h.1⟩

theorem StdOrder.equiv_comm {K : Type} (lt : K → K → Bool) (a b : K) :
    stdEquiv lt a b = stdEquiv lt b a := by
  simp only [stdEquiv, Bool.and_comm]

theorem StdOrder.equiv_trans {K : Type} {lt : K → K → Bool} (ho : StdOrder lt) {a b c : K}
    (h1 : stdEquiv lt a b = true) (h2 : stdEquiv lt b c = true) :
    stdEquiv lt a c = true := by
  have e1 := ho.congr_left a b c h1
  have e2 := ho.congr_right c a b h1
  have h2' := h2
  simp only [stdEquiv, Bool.and_eq_true, Bool.not_eq_true'] at h2' ⊢
  rw [e1, e2]
  exact h2'

theorem StdOrder.equiv_congr {K : Type} {lt : K → K → Bool} (ho : StdOrder lt) {a b : K}
    (h : stdEquiv lt a b = true) (c : K) : stdEquiv lt a c = stdEquiv lt b c := by
  simp only [stdEquiv, ho.congr_left a b c h, ho.congr_right c a b h]

theorem StdOrder.not_equiv_of_lt {K : Type} {lt : K → K → Bool} {a b : K}
    (h : lt a b = true) : stdEquiv lt a b = false := by
  simp [stdEquiv, h]

theorem StdOrder.not_equiv_of_gt {K : Type} {lt : K → K → Bool} {a b : K}
    (h : lt b a = true) : stdEquiv lt a b = false := by
  simp [stdEquiv, h]

/-! ## Lookups in ordered maps -/

theorem StdMap.find_congr {K V : Type} {lt : K → K → Bool} (ho : StdOrder lt) {a b : K}
    (h : stdEquiv lt a b = true) : ∀ m : StdMap K V, StdMap.find lt a m = StdMap.find lt b m
  | [] => rfl
  | (k, v) :: rest => by
    simp only [StdMap.find, ho.equiv_congr h k, StdMap.find_congr ho h rest]

theorem StdMap.find_eq_none_of_lt {K V : Type} {lt : K → K → Bool} (ho : StdOrder lt) (k : K) :
    ∀ m : StdMap K V, (∀ e ∈ m, lt k e.1 = true) → StdMap.find lt k m = none
  | [], _ => rfl
  | (k', v) :: rest, h => by
    have h1 : lt k k' = true := h (k', v) (List.mem_cons_self _ _)
    simp only [StdMap.find, StdOrder.not_equiv_of_lt h1]
    exact StdMap.find_eq_none_of_lt ho k rest (fun e he => h e (List.mem_cons_of_mem _ he))

theorem StdMap.sorted_modify {K V : Type} {lt : K → K → Bool} (ho : StdOrder lt) (k : K)
    (dflt : V) (f : V → V) :
    ∀ m : StdMap K V, StdMap.Sorted lt m →
      StdMap.Sorted lt (StdMap.modify lt k dflt f m) ∧
      ∀ e ∈ StdMap.modify lt k dflt f m, e.1 = k ∨ ∃ e' ∈ m, e'.1 = e.1
  | [], _ => by
    simp [StdMap.modify, StdMap.Sorted]
  | (k', v) :: rest, hs => by
    have hs' := hs
    simp only [StdMap.Sorted, List.pairwise_cons] at hs'
    obtain ⟨hhead, htail⟩ := hs'
    unfold StdMap.modify
    by_cases h1 : lt k k' = true
    · rw [if_pos h1]
      refine ⟨?_, ?_⟩
      · simp only [StdMap.Sorted, List.pairwise_cons]
        refine ⟨?_, hhead, htail⟩
        intro e he
        rcases List.mem_cons.mp he with h | h
        · rw [h]; exact h1
        · exact ho.trans _ _ _ h1 (hhead e h)
      · intro e he
        rcases List.mem_cons.mp he with h | h
        · left; rw [h]
        · right; exact ⟨e, h, rfl⟩
    · rw [if_neg h1]
      by_cases h2 : lt k' k = true
      · rw [if_pos h2]
        obtain ⟨ih1, ih2⟩ := StdMap.sorted_modify ho k dflt f rest htail
        refine ⟨?_, ?_⟩
        · simp only [StdMap.Sorted, List.pairwise_cons]
          refine ⟨?_, ih1⟩
          intro e he
          rcases ih2 e he with h | ⟨e', he', h⟩
          · rw [h]; exact h2
          · rw [← h]; exact hhead e' he'
        · intro e he
          rcases List.mem_cons.mp he with h | h
          · right; exact ⟨(k', v), List.mem_cons_self _ _, by rw [h]⟩
          · rcases ih2 e h with h' | ⟨e', he', h'⟩
            · left; exact h'
            · right; exact ⟨e', List.mem_cons_of_mem _ he', h'⟩
      · rw [if_neg h2]
        refine ⟨?_, ?_⟩
        · simp only [StdMap.Sorted, List.pairwise_cons]
          exact ⟨hhead, htail⟩
        · intro e he
          rcases List.mem_cons.mp he with h | h
          · right; exact ⟨(k', v), List.mem_cons_self _ _, by rw [h]⟩
          · right; exact ⟨e, List.mem_cons_of_mem _ h, rfl⟩

/-- The value of a key after `m[k]` is changed by `f`: the changed value for a
key equivalent to `k`, the old value for another key. -/
theorem StdMap.find_modify {K V : Type} {lt : K → K → Bool} (ho : StdOrder lt) (k : K)
    (dflt : V) (f : V → V) (a : K) :
    ∀ m : StdMap K V, StdMap.Sorted lt m →
      StdMap.find lt a (StdMap.modify lt k dflt f m) =
        if stdEquiv lt k a then some (f ((StdMap.find lt k m).getD dflt))
        else StdMap.find lt a m
  | [], _ => by
    simp only [StdMap.modify, StdMap.find, Option.getD_none]
    rw [StdOrder.equiv_comm lt a k]
  | (k', v) :: rest, hs => by
    have hs' := hs
    simp only [StdMap.Sorted, List.pairwise_cons] at hs'
    obtain ⟨hhead, htail⟩ := hs'
    unfold StdMap.modify
    by_cases h1 : lt k k' = true
    · rw [if_pos h1]
      have hnone : StdMap.find lt k ((k', v) :: rest) = none :=
        StdMap.find_eq_none_of_lt ho k _ (by
          intro e he
          rcases List.mem_cons.mp he with h | h
          · rw [h]; exact h1
          · exact ho.trans _ _ _ h1 (hhead e h))
      rw [hnone]
      by_cases hq : stdEquiv lt k a = true
      · simp only [StdMap.find, StdOrder.equiv_symm hq, hq, if_true, Option.getD_none]
      · have hq' : stdEquiv lt a k = false := by
          rw [StdOrder.equiv_comm lt a k]; simpa using hq
        simp only [hq, if_false]
        rw [StdMap.find, hq']
        simp
    · rw [if_neg h1]
      by_cases h2 : lt k' k = true
      · rw [if_pos h2]
        have hkk' : stdEquiv lt k k' = false := StdOrder.not_equiv_of_gt h2
        have ih := StdMap.find_modify ho k dflt f a rest htail
        by_cases hq : stdEquiv lt k a = true
        · have hak' : stdEquiv lt a k' = false := by
            rw [← ho.equiv_congr hq k']; exact hkk'
          simp only [StdMap.find, hak', hkk', ih, hq, if_true]
          simp
        · have hq' : stdEquiv lt k a = false := by simpa using hq
          simp [StdMap.find, ih, hq']
      · rw [if_neg h2]
        have hkk' : stdEquiv lt k k' = true := by simp [stdEquiv, h1, h2]
        by_cases hq : stdEquiv lt k a = true
        · have hak' : stdEquiv lt a k' = true := by
            rw [← ho.equiv_congr hq k']; exact hkk'
          simp only [StdMap.find, hak', hkk', hq, if_true, Option.getD_some]
        · have hak' : stdEquiv lt a k' = false := by
            have : stdEquiv lt k' a = false := by
              rw [← ho.equiv_congr hkk' a]; simpa using hq
            rw [StdOrder.equiv_comm lt a k']; exact this
          simp only [StdMap.find, hak', hq]
          simp


/-! ## The index variable graph -/

theorem foldlM_nested {β ε : Type} (f : β → Nat × Nat → Except ε β) (inner : Nat → List Nat) :
    ∀ (l : List Nat) (b : β),
      l.foldlM (fun b i => (inner i).foldlM (fun b j => f b (i, j)) b) b =
        (l.flatMap (fun i => (inner i).map (fun j => (i, j)))).foldlM f b
  | [], b => rfl
  | i :: l, b => by
    rw [List.foldlM_cons, List.flatMap_cons, List.foldlM_append, List.foldlM_map]
    congr 1
    funext b1
    exact foldlM_nested f inner l b1

theorem addTupleEdges_eq (it : IndexTuple) (graph : IndexVarGraph) :
    LowerIndexExpressions.addTupleEdges it graph =
      (loopPairs it.length).foldlM
        (fun graph p => LowerIndexExpressions.addEdge it p.1 p.2 graph) graph := by
  unfold LowerIndexExpressions.addTupleEdges loopPairs
  exact foldlM_nested (fun graph p => LowerIndexExpressions.addEdge it p.1 p.2 graph)
    (fun i => List.range' (i + 1) (it.length - (i + 1))) _ graph

theorem mem_loopPairs {size : Nat} {p : Nat × Nat} (h : p ∈ loopPairs size) :
    p.1 < p.2 ∧ p.2 < size := by
  unfold loopPairs at h
  simp only [List.mem_flatMap, List.mem_range, List.mem_map, List.mem_range'_1] at h
  obtain ⟨i, _, j, ⟨hj1, hj2⟩, hp⟩ := h
  subst hp
  simp only
  omega

theorem mem_positionPairs {size : Nat} {p : Nat × Nat} :
    p ∈ positionPairs size ↔ p.1 < p.2 ∧ p.2 < size := by
  unfold positionPairs
  simp only [List.mem_flatMap, List.mem_range, List.mem_map, List.mem_range'_1]
  constructor
  · rintro ⟨i, _, j, ⟨hj1, hj2⟩, hp⟩
    subst hp
    simp only
    omega
  · rintro ⟨h1, h2⟩
    exact ⟨p.1, by omega, p.2, ⟨by omega, by omega⟩, rfl⟩

theorem flatMap_eq_nil_of_forall {α β : Type} (g : α → List β) :
    ∀ l : List α, (∀ a ∈ l, g a = []) → l.flatMap g = []
  | [], _ => rfl
  | a :: l, h => by
    rw [List.flatMap_cons, h a (List.mem_cons_self _ _),
      flatMap_eq_nil_of_forall g l (fun x hx => h x (List.mem_cons_of_mem _ hx))]
    rfl

theorem loopPairs_eq_positionPairs {size : Nat} (h : size < 2 ^ 64) :
    loopPairs size = positionPairs size := by
  unfold loopPairs positionPairs
  cases size with
  | zero =>
    rw [flatMap_eq_nil_of_forall _ _ (by intro i _; simp)]
    rfl
  | succ n =>
    have h1 : LowerIndexExpressions.sizeMinusOne (n + 1) = n := by
      unfold LowerIndexExpressions.sizeMinusOne
      omega
    rw [h1, List.range_succ, List.flatMap_append]
    simp

theorem adjacency_modify (ivGraph : IndexVarGraph) (hs : StdMap.Sorted IndexVar.lt ivGraph)
    (k b a : IndexVar) :
    adjacency (StdMap.modify IndexVar.lt k [] (fun l => l ++ [b]) ivGraph) a =
      adjacency ivGraph a ++ (if k.name = a.name then [b] else []) := by
  unfold adjacency
  rw [StdMap.find_modify indexVar_stdOrder k [] _ a ivGraph hs]
  by_cases hq : k.name = a.name
  · have hq' : stdEquiv IndexVar.lt k a = true := IndexVar.equiv_iff_name.mpr hq
    rw [if_pos hq', if_pos hq, StdMap.find_congr indexVar_stdOrder hq' ivGraph]
    rfl
  · have hq' : ¬ stdEquiv IndexVar.lt k a = true := fun h => hq (IndexVar.equiv_iff_name.mp h)
    rw [if_neg hq', if_neg hq, List.append_nil]

theorem contributions_eq {it : IndexTuple} {a : IndexVar} {p : Nat × Nat} {x y : IndexVar}
    (hx : it.get? p.1 = some x) (hy : it.get? p.2 = some y) :
    contributions it a p =
      (if x.name = a.name then [y] else []) ++ (if y.name = a.name then [x] else []) := by
  unfold contributions
  rw [hx, hy]

theorem addEdges_spec (it : IndexTuple) :
    ∀ (pairs : List (Nat × Nat)) (graph : IndexVarGraph),
      StdMap.Sorted IndexVar.lt graph →
      (∀ p ∈ pairs, p.1 < it.length ∧ p.2 < it.length) →
      ∃ graph', pairs.foldlM
          (fun graph p => LowerIndexExpressions.addEdge it p.1 p.2 graph) graph = .ok graph' ∧
        StdMap.Sorted IndexVar.lt graph' ∧
        ∀ a, adjacency graph' a = adjacency graph a ++ pairs.flatMap (contributions it a)
  | [], graph, hs, _ => ⟨graph, rfl, hs, fun a => by simp⟩
  | p :: pairs, graph, hs, hb => by
    obtain ⟨h1, h2⟩ := hb p (List.mem_cons_self _ _)
    obtain ⟨x, hx⟩ : ∃ x, it.get? p.1 = some x := ⟨it.get ⟨p.1, h1⟩, List.get?_eq_get h1⟩
    obtain ⟨y, hy⟩ : ∃ y, it.get? p.2 = some y := ⟨it.get ⟨p.2, h2⟩, List.get?_eq_get h2⟩
    have hstep : LowerIndexExpressions.addEdge it p.1 p.2 graph =
        .ok (StdMap.modify IndexVar.lt y [] (fun l => l ++ [x])
          (StdMap.modify IndexVar.lt x [] (fun l => l ++ [y]) graph)) := by
      simp only [LowerIndexExpressions.addEdge, LowerIndexExpressions.tupleGet, hx, hy, bind,
        Except.bind, pure, Except.pure]
    have hs1 := (StdMap.sorted_modify indexVar_stdOrder x [] (fun l => l ++ [y]) graph hs).1
    have hs2 := (StdMap.sorted_modify indexVar_stdOrder y [] (fun l => l ++ [x]) _ hs1).1
    obtain ⟨graph', hfold, hs', hadj⟩ := addEdges_spec it pairs _ hs2
      (fun q hq => hb q (List.mem_cons_of_mem _ hq))
    refine ⟨graph', ?_, hs', ?_⟩
    · rw [List.foldlM_cons, hstep]
      exact hfold
    · intro a
      rw [hadj a, adjacency_modify _ hs1, adjacency_modify _ hs, List.flatMap_cons,
        contributions_eq hx hy]
      simp only [List.append_assoc]

theorem addTupleEdges_spec (it : IndexTuple) (graph : IndexVarGraph)
    (hs : StdMap.Sorted IndexVar.lt graph) :
    ∃ graph', LowerIndexExpressions.addTupleEdges it graph = .ok graph' ∧
      StdMap.Sorted IndexVar.lt graph' ∧
      ∀ a, adjacency graph' a =
        adjacency graph a ++ (loopPairs it.length).flatMap (contributions it a) := by
  rw [addTupleEdges_eq]
  exact addEdges_spec it _ graph hs (fun p hp => by
    have := mem_loopPairs hp
    omega)

theorem createIndexVarGraph_fold :
    ∀ (indexTupleUses : IndexTupleUses) (graph : IndexVarGraph),
      StdMap.Sorted IndexVar.lt graph →
      ∃ graph', indexTupleUses.foldlM
          (fun graph itu => LowerIndexExpressions.addTupleEdges itu.1 graph) graph = .ok graph' ∧
        StdMap.Sorted IndexVar.lt graph' ∧
        ∀ a, adjacency graph' a = adjacency graph a ++
          indexTupleUses.flatMap (fun itu => (loopPairs itu.1.length).flatMap (contributions itu.1 a))
  | [], graph, hs => ⟨graph, rfl, hs, fun a => by simp⟩
  | itu :: rest, graph, hs => by
    obtain ⟨g1, h1, hs1, hadj1⟩ := addTupleEdges_spec itu.1 graph hs
    obtain ⟨g2, h2, hs2, hadj2⟩ := createIndexVarGraph_fold rest g1 hs1
    refine ⟨g2, ?_, hs2, ?_⟩
    · rw [List.foldlM_cons, h1]
      exact h2
    · intro a
      rw [hadj2 a, hadj1 a, List.flatMap_cons, List.append_assoc]

theorem createIndexVarGraph_spec (indexTupleUses : IndexTupleUses) :
    ∃ graph, LowerIndexExpressions.createIndexVarGraph indexTupleUses = .ok graph ∧
      StdMap.Sorted IndexVar.lt graph ∧
      ∀ a, adjacency graph a =
        indexTupleUses.flatMap (fun itu => (loopPairs itu.1.length).flatMap (contributions itu.1 a)) := by
  obtain ⟨g, h, hs, hadj⟩ := createIndexVarGraph_fold indexTupleUses []
    (by simp [StdMap.Sorted])
  refine ⟨g, h, hs, ?_⟩
  intro a
  rw [hadj a]
  rfl

theorem createIndexVarGraph_neighbours (indexTupleUses : IndexTupleUses)
    (hsize : ∀ itu ∈ indexTupleUses, itu.1.length < 2 ^ 64) :
    ∃ graph, LowerIndexExpressions.createIndexVarGraph indexTupleUses = .ok graph ∧
      StdMap.Sorted IndexVar.lt graph ∧
      ∀ a, adjacency graph a = neighbours indexTupleUses a := by
  obtain ⟨g, h, hs, hadj⟩ := createIndexVarGraph_spec indexTupleUses
  refine ⟨g, h, hs, ?_⟩
  intro a
  rw [hadj a]
  unfold neighbours
  have : ∀ (l : IndexTupleUses), (∀ itu ∈ l, itu.1.length < 2 ^ 64) →
      l.flatMap (fun itu => (loopPairs itu.1.length).flatMap (contributions itu.1 a)) =
        l.flatMap (fun itu => (positionPairs itu.1.length).flatMap (contributions itu.1 a)) := by
    intro l
    induction l with
    | nil => intro _; simp only [List.flatMap_nil]
    | cons itu rest ih =>
      intro hl
      rw [List.flatMap_cons, List.flatMap_cons, ih (fun x hx => hl x (List.mem_cons_of_mem _ hx)),
        loopPairs_eq_positionPairs (hl itu (List.mem_cons_self _ _))]
  exact this indexTupleUses hsize

theorem mem_neighbours (indexTupleUses : IndexTupleUses) (a b : IndexVar) :
    b ∈ neighbours indexTupleUses a ↔
      ∃ itu ∈ indexTupleUses, ∃ i j a', i ≠ j ∧ itu.1.get? i = some a' ∧
        a'.name = a.name ∧ itu.1.get? j = some b := by
  unfold neighbours
  simp only [List.mem_flatMap]
  constructor
  · rintro ⟨itu, hitu, p, hp, hb⟩
    refine ⟨itu, hitu, ?_⟩
    have hlt := mem_positionPairs.mp hp
    obtain ⟨x, hx⟩ : ∃ x, itu.1.get? p.1 = some x :=
      ⟨itu.1.get ⟨p.1, by omega⟩, List.get?_eq_get _⟩
    obtain ⟨y, hy⟩ : ∃ y, itu.1.get? p.2 = some y :=
      ⟨itu.1.get ⟨p.2, by omega⟩, List.get?_eq_get _⟩
    rw [contributions_eq hx hy, List.mem_append] at hb
    rcases hb with hb | hb
    · by_cases hn : x.name = a.name
      · rw [if_pos hn, List.mem_singleton] at hb
        subst hb
        exact ⟨p.1, p.2, x, by omega, hx, hn, hy⟩
      · rw [if_neg hn] at hb
        cases hb
    · by_cases hn : y.name = a.name
      · rw [if_pos hn, List.mem_singleton] at hb
        subst hb
        exact ⟨p.2, p.1, y, by omega, hy, hn, hx⟩
      · rw [if_neg hn] at hb
        cases hb
  · rintro ⟨itu, hitu, i, j, a', hij, hi, hn, hj⟩
    refine ⟨itu, hitu, ?_⟩
    have hi' : i < itu.1.length := by
      by_contra hc
      rw [List.get?_eq_none.mpr (by omega)] at hi
      cases hi
    have hj' : j < itu.1.length := by
      by_contra hc
      rw [List.get?_eq_none.mpr (by omega)] at hj
      cases hj
    rcases Nat.lt_or_gt_of_ne hij with hlt | hgt
    · refine ⟨(i, j), mem_positionPairs.mpr ⟨hlt, hj'⟩, ?_⟩
      rw [contributions_eq hi hj, if_pos hn]
      exact List.mem_append_left _ (List.mem_singleton_self _)
    · refine ⟨(j, i), mem_positionPairs.mpr ⟨hgt, hi'⟩, ?_⟩
      rw [contributions_eq hj hi, if_pos hn]
      exact List.mem_append_right _ (List.mem_singleton_self _)


/-! ## The order of index tuples -/

theorem IndexTuple.lt_irrefl : ∀ a : IndexTuple, IndexTuple.lt a a = false
  | [] => rfl
  | a :: as => by
    unfold IndexTuple.lt
    simp [indexVar_stdOrder.irrefl a, IndexTuple.lt_irrefl as]

theorem IndexTuple.equiv_cons {a b : IndexVar} {as bs : IndexTuple}
    (h : stdEquiv IndexTuple.lt (a :: as) (b :: bs) = true) :
    stdEquiv IndexVar.lt a b = true ∧ stdEquiv IndexTuple.lt as bs = true := by
  unfold stdEquiv at h ⊢
  unfold IndexTuple.lt at h
  cases hab : IndexVar.lt a b <;> cases hba : IndexVar.lt b a <;> simp_all

theorem IndexTuple.equiv_nil_cons {b : IndexVar} {bs : IndexTuple} :
    stdEquiv IndexTuple.lt [] (b :: bs) = false := by
  simp [stdEquiv, IndexTuple.lt]

theorem IndexTuple.equiv_cons_nil {b : IndexVar} {bs : IndexTuple} :
    stdEquiv IndexTuple.lt (b :: bs) [] = false := by
  simp [stdEquiv, IndexTuple.lt]

theorem IndexTuple.lt_congr_left : ∀ a b c : IndexTuple, stdEquiv IndexTuple.lt a b = true →
    IndexTuple.lt a c = IndexTuple.lt b c
  | [], [], _, _ => rfl
  | [], _ :: _, _, h => by rw [IndexTuple.equiv_nil_cons] at h; cases h
  | _ :: _, [], _, h => by rw [IndexTuple.equiv_cons_nil] at h; cases h
  | _ :: _, _ :: _, [], _ => by simp [IndexTuple.lt]
  | a :: as, b :: bs, c :: cs, h => by
    obtain ⟨h1, h2⟩ := IndexTuple.equiv_cons h
    unfold IndexTuple.lt
    rw [indexVar_stdOrder.congr_left a b c h1, indexVar_stdOrder.congr_right c a b h1,
      IndexTuple.lt_congr_left as bs cs h2]

theorem IndexTuple.lt_congr_right : ∀ a b c : IndexTuple, stdEquiv IndexTuple.lt b c = true →
    IndexTuple.lt a b = IndexTuple.lt a c
  | _, [], [], _ => rfl
  | _, [], _ :: _, h => by rw [IndexTuple.equiv_nil_cons] at h; cases h
  | _, _ :: _, [], h => by rw [IndexTuple.equiv_cons_nil] at h; cases h
  | [], _ :: _, _ :: _, _ => by simp [IndexTuple.lt]
  | a :: as, b :: bs, c :: cs, h => by
    obtain ⟨h1, h2⟩ := IndexTuple.equiv_cons h
    unfold IndexTuple.lt
    rw [indexVar_stdOrder.congr_right a b c h1, indexVar_stdOrder.congr_left b c a h1,
      IndexTuple.lt_congr_right as bs cs h2]

theorem IndexTuple.lt_trans : ∀ a b c : IndexTuple, IndexTuple.lt a b = true →
    IndexTuple.lt b c = true → IndexTuple.lt a c = true
  | [], [], _, h, _ => by simp [IndexTuple.lt] at h
  | [], _ :: _, [], _, h => by simp [IndexTuple.lt] at h
  | [], _ :: _, _ :: _, _, _ => by simp [IndexTuple.lt]
  | _ :: _, [], _, h, _ => by simp [IndexTuple.lt] at h
  | _ :: _, _ :: _, [], _, h => by simp [IndexTuple.lt] at h
  | a :: as, b :: bs, c :: cs, h1, h2 => by
    unfold IndexTuple.lt at h1 h2 ⊢
    cases hab : IndexVar.lt a b with
    | true =>
      cases hbc : IndexVar.lt b c with
      | true => simp [indexVar_stdOrder.trans a b c hab hbc]
      | false =>
        simp only [hbc] at h2
        cases hcb : IndexVar.lt c b with
        | true => simp [hcb] at h2
        | false =>
          have he : stdEquiv IndexVar.lt b c = true := by simp [stdEquiv, hbc, hcb]
          have := indexVar_stdOrder.congr_right a b c he
          rw [hab] at this
          simp [← this]
    | false =>
      simp only [hab] at h1
      cases hba : IndexVar.lt b a with
      | true => simp [hba] at h1
      | false =>
        simp only [hba] at h1
        have he : stdEquiv IndexVar.lt a b = true := by simp [stdEquiv, hab, hba]
        rw [indexVar_stdOrder.congr_left a b c he, indexVar_stdOrder.congr_right c a b he]
        cases hbc : IndexVar.lt b c with
        | true => simp
        | false =>
          simp only [hbc] at h2
          cases hcb : IndexVar.lt c b with
          | true => simp [hcb] at h2
          | false =>
            simp only [hcb] at h2
            simp only [Bool.false_eq_true, if_false]
            exact IndexTuple.lt_trans as bs cs (by simpa using h1) (by simpa using h2)

theorem indexTuple_stdOrder : StdOrder IndexTuple.lt :=
  ⟨IndexTuple.lt_irrefl, IndexTuple.lt_trans, IndexTuple.lt_congr_left,
    IndexTuple.lt_congr_right⟩

theorem StdMap.sorted_foldl_modify {K V α : Type} {lt : K → K → Bool} (ho : StdOrder lt)
    (key : α → K) (dflt : V) (f : α → V → V) :
    ∀ (l : List α) (m : StdMap K V), StdMap.Sorted lt m →
      StdMap.Sorted lt (l.foldl (fun m x => StdMap.modify lt (key x) dflt (f x) m) m)
  | [], _, hs => hs
  | x :: l, m, hs =>
    StdMap.sorted_foldl_modify ho key dflt f l _
      (StdMap.sorted_modify ho (key x) dflt (f x) m hs).1

theorem getIndexTupleUses_sorted (indexExpr : IndexExpr) :
    StdMap.Sorted IndexTuple.lt (LowerIndexExpressions.getIndexTupleUses indexExpr) := by
  unfold LowerIndexExpressions.getIndexTupleUses
  exact StdMap.sorted_foldl_modify indexTuple_stdOrder (fun t : IndexedTensor => t.indexVars) []
    (fun t l => l ++ [t]) _ [] (by simp [StdMap.Sorted])


/-! ## Claims C22, C28 and C30: the graph of index variables -/

/-- C22. For every map of index-tuple uses whose tuples have a length that
`size_t` can hold, `createIndexVarGraph` returns an undirected graph: `b` is in
the adjacency list of `a` exactly when `a` and `b` stand at two different
positions of some index tuple, and `b` is adjacent to `a` exactly when `a` is
adjacent to `b`. -/
theorem C22_graph_is_undirected (indexTupleUses : IndexTupleUses)
    (hsize : ∀ itu ∈ indexTupleUses, itu.1.length < 2 ^ 64) :
    ∃ graph, LowerIndexExpressions.createIndexVarGraph indexTupleUses = .ok graph ∧
      (∀ a b, b ∈ adjacency graph a ↔
        ∃ itu ∈ indexTupleUses, ∃ i j a', i ≠ j ∧ itu.1.get? i = some a' ∧
          a'.name = a.name ∧ itu.1.get? j = some b) ∧
      ∀ a b, Adjacent graph a b ↔ Adjacent graph b a := by
  obtain ⟨graph, h, _, hadj⟩ := createIndexVarGraph_neighbours indexTupleUses hsize
  have hmem : ∀ a b, b ∈ adjacency graph a ↔
      ∃ itu ∈ indexTupleUses, ∃ i j a', i ≠ j ∧ itu.1.get? i = some a' ∧
        a'.name = a.name ∧ itu.1.get? j = some b := by
    intro a b
    rw [hadj a]
    exact mem_neighbours indexTupleUses a b
  have hsymm : ∀ a b, Adjacent graph a b → Adjacent graph b a := by
    rintro a b ⟨b', hb', hin⟩
    obtain ⟨itu, hitu, i, j, a', hij, hi, hn, hj⟩ := (hmem a b').mp hin
    exact ⟨a', hn, (hmem b a').mpr ⟨itu, hitu, j, i, b', fun hc => hij hc.symm, hj, hb', hi⟩⟩
  exact ⟨graph, h, hmem, fun a b => ⟨hsymm a b, hsymm b a⟩⟩

/-- Witness of C22: the uses of `z(i) = A(i,j) * B(i,k)`. -/
theorem C22_graph_is_undirected_witness :
    ∃ graph, LowerIndexExpressions.createIndexVarGraph
        (LowerIndexExpressions.getIndexTupleUses twoReductions) = .ok graph ∧
      (∀ a b, b ∈ adjacency graph a ↔
        ∃ itu ∈ LowerIndexExpressions.getIndexTupleUses twoReductions,
          ∃ i j a', i ≠ j ∧ itu.1.get? i = some a' ∧
            a'.name = a.name ∧ itu.1.get? j = some b) ∧
      ∀ a b, Adjacent graph a b ↔ Adjacent graph b a :=
  C22_graph_is_undirected (LowerIndexExpressions.getIndexTupleUses twoReductions) (by decide)

/-- Counterexample to C28: in `z(i) = B(i,k) * A(i,j)` the tuple `(i,k)` appears
first, yet the adjacency list of `i` names `j` before `k`; the graph is the
graph of `z(i) = A(i,j) * B(i,k)`, where the tuples appear in the other
order. -/
theorem C28_counterexample :
    (LowerIndexExpressions.indexedTensors reversedReductions.rhs).map (fun t => t.indexVars)
      = [[ivI, ivKSum], [ivI, ivJSum]] ∧
    LowerIndexExpressions.createIndexVarGraph
        (LowerIndexExpressions.getIndexTupleUses reversedReductions)
      = .ok [(ivI, [ivJSum, ivKSum]), (ivJSum, [ivI]), (ivKSum, [ivI])] ∧
    adjacency [(ivI, [ivJSum, ivKSum]), (ivJSum, [ivI]), (ivKSum, [ivI])] ivI
      = [ivJSum, ivKSum] ∧
    LowerIndexExpressions.createIndexVarGraph
        (LowerIndexExpressions.getIndexTupleUses reversedReductions)
      = LowerIndexExpressions.createIndexVarGraph
        (LowerIndexExpressions.getIndexTupleUses twoReductions) :=
  ⟨rfl, rfl, rfl, rfl⟩

/-- C28, amended. The entries of the map of index-tuple uses ascend in the
order of the tuples, whatever the order of their appearance in the expression,
and the adjacency list of a variable lists its neighbours tuple by tuple in the
order of the entries of that map, and within a tuple in the order of the pairs
of positions `(i, j)`, `i < j`. -/
theorem C28_adjacency_follows_map_order (e : IndexExpr)
    (hsize : ∀ itu ∈ LowerIndexExpressions.getIndexTupleUses e, itu.1.length < 2 ^ 64) :
    StdMap.Sorted IndexTuple.lt (LowerIndexExpressions.getIndexTupleUses e) ∧
    ∃ graph, LowerIndexExpressions.createIndexVarGraph
        (LowerIndexExpressions.getIndexTupleUses e) = .ok graph ∧
      ∀ a, adjacency graph a = neighbours (LowerIndexExpressions.getIndexTupleUses e) a := by
  obtain ⟨graph, h, _, hadj⟩ := createIndexVarGraph_neighbours _ hsize
  exact ⟨getIndexTupleUses_sorted e, graph, h, hadj⟩

/-- Witness of C28: the uses of `z(i) = B(i,k) * A(i,j)`. -/
theorem C28_adjacency_follows_map_order_witness :
    StdMap.Sorted IndexTuple.lt (LowerIndexExpressions.getIndexTupleUses reversedReductions) ∧
    ∃ graph, LowerIndexExpressions.createIndexVarGraph
        (LowerIndexExpressions.getIndexTupleUses reversedReductions) = .ok graph ∧
      ∀ a, adjacency graph a
        = neighbours (LowerIndexExpressions.getIndexTupleUses reversedReductions) a :=
  C28_adjacency_follows_map_order reversedReductions (by decide)

/-- C30. For every map of index-tuple uses, the empty tuple included,
`createIndexVarGraph` returns a graph: none of its reads `it[i]`, `it[j]` is
outside the tuple. Every pair of positions that the two loops visit lies
inside the tuple, and the loops over the empty tuple leave the graph as it
is. -/
theorem C30_graph_reads_in_bounds (indexTupleUses : IndexTupleUses) :
    (∃ graph, LowerIndexExpressions.createIndexVarGraph indexTupleUses = .ok graph) ∧
    (∀ it : IndexTuple, ∀ p ∈ loopPairs it.length,
      ∃ x y, LowerIndexExpressions.tupleGet it p.1 = .ok x ∧
        LowerIndexExpressions.tupleGet it p.2 = .ok y) ∧
    ∀ graph, LowerIndexExpressions.addTupleEdges [] graph = .ok graph := by
  refine ⟨?_, ?_, ?_⟩
  · obtain ⟨graph, h, _⟩ := createIndexVarGraph_spec indexTupleUses
    exact ⟨graph, h⟩
  · intro it p hp
    have hlt := mem_loopPairs hp
    have h1 : p.1 < it.length := by omega
    refine ⟨it.get ⟨p.1, h1⟩, it.get ⟨p.2, hlt.2⟩, ?_, ?_⟩
    · simp only [LowerIndexExpressions.tupleGet, List.get?_eq_get h1]
    · simp only [LowerIndexExpressions.tupleGet, List.get?_eq_get hlt.2]
  · intro graph
    rw [addTupleEdges_eq]
    have h0 : loopPairs ([] : IndexTuple).length = [] := by
      unfold loopPairs
      exact flatMap_eq_nil_of_forall _ _ (by intro i _; simp)
    rw [h0]
    rfl


/-! ## Claim C21: the loop list is the depth-first preorder -/

theorem foldlM_listsPreorder (ivGraph : IndexVarGraph)
    (run : IndexVar → List IndexVar × List Loop → Except Failure (List IndexVar × List Loop))
    (hrun : ListsPreorder ivGraph run) (mk : IndexVar → Loop)
    (hmk : ∀ v, (mk v).indexVar = v) :
    ∀ (nodes : List IndexVar) (st st' : List IndexVar × List Loop),
      nodes.foldlM (fun (state : List IndexVar × List Loop) v =>
        if (!stdSetContains IndexVar.lt state.1 v) = true then
          run v (v :: state.1, state.2 ++ [mk v])
        else pure state) st = .ok st' →
      ∃ new, st'.2 = st.2 ++ new ∧
        ∀ todo order, DepthFirst ivGraph todo st'.1 order →
          DepthFirst ivGraph (nodes ++ todo) st.1 (new.map (fun l => l.indexVar) ++ order)
  | [], st, st', h => by
    simp only [List.foldlM, pure, Except.pure, Except.ok.injEq] at h
    subst h
    exact ⟨[], by simp, fun todo order hd => by simpa using hd⟩
  | v :: nodes, st, st', h => by
    simp only [List.foldlM, bind, Except.bind] at h
    by_cases hc : (!stdSetContains IndexVar.lt st.1 v) = true
    · simp only [hc, if_true] at h
      cases hrec : run v (v :: st.1, st.2 ++ [mk v]) with
      | error e => simp [hrec] at h
      | ok st1 =>
        simp only [hrec] at h
        obtain ⟨new1, he1, hd1⟩ := hrun v _ st1 hrec
        obtain ⟨new2, he2, hd2⟩ := foldlM_listsPreorder ivGraph run hrun mk hmk nodes st1 st' h
        refine ⟨[mk v] ++ new1 ++ new2, ?_, ?_⟩
        · rw [he2, he1]
          simp
        · intro todo order hd
          have h2 := hd1 (nodes ++ todo) _ (hd2 todo order hd)
          have hv : stdSetContains IndexVar.lt st.1 v = false := by simpa using hc
          have h3 := DepthFirst.visit v (nodes ++ todo) st.1 _ hv h2
          simpa [hmk v] using h3
    · simp only [hc, pure, Except.pure] at h
      obtain ⟨new, he, hd⟩ := foldlM_listsPreorder ivGraph run hrun mk hmk nodes st st' h
      refine ⟨new, he, ?_⟩
      intro todo order hdf
      have hv : stdSetContains IndexVar.lt st.1 v = true := by simpa using hc
      exact DepthFirst.skip v (nodes ++ todo) st.1 _ hv (hd todo order hdf)

theorem createLoopNestFrom_listsPreorder (ivGraph : IndexVarGraph) :
    ∀ fuel : Nat, ListsPreorder ivGraph (LowerIndexExpressions.createLoopNestFrom ivGraph fuel)
  | 0 => by
    intro v state state' h
    simp [LowerIndexExpressions.createLoopNestFrom] at h
  | fuel + 1 => by
    intro source state state' h
    simp only [LowerIndexExpressions.createLoopNestFrom, bind, Except.bind] at h
    cases hat : StdMap.at IndexVar.lt source ivGraph with
    | error e => simp [hat] at h
    | ok sinks =>
      simp only [hat] at h
      have hadj : adjacency ivGraph source = sinks := by
        unfold adjacency
        rw [StdMap.at_eq_ok _ _ _ _ hat]
        rfl
      rw [hadj]
      exact foldlM_listsPreorder ivGraph _ (createLoopNestFrom_listsPreorder ivGraph fuel)
        (fun sink => Loop.sparse sink source) (fun _ => rfl) sinks state state' h

theorem createLoopNest_depthFirst (ivGraph : IndexVarGraph) (sources : List IndexVar)
    (loops : List Loop)
    (h : LowerIndexExpressions.createLoopNest ivGraph sources = .ok loops) :
    DepthFirst ivGraph sources [] (loops.map (fun l => l.indexVar)) := by
  unfold LowerIndexExpressions.createLoopNest at h
  obtain ⟨st, hrun, hst⟩ := except_bind_eq_ok h
  simp only [pure, Except.pure, Except.ok.injEq] at hst
  subst hst
  obtain ⟨new, he, hd⟩ := foldlM_listsPreorder ivGraph _
    (createLoopNestFrom_listsPreorder ivGraph (LowerIndexExpressions.graphSize ivGraph + 1))
    Loop.dense (fun _ => rfl) sources ([], []) st hrun
  have := hd [] [] (DepthFirst.done _)
  simp only [List.nil_append] at he
  rw [he]
  simpa using this

theorem DepthFirst.unique {ivGraph : IndexVarGraph} {todo visited order1 : List IndexVar}
    (h1 : DepthFirst ivGraph todo visited order1) :
    ∀ {order2 : List IndexVar}, DepthFirst ivGraph todo visited order2 → order1 = order2 := by
  induction h1 with
  | done visited =>
    intro order2 h2
    cases h2
    rfl
  | skip v todo visited order hv _ ih =>
    intro order2 h2
    cases h2 with
    | skip _ _ _ _ _ h2' => exact ih h2'
    | visit _ _ _ _ hv' _ => rw [hv] at hv'; cases hv'
  | visit v todo visited order hv _ ih =>
    intro order2 h2
    cases h2 with
    | skip _ _ _ _ hv' _ => rw [hv] at hv'; cases hv'
    | visit _ _ _ _ _ h2' => rw [ih h2']

/-- C21. The loop list that `createLoopNest` returns lists the index variables
in depth-first preorder of the graph: the roots are the result variables in
their declared order, a variable already visited is skipped, and the
neighbours of a variable are visited in the order of its adjacency list; no
other list is a depth-first preorder from these roots. The position in the
list is the nesting depth: the statement that `lower` returns
nests the loops in the order of the list, the first outermost. -/
theorem C21_loop_list_is_depth_first_preorder (target : Expr) (e : IndexExpr) (s : Stmt)
    (h : LowerIndexExpressions.lower target e = .ok s) :
    ∃ graph loops,
      LowerIndexExpressions.createIndexVarGraph (LowerIndexExpressions.getIndexTupleUses e)
        = .ok graph ∧
      LowerIndexExpressions.createLoopNest graph e.resultVars = .ok loops ∧
      DepthFirst graph e.resultVars [] (loops.map (fun l => l.indexVar)) ∧
      (∀ order, DepthFirst graph e.resultVars [] order →
        loops.map (fun l => l.indexVar) = order) ∧
      LoopNest (loops.map (fun l => inductionVarOf l.indexVar)) s := by
  obtain ⟨graph, loops, h1, h2, hn, _, _⟩ := lower_emitted h
  have hd := createLoopNest_depthFirst graph e.resultVars loops h2
  exact ⟨graph, loops, h1, h2, hd, fun order ho => hd.unique ho, hn⟩

/-- Witness of C21: the lowering of `z(i) = A(i,j) * B(i,k)`. -/
theorem C21_loop_list_is_depth_first_preorder_witness :
    ∃ graph loops,
      LowerIndexExpressions.createIndexVarGraph
        (LowerIndexExpressions.getIndexTupleUses twoReductions) = .ok graph ∧
      LowerIndexExpressions.createLoopNest graph twoReductions.resultVars = .ok loops ∧
      DepthFirst graph twoReductions.resultVars [] (loops.map (fun l => l.indexVar)) ∧
      (∀ order, DepthFirst graph twoReductions.resultVars [] order →
        loops.map (fun l => l.indexVar) = order) ∧
      LoopNest (loops.map (fun l => inductionVarOf l.indexVar)) twoReductionsLowered :=
  C21_loop_list_is_depth_first_preorder (.varExpr ⟨"z", vector4⟩) twoReductions
    twoReductionsLowered rfl


/-! ## Claims C23 and C24: the emitted loops -/

theorem computeMinChain_assigned (var : Var) :
    ∀ (vs : List Var) (minStmt : Stmt), (∀ v ∈ assignedVars minStmt, v = var) →
      ∀ v ∈ assignedVars (LowerIndexExpressions.computeMinChain var minStmt vs), v = var
  | [], _, h => h
  | w :: vs, minStmt, h => by
    rw [LowerIndexExpressions.computeMinChain]
    apply computeMinChain_assigned var vs
    intro v hv
    simp only [assignedVars, List.mem_append, List.mem_singleton, List.not_mem_nil,
      or_false] at hv
    rcases hv with hv | hv
    · exact h v hv
    · exact hv

theorem computeMin_assigned (var : Var) (vars : List Var) (m : Stmt)
    (h : LowerIndexExpressions.computeMin var vars = .ok m) :
    ∀ v ∈ assignedVars m, v = var := by
  unfold LowerIndexExpressions.computeMin at h
  cases vars with
  | nil => simp [iassertF, iassert, bind, Except.bind] at h
  | cons v0 vs =>
    have hbase : ∀ v ∈ assignedVars (Stmt.block (.varDecl var) (.assignStmt var (.varExpr v0))),
        v = var := by
      intro v hv
      simpa [assignedVars] using hv
    cases vs with
    | nil =>
      simp only [iassertF, iassert, List.length_cons, List.length_nil, bind, Except.bind,
        pure, Except.pure] at h
      simp only [gt_iff_lt, Nat.lt_add_one, decide_True, if_true, Except.ok.injEq] at h
      subst h
      intro v hv
      exact computeMinChain_assigned var [] _ hbase v (by simpa [assignedVars] using hv)
    | cons v1 vs =>
      cases vs with
      | nil =>
        simp only [iassertF, iassert, List.length_cons, List.length_nil, bind, Except.bind,
          pure, Except.pure] at h
        simp only [gt_iff_lt, Nat.zero_lt_succ, decide_True, if_true, Except.ok.injEq] at h
        subst h
        intro v hv
        simpa [assignedVars] using hv
      | cons v2 vs =>
        simp only [iassertF, iassert, List.length_cons, bind, Except.bind,
          pure, Except.pure] at h
        simp only [gt_iff_lt, Nat.zero_lt_succ, decide_True, if_true, Except.ok.injEq] at h
        subst h
        intro v hv
        exact computeMinChain_assigned var (v1 :: v2 :: vs) _ hbase v
          (by simpa [assignedVars] using hv)

theorem conjuncts_compareToIndex (c : Var) :
    conjuncts (LowerIndexExpressions.compareToIndex c)
      = [.binary BinaryOp.Lt (.varExpr c) (.literal LowerIndexExpressions.intType [1])] := rfl

theorem conjuncts_foldl :
    ∀ (cs : List Var) (condition : Expr),
      conjuncts (cs.foldl (fun condition c =>
          Expr.binary BinaryOp.And condition (LowerIndexExpressions.compareToIndex c)) condition)
        = conjuncts condition ++ cs.map (fun c =>
            Expr.binary BinaryOp.Lt (.varExpr c) (.literal LowerIndexExpressions.intType [1]))
  | [], condition => by simp
  | c :: cs, condition => by
    rw [List.foldl_cons, conjuncts_foldl cs, conjuncts, conjuncts_compareToIndex]
    simp

/-- What one round of the emission returns: a `For` for a dense loop, a `While`
for a sparse loop. -/
theorem emitLoop_shape {inductionVars : InductionVars} (hok : InductionVarsOk inductionVars)
    (loop : Loop) (loopNest s : Stmt)
    (h : LowerIndexExpressions.emitLoop inductionVars loop loopNest = .ok s) :
    (loop.type = LoopType.Dense ∧ ∃ domain,
      loop.indexVar.domain.indexSets.head? = some domain ∧
      s = .forDomain (inductionVarOf loop.indexVar) domain loopNest) ∨
    (loop.type = LoopType.Sparse ∧ ∃ entry first minStmt,
      StdMap.at IndexVar.lt loop.indexVar inductionVars = .ok entry ∧
      entry.2.head? = some first ∧
      LowerIndexExpressions.computeMin (inductionVarOf loop.indexVar) entry.2 = .ok minStmt ∧
      s = .whileLoop
        (entry.2.tail.foldl (fun condition c =>
          Expr.binary BinaryOp.And condition (LowerIndexExpressions.compareToIndex c))
          (LowerIndexExpressions.compareToIndex first))
        (.block minStmt loopNest)) := by
  unfold LowerIndexExpressions.emitLoop at h
  cases hat : StdMap.at IndexVar.lt loop.indexVar inductionVars with
  | error e => cases ht : loop.type <;> simp [ht, hat, bind, Except.bind] at h
  | ok entry =>
    have hfst := hok.at hat
    cases ht : loop.type with
    | Dense =>
      left
      simp only [ht, hat, hfst, LowerIndexExpressions.deref, bind, Except.bind] at h
      cases hd : loop.indexVar.domain.indexSets.head? with
      | none => simp [hd] at h
      | some domain =>
        simp only [hd, pure, Except.pure, Except.ok.injEq] at h
        exact ⟨rfl, domain, rfl, h.symm⟩
    | Sparse =>
      right
      simp only [ht, hat, hfst, LowerIndexExpressions.deref, bind, Except.bind] at h
      cases hc : entry.2.head? with
      | none => simp [hc] at h
      | some first =>
        simp only [hc] at h
        cases hmin : LowerIndexExpressions.computeMin (inductionVarOf loop.indexVar) entry.2 with
        | error e => simp [hmin] at h
        | ok m =>
          simp only [hmin, pure, Except.pure, Except.ok.injEq] at h
          exact ⟨rfl, entry, first, m, rfl, hc, hmin, h.symm⟩

theorem emitLoops_nest {inductionVars : InductionVars}
    (hok : InductionVarsOk inductionVars) :
    ∀ (loops : List Loop) (s : Stmt),
      LowerIndexExpressions.emitLoops inductionVars loops = .ok s → NestOfLoops loops s
  | [], s, h => by
    simp only [LowerIndexExpressions.emitLoops, Except.ok.injEq] at h
    subst h
    exact NestOfLoops.innermost
  | loop :: loops, s, h => by
    simp only [LowerIndexExpressions.emitLoops, bind, Except.bind] at h
    cases hin : LowerIndexExpressions.emitLoops inductionVars loops with
    | error e => simp [hin] at h
    | ok inner =>
      simp only [hin] at h
      have ih := emitLoops_nest hok loops inner hin
      rcases emitLoop_shape hok loop inner s h with
        ⟨ht, domain, hd, rfl⟩ | ⟨ht, entry, first, m, _, _, _, rfl⟩
      · exact NestOfLoops.dense loop loops domain inner ht hd ih
      · exact NestOfLoops.sparse loop loops _ m inner ht ih

/-- C23. The statement that `lower` returns is the nest of the loops of the
loop list of `createLoopNest`, one loop statement per loop of the list, the
first loop outermost and every loop around the next one. A `Dense` loop is a
`For` over the induction variable of the loop and the first index set of the
domain of its index variable, a `Sparse` loop is a `While`. -/
theorem C23_loops_nest_in_list_order (target : Expr) (e : IndexExpr) (s : Stmt)
    (h : LowerIndexExpressions.lower target e = .ok s) :
    ∃ graph loops,
      LowerIndexExpressions.createIndexVarGraph (LowerIndexExpressions.getIndexTupleUses e)
        = .ok graph ∧
      LowerIndexExpressions.createLoopNest graph e.resultVars = .ok loops ∧
      NestOfLoops loops s := by
  obtain ⟨graph, loops, inductionVars, h1, h2, h3, h4⟩ := lower_ok h
  exact ⟨graph, loops, h1, h2,
    emitLoops_nest (createInductionVariables_ok _ _ _ h3) loops s h4⟩

/-- Witness of C23: the lowering of `C(i,j) = B(i,j) + A(i,j)`. -/
theorem C23_loops_nest_in_list_order_witness :
    ∃ graph loops,
      LowerIndexExpressions.createIndexVarGraph
        (LowerIndexExpressions.getIndexTupleUses elementwiseAdd) = .ok graph ∧
      LowerIndexExpressions.createLoopNest graph elementwiseAdd.resultVars = .ok loops ∧
      NestOfLoops loops elementwiseAddLowered :=
  C23_loops_nest_in_list_order (.varExpr ⟨"C", matrix45⟩) elementwiseAdd
    elementwiseAddLowered rfl

/-- Counterexample to C24: the body of the `While` that `lower` returns for the
sparse loop `j` of `C(i,j) = B(i,j) + A(i,j)` is the computation of the minimum
followed by the inner nest, here the undefined statement, and nothing else;
the coordinate variables `ijB` and `ijA` are assigned nowhere. -/
theorem C24_counterexample :
    LowerIndexExpressions.lower (.varExpr ⟨"C", matrix45⟩) elementwiseAdd
      = .ok elementwiseAddLowered ∧
    (∃ condition minStmt,
      LowerIndexExpressions.computeMin ⟨"j", LowerIndexExpressions.intType⟩
        [⟨"ijB", LowerIndexExpressions.intType⟩, ⟨"ijA", LowerIndexExpressions.intType⟩]
        = .ok minStmt ∧
      elementwiseAddLowered = .forDomain ⟨"i", LowerIndexExpressions.intType⟩ (.range 4)
        (.whileLoop condition (.block minStmt .undefined))) ∧
    assignedVars elementwiseAddLowered
      = [⟨"j", LowerIndexExpressions.intType⟩, ⟨"j", LowerIndexExpressions.intType⟩] :=
  ⟨rfl, ⟨_, _, rfl, rfl⟩, rfl⟩

/-- C24, amended. For every sparse loop, the `While` that the emission builds
has as condition the conjunction, over the coordinate variables of the loop in
order, of one test `coordinate < 1` each, and its body is the computation of
the induction variable as the minimum of the coordinate variables followed by
the inner loop nest, and nothing after it: no advance of a coordinate variable
is emitted, the computation of the minimum assigns the induction variable
only. -/
theorem C24_sparse_loop_is_while (loops : List Loop) (indexUses : IndexUses)
    (inductionVars : InductionVars) (loop : Loop) (loopNest s : Stmt)
    (hvars : LowerIndexExpressions.createInductionVariables loops indexUses = .ok inductionVars)
    (hsparse : loop.type = LoopType.Sparse)
    (h : LowerIndexExpressions.emitLoop inductionVars loop loopNest = .ok s) :
    ∃ entry condition minStmt,
      StdMap.at IndexVar.lt loop.indexVar inductionVars = .ok entry ∧
      LowerIndexExpressions.computeMin (inductionVarOf loop.indexVar) entry.2 = .ok minStmt ∧
      s = .whileLoop condition (.block minStmt loopNest) ∧
      conjuncts condition = entry.2.map (fun c =>
        Expr.binary BinaryOp.Lt (.varExpr c) (.literal LowerIndexExpressions.intType [1])) ∧
      ∀ v ∈ assignedVars minStmt, v = inductionVarOf loop.indexVar := by
  rcases emitLoop_shape (createInductionVariables_ok _ _ _ hvars) loop loopNest s h with
    ⟨ht, _⟩ | ⟨_, entry, first, m, hat, hfirst, hmin, hs⟩
  · rw [hsparse] at ht
    cases ht
  · refine ⟨entry, _, m, hat, hmin, hs, ?_, computeMin_assigned _ _ _ hmin⟩
    rw [conjuncts_foldl, conjuncts_compareToIndex]
    cases hl : entry.2 with
    | nil => rw [hl] at hfirst; cases hfirst
    | cons c cs =>
      rw [hl] at hfirst
      simp only [List.head?_cons, Option.some.injEq] at hfirst
      subst hfirst
      simp

/-- Witness of C24: the sparse loop `j` of `C(i,j) = B(i,j) + A(i,j)`. -/
theorem C24_sparse_loop_is_while_witness :
    ∃ entry condition minStmt,
      StdMap.at IndexVar.lt ivJ elementwiseAddInductionVars = .ok entry ∧
      LowerIndexExpressions.computeMin (inductionVarOf ivJ) entry.2 = .ok minStmt ∧
      Stmt.whileLoop
        (.binary BinaryOp.And
          (LowerIndexExpressions.compareToIndex ⟨"ijB", LowerIndexExpressions.intType⟩)
          (LowerIndexExpressions.compareToIndex ⟨"ijA", LowerIndexExpressions.intType⟩))
        (.block
          (.comment "j = min(ijB, ijA)"
            (.block (.varDecl ⟨"j", LowerIndexExpressions.intType⟩)
              (.ifThenElse
                (.binary BinaryOp.Le (.varExpr ⟨"ijB", LowerIndexExpressions.intType⟩)
                  (.varExpr ⟨"ijA", LowerIndexExpressions.intType⟩))
                (.assignStmt ⟨"j", LowerIndexExpressions.intType⟩
                  (.varExpr ⟨"ijB", LowerIndexExpressions.intType⟩))
                (.assignStmt ⟨"j", LowerIndexExpressions.intType⟩
                  (.varExpr ⟨"ijA", LowerIndexExpressions.intType⟩)))))
          .undefined)
        = .whileLoop condition (.block minStmt .undefined) ∧
      conjuncts condition = entry.2.map (fun c =>
        Expr.binary BinaryOp.Lt (.varExpr c) (.literal LowerIndexExpressions.intType [1])) ∧
      ∀ v ∈ assignedVars minStmt, v = inductionVarOf ivJ :=
  C24_sparse_loop_is_while [Loop.dense ivI, Loop.sparse ivJ ivI]
    (LowerIndexExpressions.getIndexUses (LowerIndexExpressions.getIndexTupleUses elementwiseAdd))
    elementwiseAddInductionVars (Loop.sparse ivJ ivI) .undefined _ rfl rfl rfl


/-! ## Claim C25: the minimum of the coordinates -/

theorem execute_computeMinChain (var : Var) :
    ∀ (vs : List Var) (minStmt : Stmt) (env env1 : Valuation),
      execute minStmt env = some env1 →
      execute (LowerIndexExpressions.computeMinChain var minStmt vs) env
        = some (vs.foldl (minStep var) env1)
  | [], _, _, _, h => h
  | v :: vs, minStmt, env, env1, h => by
    rw [LowerIndexExpressions.computeMinChain, List.foldl_cons]
    apply execute_computeMinChain var vs
    simp only [execute, h, evalTest, evalOperand, minStep]
    by_cases hlt : env1 v < env1 var
    · simp [hlt]
    · simp [hlt]

theorem evalOperandSourced_values (env : SourcedValuation) (e : Expr) :
    (evalOperandSourced env e).map Prod.fst = evalOperand env.values e := by
  cases e <;> rfl

theorem evalTestSourced_values (env : SourcedValuation) (e : Expr) :
    evalTestSourced env e = evalTest env.values e := by
  cases e with
  | binary op a b =>
    have ha := evalOperandSourced_values env a
    have hb := evalOperandSourced_values env b
    cases op <;> try rfl
    all_goals
      simp only [evalTestSourced, evalTest]
      rw [← ha, ← hb]
      cases evalOperandSourced env a <;> cases evalOperandSourced env b <;> rfl
  | _ => rfl

theorem SourcedValuation.values_set (env : SourcedValuation) (var : Var) (x : Int × Var) :
    (env.set var x).values = env.values.set var x.1 := by
  funext v
  simp only [SourcedValuation.values, SourcedValuation.set, Valuation.set]
  split <;> rfl

/-- The execution on marked values is the execution on the values: the marks
change no test and no value. -/
theorem executeSourced_values :
    ∀ (s : Stmt) (env : SourcedValuation),
      (executeSourced s env).map SourcedValuation.values = execute s env.values
  | .undefined, _ => rfl
  | .varDecl _, _ => rfl
  | .assignStmt var value, env => by
    have h := evalOperandSourced_values env value
    simp only [executeSourced, execute]
    rw [← h]
    cases evalOperandSourced env value with
    | none => rfl
    | some x => simp [SourcedValuation.values_set]
  | .block first rest, env => by
    have h1 := executeSourced_values first env
    simp only [executeSourced, execute]
    rw [← h1]
    cases executeSourced first env with
    | none => rfl
    | some env1 => exact executeSourced_values rest env1
  | .ifThenElse condition thenBody elseBody, env => by
    simp only [executeSourced, execute]
    rw [evalTestSourced_values]
    cases evalTest env.values condition with
    | none => rfl
    | some b =>
      cases b with
      | true => exact executeSourced_values thenBody env
      | false => exact executeSourced_values elseBody env
  | .comment _ commentedStmt, env => by
    simp only [executeSourced, execute]
    exact executeSourced_values commentedStmt env
  | .map _ _ _ _ _, _ => rfl
  | .fieldWrite _ _ _, _ => rfl
  | .tensorWrite _ _ _, _ => rfl
  | .store _ _ _, _ => rfl
  | .forRange _ _ _ _, _ => rfl
  | .forDomain _ _ _, _ => rfl
  | .whileLoop _ _, _ => rfl
  | .pass, _ => rfl

theorem executeSourced_computeMinChain (var : Var) :
    ∀ (vs : List Var) (minStmt : Stmt) (env env1 : SourcedValuation),
      executeSourced minStmt env = some env1 →
      executeSourced (LowerIndexExpressions.computeMinChain var minStmt vs) env
        = some (vs.foldl (minStepSourced var) env1)
  | [], _, _, _, h => h
  | v :: vs, minStmt, env, env1, h => by
    rw [LowerIndexExpressions.computeMinChain, List.foldl_cons]
    apply executeSourced_computeMinChain var vs
    simp only [executeSourced, h, evalTestSourced, evalOperandSourced, minStepSourced]
    by_cases hlt : (env1 v).1 < (env1 var).1
    · simp [hlt]
    · simp [hlt]

/-- The chain of `computeMin` keeps in `var` the value and the mark of the
left-most variable seen so far that attains the minimum. -/
theorem foldl_minStepSourced (env : Valuation) (var : Var) :
    ∀ (vs done : List Var) (e : SourcedValuation),
      (∀ w, w ≠ var → e w = (env w, w)) →
      (∃ c, e var = (env c, c) ∧ LeftmostMinAt env done c) → var ∉ vs →
      (∃ c, (vs.foldl (minStepSourced var) e) var = (env c, c) ∧
          LeftmostMinAt env (done ++ vs) c) ∧
        ∀ w, w ≠ var → (vs.foldl (minStepSourced var) e) w = (env w, w)
  | [], done, e, hw, hmin, _ => by
    simpa using ⟨hmin, hw⟩
  | v :: vs, done, e, hw, hmin, hfresh => by
    have hv : v ≠ var := fun hc => hfresh (by rw [hc]; exact List.mem_cons_self _ _)
    have hfresh' : var ∉ vs := fun hc => hfresh (List.mem_cons_of_mem _ hc)
    rw [List.foldl_cons]
    have hstep : (∀ w, w ≠ var → minStepSourced var e v w = (env w, w)) ∧
        ∃ c, minStepSourced var e v var = (env c, c) ∧
          LeftmostMinAt env (done ++ [v]) c := by
      obtain ⟨c, hval, pre, post, hsplit, hpre, hpost⟩ := hmin
      unfold minStepSourced
      by_cases hlt : (e v).1 < (e var).1
      · rw [if_pos hlt]
        refine ⟨?_, v, ?_, done, [], rfl, ?_, ?_⟩
        · intro w hwne
          simp only [SourcedValuation.set, if_neg hwne]
          exact hw w hwne
        · simp only [SourcedValuation.set, if_true]
          exact hw v hv
        · intro y hy
          rw [hw v hv, hval] at hlt
          rw [hsplit] at hy
          rcases List.mem_append.mp hy with h | h
          · exact lt_trans hlt (hpre y h)
          · rcases List.mem_cons.mp h with h | h
            · rw [h]; exact hlt
            · exact lt_of_lt_of_le hlt (hpost y h)
        · intro y hy
          cases hy
      · rw [if_neg hlt]
        refine ⟨hw, c, hval, pre, post ++ [v], ?_, hpre, ?_⟩
        · rw [hsplit]
          simp
        · intro y hy
          rcases List.mem_append.mp hy with h | h
          · exact hpost y h
          · rw [List.mem_singleton] at h
            rw [hw v hv, hval] at hlt
            rw [h]
            exact not_lt.mp hlt
    have := foldl_minStepSourced env var vs (done ++ [v]) (minStepSourced var e v)
      hstep.1 hstep.2 hfresh'
    simpa using this

theorem Valuation.values_sourced (env : Valuation) : env.sourced.values = env := rfl

/-- C25. For every non-empty list of coordinate variables, of any length, and
every valuation of them, `computeMin(var, vars)` builds a statement whose
execution leaves `var` with the minimum of the values of the coordinates and
changes no other variable. The value is taken from the left-most coordinate
that attains the minimum: executed on values marked with their variable, the
statement leaves `var` with the value and the mark of the coordinate `c` at a
position of `vars` before which every coordinate is greater and after which
none is smaller, so a later coordinate replaces the choice only when it is
strictly smaller. The variable `var` is not one of the coordinates. -/
theorem C25_computeMin_leftmost_minimum (var : Var) (vars : List Var) (env : Valuation)
    (hne : vars ≠ []) (hfresh : var ∉ vars) :
    ∃ minStmt env', LowerIndexExpressions.computeMin var vars = .ok minStmt ∧
      execute minStmt env = some env' ∧
      (∀ v ∈ vars, env' var ≤ env v) ∧
      (∃ v ∈ vars, env' var = env v) ∧
      LeftmostMin env vars (env' var) ∧
      (∀ w, w ≠ var → env' w = env w) ∧
      ∃ marked c pre post, executeSourced minStmt env.sourced = some marked ∧
        marked.values = env' ∧
        marked var = (env c, c) ∧
        vars = pre ++ c :: post ∧
        (∀ y ∈ pre, env c < env y) ∧ (∀ y ∈ post, env c ≤ env y) ∧
        ∀ w, w ≠ var → marked w = (env w, w) := by
  have key : ∃ minStmt marked c, LowerIndexExpressions.computeMin var vars = .ok minStmt ∧
      executeSourced minStmt env.sourced = some marked ∧ marked var = (env c, c) ∧
      LeftmostMinAt env vars c ∧ ∀ w, w ≠ var → marked w = (env w, w) := by
    cases vars with
    | nil => exact absurd rfl hne
    | cons v0 vs =>
      have hv0 : v0 ≠ var := fun hc => hfresh (by rw [hc]; exact List.mem_cons_self _ _)
      have hfresh' : var ∉ vs := fun hc => hfresh (List.mem_cons_of_mem _ hc)
      have hbase : executeSourced (Stmt.block (.varDecl var) (.assignStmt var (.varExpr v0)))
          env.sourced = some (env.sourced.set var (env v0, v0)) := by
        simp [executeSourced, evalOperandSourced, Valuation.sourced]
      have hchain := foldl_minStepSourced env var vs [v0] (env.sourced.set var (env v0, v0))
        (fun w hw => by simp only [SourcedValuation.set, if_neg hw, Valuation.sourced])
        ⟨v0, by simp [SourcedValuation.set], [], [], rfl, by simp, by simp⟩ hfresh'
      have hgeneral : ∀ minStmt,
          LowerIndexExpressions.computeMin var (v0 :: vs) = .ok (.comment
            (var.name ++ " = min(" ++
              LowerIndexExpressions.join ((v0 :: vs).map (fun v => v.name)) ", " ++ ")")
            minStmt) →
          minStmt = LowerIndexExpressions.computeMinChain var
            (.block (.varDecl var) (.assignStmt var (.varExpr v0))) vs →
          ∃ minStmt marked c, LowerIndexExpressions.computeMin var (v0 :: vs) = .ok minStmt ∧
            executeSourced minStmt env.sourced = some marked ∧ marked var = (env c, c) ∧
            LeftmostMinAt env (v0 :: vs) c ∧ ∀ w, w ≠ var → marked w = (env w, w) := by
        intro minStmt hcm hm
        obtain ⟨⟨c, hc1, hc2⟩, hrest⟩ := hchain
        refine ⟨_, _, c, hcm, ?_, hc1, by simpa using hc2, hrest⟩
        rw [executeSourced, hm]
        exact executeSourced_computeMinChain var vs _ env.sourced _ hbase
      cases vs with
      | nil =>
        exact hgeneral _ (by
          simp [LowerIndexExpressions.computeMin, iassertF, iassert, bind, Except.bind,
            pure, Except.pure]) rfl
      | cons v1 vs =>
        cases vs with
        | nil =>
          have hv1 : v1 ≠ var := fun hc => hfresh (by rw [hc]; simp)
          by_cases hle : env v0 ≤ env v1
          · refine ⟨_, env.sourced.set var (env v0, v0), v0, by
              simp only [LowerIndexExpressions.computeMin, iassertF, iassert, bind, Except.bind,
                pure, Except.pure]
              simp only [List.length_cons, List.length_nil, gt_iff_lt, Nat.zero_lt_succ,
                decide_True, if_true]
              rfl, ?_, ?_, ?_, ?_⟩
            · simp [executeSourced, evalTestSourced, evalOperandSourced, Valuation.sourced, hle]
            · simp [SourcedValuation.set]
            · exact ⟨[], [v1], rfl, by simp, by simpa using hle⟩
            · intro w hw
              simp only [SourcedValuation.set, if_neg hw, Valuation.sourced]
          · refine ⟨_, env.sourced.set var (env v1, v1), v1, by
              simp only [LowerIndexExpressions.computeMin, iassertF, iassert, bind, Except.bind,
                pure, Except.pure]
              simp only [List.length_cons, List.length_nil, gt_iff_lt, Nat.zero_lt_succ,
                decide_True, if_true]
              rfl, ?_, ?_, ?_, ?_⟩
            · simp [executeSourced, evalTestSourced, evalOperandSourced, Valuation.sourced, hle]
            · simp [SourcedValuation.set]
            · exact ⟨[v0], [], rfl, by simpa using not_le.mp hle, by simp⟩
            · intro w hw
              simp only [SourcedValuation.set, if_neg hw, Valuation.sourced]
        | cons v2 vs =>
          exact hgeneral _ (by
            simp [LowerIndexExpressions.computeMin, iassertF, iassert, bind, Except.bind,
              pure, Except.pure]) rfl
  obtain ⟨minStmt, marked, c, hcm, hex, hval, ⟨pre, post, hsplit, hpre, hpost⟩, hrest⟩ := key
  have hplain : execute minStmt env = some marked.values := by
    have h := executeSourced_values minStmt env.sourced
    rw [hex] at h
    exact h.symm
  have hvar : marked.values var = env c := by
    simp [SourcedValuation.values, hval]
  refine ⟨minStmt, marked.values, hcm, hplain, ?_, ?_, ?_, ?_,
    marked, c, pre, post, hex, rfl, hval, hsplit, hpre, hpost, hrest⟩
  · intro v hv
    rw [hsplit] at hv
    rw [hvar]
    rcases List.mem_append.mp hv with h | h
    · exact le_of_lt (hpre v h)
    · rcases List.mem_cons.mp h with h | h
      · rw [h]
      · exact hpost v h
  · exact ⟨c, by rw [hsplit]; simp, hvar⟩
  · exact ⟨pre, c, post, hsplit, hvar, hpre, hpost⟩
  · intro w hw
    simp [SourcedValuation.values, hrest w hw]

/-- Witness of C25: the minimum of three coordinates, two of them equal. -/
theorem C25_computeMin_leftmost_minimum_witness :
    ∃ minStmt env',
      LowerIndexExpressions.computeMin ⟨"j", LowerIndexExpressions.intType⟩
        [⟨"ijA", LowerIndexExpressions.intType⟩, ⟨"ijB", LowerIndexExpressions.intType⟩,
          ⟨"ijC", LowerIndexExpressions.intType⟩] = .ok minStmt ∧
      execute minStmt coordinateValues = some env' ∧
      (∀ v ∈ [(⟨"ijA", LowerIndexExpressions.intType⟩ : Var),
          ⟨"ijB", LowerIndexExpressions.intType⟩, ⟨"ijC", LowerIndexExpressions.intType⟩],
        env' ⟨"j", LowerIndexExpressions.intType⟩ ≤ coordinateValues v) ∧
      (∃ v ∈ [(⟨"ijA", LowerIndexExpressions.intType⟩ : Var),
          ⟨"ijB", LowerIndexExpressions.intType⟩, ⟨"ijC", LowerIndexExpressions.intType⟩],
        env' ⟨"j", LowerIndexExpressions.intType⟩ = coordinateValues v) ∧
      LeftmostMin coordinateValues
        [⟨"ijA", LowerIndexExpressions.intType⟩, ⟨"ijB", LowerIndexExpressions.intType⟩,
          ⟨"ijC", LowerIndexExpressions.intType⟩]
        (env' ⟨"j", LowerIndexExpressions.intType⟩) ∧
      (∀ w, w ≠ ⟨"j", LowerIndexExpressions.intType⟩ → env' w = coordinateValues w) ∧
      ∃ marked c pre post, executeSourced minStmt coordinateValues.sourced = some marked ∧
        marked.values = env' ∧
        marked ⟨"j", LowerIndexExpressions.intType⟩ = (coordinateValues c, c) ∧
        [(⟨"ijA", LowerIndexExpressions.intType⟩ : Var),
          ⟨"ijB", LowerIndexExpressions.intType⟩, ⟨"ijC", LowerIndexExpressions.intType⟩]
          = pre ++ c :: post ∧
        (∀ y ∈ pre, coordinateValues c < coordinateValues y) ∧
        (∀ y ∈ post, coordinateValues c ≤ coordinateValues y) ∧
        ∀ w, w ≠ ⟨"j", LowerIndexExpressions.intType⟩ → marked w = (coordinateValues w, w) :=
  C25_computeMin_leftmost_minimum ⟨"j", LowerIndexExpressions.intType⟩
    [⟨"ijA", LowerIndexExpressions.intType⟩, ⟨"ijB", LowerIndexExpressions.intType⟩,
      ⟨"ijC", LowerIndexExpressions.intType⟩] coordinateValues (by simp) (by decide)


/-! ## No index variable has two loops -/

theorem stdSetContains_congr {a b : IndexVar} (h : a.name = b.name) (s : List IndexVar) :
    stdSetContains IndexVar.lt s a = stdSetContains IndexVar.lt s b := by
  unfold stdSetContains
  congr 1
  funext x
  exact indexVar_stdOrder.equiv_congr (IndexVar.equiv_iff_name.mpr h) x

theorem LoopsDistinct.push {state : List IndexVar × List Loop} (h : LoopsDistinct state)
    (v : IndexVar) (l : Loop) (hl : l.indexVar = v)
    (hv : stdSetContains IndexVar.lt state.1 v = false) :
    LoopsDistinct (v :: state.1, state.2 ++ [l]) := by
  obtain ⟨h1, h2⟩ := h
  refine ⟨?_, ?_⟩
  · intro l' hl'
    simp only [List.mem_append, List.mem_singleton] at hl'
    rcases hl' with hl' | hl'
    · have := h1 l' hl'
      simp only [stdSetContains, List.any_cons, Bool.or_eq_true] at this ⊢
      right
      exact this
    · rw [hl', hl]
      simp [stdSetContains, StdOrder.equiv_refl indexVar_stdOrder v]
  · rw [List.pairwise_append]
    refine ⟨h2, List.pairwise_singleton _ _, ?_⟩
    intro a ha b hb hname
    rw [List.mem_singleton] at hb
    rw [hb, hl] at hname
    have := h1 a ha
    rw [stdSetContains_congr hname, hv] at this
    cases this

theorem foldlM_loopsDistinct
    (run : IndexVar → List IndexVar × List Loop → Except Failure (List IndexVar × List Loop))
    (hrun : ∀ v st st', run v st = .ok st' → LoopsDistinct st → LoopsDistinct st')
    (mk : IndexVar → Loop) (hmk : ∀ v, (mk v).indexVar = v)
    (nodes : List IndexVar) (st st' : List IndexVar × List Loop)
    (h : nodes.foldlM (fun (state : List IndexVar × List Loop) v =>
        if (!stdSetContains IndexVar.lt state.1 v) = true then
          run v (v :: state.1, state.2 ++ [mk v])
        else pure state) st = .ok st')
    (hst : LoopsDistinct st) : LoopsDistinct st' := by
  refine foldlM_invariant LoopsDistinct _ ?_ nodes st st' hst h
  intro b v b' hb hstep
  by_cases hc : (!stdSetContains IndexVar.lt b.1 v) = true
  · rw [if_pos hc] at hstep
    exact hrun v _ b' hstep (hb.push v (mk v) (hmk v) (by simpa using hc))
  · rw [if_neg hc] at hstep
    simp only [pure, Except.pure, Except.ok.injEq] at hstep
    rw [← hstep]
    exact hb

theorem createLoopNestFrom_loopsDistinct (ivGraph : IndexVarGraph) :
    ∀ (fuel : Nat) (source : IndexVar) (st st' : List IndexVar × List Loop),
      LowerIndexExpressions.createLoopNestFrom ivGraph fuel source st = .ok st' →
      LoopsDistinct st → LoopsDistinct st'
  | 0, _, _, _, h, _ => by simp [LowerIndexExpressions.createLoopNestFrom] at h
  | fuel + 1, source, st, st', h, hst => by
    simp only [LowerIndexExpressions.createLoopNestFrom, bind, Except.bind] at h
    cases hat : StdMap.at IndexVar.lt source ivGraph with
    | error e => simp [hat] at h
    | ok sinks =>
      simp only [hat] at h
      exact foldlM_loopsDistinct _ (createLoopNestFrom_loopsDistinct ivGraph fuel)
        (fun sink => Loop.sparse sink source) (fun _ => rfl) sinks st st' h hst

theorem createLoopNest_distinct (ivGraph : IndexVarGraph) (sources : List IndexVar)
    (loops : List Loop)
    (h : LowerIndexExpressions.createLoopNest ivGraph sources = .ok loops) :
    loops.Pairwise (fun a b => a.indexVar.name ≠ b.indexVar.name) := by
  unfold LowerIndexExpressions.createLoopNest at h
  obtain ⟨st, hrun, hst⟩ := except_bind_eq_ok h
  simp only [pure, Except.pure, Except.ok.injEq] at hst
  subst hst
  exact (foldlM_loopsDistinct _
    (createLoopNestFrom_loopsDistinct ivGraph (LowerIndexExpressions.graphSize ivGraph + 1))
    Loop.dense (fun _ => rfl) sources ([], []) st hrun
    ⟨fun l hl => (by cases hl), List.Pairwise.nil⟩).2

/-! ## Changes of a value that is there -/

theorem StdMap.modifyAt_keys {K V : Type} (lt : K → K → Bool) (k : K) (f : V → V) :
    ∀ (m m' : StdMap K V), StdMap.modifyAt lt k f m = .ok m' →
      m'.map Prod.fst = m.map Prod.fst
  | [], _, h => by simp [StdMap.modifyAt] at h
  | (k', v) :: rest, m', h => by
    unfold StdMap.modifyAt at h
    by_cases hq : stdEquiv lt k k' = true
    · rw [if_pos hq] at h
      cases h
      rfl
    · rw [if_neg hq] at h
      cases hr : StdMap.modifyAt lt k f rest with
      | error err => simp [hr] at h
      | ok rest' =>
        simp only [hr, Except.ok.injEq] at h
        subst h
        simp only [List.map_cons, StdMap.modifyAt_keys lt k f rest rest' hr]

theorem StdMap.sorted_iff_keys {K V : Type} (lt : K → K → Bool) (m : StdMap K V) :
    StdMap.Sorted lt m ↔ (m.map Prod.fst).Pairwise (fun a b => lt a b = true) := by
  unfold StdMap.Sorted
  rw [List.pairwise_map]

theorem StdMap.sorted_modifyAt {K V : Type} (lt : K → K → Bool) (k : K) (f : V → V)
    (m m' : StdMap K V) (h : StdMap.modifyAt lt k f m = .ok m') (hs : StdMap.Sorted lt m) :
    StdMap.Sorted lt m' := by
  rw [StdMap.sorted_iff_keys] at hs ⊢
  rw [StdMap.modifyAt_keys lt k f m m' h]
  exact hs

theorem StdMap.find_modifyAt {K V : Type} {lt : K → K → Bool} (ho : StdOrder lt) (k : K)
    (f : V → V) (a : K) :
    ∀ (m m' : StdMap K V), StdMap.modifyAt lt k f m = .ok m' →
      StdMap.find lt a m' =
        if stdEquiv lt k a then (StdMap.find lt a m).map f else StdMap.find lt a m
  | [], _, h => by simp [StdMap.modifyAt] at h
  | (k', v) :: rest, m', h => by
    unfold StdMap.modifyAt at h
    by_cases hq : stdEquiv lt k k' = true
    · rw [if_pos hq] at h
      cases h
      by_cases hka : stdEquiv lt k a = true
      · have hak' : stdEquiv lt a k' = true := by
          rw [← ho.equiv_congr hka k']; exact hq
        simp [StdMap.find, hak', hka]
      · have hak' : stdEquiv lt a k' = false := by
          have : stdEquiv lt k' a = false := by
            rw [← ho.equiv_congr hq a]; simpa using hka
          rw [StdOrder.equiv_comm lt a k']; exact this
        have hka' : stdEquiv lt k a = false := by simpa using hka
        simp [StdMap.find, hak', hka']
    · rw [if_neg hq] at h
      cases hr : StdMap.modifyAt lt k f rest with
      | error err => simp [hr] at h
      | ok rest' =>
        simp only [hr, Except.ok.injEq] at h
        subst h
        have ih := StdMap.find_modifyAt ho k f a rest rest' hr
        by_cases hka : stdEquiv lt k a = true
        · have hak' : stdEquiv lt a k' = false := by
            rw [← ho.equiv_congr hka k']; simpa using hq
          simp [StdMap.find, hak', hka, ih]
        · have hka' : stdEquiv lt k a = false := by simpa using hka
          simp [StdMap.find, hka', ih]


/-! ## Claim C26: induction variables and coordinate variables -/

theorem foldlM_done_invariant {α β ε : Type} (P : List α → β → Prop)
    (f : β → α → Except ε β) (l : List α)
    (hf : ∀ pre a post b b', l = pre ++ a :: post → P pre b → f b a = .ok b' →
      P (pre ++ [a]) b') (b b' : β) (hb : P [] b) (h : l.foldlM f b = .ok b') : P l b' := by
  have gen : ∀ (rest pre : List α) (b b' : β), l = pre ++ rest → P pre b →
      rest.foldlM f b = .ok b' → P l b' := by
    intro rest
    induction rest with
    | nil =>
      intro pre b b' hl hp hrun
      simp only [List.foldlM, pure, Except.pure, Except.ok.injEq] at hrun
      subst hrun
      rw [hl, List.append_nil]
      exact hp
    | cons a rest ih =>
      intro pre b b' hl hp hrun
      simp only [List.foldlM, bind, Except.bind] at hrun
      cases h1 : f b a with
      | error e => simp [h1] at hrun
      | ok b1 =>
        simp only [h1] at hrun
        exact ih (pre ++ [a]) b1 b' (by rw [hl]; simp) (hf pre a rest b b1 hl hp h1) hrun
  exact gen l [] b b' rfl hb h

theorem forall₂_snoc {α β : Type} {R : α → β → Prop} {l1 : List α} {l2 : List β} {a : α}
    {b : β} (h : List.Forall₂ R l1 l2) (hab : R a b) :
    List.Forall₂ R (l1 ++ [a]) (l2 ++ [b]) := by
  induction h with
  | nil => exact List.Forall₂.cons hab List.Forall₂.nil
  | cons hxy _ ih => exact List.Forall₂.cons hxy ih

theorem createCoordinateVar_ok (use : IndexedTensor) (c : Var)
    (h : LowerIndexExpressions.createCoordinateVar use = .ok c) : CoordinateVarOf use c := by
  unfold LowerIndexExpressions.createCoordinateVar at h
  cases ht : use.tensor with
  | varExpr tensor =>
    simp only [ht, Expr.toVarExpr, iassertF, iassert, Option.isSome_some, if_true, bind,
      Except.bind, pure, Except.pure, Except.ok.injEq] at h
    exact ⟨tensor, ht, h.symm⟩
  | _ => simp [ht, Expr.toVarExpr, iassertF, iassert, bind, Except.bind] at h

theorem StdMap.at_of_find {K V : Type} (lt : K → K → Bool) (k : K) (m : StdMap K V) (v : V)
    (h : StdMap.find lt k m = some v) : StdMap.at lt k m = .ok v := by
  unfold StdMap.at
  rw [h]

theorem createInductionVariables_built (loops : List Loop) (indexUses : IndexUses)
    (inductionVars : InductionVars)
    (hd : loops.Pairwise (fun a b => a.indexVar.name ≠ b.indexVar.name))
    (h : LowerIndexExpressions.createInductionVariables loops indexUses = .ok inductionVars) :
    InductionVarsBuilt indexUses loops inductionVars := by
  unfold LowerIndexExpressions.createInductionVariables at h
  refine foldlM_done_invariant (InductionVarsBuilt indexUses) _ loops ?_ [] inductionVars
    ⟨by simp [StdMap.Sorted], (fun a entry hf => by simp [StdMap.find] at hf),
      (fun l hl => by cases hl)⟩ h
  intro pre loop post ivs ivs' hl ⟨hsorted, hkeys, hentries⟩ hstep
  -- the variable of the loop is no key yet
  have hnew : ∀ l ∈ pre, l.indexVar.name ≠ loop.indexVar.name := by
    intro l hlpre
    rw [hl, List.pairwise_append] at hd
    exact hd.2.2 l hlpre loop (List.mem_cons_self _ _)
  have hnone : StdMap.find IndexVar.lt loop.indexVar ivs = none := by
    cases hf : StdMap.find IndexVar.lt loop.indexVar ivs with
    | none => rfl
    | some entry =>
      obtain ⟨l, hlpre, hname⟩ := hkeys _ _ hf
      exact absurd hname (hnew l hlpre)
  -- the map after `inductionVars[loop.indexVar].first = inductionVar`
  have hs1 := (StdMap.sorted_modify indexVar_stdOrder loop.indexVar (none, [])
    (fun p => (some (⟨loop.indexVar.name, LowerIndexExpressions.intType⟩ : Var), p.2))
    ivs hsorted).1
  have hfind1 : ∀ a, StdMap.find IndexVar.lt a
      (StdMap.modify IndexVar.lt loop.indexVar (none, [])
        (fun p => (some (⟨loop.indexVar.name, LowerIndexExpressions.intType⟩ : Var), p.2)) ivs)
      = if stdEquiv IndexVar.lt loop.indexVar a then
          some (some ⟨loop.indexVar.name, LowerIndexExpressions.intType⟩, [])
        else StdMap.find IndexVar.lt a ivs := by
    intro a
    rw [StdMap.find_modify indexVar_stdOrder _ _ _ a ivs hsorted, hnone]
    rfl
  -- what is left to show, from the lookups in the map that the round returns
  have finish : ∀ cs,
      StdMap.Sorted IndexVar.lt ivs' →
      StdMap.find IndexVar.lt loop.indexVar ivs'
        = some (some ⟨loop.indexVar.name, LowerIndexExpressions.intType⟩, cs) →
      (∀ a, stdEquiv IndexVar.lt loop.indexVar a = false →
        StdMap.find IndexVar.lt a ivs' = StdMap.find IndexVar.lt a ivs) →
      LoopVarsOk indexUses loop
        (some ⟨loop.indexVar.name, LowerIndexExpressions.intType⟩, cs) →
      InductionVarsBuilt indexUses (pre ++ [loop]) ivs' := by
    intro cs hs' hself hother hok
    refine ⟨hs', ?_, ?_⟩
    · intro a entry hf
      by_cases hq : stdEquiv IndexVar.lt loop.indexVar a = true
      · exact ⟨loop, by simp, IndexVar.name_eq_of_equiv hq⟩
      · rw [hother a (by simpa using hq)] at hf
        obtain ⟨l, hlpre, hname⟩ := hkeys a entry hf
        exact ⟨l, by simp [hlpre], hname⟩
    · intro l hlmem
      rcases List.mem_append.mp hlmem with hlpre | hlast
      · obtain ⟨entry, hf, hok'⟩ := hentries l hlpre
        refine ⟨entry, ?_, hok'⟩
        rw [hother l.indexVar, hf]
        cases hq : stdEquiv IndexVar.lt loop.indexVar l.indexVar with
        | false => rfl
        | true => exact absurd (IndexVar.name_eq_of_equiv hq).symm (hnew l hlpre)
      · rw [List.mem_singleton] at hlast
        rw [hlast]
        exact ⟨_, hself, hok⟩
  have hself1 := hfind1 loop.indexVar
  rw [StdOrder.equiv_refl indexVar_stdOrder, if_pos rfl] at hself1
  by_cases hsparse : loop.type = LoopType.Sparse
  · simp only [hsparse, if_true, bind, Except.bind] at hstep
    cases hat : StdMap.at IndexVar.lt loop.indexVar indexUses with
    | error e => simp [hat] at hstep
    | ok uses =>
      simp only [hat] at hstep
      -- the loop over the uses
      have inner := foldlM_done_invariant
        (fun (done : List IndexedTensor) (m : InductionVars) =>
          StdMap.Sorted IndexVar.lt m ∧
          (∃ cs, StdMap.find IndexVar.lt loop.indexVar m
              = some (some ⟨loop.indexVar.name, LowerIndexExpressions.intType⟩, cs) ∧
            List.Forall₂ CoordinateVarOf done cs) ∧
          ∀ a, stdEquiv IndexVar.lt loop.indexVar a = false →
            StdMap.find IndexVar.lt a m = StdMap.find IndexVar.lt a ivs)
        _ uses ?_ _ ivs' ⟨hs1, ⟨[], hself1, List.Forall₂.nil⟩, ?_⟩ hstep
      · obtain ⟨hs', ⟨cs, hself, hall⟩, hother⟩ := inner
        exact finish cs hs' hself hother
          ⟨rfl, (fun hdense => by rw [hsparse] at hdense; cases hdense),
            (fun _ => ⟨uses, hat, hall⟩)⟩
      · intro done use rest m m' _ ⟨hsm, ⟨cs, hselfm, hallm⟩, hotherm⟩ hround
        obtain ⟨c, hc, hmod⟩ := except_bind_eq_ok hround
        have hfm := fun a => StdMap.find_modifyAt indexVar_stdOrder loop.indexVar
          (fun (p : Option Var × List Var) => (p.1, p.2 ++ [c])) a m m' hmod
        refine ⟨StdMap.sorted_modifyAt _ _ _ m m' hmod hsm, ⟨cs ++ [c], ?_, ?_⟩, ?_⟩
        · rw [hfm loop.indexVar, StdOrder.equiv_refl indexVar_stdOrder, if_pos rfl, hselfm]
          rfl
        · exact forall₂_snoc hallm (createCoordinateVar_ok use c hc)
        · intro a ha
          rw [hfm a, ha]
          exact hotherm a ha
      · intro a ha
        rw [hfind1 a, ha]
        rfl
  · simp only [hsparse, if_false, pure, Except.pure, Except.ok.injEq] at hstep
    subst hstep
    have hdense : loop.type = LoopType.Dense := by
      cases ht : loop.type with
      | Dense => rfl
      | Sparse => exact absurd ht hsparse
    exact finish [] hs1 hself1 (fun a ha => by rw [hfind1 a, ha]; rfl)
      ⟨rfl, (fun _ => rfl), (fun hs => absurd hs hsparse)⟩


/-! ## Claims C26, C27 and C29 -/

/-- Counterexample to C26: in `C(i,j) = B(i,j) + A(i,j)` the tensors `B` and `A`
are element tensors, whose storage is dense, and the sparse loop `j` still gets
the coordinate variables `ijB` and `ijA`, one per use of `j`. -/
theorem C26_counterexample :
    LowerIndexExpressions.createInductionVariables [Loop.dense ivI, Loop.sparse ivJ ivI]
        (LowerIndexExpressions.getIndexUses
          (LowerIndexExpressions.getIndexTupleUses elementwiseAdd))
      = .ok elementwiseAddInductionVars ∧
    StdMap.at IndexVar.lt ivJ elementwiseAddInductionVars
      = .ok (some ⟨"j", LowerIndexExpressions.intType⟩,
          [⟨"ijB", LowerIndexExpressions.intType⟩, ⟨"ijA", LowerIndexExpressions.intType⟩]) ∧
    determineStorage [] ⟨"B", matrix45⟩ true
      = .ok [(⟨"B", matrix45⟩, TensorStorage.ofKind StorageKind.DenseRowMajor true)] ∧
    determineStorage [] ⟨"A", matrix45⟩ true
      = .ok [(⟨"A", matrix45⟩, TensorStorage.ofKind StorageKind.DenseRowMajor true)] :=
  ⟨rfl, rfl, rfl, rfl⟩

/-- C26, amended. For the loops that `createLoopNest` returns,
`createInductionVariables` gives every loop one `Int` induction variable named
after its index variable; a `Dense` loop gets no coordinate variable; a
`Sparse` loop gets one `Int` coordinate variable for every use of its index
variable in `indexUses`, whatever the storage of the tensor, in the order of
the uses, each named by the names of the index variables of the use followed
by the name of the tensor. -/
theorem C26_coordinate_variable_per_use (ivGraph : IndexVarGraph) (sources : List IndexVar)
    (loops : List Loop) (indexUses : IndexUses) (inductionVars : InductionVars)
    (hloops : LowerIndexExpressions.createLoopNest ivGraph sources = .ok loops)
    (h : LowerIndexExpressions.createInductionVariables loops indexUses = .ok inductionVars) :
    ∀ loop ∈ loops, ∃ coordVars,
      StdMap.at IndexVar.lt loop.indexVar inductionVars
        = .ok (some ⟨loop.indexVar.name, LowerIndexExpressions.intType⟩, coordVars) ∧
      (loop.type = LoopType.Dense → coordVars = []) ∧
      (loop.type = LoopType.Sparse → ∃ uses,
        StdMap.at IndexVar.lt loop.indexVar indexUses = .ok uses ∧
        List.Forall₂ CoordinateVarOf uses coordVars) := by
  intro loop hloop
  obtain ⟨_, _, hentries⟩ := createInductionVariables_built loops indexUses inductionVars
    (createLoopNest_distinct ivGraph sources loops hloops) h
  obtain ⟨entry, hfind, hfst, hdense, hsparse⟩ := hentries loop hloop
  refine ⟨entry.2, ?_, hdense, hsparse⟩
  rw [StdMap.at_of_find _ _ _ _ hfind, ← hfst]

/-- Witness of C26: the sparse loop `j` of `C(i,j) = B(i,j) + A(i,j)`. -/
theorem C26_coordinate_variable_per_use_witness :
    ∃ coordVars,
      StdMap.at IndexVar.lt (Loop.sparse ivJ ivI).indexVar elementwiseAddInductionVars
        = .ok (some ⟨(Loop.sparse ivJ ivI).indexVar.name, LowerIndexExpressions.intType⟩,
            coordVars) ∧
      ((Loop.sparse ivJ ivI).type = LoopType.Dense → coordVars = []) ∧
      ((Loop.sparse ivJ ivI).type = LoopType.Sparse → ∃ uses,
        StdMap.at IndexVar.lt (Loop.sparse ivJ ivI).indexVar
          (LowerIndexExpressions.getIndexUses
            (LowerIndexExpressions.getIndexTupleUses elementwiseAdd)) = .ok uses ∧
        List.Forall₂ CoordinateVarOf uses coordVars) :=
  C26_coordinate_variable_per_use [(ivI, [ivJ]), (ivJ, [ivI])] elementwiseAdd.resultVars
    [Loop.dense ivI, Loop.sparse ivJ ivI]
    (LowerIndexExpressions.getIndexUses (LowerIndexExpressions.getIndexTupleUses elementwiseAdd))
    elementwiseAddInductionVars rfl rfl (Loop.sparse ivJ ivI)
    (List.mem_cons_of_mem _ (List.mem_cons_self _ _))

/-- C27: the code at the failing input. In `alpha = A(i,j) * B(i,j)`, with `i`
and `j` summed, both variables are vertices of the graph, and the loop list is
empty, since the traversal starts from the result variables only: `lower`
returns the undefined statement, without a loop for `i` or for `j`. -/
theorem C27_full_reduction_has_no_loop :
    LowerIndexExpressions.createIndexVarGraph
        (LowerIndexExpressions.getIndexTupleUses fullReduction)
      = .ok [(ivISum, [ivJSum]), (ivJSum, [ivISum])] ∧
    LowerIndexExpressions.createLoopNest [(ivISum, [ivJSum]), (ivJSum, [ivISum])]
        fullReduction.resultVars = .ok [] ∧
    LowerIndexExpressions.lower (.varExpr ⟨"alpha", scalarType⟩) fullReduction
      = .ok .undefined :=
  ⟨rfl, rfl, rfl⟩

/-- C29: the code at the failing input. In `y(i) = x(i)` the only tuple has one
variable, so `createIndexVarGraph` returns the graph without vertex, and the
lookup `ivGraph.at(source)` of `createLoopNest` for the result variable `i`
fails: `lower` throws `std::out_of_range`. -/
theorem C29_vector_expression_fails_lookup :
    LowerIndexExpressions.createIndexVarGraph
        (LowerIndexExpressions.getIndexTupleUses vectorCopy) = .ok [] ∧
    StdMap.at IndexVar.lt ivI ([] : IndexVarGraph) = .error Failure.outOfRange ∧
    LowerIndexExpressions.createLoopNest [] vectorCopy.resultVars
      = .error Failure.outOfRange ∧
    LowerIndexExpressions.lower (.varExpr ⟨"y", vector4⟩) vectorCopy
      = .error Failure.outOfRange :=
  ⟨rfl, rfl, rfl, rfl⟩


/-! ## The recursion of `createLoopNest` ends -/

theorem stdSetContains_iff (visited : List IndexVar) (v : IndexVar) :
    stdSetContains IndexVar.lt visited v = true ↔ v.name ∈ visited.map (fun x => x.name) := by
  unfold stdSetContains
  rw [List.any_eq_true, List.mem_map]
  constructor
  · rintro ⟨x, hx, hq⟩
    exact ⟨x, hx, (IndexVar.name_eq_of_equiv hq).symm⟩
  · rintro ⟨x, hx, hq⟩
    exact ⟨x, hx, IndexVar.equiv_iff_name.mpr hq.symm⟩

theorem filter_length_mono {α : Type} (p q : α → Bool) :
    ∀ l : List α, (∀ x ∈ l, q x = true → p x = true) →
      (l.filter q).length ≤ (l.filter p).length
  | [], _ => Nat.le_refl _
  | y :: ys, h => by
    have ih := filter_length_mono p q ys (fun x hx => h x (List.mem_cons_of_mem _ hx))
    have hy := h y (List.mem_cons_self _ _)
    cases hq : q y with
    | false =>
      rw [List.filter_cons_of_neg (by simp [hq])]
      cases hp : p y with
      | false => rw [List.filter_cons_of_neg (by simp [hp])]; exact ih
      | true =>
        rw [List.filter_cons_of_pos hp, List.length_cons]
        omega
    | true =>
      rw [List.filter_cons_of_pos hq, List.filter_cons_of_pos (hy hq), List.length_cons,
        List.length_cons]
      omega

theorem filter_length_lt {α : Type} (p q : α → Bool) (x : α) :
    ∀ l : List α, x ∈ l → p x = true → q x = false →
      (∀ y ∈ l, q y = true → p y = true) →
      (l.filter q).length < (l.filter p).length
  | [], hx, _, _, _ => by cases hx
  | y :: ys, hx, hpx, hqx, h => by
    have hmono := filter_length_mono p q ys (fun z hz => h z (List.mem_cons_of_mem _ hz))
    by_cases hyx : y = x
    · rw [hyx, List.filter_cons_of_neg (by simp [hqx]), List.filter_cons_of_pos hpx,
        List.length_cons]
      omega
    · have hx' : x ∈ ys := by
        rcases List.mem_cons.mp hx with h1 | h1
        · exact absurd h1.symm hyx
        · exact h1
      have ih := filter_length_lt p q x ys hx' hpx hqx
        (fun z hz => h z (List.mem_cons_of_mem _ hz))
      have hy := h y (List.mem_cons_self _ _)
      cases hq : q y with
      | false =>
        rw [List.filter_cons_of_neg (by simp [hq])]
        cases hp : p y with
        | false => rw [List.filter_cons_of_neg (by simp [hp])]; exact ih
        | true =>
          rw [List.filter_cons_of_pos hp, List.length_cons]
          omega
      | true =>
        rw [List.filter_cons_of_pos hq, List.filter_cons_of_pos (hy hq), List.length_cons,
          List.length_cons]
        omega

theorem unvisited_mono (ivGraph : IndexVarGraph) {visited visited' : List IndexVar}
    (h : ∀ n, n ∈ visited.map (fun v => v.name) → n ∈ visited'.map (fun v => v.name)) :
    unvisited ivGraph visited' ≤ unvisited ivGraph visited := by
  unfold unvisited
  apply filter_length_mono
  intro n _ hn
  simp only [decide_eq_true_eq] at hn ⊢
  exact fun hc => hn (h n hc)

theorem unvisited_cons_lt (ivGraph : IndexVarGraph) (visited : List IndexVar) (sink : IndexVar)
    (hsink : sink.name ∈ sinkNames ivGraph)
    (hnew : stdSetContains IndexVar.lt visited sink = false) :
    unvisited ivGraph (sink :: visited) < unvisited ivGraph visited := by
  have hnot : sink.name ∉ visited.map (fun v => v.name) := by
    intro hc
    rw [(stdSetContains_iff visited sink).mpr hc] at hnew
    cases hnew
  unfold unvisited
  apply filter_length_lt _ _ sink.name _ hsink
  · simpa using hnot
  · simp
  · intro n _ hn
    simp only [decide_eq_true_eq, List.map_cons, List.mem_cons, not_or] at hn ⊢
    exact hn.2

theorem sum_map_length_le (ivGraph : IndexVarGraph) :
    (sinkNames ivGraph).length ≤ LowerIndexExpressions.graphSize ivGraph := by
  unfold sinkNames LowerIndexExpressions.graphSize
  induction ivGraph with
  | nil => simp
  | cons e rest ih =>
    simp only [List.flatMap_cons, List.length_append, List.length_map, List.map_cons,
      List.sum_cons]
    omega

theorem unvisited_le_graphSize (ivGraph : IndexVarGraph) (visited : List IndexVar) :
    unvisited ivGraph visited ≤ LowerIndexExpressions.graphSize ivGraph := by
  have h1 : unvisited ivGraph visited ≤ (sinkNames ivGraph).length := by
    unfold unvisited
    exact List.length_filter_le _ _
  exact Nat.le_trans h1 (sum_map_length_le ivGraph)

theorem foldlM_visited_grows
    (run : IndexVar → List IndexVar × List Loop → Except Failure (List IndexVar × List Loop))
    (hrun : ∀ v st st', run v st = .ok st' →
      ∀ n, n ∈ st.1.map (fun x => x.name) → n ∈ st'.1.map (fun x => x.name))
    (mk : IndexVar → Loop) (nodes : List IndexVar) (st st' : List IndexVar × List Loop)
    (h : nodes.foldlM (fun (state : List IndexVar × List Loop) v =>
        if (!stdSetContains IndexVar.lt state.1 v) = true then
          run v (v :: state.1, state.2 ++ [mk v])
        else pure state) st = .ok st') :
    ∀ n, n ∈ st.1.map (fun x => x.name) → n ∈ st'.1.map (fun x => x.name) := by
  refine foldlM_invariant
    (fun b : List IndexVar × List Loop =>
      ∀ n, n ∈ st.1.map (fun x => x.name) → n ∈ b.1.map (fun x => x.name))
    _ ?_ nodes st st' (fun n hn => hn) h
  intro b v b' hb hstep n hn
  by_cases hc : (!stdSetContains IndexVar.lt b.1 v) = true
  · rw [if_pos hc] at hstep
    exact hrun v _ b' hstep n (by
      simp only [List.map_cons, List.mem_cons]
      exact Or.inr (hb n hn))
  · rw [if_neg hc] at hstep
    simp only [pure, Except.pure, Except.ok.injEq] at hstep
    rw [← hstep]
    exact hb n hn

theorem createLoopNestFrom_visited_grows (ivGraph : IndexVarGraph) :
    ∀ (fuel : Nat) (source : IndexVar) (st st' : List IndexVar × List Loop),
      LowerIndexExpressions.createLoopNestFrom ivGraph fuel source st = .ok st' →
      ∀ n, n ∈ st.1.map (fun x => x.name) → n ∈ st'.1.map (fun x => x.name)
  | 0, _, _, _, h => by simp [LowerIndexExpressions.createLoopNestFrom] at h
  | fuel + 1, source, st, st', h => by
    simp only [LowerIndexExpressions.createLoopNestFrom, bind, Except.bind] at h
    cases hat : StdMap.at IndexVar.lt source ivGraph with
    | error e => simp [hat] at h
    | ok sinks =>
      simp only [hat] at h
      exact foldlM_visited_grows _ (createLoopNestFrom_visited_grows ivGraph fuel)
        (fun sink => Loop.sparse sink source) sinks st st' h

/-- The fuel of the embedding is enough: with more fuel than unvisited edge
ends, the recursion does not stop for lack of fuel. -/
theorem createLoopNestFrom_fuel (ivGraph : IndexVarGraph) :
    ∀ (fuel : Nat) (source : IndexVar) (st : List IndexVar × List Loop),
      unvisited ivGraph st.1 < fuel →
      LowerIndexExpressions.createLoopNestFrom ivGraph fuel source st
        ≠ .error Failure.outOfFuel
  | 0, _, _, h => by omega
  | fuel + 1, source, st, hfuel => by
    simp only [LowerIndexExpressions.createLoopNestFrom, bind, Except.bind]
    cases hat : StdMap.at IndexVar.lt source ivGraph with
    | error e =>
      unfold StdMap.at at hat
      cases hf : StdMap.find IndexVar.lt source ivGraph with
      | none =>
        rw [hf] at hat
        cases hat
        simp
      | some v => rw [hf] at hat; cases hat
    | ok allSinks =>
      simp only
      obtain ⟨k', hmem, _⟩ := StdMap.at_mem _ _ _ _ hat
      have hnames : ∀ s ∈ allSinks, s.name ∈ sinkNames ivGraph := by
        intro s hs
        unfold sinkNames
        rw [List.mem_flatMap]
        exact ⟨(k', allSinks), hmem, List.mem_map.mpr ⟨s, hs, rfl⟩⟩
      have inner : ∀ (sinks : List IndexVar) (st : List IndexVar × List Loop),
          (∀ s ∈ sinks, s ∈ allSinks) → unvisited ivGraph st.1 < fuel + 1 →
          sinks.foldlM (fun state sink =>
            if (!stdSetContains IndexVar.lt state.1 sink) = true then
              LowerIndexExpressions.createLoopNestFrom ivGraph fuel sink
                (sink :: state.1, state.2 ++ [Loop.sparse sink source])
            else pure state) st ≠ .error Failure.outOfFuel := by
        intro sinks
        induction sinks with
        | nil =>
          intro st _ _ hc
          simp [List.foldlM, pure, Except.pure] at hc
        | cons sink sinks ih =>
          intro st hsub hst
          have hsub' : ∀ s ∈ sinks, s ∈ allSinks :=
            fun s hs => hsub s (List.mem_cons_of_mem _ hs)
          simp only [List.foldlM, bind, Except.bind]
          by_cases hc : (!stdSetContains IndexVar.lt st.1 sink) = true
          · simp only [hc, if_true]
            have hlt := unvisited_cons_lt ivGraph st.1 sink
              (hnames sink (hsub sink (List.mem_cons_self _ _))) (by simpa using hc)
            have hrec := createLoopNestFrom_fuel ivGraph fuel sink
              (sink :: st.1, st.2 ++ [Loop.sparse sink source]) (by simp only; omega)
            cases hr : LowerIndexExpressions.createLoopNestFrom ivGraph fuel sink
                (sink :: st.1, st.2 ++ [Loop.sparse sink source]) with
            | error e =>
              simp only
              intro hc'
              rw [hr] at hrec
              exact hrec hc'
            | ok st1 =>
              simp only
              have hgrow := unvisited_mono ivGraph
                (createLoopNestFrom_visited_grows ivGraph fuel sink _ st1 hr)
              exact ih st1 hsub' (by simp only at hgrow; omega)
          · simp only [hc, pure, Except.pure]
            exact ih st hsub' hst
      exact inner allSinks st (fun _ hs => hs) hfuel

theorem createLoopNest_fuel (ivGraph : IndexVarGraph) (sources : List IndexVar) :
    LowerIndexExpressions.createLoopNest ivGraph sources ≠ .error Failure.outOfFuel := by
  have outer : ∀ (ss : List IndexVar) (st : List IndexVar × List Loop),
      ss.foldlM (fun (state : List IndexVar × List Loop) source =>
        if (!stdSetContains IndexVar.lt state.1 source) = true then
          LowerIndexExpressions.createLoopNestFrom ivGraph
            (LowerIndexExpressions.graphSize ivGraph + 1) source
            (source :: state.1, state.2 ++ [Loop.dense source])
        else pure state) st ≠ .error Failure.outOfFuel := by
    intro ss
    induction ss with
    | nil =>
      intro st hc
      simp [List.foldlM, pure, Except.pure] at hc
    | cons source ss ih =>
      intro st
      simp only [List.foldlM, bind, Except.bind]
      by_cases hc : (!stdSetContains IndexVar.lt st.1 source) = true
      · simp only [hc, if_true]
        have hrec := createLoopNestFrom_fuel ivGraph
          (LowerIndexExpressions.graphSize ivGraph + 1) source
          (source :: st.1, st.2 ++ [Loop.dense source])
          (Nat.lt_succ_of_le (unvisited_le_graphSize ivGraph _))
        cases hr : LowerIndexExpressions.createLoopNestFrom ivGraph
            (LowerIndexExpressions.graphSize ivGraph + 1) source
            (source :: st.1, st.2 ++ [Loop.dense source]) with
        | error e =>
          simp only
          intro hc'
          rw [hr] at hrec
          exact hrec hc'
        | ok st1 =>
          simp only
          exact ih st1
      · simp only [hc, pure, Except.pure]
        exact ih st
  unfold LowerIndexExpressions.createLoopNest
  intro hc
  cases hr : sources.foldlM (fun (state : List IndexVar × List Loop) source =>
      if (!stdSetContains IndexVar.lt state.1 source) = true then
        LowerIndexExpressions.createLoopNestFrom ivGraph
          (LowerIndexExpressions.graphSize ivGraph + 1) source
          (source :: state.1, state.2 ++ [Loop.dense source])
      else pure state) ([], []) with
  | error e =>
    rw [hr] at hc
    simp only [bind, Except.bind] at hc
    cases hc
    exact outer sources ([], []) hr
  | ok st =>
    rw [hr] at hc
    simp [bind, Except.bind, pure, Except.pure] at hc



/-! ## Claim C31: every sparse loop has a coordinate variable -/

/-- C32. In the loop list that `createLoopNest` returns no index variable has
two loops; the variable of every `Dense` loop is one of the sources; and the
parent of every `Sparse` loop is the variable of an earlier loop of the list
and has the variable of the loop in its adjacency list in the graph. -/
theorem C32_loop_list_invariants (ivGraph : IndexVarGraph) (sources : List IndexVar)
    (loops : List Loop)
    (h : LowerIndexExpressions.createLoopNest ivGraph sources = .ok loops) :
    loops.Pairwise (fun a b => a.indexVar ≠ b.indexVar) ∧
    (loops.map (fun l => l.indexVar)).Nodup ∧
    ∀ pre l post, loops = pre ++ l :: post →
      (l.type = LoopType.Dense → l.indexVar ∈ sources) ∧
      (l.type = LoopType.Sparse → ∃ p sinks, l.parent = some p ∧
        (∃ l' ∈ pre, l'.indexVar = p) ∧
        StdMap.find IndexVar.lt p ivGraph = some sinks ∧ l.indexVar ∈ sinks) := by
  have hd := createLoopNest_distinct ivGraph sources loops h
  have hp : loops.Pairwise (fun a b => a.indexVar ≠ b.indexVar) :=
    hd.imp (fun hab hc => hab (by rw [hc]))
  refine ⟨hp, ?_, ?_⟩
  · rw [List.Nodup, List.pairwise_map]
    exact hp
  · intro pre l post hsplit
    rcases (createLoopNest_built ivGraph sources loops h).loopsOk pre l post hsplit with
      ⟨hdense, hs⟩ | ⟨p, sinks, hsp, hfind, hmem, hpar⟩
    · refine ⟨fun _ => hs, fun ht => ?_⟩
      rw [hdense] at ht
      cases ht
    · refine ⟨fun ht => ?_, fun _ => ⟨p, sinks, ?_, hpar, hfind, hmem⟩⟩
      · rw [hsp] at ht
        cases ht
      · rw [hsp]
        rfl

/-- Witness of C32: the loop list of the graph of `z(i) = A(i,j) * B(i,k)`. -/
theorem C32_loop_list_invariants_witness :
    [Loop.dense ivI, Loop.sparse ivJSum ivI, Loop.sparse ivKSum ivI].Pairwise
      (fun a b => a.indexVar ≠ b.indexVar) ∧
    ([Loop.dense ivI, Loop.sparse ivJSum ivI, Loop.sparse ivKSum ivI].map
      (fun l => l.indexVar)).Nodup ∧
    ∀ pre l post,
      [Loop.dense ivI, Loop.sparse ivJSum ivI, Loop.sparse ivKSum ivI] = pre ++ l :: post →
      (l.type = LoopType.Dense → l.indexVar ∈ twoReductions.resultVars) ∧
      (l.type = LoopType.Sparse → ∃ p sinks, l.parent = some p ∧
        (∃ l' ∈ pre, l'.indexVar = p) ∧
        StdMap.find IndexVar.lt p twoReductionsGraph = some sinks ∧ l.indexVar ∈ sinks) :=
  C32_loop_list_invariants twoReductionsGraph twoReductions.resultVars
    [Loop.dense ivI, Loop.sparse ivJSum ivI, Loop.sparse ivKSum ivI] rfl


/-! ## Claim C33: `createLoopNest` terminates -/

theorem isVertex_name {ivGraph : IndexVarGraph} {v : IndexVar}
    (h : isVertex ivGraph v = true) : v.name ∈ vertexNames ivGraph := by
  unfold isVertex at h
  obtain ⟨sinks, hs⟩ := Option.isSome_iff_exists.mp h
  obtain ⟨k, hmem, hq⟩ := StdMap.mem_of_find IndexVar.lt v ivGraph sinks hs
  unfold vertexNames
  rw [List.mem_dedup, List.mem_map]
  exact ⟨(k, sinks), hmem, (IndexVar.name_eq_of_equiv hq).symm⟩

theorem unvisitedVertices_mono (ivGraph : IndexVarGraph) {visited visited' : List IndexVar}
    (h : ∀ n, n ∈ visited.map (fun v => v.name) → n ∈ visited'.map (fun v => v.name)) :
    unvisitedVertices ivGraph visited' ≤ unvisitedVertices ivGraph visited := by
  unfold unvisitedVertices
  apply filter_length_mono
  intro n _ hn
  simp only [decide_eq_true_eq] at hn ⊢
  exact fun hc => hn (h n hc)

theorem unvisitedVertices_cons_lt (ivGraph : IndexVarGraph) (visited : List IndexVar)
    (v : IndexVar) (hv : isVertex ivGraph v = true)
    (hnew : stdSetContains IndexVar.lt visited v = false) :
    unvisitedVertices ivGraph (v :: visited) < unvisitedVertices ivGraph visited := by
  have hnot : v.name ∉ visited.map (fun x => x.name) := by
    intro hc
    rw [(stdSetContains_iff visited v).mpr hc] at hnew
    cases hnew
  unfold unvisitedVertices
  apply filter_length_lt _ _ v.name _ (isVertex_name hv)
  · simpa using hnot
  · simp
  · intro n _ hn
    simp only [decide_eq_true_eq, List.map_cons, List.mem_cons, not_or] at hn ⊢
    exact hn.2

theorem unvisitedVertices_cons_lt_count (ivGraph : IndexVarGraph) (visited : List IndexVar)
    (v : IndexVar) (hv : isVertex ivGraph v = true) :
    unvisitedVertices ivGraph (v :: visited) < vertexCount ivGraph := by
  unfold unvisitedVertices vertexCount
  rw [List.length_filter_lt_length_iff_exists]
  exact ⟨v.name, isVertex_name hv, by simp⟩

theorem length_le_graphSize (ivGraph : IndexVarGraph) :
    ivGraph.length ≤ LowerIndexExpressions.graphSize ivGraph := by
  unfold LowerIndexExpressions.graphSize
  induction ivGraph with
  | nil => simp
  | cons e rest ih =>
    simp only [List.length_cons, List.map_cons, List.sum_cons]
    omega

theorem vertexCount_le_graphSize (ivGraph : IndexVarGraph) :
    vertexCount ivGraph ≤ LowerIndexExpressions.graphSize ivGraph := by
  have h1 : vertexCount ivGraph ≤ ivGraph.length := by
    unfold vertexCount vertexNames
    have := (List.dedup_sublist (ivGraph.map (fun e => e.1.name))).length_le
    simpa using this
  exact Nat.le_trans h1 (length_le_graphSize ivGraph)

/-- With every adjacent variable a vertex, a call of the recursive
`createLoopNest` on a vertex returns when the fuel exceeds the number of
unvisited vertices. -/
theorem createLoopNestFrom_returns (ivGraph : IndexVarGraph) (hclosed : GraphClosed ivGraph) :
    ∀ (fuel : Nat) (source : IndexVar) (st : List IndexVar × List Loop),
      isVertex ivGraph source = true → unvisitedVertices ivGraph st.1 < fuel →
      ∃ st', LowerIndexExpressions.createLoopNestFrom ivGraph fuel source st = .ok st'
  | 0, _, _, _, h => by omega
  | fuel + 1, source, st, hsource, hfuel => by
    simp only [LowerIndexExpressions.createLoopNestFrom, bind, Except.bind]
    unfold isVertex at hsource
    obtain ⟨allSinks, hfind⟩ := Option.isSome_iff_exists.mp hsource
    rw [StdMap.at_of_find _ _ _ _ hfind]
    simp only
    obtain ⟨k, hmem, _⟩ := StdMap.mem_of_find IndexVar.lt source ivGraph allSinks hfind
    have hvertex : ∀ s ∈ allSinks, isVertex ivGraph s = true :=
      fun s hs => hclosed (k, allSinks) hmem s hs
    have inner : ∀ (sinks : List IndexVar) (st : List IndexVar × List Loop),
        (∀ s ∈ sinks, s ∈ allSinks) → unvisitedVertices ivGraph st.1 < fuel + 1 →
        ∃ st', sinks.foldlM (fun state sink =>
          if (!stdSetContains IndexVar.lt state.1 sink) = true then
            LowerIndexExpressions.createLoopNestFrom ivGraph fuel sink
              (sink :: state.1, state.2 ++ [Loop.sparse sink source])
          else pure state) st = .ok st' := by
      intro sinks
      induction sinks with
      | nil =>
        intro st _ _
        exact ⟨st, rfl⟩
      | cons sink sinks ih =>
        intro st hsub hst
        have hsub' : ∀ s ∈ sinks, s ∈ allSinks :=
          fun s hs => hsub s (List.mem_cons_of_mem _ hs)
        simp only [List.foldlM, bind, Except.bind]
        by_cases hc : (!stdSetContains IndexVar.lt st.1 sink) = true
        · simp only [hc, if_true]
          have hsv := hvertex sink (hsub sink (List.mem_cons_self _ _))
          have hlt := unvisitedVertices_cons_lt ivGraph st.1 sink hsv (by simpa using hc)
          obtain ⟨st1, hr⟩ := createLoopNestFrom_returns ivGraph hclosed fuel sink
            (sink :: st.1, st.2 ++ [Loop.sparse sink source]) hsv (by simp only; omega)
          rw [hr]
          simp only
          have hgrow := unvisitedVertices_mono ivGraph
            (createLoopNestFrom_visited_grows ivGraph fuel sink _ st1 hr)
          exact ih st1 hsub' (by simp only at hgrow; omega)
        · simp only [hc, pure, Except.pure]
          exact ih st hsub' hst
    exact inner allSinks st (fun _ hs => hs) hfuel

theorem createLoopNest_returns (ivGraph : IndexVarGraph) (hclosed : GraphClosed ivGraph)
    (sources : List IndexVar) (hsources : ∀ s ∈ sources, isVertex ivGraph s = true) :
    ∃ loops, LowerIndexExpressions.createLoopNest ivGraph sources = .ok loops := by
  have outer : ∀ (ss : List IndexVar) (st : List IndexVar × List Loop),
      (∀ s ∈ ss, s ∈ sources) →
      ∃ st', ss.foldlM (fun (state : List IndexVar × List Loop) source =>
        if (!stdSetContains IndexVar.lt state.1 source) = true then
          LowerIndexExpressions.createLoopNestFrom ivGraph
            (LowerIndexExpressions.graphSize ivGraph + 1) source
            (source :: state.1, state.2 ++ [Loop.dense source])
        else pure state) st = .ok st' := by
    intro ss
    induction ss with
    | nil =>
      intro st _
      exact ⟨st, rfl⟩
    | cons source ss ih =>
      intro st hsub
      have hsub' : ∀ s ∈ ss, s ∈ sources := fun s hs => hsub s (List.mem_cons_of_mem _ hs)
      simp only [List.foldlM, bind, Except.bind]
      by_cases hc : (!stdSetContains IndexVar.lt st.1 source) = true
      · simp only [hc, if_true]
        have hsv := hsources source (hsub source (List.mem_cons_self _ _))
        have hlt := unvisitedVertices_cons_lt_count ivGraph st.1 source hsv
        have hle := vertexCount_le_graphSize ivGraph
        obtain ⟨st1, hr⟩ := createLoopNestFrom_returns ivGraph hclosed
          (LowerIndexExpressions.graphSize ivGraph + 1) source
          (source :: st.1, st.2 ++ [Loop.dense source]) hsv (by simp only; omega)
        rw [hr]
        simp only
        exact ih st1 hsub'
      · simp only [hc, pure, Except.pure]
        exact ih st hsub'
  obtain ⟨st, hst⟩ := outer sources ([], []) (fun _ hs => hs)
  refine ⟨st.2, ?_⟩
  unfold LowerIndexExpressions.createLoopNest
  rw [hst]
  rfl

/-- C33. On every graph in which every adjacent variable is a vertex, cycles
and edges from a vertex to itself included, `createLoopNest` terminates: the
bound of the embedding on the depth of the recursion is never reached, the
function returns a loop list when the sources are vertices, and a call of the
recursive `createLoopNest` on a vertex, made after the vertex is added to
`visited`, returns within a depth of recursion of the number of vertices. -/
theorem C33_createLoopNest_terminates (ivGraph : IndexVarGraph) (sources : List IndexVar)
    (hclosed : GraphClosed ivGraph) :
    LowerIndexExpressions.createLoopNest ivGraph sources ≠ .error Failure.outOfFuel ∧
    ((∀ s ∈ sources, isVertex ivGraph s = true) →
      ∃ loops, LowerIndexExpressions.createLoopNest ivGraph sources = .ok loops) ∧
    ∀ source visited loops, isVertex ivGraph source = true →
      ∃ st', LowerIndexExpressions.createLoopNestFrom ivGraph (vertexCount ivGraph) source
        (source :: visited, loops) = .ok st' :=
  ⟨createLoopNest_fuel ivGraph sources,
    createLoopNest_returns ivGraph hclosed sources,
    fun source visited loops hsource =>
      createLoopNestFrom_returns ivGraph hclosed (vertexCount ivGraph) source
        (source :: visited, loops) hsource
        (unvisitedVertices_cons_lt_count ivGraph visited source hsource)⟩

/-- Witness of C33: the graph of `d(i) = A(i,i)`, where `i` is adjacent to
itself. -/
theorem C33_createLoopNest_terminates_witness :
    LowerIndexExpressions.createIndexVarGraph
        (LowerIndexExpressions.getIndexTupleUses diagonalUse) = .ok selfLoopGraph ∧
    LowerIndexExpressions.createLoopNest selfLoopGraph diagonalUse.resultVars
      = .ok [Loop.dense ivI] ∧
    LowerIndexExpressions.createLoopNest selfLoopGraph diagonalUse.resultVars
      ≠ .error Failure.outOfFuel ∧
    ((∀ s ∈ diagonalUse.resultVars, isVertex selfLoopGraph s = true) →
      ∃ loops, LowerIndexExpressions.createLoopNest selfLoopGraph diagonalUse.resultVars
        = .ok loops) ∧
    ∀ source visited loops, isVertex selfLoopGraph source = true →
      ∃ st', LowerIndexExpressions.createLoopNestFrom selfLoopGraph
        (vertexCount selfLoopGraph) source (source :: visited, loops) = .ok st' :=
  ⟨rfl, rfl, C33_createLoopNest_terminates selfLoopGraph diagonalUse.resultVars
    (by unfold GraphClosed; decide)⟩


/-! ## Claim C34: the special case of `computeMin` -/

/-- C34. For two coordinate variables `v0`, `v1` and every valuation, the
statement that `computeMin` builds for them, `if v0 <= v1 then var = v0 else
var = v1`, leaves the same valuation, and so the same value of `var`, as the
general chain built for the same two variables, `var = v0; if v1 < var then
var = v1`. The variable `var` is not the coordinate `v1`. -/
theorem C34_special_case_agrees_with_chain (var v0 v1 : Var) (env : Valuation)
    (hfresh : var ≠ v1) :
    ∃ text special general env1 env2,
      LowerIndexExpressions.computeMin var [v0, v1] = .ok (.comment text special) ∧
      special = .block (.varDecl var)
        (.ifThenElse (.binary BinaryOp.Le (.varExpr v0) (.varExpr v1))
          (.assignStmt var (.varExpr v0)) (.assignStmt var (.varExpr v1))) ∧
      computeMinGeneral var [v0, v1] = .ok general ∧
      general = .block (.block (.varDecl var) (.assignStmt var (.varExpr v0)))
        (.ifThenElse (.binary BinaryOp.Lt (.varExpr v1) (.varExpr var))
          (.assignStmt var (.varExpr v1)) .undefined) ∧
      execute special env = some env1 ∧ execute general env = some env2 ∧
      env1 var = env2 var ∧ env1 = env2 := by
  have hv1 : v1 ≠ var := fun hc => hfresh hc.symm
  have hread : (env.set var (env v0)) v1 = env v1 := by
    simp only [Valuation.set, if_neg hv1]
  have hself : (env.set var (env v0)) var = env v0 := by
    simp only [Valuation.set, if_true]
  by_cases hle : env v0 ≤ env v1
  · have hnlt : ¬ env v1 < env v0 := not_lt.mpr hle
    refine ⟨var.name ++ " = min(" ++
        LowerIndexExpressions.join ([v0, v1].map (fun v => v.name)) ", " ++ ")",
      _, _, env.set var (env v0), env.set var (env v0), ?_, rfl, rfl, rfl, ?_, ?_,
      rfl, rfl⟩
    · simp only [LowerIndexExpressions.computeMin, iassertF, iassert, bind, Except.bind,
        pure, Except.pure]
      simp only [List.length_cons, List.length_nil, gt_iff_lt, Nat.zero_lt_succ,
        decide_True, if_true]
    · simp [execute, evalTest, evalOperand, hle]
    · simp [execute, evalTest, evalOperand, hread, hself, hnlt]
  · have hlt : env v1 < env v0 := not_le.mp hle
    have hset : (env.set var (env v0)).set var (env v1) = env.set var (env v1) := by
      funext w
      by_cases hw : w = var
      · simp [Valuation.set, hw]
      · simp [Valuation.set, hw]
    refine ⟨var.name ++ " = min(" ++
        LowerIndexExpressions.join ([v0, v1].map (fun v => v.name)) ", " ++ ")",
      _, _, env.set var (env v1), env.set var (env v1), ?_, rfl, rfl, rfl, ?_, ?_,
      rfl, rfl⟩
    · simp only [LowerIndexExpressions.computeMin, iassertF, iassert, bind, Except.bind,
        pure, Except.pure]
      simp only [List.length_cons, List.length_nil, gt_iff_lt, Nat.zero_lt_succ,
        decide_True, if_true]
    · simp [execute, evalTest, evalOperand, hle]
    · simp [execute, evalTest, evalOperand, hread, hself, hlt, hset]

/-- Witness of C34: the coordinates `ijA` and `ijB` of the induction variable
`j`. -/
theorem C34_special_case_agrees_with_chain_witness :
    ∃ text special general env1 env2,
      LowerIndexExpressions.computeMin ⟨"j", LowerIndexExpressions.intType⟩
        [⟨"ijA", LowerIndexExpressions.intType⟩, ⟨"ijB", LowerIndexExpressions.intType⟩]
        = .ok (.comment text special) ∧
      special = .block (.varDecl ⟨"j", LowerIndexExpressions.intType⟩)
        (.ifThenElse
          (.binary BinaryOp.Le (.varExpr ⟨"ijA", LowerIndexExpressions.intType⟩)
            (.varExpr ⟨"ijB", LowerIndexExpressions.intType⟩))
          (.assignStmt ⟨"j", LowerIndexExpressions.intType⟩
            (.varExpr ⟨"ijA", LowerIndexExpressions.intType⟩))
          (.assignStmt ⟨"j", LowerIndexExpressions.intType⟩
            (.varExpr ⟨"ijB", LowerIndexExpressions.intType⟩))) ∧
      computeMinGeneral ⟨"j", LowerIndexExpressions.intType⟩
        [⟨"ijA", LowerIndexExpressions.intType⟩, ⟨"ijB", LowerIndexExpressions.intType⟩]
        = .ok general ∧
      general = .block
        (.block (.varDecl ⟨"j", LowerIndexExpressions.intType⟩)
          (.assignStmt ⟨"j", LowerIndexExpressions.intType⟩
            (.varExpr ⟨"ijA", LowerIndexExpressions.intType⟩)))
        (.ifThenElse
          (.binary BinaryOp.Lt (.varExpr ⟨"ijB", LowerIndexExpressions.intType⟩)
            (.varExpr ⟨"j", LowerIndexExpressions.intType⟩))
          (.assignStmt ⟨"j", LowerIndexExpressions.intType⟩
            (.varExpr ⟨"ijB", LowerIndexExpressions.intType⟩)) .undefined) ∧
      execute special twoCoordinateValues = some env1 ∧
      execute general twoCoordinateValues = some env2 ∧
      env1 ⟨"j", LowerIndexExpressions.intType⟩ = env2 ⟨"j", LowerIndexExpressions.intType⟩ ∧
      env1 = env2 :=
  C34_special_case_agrees_with_chain ⟨"j", LowerIndexExpressions.intType⟩
    ⟨"ijA", LowerIndexExpressions.intType⟩ ⟨"ijB", LowerIndexExpressions.intType⟩
    twoCoordinateValues (by decide)

/-! ## Claim C35: `Storage::add` -/

/-- C35. The method `Storage::add` inserts when the variable is absent: after
`st.add(v, s)` the variable `v` has storage; `get(v)` returns `s` when `v` had
no entry before and the previous entry otherwise; and the lookup of every other
variable is as before. -/
theorem C35_add_is_insert_if_absent (st : Storage) (v : Var) (s : TensorStorage) :
    (Storage.add st v s).hasStorage v = true ∧
    (st.hasStorage v = false → (Storage.add st v s).get v = .ok s) ∧
    (∀ t, st.get v = .ok t → (Storage.add st v s).get v = .ok t) ∧
    ∀ w, w ≠ v →
      (Storage.add st v s).hasStorage w = st.hasStorage w ∧
      (Storage.add st v s).get w = st.get w ∧
      Storage.find (Storage.add st v s) w = Storage.find st w := by
  have hfind := Storage.find_add st v v s
  refine ⟨?_, ?_, ?_, ?_⟩
  · rw [Storage.hasStorage, hfind]
    cases Storage.find st v <;> simp
  · intro hno
    rw [Storage.hasStorage_eq_false] at hno
    rw [Storage.get, Storage.find_add_self hno]
  · intro t ht
    cases hf : Storage.find st v with
    | none => simp [Storage.get, hf] at ht
    | some x =>
      simp only [Storage.get, hf, Except.ok.injEq] at ht
      rw [Storage.get, Storage.find_add_mono hf, ht]
  · intro w hw
    have hfw : Storage.find (Storage.add st v s) w = Storage.find st w := by
      rw [Storage.find_add]
      cases Storage.find st w with
      | none => simp only [if_neg (fun hc : v = w => hw hc.symm)]
      | some t => rfl
    exact ⟨by rw [Storage.hasStorage, Storage.hasStorage, hfw],
      by rw [Storage.get, Storage.get, hfw], hfw⟩


/-! ## Claim C36: the text of an `int` tensor literal -/

theorem foldlM_range_dataGet {α β : Type} (g : β → α → Except Failure β) :
    ∀ (data pre : List α) (acc : β),
      (List.range' pre.length data.length).foldlM (fun acc i => do
        let c ← dataGet (pre ++ data) i
        g acc c) acc = data.foldlM g acc
  | [], _, _ => rfl
  | c :: data, pre, acc => by
    have hget : dataGet (pre ++ c :: data) pre.length = .ok c := by
      have : (pre ++ c :: data).get? pre.length = some c := by
        rw [List.get?_eq_getElem?, List.getElem?_append_right (Nat.le_refl _)]
        simp
      simp only [dataGet, this]
    have ih := foldlM_range_dataGet g data (pre ++ [c])
    simp only [List.length_append, List.length_singleton, List.append_assoc,
      List.singleton_append] at ih
    simp only [List.length_cons, List.range'_succ, List.foldlM_cons, hget, bind, Except.bind]
    cases g acc c with
    | error err => rfl
    | ok acc1 => exact ih acc1

theorem foldlM_append_text {α : Type} (f : α → String) :
    ∀ (data : List α) (os : String),
      data.foldlM (fun (os : String) c => (pure (os ++ f c) : Except Failure String)) os
        = .ok (os ++ concatTexts (data.map f))
  | [], os => by simp [concatTexts, pure, Except.pure]
  | c :: data, os => by
    rw [List.foldlM_cons]
    simp only [pure, Except.pure, bind, Except.bind]
    have ih := foldlM_append_text f data (os ++ f c)
    simp only [pure, Except.pure] at ih
    rw [ih, List.map_cons, concatTexts, String.append_assoc]

/-- What the printer writes for an `int` tensor literal with more than one
component: the first component comes twice. -/
theorem printLiteral_int_tensor {D : Type} (fmt : DoubleFormat D) (os : String) (c0 : Int)
    (cs : List Int) (fdata : List D) (hne : cs ≠ []) :
    printLiteral fmt os ⟨.Tensor, (c0 :: cs).length, .Int, c0 :: cs, fdata⟩
      = .ok (os ++ "[" ++ toString c0 ++
          concatTexts ((c0 :: cs).map (fun c => ", " ++ toString c)) ++ "]" ++ "\n") := by
  have hsize : ¬ (c0 :: cs).length = 1 := by
    cases cs with
    | nil => exact absurd rfl hne
    | cons c1 cs => simp
  have hloop := foldlM_range_dataGet
    (fun (os : String) (c : Int) => (pure (os ++ ", " ++ toString c) : Except Failure String))
    (c0 :: cs) [] (os ++ "[" ++ toString c0)
  have htext := foldlM_append_text (fun c : Int => ", " ++ toString c) (c0 :: cs)
    (os ++ "[" ++ toString c0)
  simp only [String.append_assoc] at hloop htext
  simp only [List.length_nil, List.nil_append, ← List.range_eq_range'] at hloop
  have hk : (if PrintedTypeKind.Tensor = PrintedTypeKind.Scalar then 1 else (c0 :: cs).length)
      = (c0 :: cs).length := rfl
  simp only [printLiteral, hk, dataGet, List.get?_cons_zero, bind, Except.bind, pure,
    Except.pure, if_neg hsize, String.append_assoc]
  simp only [dataGet, bind, Except.bind, pure, Except.pure] at hloop htext
  rw [hloop, htext]
  simp only [String.append_assoc]

/-- What the printer writes for a `double` tensor literal with more than one
component: every component once. -/
theorem printLiteral_float_tensor {D : Type} (fmt : DoubleFormat D) (os : String) (f0 : D)
    (fs : List D) (idata : List Int) (hne : fs ≠ []) :
    printLiteral fmt os ⟨.Tensor, (f0 :: fs).length, .Float, idata, f0 :: fs⟩
      = .ok (os ++ "[" ++ fmt.to_string f0 ++
          concatTexts (fs.map (fun f => ", " ++ fmt.to_string f)) ++ "]" ++ "\n") := by
  have hsize : ¬ (f0 :: fs).length = 1 := by
    cases fs with
    | nil => exact absurd rfl hne
    | cons f1 fs => simp
  have hloop := foldlM_range_dataGet
    (fun (os : String) (f : D) =>
      (pure (os ++ (", " ++ fmt.to_string f)) : Except Failure String))
    fs [f0] (os ++ "[" ++ fmt.to_string f0)
  have htext := foldlM_append_text (fun f : D => ", " ++ fmt.to_string f) fs
    (os ++ "[" ++ fmt.to_string f0)
  simp only [String.append_assoc] at hloop htext
  simp only [List.length_singleton, List.singleton_append] at hloop
  have hk : (if PrintedTypeKind.Tensor = PrintedTypeKind.Scalar then 1 else (f0 :: fs).length)
      = (f0 :: fs).length := rfl
  simp only [printLiteral, hk, dataGet, List.get?_cons_zero, bind, Except.bind, pure,
    Except.pure, if_neg hsize, String.append_assoc]
  simp only [List.length_cons, Nat.add_sub_cancel]
  simp only [dataGet, bind, Except.bind, pure, Except.pure] at hloop htext
  rw [hloop, htext]
  simp only [String.append_assoc]

/-- C36: the code at the failing input. For the `int` tensor literal with the
components 1 and 2 the printer writes `[1, 1, 2]` and a newline: the loop over
the components starts at 0 after the first component is written, so the first
component comes twice. For a `double` tensor literal the loop starts at 1 and
every component comes once. -/
theorem C36_int_literal_prints_first_component_twice :
    printLiteral textFormat "" intPair = .ok "[1, 1, 2]\n" ∧
    printLiteral textFormat "" floatPair = .ok "[1.500000, 2.500000]\n" :=
  ⟨rfl, rfl⟩


/-! ## Claim C37: the context of an exception -/

theorem CutOffStreambuf.write_cons (b : CutOffStreambuf) (c : Char) (cs : List Char) :
    b.write ⟨c :: cs⟩ = (b.overflow (some c)) >>= fun r => r.1.write ⟨cs⟩ := by
  simp only [CutOffStreambuf.write, List.foldlM_cons, bind, Except.bind, pure, Except.pure]
  cases b.overflow (some c) <;> rfl

theorem CutOffStreambuf.write_append (b : CutOffStreambuf) (xs ys : List Char) :
    b.write ⟨xs ++ ys⟩ = (b.write ⟨xs⟩) >>= fun b1 => b1.write ⟨ys⟩ := by
  simp only [CutOffStreambuf.write, List.foldlM_append]

theorem CutOffStreambuf.overflow_plain (dest : String) (enabled : Bool) (c : Char)
    (h : enabled = false ∨ c ≠ '\n') :
    CutOffStreambuf.overflow ⟨dest, false, enabled⟩ (some c)
      = .ok (⟨dest.push c, false, enabled⟩, some c) := by
  have hcond : (enabled && decide (c = '\n')) = false := by
    rcases h with h | h
    · simp [h]
    · simp [h]
  simp only [CutOffStreambuf.overflow, Bool.not_false, if_true, hcond, Bool.false_eq_true,
    if_false]

theorem CutOffStreambuf.write_plain :
    ∀ (cs : List Char) (dest : String) (enabled : Bool),
      (enabled = false ∨ '\n' ∉ cs) →
      CutOffStreambuf.write ⟨dest, false, enabled⟩ ⟨cs⟩ = .ok ⟨dest ++ ⟨cs⟩, false, enabled⟩
  | [], dest, enabled, _ => by
    have e0 : dest ++ (⟨[]⟩ : String) = dest := String.ext (by simp)
    rw [e0]
    rfl
  | c :: cs, dest, enabled, h => by
    have hc : enabled = false ∨ c ≠ '\n' := by
      rcases h with h | h
      · exact Or.inl h
      · exact Or.inr (fun hc => h (by rw [hc]; exact List.mem_cons_self _ _))
    have h' : enabled = false ∨ '\n' ∉ cs := by
      rcases h with h | h
      · exact Or.inl h
      · exact Or.inr (fun hc => h (List.mem_cons_of_mem _ hc))
    have e0 : dest.push c ++ (⟨cs⟩ : String) = dest ++ ⟨c :: cs⟩ := String.ext (by simp)
    rw [CutOffStreambuf.write_cons, CutOffStreambuf.overflow_plain dest enabled c hc]
    simp only [bind, Except.bind]
    rw [CutOffStreambuf.write_plain cs (dest.push c) enabled h', e0]

theorem CutOffStreambuf.write_cut (pre : List Char) (dest : String) (h : '\n' ∉ pre) :
    CutOffStreambuf.write ⟨dest, false, true⟩ ⟨pre ++ ['\n']⟩
      = .ok ⟨dest ++ ⟨pre⟩ ++ " [...]", true, true⟩ := by
  rw [CutOffStreambuf.write_append, CutOffStreambuf.write_plain pre dest true (Or.inr h)]
  rfl

theorem CutOffStreambuf.write_after_cut (c : Char) (cs : List Char) (dest : String)
    (enabled : Bool) :
    CutOffStreambuf.write ⟨dest, true, enabled⟩ ⟨c :: cs⟩
      = .error Failure.undefinedBehaviour := by
  rw [CutOffStreambuf.write_cons]
  rfl

theorem SimitException.addContext_eq (e : SimitException) (d : String) :
    e.addContext d =
      (CutOffStreambuf.write ⟨e.what, false, false⟩ ⟨['\n']⟩) >>= fun b =>
        (CutOffStreambuf.write ⟨b.dest, false, true⟩ ⟨d.data⟩) >>= fun b =>
          pure ⟨b⟩ := rfl

/-- A context without newline is appended after a newline. -/
theorem SimitException.addContext_no_newline (e : SimitException) (d : String)
    (h : '\n' ∉ d.data) :
    e.addContext d = .ok ⟨⟨e.what ++ "\n" ++ d, false, true⟩⟩ := by
  rw [SimitException.addContext_eq,
    CutOffStreambuf.write_plain ['\n'] e.what false (Or.inl rfl)]
  simp only [bind, Except.bind]
  rw [CutOffStreambuf.write_plain d.data _ true (Or.inr h)]
  rfl

/-- A context that ends with its first newline is cut there. -/
theorem SimitException.addContext_newline_last (e : SimitException) (pre : String)
    (h : '\n' ∉ pre.data) :
    e.addContext (pre ++ "\n") = .ok ⟨⟨e.what ++ "\n" ++ pre ++ " [...]", true, true⟩⟩ := by
  have e2 : (pre ++ "\n").data = pre.data ++ ['\n'] := by simp
  rw [SimitException.addContext_eq,
    CutOffStreambuf.write_plain ['\n'] e.what false (Or.inl rfl), e2]
  simp only [bind, Except.bind]
  rw [CutOffStreambuf.write_cut pre.data _ h]
  rfl

/-- A context with a character after its first newline: the character reaches
`overflow` with `cutoff` set. -/
theorem SimitException.addContext_after_newline (e : SimitException) (pre : String)
    (c : Char) (post : List Char) (h : '\n' ∉ pre.data) :
    e.addContext (pre ++ "\n" ++ ⟨c :: post⟩) = .error Failure.undefinedBehaviour := by
  have e2 : (pre ++ "\n" ++ (⟨c :: post⟩ : String)).data = (pre.data ++ ['\n']) ++ c :: post := by
    simp
  rw [SimitException.addContext_eq,
    CutOffStreambuf.write_plain ['\n'] e.what false (Or.inl rfl), e2]
  simp only [bind, Except.bind]
  rw [CutOffStreambuf.write_append, CutOffStreambuf.write_cut pre.data _ h]
  simp only [bind, Except.bind]
  rw [CutOffStreambuf.write_after_cut]

/-- A call of `addContext` starts from the text of the exception alone: the
flags that an earlier call left are reset. -/
theorem SimitException.addContext_resets (e : SimitException) (d : String) :
    e.addContext d = (⟨⟨e.what, false, false⟩⟩ : SimitException).addContext d := rfl

/-- Text written to the stream of a new exception is kept as it is. -/
theorem SimitException.stream_verbatim (str : String) :
    SimitException.new.stream str = .ok ⟨⟨str, false, false⟩⟩ := by
  have h := CutOffStreambuf.write_plain str.data "" false (Or.inl rfl)
  have e0 : ("" : String) ++ (⟨str.data⟩ : String) = str := String.ext (by simp)
  rw [e0] at h
  have e1 : SimitException.new.stream str =
      (CutOffStreambuf.write ⟨"", false, false⟩ ⟨str.data⟩) >>= fun b =>
        pure (SimitException.mk b) := rfl
  rw [e1, h]
  rfl

/-- C37: the code at the failing input. On a new exception `addContext("a\nb")`
writes the newline and `a`, cuts off at the newline of the context, and then
passes `b` to `overflow` with `cutoff` set, where control reaches the end of
the function without a `return`: undefined behaviour, not the drop of the
character. The contexts `ab` and `a` followed by a newline are appended as the
claim says. -/
theorem C37_character_after_newline_is_undefined :
    SimitException.new.addContext "a\nb" = .error Failure.undefinedBehaviour ∧
    CutOffStreambuf.overflow ⟨"\na [...]", true, true⟩ (some 'b')
      = .error Failure.undefinedBehaviour ∧
    SimitException.new.addContext "a\n" = .ok ⟨⟨"\na [...]", true, true⟩⟩ ∧
    SimitException.new.addContext "ab" = .ok ⟨⟨"\nab", false, true⟩⟩ :=
  ⟨rfl, rfl, rfl, rfl⟩


end Simit
